import Mathlib

/-!
# QuadTree (Recast) — a shallow embedding

Embedding of `QuadTree/Include/AABB.h`, `Circle.h` and `QuadTree.h`.

* A `float` is the rational number it stands for, and every arithmetic operation of the
  source rounds its exact result to the nearest IEEE 754 binary32 value (`fl`: 24 bits of
  precision, ties to even, gradual underflow); `0.5f` is `1/2`.  Infinities and NaN are
  outside the model: a result beyond the largest finite `float` is rounded like any other.
* `int` fields (`mDeep`, `mRouteElemCount`, `mMaxDeep`, `atDeep`) are `Int`; a count
  would need more than `2^31` stored elements to wrap, which is out of reach here.
* A `QuadNode*` is the path of child indices leading from the root to the node
  (`[]` is the root).  `mParent` of the node at path `p` is the path without its
  last index: the constructor call `new QuadNode(deep, aabb, this)` in
  `InitChildren` is the only place that sets it.  `mChildren` is either all null or
  all set (`InitChildren` is the only writer), hence the two constructors of `QuadNode`.
* An `Element*` is a natural number addressing a cell of the element heap; a
  `ValueType*` is a natural number addressing the caller's value environment.
* Dereferencing a null pointer is the error `Err.nullDeref`; recursion is bounded by
  a fuel argument and running out of it is `Err.outOfFuel`.
-/

namespace Recast

/-! ## The type `float` -/

/-- The binary logarithm, rounded down, of a number below 4. -/
def lg1 (n : Nat) : Nat := cond (Nat.ble 2 n) 1 0

/-- The same for a number below `2 ^ 4`: the upper two bits decide. -/
def lg2 (n : Nat) : Nat := cond (Nat.ble 4 n) (lg1 (n / 4) + 2) (lg1 n)

/-- The same for a number below `2 ^ 8`. -/
def lg4 (n : Nat) : Nat := cond (Nat.ble 16 n) (lg2 (n / 16) + 4) (lg2 n)

/-- The same for a number below `2 ^ 16`. -/
def lg8 (n : Nat) : Nat := cond (Nat.ble 256 n) (lg4 (n / 256) + 8) (lg4 n)

/-- The same for a number below `2 ^ 32`. -/
def lg16 (n : Nat) : Nat := cond (Nat.ble 65536 n) (lg8 (n / 65536) + 16) (lg8 n)

/-- The same for a number below `2 ^ 64`. -/
def lg32 (n : Nat) : Nat := cond (Nat.ble 4294967296 n) (lg16 (n / 4294967296) + 32) (lg16 n)

/-- The binary logarithm of `n`, rounded down, 64 bits at a time and at most `fuel` times:
`ilog2 n n` is the largest `k` with `2 ^ k ≤ n`, for positive `n`. -/
def ilog2 : Nat → Nat → Nat
  | 0, _ => 0
  | fuel + 1, n =>
    cond (Nat.ble 18446744073709551616 n) (ilog2 fuel (n / 18446744073709551616) + 64) (lg32 n)

/-- The binary exponent of the positive fraction `m / d`: the `e` with
`2 ^ e ≤ m / d < 2 ^ (e + 1)`. -/
def expo (m d : Nat) : Int :=
  let e : Int := (ilog2 m m : Int) - (ilog2 d d : Int)
  if (if 0 ≤ e then m < d * 2 ^ e.toNat else m * 2 ^ (-e).toNat < d) then e - 1 else e

/-- The integer nearest to `a / b`, the even one of the two when `a / b` lies half-way. -/
def roundEven (a b : Nat) : Nat :=
  let f := a / b
  let r := a % b
  if 2 * r < b then f else if b < 2 * r then f + 1 else if f % 2 = 0 then f else f + 1

/-- The `float` nearest to the positive fraction `m / d`: the multiple of the unit in the last
place `2 ^ k` that is nearest to it, with 24 significant bits and exponents from -126
upwards. -/
def flPos (m d : Nat) : ℚ :=
  let k := max (expo m d) (-126) - 23
  if 0 ≤ k then ((roundEven m (d * 2 ^ k.toNat) * 2 ^ k.toNat : Nat) : ℚ)
  else mkRat (roundEven (m * 2 ^ (-k).toNat) d) (2 ^ (-k).toNat)

/-- The `float` that an operation with exact result `q` returns. -/
def fl (q : ℚ) : ℚ :=
  if q.num = 0 then 0
  else if q.num < 0 then -flPos q.num.natAbs q.den
  else flPos q.num.natAbs q.den

/-- The `float` sum `a + b`. -/
def fadd (a b : ℚ) : ℚ := fl (a + b)

/-- The `float` difference `a - b`. -/
def fsub (a b : ℚ) : ℚ := fl (a - b)

/-- The `float` product `a * b`. -/
def fmul (a b : ℚ) : ℚ := fl (a * b)

/-! ## AABB.h -/

/-- The class `AABB`. -/
structure AABB where
  mX : ℚ
  mY : ℚ
  mWidth : ℚ
  mHeight : ℚ
deriving DecidableEq

namespace AABB

def SetXY (a : AABB) (x y : ℚ) : AABB := { a with mX := x, mY := y }

def SetSize (a : AABB) (width height : ℚ) : AABB := { a with mWidth := width, mHeight := height }

def GetLeft (a : AABB) : ℚ := a.mX

def GetRight (a : AABB) : ℚ := fadd a.mX a.mWidth

def GetBottom (a : AABB) : ℚ := a.mY

def GetTop (a : AABB) : ℚ := fadd a.mY a.mHeight

def GetCenterX (a : AABB) : ℚ := fadd a.mX (fmul a.mWidth (1 / 2))

def GetCenterY (a : AABB) : ℚ := fadd a.mY (fmul a.mHeight (1 / 2))

def GetWidth (a : AABB) : ℚ := a.mWidth

def GetHeight (a : AABB) : ℚ := a.mHeight

/-- The method `AABB::Intersect(const AABB&)`. -/
def Intersect (a other : AABB) : Bool :=
  !(decide (a.GetRight < other.GetLeft) ||
    decide (a.GetLeft > other.GetRight) ||
    decide (a.GetTop < other.GetBottom) ||
    decide (a.GetBottom > other.GetTop))

/-- The method `AABB::IsContain(const AABB&)`. -/
def IsContain (a other : AABB) : Bool :=
  !(decide (a.GetLeft > other.GetLeft) ||
    decide (a.GetRight < other.GetRight) ||
    decide (a.GetBottom > other.GetBottom) ||
    decide (a.GetTop < other.GetTop))

/-- The method `AABB::IsContain(float x, float y)`. -/
def IsContainPoint (a : AABB) (x y : ℚ) : Bool :=
  decide (x ≥ a.GetLeft) && decide (x ≤ a.GetRight) &&
  decide (y ≥ a.GetBottom) && decide (y ≤ a.GetTop)

end AABB

/-! ## Circle.h -/

/-- The class `Circle`. -/
structure Circle where
  mX : ℚ
  mY : ℚ
  mRadius : ℚ
deriving DecidableEq

namespace Circle

def GetX (c : Circle) : ℚ := c.mX

def GetY (c : Circle) : ℚ := c.mY

def SetXY (c : Circle) (x y : ℚ) : Circle := { c with mX := x, mY := y }

def GetRadius (c : Circle) : ℚ := c.mRadius

def SetRadius (c : Circle) (radius : ℚ) : Circle := { c with mRadius := radius }

def DistanceSqr (c : Circle) (x y : ℚ) : ℚ :=
  let xDiff := fsub c.mX x
  let yDiff := fsub c.mY y
  fadd (fmul xDiff xDiff) (fmul yDiff yDiff)

def IsContain (c : Circle) (x y : ℚ) : Bool :=
  let distSqr := c.DistanceSqr x y
  let radiusSqr := fmul c.mRadius c.mRadius
  decide (distSqr ≤ radiusSqr)

def Intersect (c other : Circle) : Bool :=
  let distSqr := c.DistanceSqr other.mX other.mY
  let len := fadd c.mRadius other.mRadius
  let lenSqr := fmul len len
  decide (distSqr ≤ lenSqr)

end Circle

/-! ## QuadTree.h: data -/

/-- What the template parameter `ValueType` has to offer: `GetAABB()` (a pointer
that may be null), `IsContain(x, y)` and `Intersect(circle)`. -/
structure ValueType where
  GetAABB : Option AABB
  IsContain : ℚ → ℚ → Bool
  Intersect : Circle → Bool

/-- The caller's objects: what a non-null `ValueType*` points to. -/
abbrev Values := Nat → ValueType

/-- A `QuadNode*`: the child indices from the root down to the node. -/
abbrev Path := List Nat

/-- Error outcomes of the embedded code. -/
inductive Err where
  | nullDeref
  | outOfFuel
deriving DecidableEq

deriving instance DecidableEq for Except

/-- The class `QuadTree::Element`. -/
structure Element where
  mNode : Option Path
  mValue : Option Nat
deriving DecidableEq

/-- The fields of a `QuadNode` other than `mParent` and `mChildren`. -/
structure NodeData where
  mDeep : Int
  mRouteElemCount : Int
  mAABB : AABB
  mElems : List Nat
deriving DecidableEq

/-- The class `QuadTree::QuadNode`: `leaf` has `mChildren` all null, `split` has the
four children in the order RIGHT_TOP, LEFT_TOP, LEFT_BOTTOM, RIGHT_BOTTOM. -/
inductive QuadNode where
  | leaf (d : NodeData)
  | split (d : NodeData) (c0 c1 c2 c3 : QuadNode)
deriving DecidableEq

def RIGHT_TOP : Nat := 0

def LEFT_TOP : Nat := 1

def LEFT_BOTTOM : Nat := 2

def RIGHT_BOTTOM : Nat := 3

def QT_NODE_COUNT : Nat := 4

def QT_ELEM_MIN_SIZE : Int := 8

namespace QuadNode

def data : QuadNode → NodeData
  | leaf d => d
  | split d _ _ _ _ => d

def setData : QuadNode → NodeData → QuadNode
  | leaf _, d => leaf d
  | split _ c0 c1 c2 c3, d => split d c0 c1 c2 c3

/-- The constructor `QuadNode(deep, aabb, parent)`. -/
def new (deep : Int) (aabb : AABB) : QuadNode := leaf ⟨deep, 0, aabb, []⟩

def GetDeep (n : QuadNode) : Int := n.data.mDeep

def HasChild : QuadNode → Bool
  | leaf _ => false
  | split _ _ _ _ _ => true

def GetAABB (n : QuadNode) : AABB := n.data.mAABB

def GetWidth (n : QuadNode) : ℚ := n.GetAABB.GetWidth

def GetHeight (n : QuadNode) : ℚ := n.GetAABB.GetHeight

def GetChildWidth : QuadNode → ℚ
  | leaf _ => 0
  | split _ c0 _ _ _ => c0.GetAABB.GetWidth

def GetChildHeight : QuadNode → ℚ
  | leaf _ => 0
  | split _ c0 _ _ _ => c0.GetAABB.GetHeight

def GetElemCount (n : QuadNode) : Int := n.data.mElems.length

def GetRouteElemCount (n : QuadNode) : Int := n.data.mRouteElemCount

/-- The method `GetChild(pos)`: null when `pos` is out of range or there are no children. -/
def GetChild : QuadNode → Nat → Option QuadNode
  | split _ c0 _ _ _, 0 => some c0
  | split _ _ c1 _ _, 1 => some c1
  | split _ _ _ c2 _, 2 => some c2
  | split _ _ _ _ c3, 3 => some c3
  | _, _ => none

/-- Overwrite the child in slot `pos`. -/
def setChild : QuadNode → Nat → QuadNode → QuadNode
  | split d _ c1 c2 c3, 0, c => split d c c1 c2 c3
  | split d c0 _ c2 c3, 1, c => split d c0 c c2 c3
  | split d c0 c1 _ c3, 2, c => split d c0 c1 c c3
  | split d c0 c1 c2 _, 3, c => split d c0 c1 c2 c
  | n, _, _ => n

def IsContain (n : QuadNode) (aabb : AABB) : Bool := n.GetAABB.IsContain aabb

def IsContainPoint (n : QuadNode) (x y : ℚ) : Bool := n.GetAABB.IsContainPoint x y

def Intersect (n : QuadNode) (aabb : AABB) : Bool := n.GetAABB.Intersect aabb

/-- The method `GetElem(pos)`. -/
def GetElem (n : QuadNode) (pos : Nat) : Option Nat := n.data.mElems.get? pos

/-- The method `InitChildren()`. -/
def InitChildren (n : QuadNode) : QuadNode :=
  if n.HasChild then n
  else
    let x := n.GetAABB.GetLeft
    let y := n.GetAABB.GetBottom
    let width := n.GetAABB.GetWidth
    let height := n.GetAABB.GetHeight
    let halfWidth := fmul width (1 / 2)
    let halfHeight := fmul height (1 / 2)
    let midX := fadd x halfWidth
    let midY := fadd y halfHeight
    let deep := n.GetDeep + 1
    let aabb : AABB := ⟨0, 0, halfWidth, halfHeight⟩
    split n.data
      (new deep (aabb.SetXY midX midY))
      (new deep (aabb.SetXY x midY))
      (new deep (aabb.SetXY x y))
      (new deep (aabb.SetXY midX y))

/-- Dereference a node pointer, starting at this node. -/
def find : QuadNode → Path → Option QuadNode
  | n, [] => some n
  | n, i :: p =>
    match n.GetChild i with
    | none => none
    | some c => c.find p

/-- Apply `f` to the node a pointer designates (nothing happens for a dangling one). -/
def update (f : QuadNode → QuadNode) : QuadNode → Path → QuadNode
  | n, [] => f n
  | n, i :: p =>
    match n.GetChild i with
    | none => n
    | some c => n.setChild i (c.update f p)

/-- All elements stored in the subtree, this node first, then the children in order. -/
def allElems : QuadNode → List Nat
  | leaf d => d.mElems
  | split d c0 c1 c2 c3 => d.mElems ++ (c0.allElems ++ (c1.allElems ++ (c2.allElems ++ c3.allElems)))

end QuadNode

/-- The `mParent` field of the node at `p`. -/
def GetParent (p : Path) : Option Path :=
  match p with
  | [] => none
  | _ :: _ => some p.dropLast

/-- The nodes visited by `for (node = this; node; node = node->mParent)`. -/
def parentChain (p : Path) : List Path := p.inits.reverse

/-- One iteration of the loop of `SetRouteElemCount`. -/
def bumpRoute (add : Bool) (n : QuadNode) : QuadNode :=
  n.setData { n.data with
    mRouteElemCount := if add then n.data.mRouteElemCount + 1 else n.data.mRouteElemCount - 1 }

/-- The method `SetRouteElemCount(add)` of the node at `p`. -/
def SetRouteElemCount (root : QuadNode) (p : Path) (add : Bool) : QuadNode :=
  (parentChain p).foldl (fun r q => r.update (bumpRoute add) q) root

/-- The tree below the root together with the heap of `Element` objects. -/
structure Store where
  root : QuadNode
  cell : Nat → Option Element

namespace Store

/-- The method `Element::GetNode()`. -/
def GetNode (s : Store) (e : Nat) : Option Path := (s.cell e).bind Element.mNode

/-- The method `Element::GetValue()`. -/
def GetValue (s : Store) (e : Nat) : Option Nat := (s.cell e).bind Element.mValue

/-- The method `Element::SetNode(node)`. -/
def SetNode (s : Store) (e : Nat) (node : Option Path) : Store :=
  { s with cell := fun e' =>
      if e' = e then (s.cell e).map (fun c => { c with mNode := node }) else s.cell e' }

/-- The method `Element::GetAABB()`. -/
def GetAABB (vals : Values) (s : Store) (e : Nat) : Option AABB :=
  match s.GetValue e with
  | none => none
  | some v => (vals v).GetAABB

/-- The element list of the node at `p` (empty for a dangling pointer). -/
def elemsAt (s : Store) (p : Path) : List Nat :=
  match s.root.find p with
  | none => []
  | some n => n.data.mElems

/-- The method `QuadNode::RemoveElem(elem)` of the node at `this`. -/
def RemoveElem (s : Store) (this : Path) (elem : Nat) : Store :=
  if s.GetNode elem ≠ some this then s
  else if elem ∈ s.elemsAt this then
    let s1 : Store := { s with root := SetRouteElemCount s.root this false }
    let s2 := s1.SetNode elem none
    let erase := fun (n : QuadNode) => n.setData { n.data with mElems := n.data.mElems.erase elem }
    { s2 with root := s2.root.update erase this }
  else s.SetNode elem none

/-- The method `QuadNode::AddElem(elem)` of the node at `this`. -/
def AddElem (s : Store) (this : Path) (elem : Nat) : Store :=
  let node := s.GetNode elem
  if node = some this then s
  else
    let s1 := match node with
      | some q => s.RemoveElem q elem
      | none => s
    let s2 := s1.SetNode elem (some this)
    let push_back := fun (n : QuadNode) => n.setData { n.data with mElems := n.data.mElems ++ [elem] }
    let s3 : Store := { s2 with root := s2.root.update push_back this }
    { s3 with root := SetRouteElemCount s3.root this true }

end Store

/-! ## QuadTree.h: insertion -/

/-- The type of `QuadTree::Add(QuadNode* node, Element* elem, int atDeep)`. -/
abbrev AddFn := Path → Nat → Int → Store → Except Err (Bool × Store)

/-- The loop `for (i ...) { child = node->GetChild(i); if (Add(child, elem, atDeep)) return true; }`
over the child indices still to visit; `true` is the early return. -/
def tryChildren (rec : AddFn) (node : Path) (elem : Nat) (atDeep : Int) :
    List Nat → Store → Except Err (Bool × Store)
  | [], s => .ok (false, s)
  | i :: rest, s =>
    match rec (node ++ [i]) elem atDeep s with
    | .error err => .error err
    | .ok (true, s1) => .ok (true, s1)
    | .ok (false, s1) => tryChildren rec node elem atDeep rest s1

/-- The inner loop `for (j = elemSize - 1; j >= 0; --j) { e = node->GetElem(j); Add(child, e); }`;
the first argument is `j + 1`. -/
def redistributeElems (rec : AddFn) (node child : Path) : Nat → Store → Except Err Store
  | 0, s => .ok s
  | j + 1, s =>
    match s.root.find node with
    | none => .error .nullDeref
    | some n =>
      match n.GetElem j with
      | none => .error .nullDeref
      | some e =>
        match rec child e 0 s with
        | .error err => .error err
        | .ok (_, s1) => redistributeElems rec node child j s1

/-- The outer loop of the redistribution, over the child indices still to visit. -/
def redistribute (rec : AddFn) (node : Path) : List Nat → Store → Except Err Store
  | [], s => .ok s
  | i :: rest, s =>
    match redistributeElems rec node (node ++ [i]) (s.elemsAt node).length s with
    | .error err => .error err
    | .ok s1 => redistribute rec node rest s1

/-- The body of `QuadTree::Add(QuadNode*, Element*, int)`, its recursive calls being `rec`. -/
def AddBody (vals : Values) (mMaxDeep : Int) (rec : AddFn) : AddFn :=
  fun node elem atDeep s =>
  match s.root.find node with
  | none => .error .nullDeref
  | some n =>
    let curDeep := n.GetDeep
    let aabb := s.GetAABB vals elem
    if (match aabb with
        | none => true
        | some b => !n.IsContain b) && decide (curDeep > 1) then .ok (false, s)
    else if decide (atDeep ≠ 0) && decide (atDeep = curDeep) then .ok (true, s.AddElem node elem)
    else
      match aabb with
      | none => .error .nullDeref
      | some b =>
        let width := n.GetWidth
        let height := n.GetHeight
        let childWidth := fmul width (1 / 2)
        let childHeight := fmul height (1 / 2)
        if decide (childWidth < b.GetWidth) || decide (childHeight < b.GetHeight) then
          .ok (true, s.AddElem node elem)
        else if n.HasChild then
          match tryChildren rec node elem atDeep (List.range QT_NODE_COUNT) s with
          | .error err => .error err
          | .ok (true, s1) => .ok (true, s1)
          | .ok (false, s1) => .ok (true, s1.AddElem node elem)
        else if decide (atDeep = 0) &&
            (decide (curDeep ≥ mMaxDeep) || decide (n.GetElemCount < QT_ELEM_MIN_SIZE)) then
          .ok (true, s.AddElem node elem)
        else
          let s1 : Store := { s with root := s.root.update QuadNode.InitChildren node }
          match (if atDeep = 0 then redistribute rec node (List.range QT_NODE_COUNT) s1
                 else .ok s1) with
          | .error err => .error err
          | .ok s2 =>
            match tryChildren rec node elem atDeep (List.range QT_NODE_COUNT) s2 with
            | .error err => .error err
            | .ok (true, s3) => .ok (true, s3)
            | .ok (false, s3) => .ok (true, s3.AddElem node elem)

/-- The method `QuadTree::Add(QuadNode*, Element*, int)` with at most `fuel` nested calls. -/
def Add (vals : Values) (mMaxDeep : Int) : Nat → AddFn
  | 0 => fun _ _ _ _ => .error .outOfFuel
  | fuel + 1 => AddBody vals mMaxDeep (Add vals mMaxDeep fuel)

/-! ## QuadTree.h: queries -/

/-- The loop over `node->GetElem(i)` of the point query: the first component is `true`
when the loop left the function through `if (getOne) return true`, the second is `hasValue`. -/
def pointElems (vals : Values) (cell : Nat → Option Element) (x y : ℚ) (getOne : Bool) :
    List Nat → Bool → List Nat → Except Err (Bool × Bool × List Nat)
  | [], hasValue, output => .ok (false, hasValue, output)
  | e :: rest, hasValue, output =>
    match (cell e).bind Element.mValue with
    | none => .error .nullDeref
    | some value =>
      if !(vals value).IsContain x y then pointElems vals cell x y getOne rest hasValue output
      else if getOne then .ok (true, true, output ++ [value])
      else pointElems vals cell x y getOne rest true (output ++ [value])

/-- One turn of the loop over the children of a query:
`hasValue = Intersect(child, ...) || hasValue; if (getOne && hasValue) return true;`. -/
def queryChild (getOne : Bool) (r : Except Err (Bool × List Nat)) (hasValue : Bool)
    (next : Bool → List Nat → Except Err (Bool × List Nat)) : Except Err (Bool × List Nat) :=
  match r with
  | .error err => .error err
  | .ok (b, out) =>
    let hasValue1 := b || hasValue
    if getOne && hasValue1 then .ok (true, out) else next hasValue1 out

/-- The method `QuadTree::Intersect(QuadNode* node, float x, float y, output, getOne)`. -/
def IntersectPointNode (vals : Values) (cell : Nat → Option Element) (x y : ℚ) (getOne : Bool) :
    QuadNode → List Nat → Except Err (Bool × List Nat)
  | .leaf d, output =>
    if d.mRouteElemCount = 0 then .ok (false, output)
    else if !d.mAABB.IsContainPoint x y then .ok (false, output)
    else
      match pointElems vals cell x y getOne d.mElems false output with
      | .error err => .error err
      | .ok (true, _, out) => .ok (true, out)
      | .ok (false, hasValue, out) => .ok (hasValue, out)
  | .split d c0 c1 c2 c3, output =>
    if d.mRouteElemCount = 0 then .ok (false, output)
    else if !d.mAABB.IsContainPoint x y then .ok (false, output)
    else
      match pointElems vals cell x y getOne d.mElems false output with
      | .error err => .error err
      | .ok (true, _, out) => .ok (true, out)
      | .ok (false, hasValue, out) =>
        queryChild getOne (IntersectPointNode vals cell x y getOne c0 out) hasValue fun h0 out0 =>
        queryChild getOne (IntersectPointNode vals cell x y getOne c1 out0) h0 fun h1 out1 =>
        queryChild getOne (IntersectPointNode vals cell x y getOne c2 out1) h1 fun h2 out2 =>
        queryChild getOne (IntersectPointNode vals cell x y getOne c3 out2) h2 fun h3 out3 =>
        .ok (h3, out3)

/-- The loop over `node->GetElem(i)` of the circle query. -/
def circleElems (vals : Values) (cell : Nat → Option Element) (circle : Circle) (getOne : Bool) :
    List Nat → Bool → List Nat → Except Err (Bool × Bool × List Nat)
  | [], hasValue, output => .ok (false, hasValue, output)
  | e :: rest, hasValue, output =>
    match (cell e).bind Element.mValue with
    | none => .error .nullDeref
    | some value =>
      if !(vals value).Intersect circle then circleElems vals cell circle getOne rest hasValue output
      else if getOne then .ok (true, true, output ++ [value])
      else circleElems vals cell circle getOne rest true (output ++ [value])

/-- The method `QuadTree::Intersect(QuadNode* node, const AABB& aabb, const Circle& circle,
output, getOne)`. -/
def IntersectCircleNode (vals : Values) (cell : Nat → Option Element) (aabb : AABB)
    (circle : Circle) (getOne : Bool) : QuadNode → List Nat → Except Err (Bool × List Nat)
  | .leaf d, output =>
    if d.mRouteElemCount = 0 then .ok (false, output)
    else if !d.mAABB.Intersect aabb then .ok (false, output)
    else
      match circleElems vals cell circle getOne d.mElems false output with
      | .error err => .error err
      | .ok (true, _, out) => .ok (true, out)
      | .ok (false, hasValue, out) => .ok (hasValue, out)
  | .split d c0 c1 c2 c3, output =>
    if d.mRouteElemCount = 0 then .ok (false, output)
    else if !d.mAABB.Intersect aabb then .ok (false, output)
    else
      match circleElems vals cell circle getOne d.mElems false output with
      | .error err => .error err
      | .ok (true, _, out) => .ok (true, out)
      | .ok (false, hasValue, out) =>
        queryChild getOne (IntersectCircleNode vals cell aabb circle getOne c0 out) hasValue
          fun h0 out0 =>
        queryChild getOne (IntersectCircleNode vals cell aabb circle getOne c1 out0) h0
          fun h1 out1 =>
        queryChild getOne (IntersectCircleNode vals cell aabb circle getOne c2 out1) h1
          fun h2 out2 =>
        queryChild getOne (IntersectCircleNode vals cell aabb circle getOne c3 out2) h2
          fun h3 out3 =>
        .ok (h3, out3)

/-! ## QuadTree.h: the class `QuadTree` -/

/-- The class `QuadTree<ValueType>` together with the heap of its `Element` objects:
`cell e` is `none` when no live `Element` sits at address `e`, and `new Element` takes the
address `next`. -/
structure QuadTree where
  mMaxDeep : Int
  mRoot : Option QuadNode
  cell : Nat → Option Element
  next : Nat

namespace QuadTree

/-- The constructor `QuadTree(int maxDeep = 6)`, on an empty heap. -/
def new (maxDeep : Int) : QuadTree := ⟨maxDeep, none, fun _ => none, 0⟩

def IsInited (t : QuadTree) : Bool := t.mRoot.isSome

/-- The method `Clear()`: `delete mRoot` destroys every node and every element stored in one. -/
def Clear (t : QuadTree) : QuadTree :=
  match t.mRoot with
  | none => t
  | some root =>
    { t with mRoot := none, cell := fun e => if e ∈ root.allElems then none else t.cell e }

/-- The method `Init(x, y, width, height)`. -/
def Init (t : QuadTree) (x y width height : ℚ) : QuadTree :=
  let t1 := t.Clear
  let aabb : AABB := ⟨x, y, width, height⟩
  { t1 with mRoot := some (QuadNode.new 1 aabb) }

/-- Put the tree and heap of a store back into the `QuadTree`. -/
def setStore (t : QuadTree) (s : Store) : QuadTree :=
  { t with mRoot := some s.root, cell := s.cell }

/-- The constructor `Element(value)` called through `new`. -/
def newElement (t : QuadTree) (value : Option Nat) : Nat × QuadTree :=
  (t.next, { t with cell := fun e => if e = t.next then some ⟨none, value⟩ else t.cell e,
                    next := t.next + 1 })

/-- The method `Add(Element* elem, int atDeep = 0)`. -/
def Add (vals : Values) (fuel : Nat) (t : QuadTree) (elem : Nat) (atDeep : Int) :
    Except Err (Bool × QuadTree) :=
  match t.mRoot with
  | none => .ok (false, t)
  | some root =>
    match Recast.Add vals t.mMaxDeep fuel [] elem atDeep ⟨root, t.cell⟩ with
    | .error err => .error err
    | .ok (b, s) => .ok (b, t.setStore s)

/-- The method `Add(ValueType* value, int atDeep = 0)`; the result is the `Element*`. -/
def AddValue (vals : Values) (fuel : Nat) (t : QuadTree) (value : Option Nat) (atDeep : Int) :
    Except Err (Option Nat × QuadTree) :=
  match t.mRoot with
  | none => .ok (none, t)
  | some root =>
    let (elem, t1) := t.newElement value
    match Recast.Add vals t.mMaxDeep fuel [] elem atDeep ⟨root, t1.cell⟩ with
    | .error err => .error err
    | .ok (_, s) => .ok (some elem, t1.setStore s)

/-- The statement `delete elem`. -/
def deleteElem (t : QuadTree) (elem : Nat) : QuadTree :=
  { t with cell := fun e => if e = elem then none else t.cell e }

/-- The method `Remove(Element* elem, bool del = true)`. -/
def Remove (t : QuadTree) (elem : Option Nat) (del : Bool) : Except Err QuadTree :=
  match elem with
  | none => .ok t
  | some e =>
    match (t.cell e).bind Element.mNode with
    | none => .ok (if del then t.deleteElem e else t)
    | some node =>
      match t.mRoot with
      | none => .error .nullDeref
      | some root =>
        let t1 := t.setStore (Store.RemoveElem ⟨root, t.cell⟩ node e)
        .ok (if del then t1.deleteElem e else t1)

/-- The method `Refresh(Element* elem)`. -/
def Refresh (vals : Values) (fuel : Nat) (t : QuadTree) (elem : Nat) : Except Err QuadTree :=
  match (t.cell elem).bind Element.mNode with
  | none =>
    match t.Add vals fuel elem 0 with
    | .error err => .error err
    | .ok (_, t1) => .ok t1
  | some node =>
    match t.mRoot with
    | none => .error .nullDeref
    | some root =>
      match root.find node with
      | none => .error .nullDeref
      | some n =>
        match Store.GetAABB vals ⟨root, t.cell⟩ elem with
        | none => .error .nullDeref
        | some b =>
          if !n.IsContain b then
            match t.Add vals fuel elem 0 with
            | .error err => .error err
            | .ok (_, t1) => .ok t1
          else
            match Recast.Add vals t.mMaxDeep fuel node elem 0 ⟨root, t.cell⟩ with
            | .error err => .error err
            | .ok (_, s) => .ok (t.setStore s)

/-- The method `Intersect(float x, float y, output, getOne = false)`. -/
def Intersect (vals : Values) (t : QuadTree) (x y : ℚ) (output : List Nat) (getOne : Bool) :
    Except Err (Bool × List Nat) :=
  match t.mRoot with
  | none => .ok (false, output)
  | some root => IntersectPointNode vals t.cell x y getOne root output

/-- The method `Intersect(const Circle& circle, output, getOne = false)`. -/
def IntersectCircle (vals : Values) (t : QuadTree) (circle : Circle) (output : List Nat)
    (getOne : Bool) : Except Err (Bool × List Nat) :=
  match t.mRoot with
  | none => .ok (false, output)
  | some root =>
    let radius := circle.GetRadius
    let len := fmul radius 2
    let aabb : AABB := ⟨fsub circle.GetX radius, fsub circle.GetY radius, len, len⟩
    IntersectCircleNode vals t.cell aabb circle getOne root output

end QuadTree

/-! ## Views of the tree: what a pointer sees -/

/-- The data of the node at `q`, if there is one. -/
def dataAt (root : QuadNode) (q : Path) : Option NodeData := (root.find q).map QuadNode.data

/-- Whether the node at `q` has children, if there is such a node. -/
def kidsAt (root : QuadNode) (q : Path) : Option Bool := (root.find q).map QuadNode.HasChild

/-- The route element count of the node at `q`, `0` when there is no node. -/
def cntAt (root : QuadNode) (q : Path) : Int :=
  match root.find q with
  | none => 0
  | some n => n.data.mRouteElemCount

/-- Replace the data of a node, keeping its children. -/
def mapData (g : NodeData → NodeData) (n : QuadNode) : QuadNode := n.setData (g n.data)

/-- What one iteration of the loop of `SetRouteElemCount` does to the data of a node. -/
def bumpData (add : Bool) (d : NodeData) : NodeData :=
  { d with mRouteElemCount := if add then d.mRouteElemCount + 1 else d.mRouteElemCount - 1 }

/-- The list edit performed by `mElems.erase(...)` in `RemoveElem`. -/
def eraseData (e : Nat) (d : NodeData) : NodeData := { d with mElems := d.mElems.erase e }

/-- The list edit performed by `mElems.push_back(elem)` in `AddElem`. -/
def pushData (e : Nat) (d : NodeData) : NodeData := { d with mElems := d.mElems ++ [e] }

namespace Store

/-- The tree after `AddElem` has taken the element out of its previous owner. -/
def detachRoot (s : Store) (e : Nat) : QuadNode :=
  match s.GetNode e with
  | none => s.root
  | some o =>
    if e ∈ s.elemsAt o then (SetRouteElemCount s.root o false).update (mapData (eraseData e)) o
    else s.root

end Store

/-! ## Invariants of the tree and the element heap -/

/-- The region `InitChildren` gives to the child in slot `i` of a node with region `a`. -/
def childAABB (a : AABB) (i : Nat) : AABB :=
  match i with
  | 0 => ⟨fadd a.mX (fmul a.mWidth (1 / 2)), fadd a.mY (fmul a.mHeight (1 / 2)),
      fmul a.mWidth (1 / 2), fmul a.mHeight (1 / 2)⟩
  | 1 => ⟨a.mX, fadd a.mY (fmul a.mHeight (1 / 2)), fmul a.mWidth (1 / 2),
      fmul a.mHeight (1 / 2)⟩
  | 2 => ⟨a.mX, a.mY, fmul a.mWidth (1 / 2), fmul a.mHeight (1 / 2)⟩
  | 3 => ⟨fadd a.mX (fmul a.mWidth (1 / 2)), a.mY, fmul a.mWidth (1 / 2),
      fmul a.mHeight (1 / 2)⟩
  | _ => a

/-- Ownership is consistent: the back-pointer of an element is `p` exactly when the element
is in the list of the node at `p`, and no list holds an element twice. -/
def Own (s : Store) : Prop :=
  (∀ e p, s.GetNode e = some p ↔ e ∈ s.elemsAt p) ∧ ∀ p, (s.elemsAt p).Nodup

/-- The route count of every node is the length of its list plus the route counts of its
children. -/
def CountInv (root : QuadNode) : Prop :=
  ∀ q d, dataAt root q = some d →
    d.mRouteElemCount = d.mElems.length +
      (cntAt root (q ++ [0]) + cntAt root (q ++ [1]) + cntAt root (q ++ [2]) + cntAt root (q ++ [3]))

/-- The root has depth 1 and a child is one deeper than its parent. -/
def DepthInv (root : QuadNode) : Prop :=
  ∀ q d, dataAt root q = some d → d.mDeep = q.length + 1

/-- The regions of the children are the four quadrants of the region of their parent. -/
def RegionInv (root : QuadNode) : Prop :=
  ∀ q i d c, dataAt root q = some d → dataAt root (q ++ [i]) = some c →
    c.mAABB = childAABB d.mAABB i

/-- The bounds of `e` are present and lie inside the region of every node from `p` up to,
but not including, the root. -/
def ContainAt (vals : Values) (s : Store) (p : Path) (e : Nat) : Prop :=
  ∀ q, q <+: p → q ≠ [] →
    ∃ b d, s.GetAABB vals e = some b ∧ dataAt s.root q = some d ∧ d.mAABB.IsContain b = true

/-- Every element stored below the root lies inside the regions on its way up. -/
def ContainInv (vals : Values) (s : Store) : Prop :=
  ∀ e p, s.GetNode e = some p → ContainAt vals s p e

/-- The invariant of tree and heap; `κ` switches the part that depends on the bounds of the
values, which only holds while these do not change. -/
structure Inv (vals : Values) (κ : Prop) (s : Store) : Prop where
  own : Own s
  count : CountInv s.root
  depth : DepthInv s.root
  region : RegionInv s.root
  contain : κ → ContainInv vals s

/-- What never changes while elements are moved and nodes are split: existing nodes keep
depth and region, children stay, and every `Element` keeps its value and its liveness. -/
structure Ext (s s' : Store) : Prop where
  node : ∀ q d, dataAt s.root q = some d →
    ∃ d', dataAt s'.root q = some d' ∧ d'.mDeep = d.mDeep ∧ d'.mAABB = d.mAABB
  kids : ∀ q, kidsAt s.root q = some true → kidsAt s'.root q = some true
  value : ∀ e, (s'.cell e).map Element.mValue = (s.cell e).map Element.mValue

/-- The data of the node at `q` after an edit of the node at `t`: its list becomes `g` of its
list and the route counts from `t` up to the root move by one. -/
def editView (t : Path) (add : Bool) (g : List Nat → List Nat) (q : Path) (d : NodeData) :
    NodeData :=
  { d with
    mRouteElemCount :=
      if q <+: t then (if add then d.mRouteElemCount + 1 else d.mRouteElemCount - 1)
      else d.mRouteElemCount
    mElems := if q = t then g d.mElems else d.mElems }

/-- The tree `root'` is `root` after such an edit. -/
def Edit (root root' : QuadNode) (t : Path) (add : Bool) (g : List Nat → List Nat) : Prop :=
  (∀ q, dataAt root' q = (dataAt root q).map (editView t add g q)) ∧
  (∀ q, kidsAt root' q = kidsAt root q)

/-- The data of the child that `InitChildren` creates in slot `i` under a node with data `d`. -/
def newChildData (d : NodeData) (i : Nat) : NodeData := ⟨d.mDeep + 1, 0, childAABB d.mAABB i, []⟩

/-- The store after `node->InitChildren()` for the node at `p`. -/
def Store.InitChildren (s : Store) (p : Path) : Store :=
  { s with root := s.root.update QuadNode.InitChildren p }

/-- The back-pointer of `e'` is unchanged, or it moved from one node below `c` to another. -/
def Moved (c : Path) (s s' : Store) (e' : Nat) : Prop :=
  s'.GetNode e' = s.GetNode e' ∨
  ∃ o o', s.GetNode e' = some o ∧ c <+: o ∧ s'.GetNode e' = some o' ∧ c <+: o'

/-- How a call of `Add` on element `e` at node `c` may change the store. -/
structure Evolve (e : Nat) (c : Path) (s s' : Store) : Prop where
  ext : Ext s s'
  others : ∀ e', e' ≠ e → Moved c s s' e'

/-- What a call of `Add` does when it returns: the invariant is kept, only the element itself
and elements below the node move, a rejection changes nothing, and on acceptance the element
is owned by a node of the subtree. -/
def AddSpec (vals : Values) (κ : Prop) (rec : AddFn) : Prop :=
  ∀ p e atDeep s b s' n, Inv vals κ s → s.root.find p = some n → (s.cell e).isSome = true →
    (κ → ContainAt vals s p.dropLast e) → rec p e atDeep s = .ok (b, s') →
    Inv vals κ s' ∧ Evolve e p s s' ∧ (b = false → s' = s) ∧
    (b = true → ∃ r, s'.GetNode e = some (p ++ r))

/-! ## Reachable states of a `QuadTree` -/

namespace QuadTree

/-- The element at address `e` is stored in the tree: its back-pointer is set. -/
def Stored (t : QuadTree) (e : Nat) : Prop := (t.cell e).bind Element.mNode ≠ none

instance (t : QuadTree) (e : Nat) : Decidable (t.Stored e) := by
  unfold Stored
  infer_instance

/-- The value of the element at address `e`. -/
def valueOf (t : QuadTree) (e : Nat) : Option Nat := (t.cell e).bind Element.mValue

end QuadTree

/-- The invariant of a `QuadTree` and its element heap. -/
structure TreeInv (vals : Values) (κ : Prop) (t : QuadTree) : Prop where
  store : ∀ root, t.mRoot = some root → Inv vals κ ⟨root, t.cell⟩
  fresh : ∀ e, t.next ≤ e → t.cell e = none
  inited : t.mRoot ≠ none

/-- The states a client can reach: `Init` on a new tree, then any sequence of `new Element`,
`Add` (both forms, any `atDeep`), `Remove` and `Refresh` on live elements, each call that
reads the values seeing an environment allowed by `E`. -/
inductive Reachable (E : Values → Prop) : QuadTree → Prop
  | init (maxDeep : Int) (x y width height : ℚ) :
      Reachable E ((QuadTree.new maxDeep).Init x y width height)
  | newElement {t : QuadTree} (value : Option Nat) :
      Reachable E t → Reachable E (t.newElement value).2
  | add {t t' : QuadTree} {vals : Values} {fuel : Nat} {elem : Nat} {atDeep : Int} {b : Bool} :
      Reachable E t → E vals → (t.cell elem).isSome = true →
      t.Add vals fuel elem atDeep = .ok (b, t') → Reachable E t'
  | addValue {t t' : QuadTree} {vals : Values} {fuel : Nat} {value : Option Nat} {atDeep : Int}
      {r : Option Nat} :
      Reachable E t → E vals → t.AddValue vals fuel value atDeep = .ok (r, t') → Reachable E t'
  | remove {t t' : QuadTree} {elem : Option Nat} {del : Bool} :
      Reachable E t → (∀ e, elem = some e → (t.cell e).isSome = true) →
      t.Remove elem del = .ok t' → Reachable E t'
  | refresh {t t' : QuadTree} {vals : Values} {fuel : Nat} {elem : Nat} :
      Reachable E t → E vals → (t.cell elem).isSome = true →
      t.Refresh vals fuel elem = .ok t' → Reachable E t'

/-- The route count of every node of the subtree is the length of its own list plus the route
counts of its four children (nothing is added for a node without children). -/
def RouteCountOK : QuadNode → Prop
  | .leaf d => d.mRouteElemCount = d.mElems.length
  | .split d c0 c1 c2 c3 =>
    d.mRouteElemCount = d.mElems.length +
      (c0.GetRouteElemCount + c1.GetRouteElemCount + c2.GetRouteElemCount +
        c3.GetRouteElemCount) ∧
    RouteCountOK c0 ∧ RouteCountOK c1 ∧ RouteCountOK c2 ∧ RouteCountOK c3

/-- The elements stored in the tree, found by scanning the element heap. -/
def QuadTree.storedElems (t : QuadTree) : List Nat :=
  (List.range t.next).filter (fun e => decide (t.Stored e))

/-- Within the subtree no element is in two lists, nor twice in one. -/
def OwnTree (n : QuadNode) : Prop :=
  (∀ q q' m m' e, n.find q = some m → n.find q' = some m' → e ∈ m.data.mElems →
    e ∈ m'.data.mElems → q = q') ∧
  ∀ q m, n.find q = some m → m.data.mElems.Nodup

/-! ## The two queries as instances of one traversal -/

/-- The element loop of both queries: `valueOf` reads `elem->GetValue()` and `test` is the
exact test of the value. -/
def elemsLoop (valueOf : Nat → Option Nat) (test : Nat → Bool) (getOne : Bool) :
    List Nat → Bool → List Nat → Except Err (Bool × Bool × List Nat)
  | [], hasValue, output => .ok (false, hasValue, output)
  | e :: rest, hasValue, output =>
    match valueOf e with
    | none => .error .nullDeref
    | some value =>
      if !test value then elemsLoop valueOf test getOne rest hasValue output
      else if getOne then .ok (true, true, output ++ [value])
      else elemsLoop valueOf test getOne rest true (output ++ [value])

/-- The traversal of both queries: `keep` is the test of the region of a node. -/
def queryNode (valueOf : Nat → Option Nat) (keep : AABB → Bool) (test : Nat → Bool)
    (getOne : Bool) : QuadNode → List Nat → Except Err (Bool × List Nat)
  | .leaf d, output =>
    if d.mRouteElemCount = 0 then .ok (false, output)
    else if !keep d.mAABB then .ok (false, output)
    else
      match elemsLoop valueOf test getOne d.mElems false output with
      | .error err => .error err
      | .ok (true, _, out) => .ok (true, out)
      | .ok (false, hasValue, out) => .ok (hasValue, out)
  | .split d c0 c1 c2 c3, output =>
    if d.mRouteElemCount = 0 then .ok (false, output)
    else if !keep d.mAABB then .ok (false, output)
    else
      match elemsLoop valueOf test getOne d.mElems false output with
      | .error err => .error err
      | .ok (true, _, out) => .ok (true, out)
      | .ok (false, hasValue, out) =>
        queryChild getOne (queryNode valueOf keep test getOne c0 out) hasValue fun h0 out0 =>
        queryChild getOne (queryNode valueOf keep test getOne c1 out0) h0 fun h1 out1 =>
        queryChild getOne (queryNode valueOf keep test getOne c2 out1) h1 fun h2 out2 =>
        queryChild getOne (queryNode valueOf keep test getOne c3 out2) h2 fun h3 out3 =>
        .ok (h3, out3)

/-- The values a multi-hit element loop appends. -/
def hits (valueOf : Nat → Option Nat) (test : Nat → Bool) (l : List Nat) : List Nat :=
  l.filterMap (fun e => (valueOf e).bind (fun v => if test v then some v else none))

/-- The values a multi-hit traversal appends: nothing for a pruned node, else the hits of the
node followed by those of the four children in order. -/
def nodeHits (valueOf : Nat → Option Nat) (keep : AABB → Bool) (test : Nat → Bool) :
    QuadNode → List Nat
  | .leaf d =>
    if d.mRouteElemCount = 0 then [] else if !keep d.mAABB then [] else hits valueOf test d.mElems
  | .split d c0 c1 c2 c3 =>
    if d.mRouteElemCount = 0 then [] else if !keep d.mAABB then []
    else hits valueOf test d.mElems ++
      (nodeHits valueOf keep test c0 ++ (nodeHits valueOf keep test c1 ++
        (nodeHits valueOf keep test c2 ++ nodeHits valueOf keep test c3)))

/-- The square around a circle that `Intersect(const Circle&, ...)` builds once. -/
def circleBox (circle : Circle) : AABB :=
  ⟨fsub circle.GetX circle.GetRadius, fsub circle.GetY circle.GetRadius,
    fmul circle.GetRadius 2, fmul circle.GetRadius 2⟩

/-- No node on the way from the root of the subtree down to `q` is pruned by a query. -/
def Open (keep : AABB → Bool) (n : QuadNode) (q : Path) : Prop :=
  ∀ q' m', q' <+: q → n.find q' = some m' →
    m'.data.mRouteElemCount ≠ 0 ∧ keep m'.data.mAABB = true

/-- The output `out'` is `out` with some values appended, each of which satisfies `S`. -/
def Appends (S : Nat → Prop) (out out' : List Nat) : Prop :=
  ∃ res, out' = out ++ res ∧ ∀ v ∈ res, S v

/-- A brute-force linear scan over the inserted values with the exact point test: the values
of the stored elements, in the order of the element heap, that contain the point. -/
def QuadTree.bruteForcePoint (vals : Values) (t : QuadTree) (x y : ℚ) : List Nat :=
  hits t.valueOf (fun v => (vals v).IsContain x y) t.storedElems

/-- The result of a call that returned, `d` otherwise. -/
def okOr {α : Type} (d : α) : Except Err α → α
  | .ok a => a
  | .error _ => d

/-- Whether a call returned. -/
def isOk {α : Type} : Except Err α → Bool
  | .ok _ => true
  | .error _ => false

/-! ## Concrete scenarios -/

/-- A value whose exact tests are the tests of its bounding rectangle `b`. -/
def boxValue (b : AABB) : ValueType :=
  ⟨some b, fun x y => b.IsContainPoint x y, fun c => b.Intersect (circleBox c)⟩

/-- The tree after `Add(value, atDeep)` on `t`, and `t` itself if the call does not return. -/
def QuadTree.afterAddValue (vals : Values) (fuel : Nat) (t : QuadTree) (value : Option Nat)
    (atDeep : Int) : QuadTree :=
  (okOr (none, t) (t.AddValue vals fuel value atDeep)).2

/-- The tree after `Add(value)` for each of the listed values in turn. -/
def QuadTree.afterAddValues (vals : Values) (fuel : Nat) : QuadTree → List Nat → QuadTree
  | t, [] => t
  | t, v :: vs => (t.afterAddValue vals fuel (some v) 0).afterAddValues vals fuel vs

/-- Every value is the unit square at (20, 20), outside the region (0, 0, 10, 10). -/
def outsideValues : Values := fun _ => boxValue ⟨20, 20, 1, 1⟩

/-- A tree over (0, 0, 10, 10) holding one value that lies outside this region. -/
def outsideTree : QuadTree :=
  ((QuadTree.new 6).Init 0 0 10 10).afterAddValue outsideValues 2 (some 0) 0

/-- Value `v` is the unit square at (10 + v, 10 + v). -/
def diagonalValues : Values := fun v => boxValue ⟨10 + v, 10 + v, 1, 1⟩

/-- A tree over (0, 0, 100, 100) holding the values 0 and 1 of `diagonalValues`. -/
def diagonalTree : QuadTree :=
  ((QuadTree.new 6).Init 0 0 100 100).afterAddValues diagonalValues 2 [0, 1]

/-- The root of `diagonalTree`: both values are stored at the childless root. -/
def diagonalRoot : QuadNode := .leaf ⟨1, 2, ⟨0, 0, 100, 100⟩, [0, 1]⟩

/-- A call of `Add` that leaves the set of nodes as it was has changed nothing, or has only
stored the element at one existing node. -/
def NoSplitSpec (rec : AddFn) : Prop :=
  ∀ p e atDeep s b s' n, Inv (fun _ => ⟨none, fun _ _ => false, fun _ => false⟩) False s →
    s.root.find p = some n → (s.cell e).isSome = true → rec p e atDeep s = .ok (b, s') →
    (∀ q, kidsAt s'.root q = kidsAt s.root q) →
    s' = s ∨ ∃ p' n', s.root.find p' = some n' ∧ s' = s.AddElem p' e

/-- The tree after `Remove(elem, del)` on `t`, and `t` itself if the call does not return. -/
def QuadTree.afterRemove (t : QuadTree) (elem : Option Nat) (del : Bool) : QuadTree :=
  okOr t (t.Remove elem del)

/-- Value `v` is the unit square at (60 + v, 60 + v): all of them lie in the RIGHT_TOP
quadrant of the region (0, 0, 100, 100). -/
def clusterValues : Values := fun v => boxValue ⟨60 + v, 60 + v, 1, 1⟩

/-- A tree over (0, 0, 100, 100) holding the values 0 to 7 of `clusterValues`. -/
def clusterTree : QuadTree :=
  ((QuadTree.new 6).Init 0 0 100 100).afterAddValues clusterValues 1 [0, 1, 2, 3, 4, 5, 6, 7]

/-- The root of `clusterTree`: the eight values are stored at the childless root. -/
def clusterRoot : QuadNode := .leaf ⟨1, 8, ⟨0, 0, 100, 100⟩, [0, 1, 2, 3, 4, 5, 6, 7]⟩

/-- The root of a tree, and an empty node when there is none. -/
def QuadTree.rootOr (t : QuadTree) : QuadNode := t.mRoot.getD (QuadNode.new 0 ⟨0, 0, 0, 0⟩)

/-- The error of a call that did not return. -/
def errOf {α : Type} : Except Err α → Option Err
  | .ok _ => none
  | .error err => some err

/-- Value 0 has no bounds (`GetAABB()` is null); every other value is a unit square. -/
def noBoundsValues : Values := fun v =>
  if v = 0 then ⟨none, fun _ _ => false, fun _ => false⟩ else boxValue ⟨10, 10, 1, 1⟩

/-- Value 0 is wider than half of the region (0, 0, 100, 100); the others are unit squares. -/
def wideValues : Values := fun v =>
  if v = 0 then boxValue ⟨10, 10, 60, 1⟩ else boxValue ⟨10 + v, 10 + v, 1, 1⟩

/-- A tree over (0, 0, 100, 100) and one element, not yet added, for value 0. -/
def oneElementTree : QuadTree := (((QuadTree.new 6).Init 0 0 100 100).newElement (some 0)).2

/-! ## Termination of `Add` -/

/-- The number of levels of the subtree. -/
def QuadNode.height : QuadNode → Nat
  | .leaf _ => 1
  | .split _ c0 c1 c2 c3 => 1 + max (max c0.height c1.height) (max c2.height c3.height)

/-- No node of the tree is deeper than `B` levels. -/
def Bounded (B : Nat) (root : QuadNode) : Prop :=
  ∀ q n, root.find q = some n → q.length + 1 ≤ B

/-- With `k` units of fuel a non-forced `Add` at a node `p` returns, as long as the tree and
`mMaxDeep` are bounded by `B` and `B` is at most `k` levels below `p`; at the root the element
must have bounds. -/
def ProgSpec (vals : Values) (B k : Nat) (rec : AddFn) : Prop :=
  ∀ p e s n, Inv vals False s → s.root.find p = some n → (s.cell e).isSome = true →
    Bounded B s.root → B ≤ p.length + k → (p = [] → s.GetAABB vals e ≠ none) →
    ∃ b s', rec p e 0 s = .ok (b, s') ∧ Bounded B s'.root

/-- The tree after `Add(elem, atDeep)` on `t`, and `t` itself if the call does not return. -/
def QuadTree.afterAdd (vals : Values) (fuel : Nat) (t : QuadTree) (elem : Nat) (atDeep : Int) :
    QuadTree :=
  (okOr (false, t) (t.Add vals fuel elem atDeep)).2

/-! ## The nine-shapes scenario -/

/-- A client that calls `Add(value)` for each of the listed values in turn. -/
def QuadTree.AddValues (vals : Values) (fuel : Nat) : QuadTree → List Nat → Except Err QuadTree
  | t, [] => .ok t
  | t, v :: vs =>
    match t.AddValue vals fuel (some v) 0 with
    | .error err => .error err
    | .ok (_, t1) => t1.AddValues vals fuel vs

/-- The tree after the first `k` of the nine calls: the root has region `R` and no children,
and its list holds the elements `0, ..., k - 1`, element `e` carrying the value `val e`. -/
structure Filled (vals : Values) (R : AABB) (val : Nat → Nat) (k : Nat) (t : QuadTree) :
    Prop where
  inv : TreeInv vals False t
  maxDeep : t.mMaxDeep = 6
  next : t.next = k
  root : ∃ root, t.mRoot = some root ∧ root.HasChild = false ∧ root.data.mAABB = R ∧
    root.data.mElems = List.range k
  value : ∀ e, e < k → t.valueOf e = some (val e)

/-- The store during the ninth call, while the list of the root is moved into child `q`:
the root has four childless children, `j` of the first eight elements are still in the list of
the root and the others are in the list of child `q`. -/
structure Mid (vals : Values) (R : AABB) (b : Nat → AABB) (q j : Nat) (s : Store) : Prop where
  inv : Inv vals False s
  region : s.root.data.mAABB = R
  kids : kidsAt s.root [] = some true
  leaves : ∀ i, i < 4 → kidsAt s.root [i] = some false
  rootLen : (s.elemsAt []).length = j
  childLen : (s.elemsAt [q]).length + j = 8
  other : ∀ i, i < 4 → i ≠ q → s.elemsAt [i] = []
  box : ∀ e, e < 9 → s.GetAABB vals e = some (b e)
  owner : ∀ e, e < 8 → s.GetNode e = some [] ∨ s.GetNode e = some [q]
  rest : ∀ e, 8 ≤ e → s.GetNode e = none
  bounded : Bounded 6 s.root

/-- Values 0 to 7 are horizontal segments on the line y = 50, the common edge of the LEFT_TOP
and LEFT_BOTTOM quadrants of the region (0, 0, 100, 100); value 8 is a unit square inside
LEFT_BOTTOM. All nine fit inside LEFT_BOTTOM, and this is the only quadrant with all nine. -/
def boundaryValues : Values := fun v =>
  if v = 8 then boxValue ⟨10, 10, 1, 1⟩ else boxValue ⟨10 + v, 50, 1, 0⟩

/-- A tree over (0, 0, 100, 100) holding the values 0 to 7 of `boundaryValues`. -/
def boundaryTree : QuadTree :=
  ((QuadTree.new 6).Init 0 0 100 100).afterAddValues boundaryValues 1 [0, 1, 2, 3, 4, 5, 6, 7]

/-- Values 0 to 7 are the same unit square at (60, 60); value 8 is the square (60, 60, 30, 30),
too large for a child of the RIGHT_TOP quadrant of (0, 0, 100, 100); value 9 is the square
(40, 40, 40, 40), which lies across the centre of that region. All ten contain the point
(121/2, 121/2). -/
def stackValues : Values := fun v =>
  if v = 8 then boxValue ⟨60, 60, 30, 30⟩
  else if v = 9 then boxValue ⟨40, 40, 40, 40⟩
  else boxValue ⟨60, 60, 1, 1⟩

/-- A tree over (0, 0, 100, 100) after `Add(value)` for the values 0 to 9 of `stackValues`,
in this order. -/
def stackTree : QuadTree :=
  ((QuadTree.new 6).Init 0 0 100 100).afterAddValues stackValues 6 [0, 1, 2, 3, 4, 5, 6, 7, 8, 9]

/-- The root of `stackTree`: value 9 is stored at the root and the others in the RIGHT_TOP
child, the first eight in the reverse of the order in which they were added. -/
def stackRoot : QuadNode :=
  .split ⟨1, 10, ⟨0, 0, 100, 100⟩, [9]⟩
    (.leaf ⟨2, 9, ⟨50, 50, 50, 50⟩, [7, 6, 5, 4, 3, 2, 1, 0, 8]⟩)
    (.leaf ⟨2, 0, ⟨0, 50, 50, 50⟩, []⟩)
    (.leaf ⟨2, 0, ⟨0, 0, 50, 50⟩, []⟩)
    (.leaf ⟨2, 0, ⟨50, 0, 50, 50⟩, []⟩)

/-! ## Where `Add` puts the element -/

/-- When a call of `Add` at node `p` accepts the element, the element ends in a node below `p`
(or `p` itself), and every node from `p` down to it, the root apart, contains its bounds. -/
def PlaceSpec (vals : Values) (rec : AddFn) : Prop :=
  ∀ p e atDeep s s' n, Inv vals False s → s.root.find p = some n → (s.cell e).isSome = true →
    rec p e atDeep s = .ok (true, s') →
    ∃ r, s'.GetNode e = some (p ++ r) ∧
      ∀ q, p <+: q → q <+: p ++ r → q ≠ [] →
        ∃ b d, s'.GetAABB vals e = some b ∧ dataAt s'.root q = some d ∧
          d.mAABB.IsContain b = true

/-- The values of `diagonalValues` after value 0 has moved to the unit square at (200, 200),
outside the region (0, 0, 100, 100). -/
def movedValues : Values := fun v =>
  if v = 0 then boxValue ⟨200, 200, 1, 1⟩ else diagonalValues v

/-- The values of `stackValues` after value 0 has moved to the unit square at (10, 10), in the
LEFT_BOTTOM quadrant of the region (0, 0, 100, 100). -/
def shiftedValues : Values := fun v =>
  if v = 0 then boxValue ⟨10, 10, 1, 1⟩ else stackValues v

/-! ## The twenty-squares scenario -/

/-- The unit square with centre (x, y). -/
def unitSquare (x y : ℚ) : AABB := ⟨x - 1 / 2, y - 1 / 2, 1, 1⟩

/-- The tree after `k` calls `Add(value)` for the values `0, ..., k - 1`: element `e` carries
value `e` and is stored, the root has region `R`, and no node is deeper than `B`. -/
structure Loaded (vals : Values) (R : AABB) (B k : Nat) (t : QuadTree) : Prop where
  reach : Reachable (fun v => v = vals) t
  maxDeep : t.mMaxDeep ≤ B
  next : t.next = k
  root : ∃ root, t.mRoot = some root ∧ root.data.mAABB = R ∧ Bounded B root
  value : ∀ e, e < k → t.Stored e ∧ t.valueOf e = some e

/-- Centres of twenty unit squares inside (0, 0, 100, 100), pairwise distinct: square 0 is
centred at (10, 10), square 1 at (52/5, 10), and square v, for v from 2 to 19, at
(4 v + 1/2, 101/2). The squares 0 and 1 overlap: each contains the centre of the other. -/
def twentyCentreX (v : Nat) : ℚ := if v = 0 then 10 else if v = 1 then 52 / 5 else 4 * v + 1 / 2

def twentyCentreY (v : Nat) : ℚ := if v ≤ 1 then 10 else 101 / 2

/-- Value `v` is the unit square with centre (`twentyCentreX v`, `twentyCentreY v`). -/
def twentyValues : Values := fun v => boxValue (unitSquare (twentyCentreX v) (twentyCentreY v))

/-- Value `v` is the unit square with centre (5 v + 1, 50): twenty of them lie side by side
without overlap inside (0, 0, 100, 100). -/
def gridValues : Values := fun v => boxValue (unitSquare (5 * v + 1) 50)

/-- The elements a multi-hit traversal examines: the lists of the nodes it does not prune, in
the order of the traversal. -/
def nodeElems (keep : AABB → Bool) : QuadNode → List Nat
  | .leaf d =>
    if d.mRouteElemCount = 0 then [] else if !keep d.mAABB then [] else d.mElems
  | .split d c0 c1 c2 c3 =>
    if d.mRouteElemCount = 0 then [] else if !keep d.mAABB then []
    else d.mElems ++
      (nodeElems keep c0 ++ (nodeElems keep c1 ++ (nodeElems keep c2 ++ nodeElems keep c3)))

/-- Whether the element loop of a query appends the value of element `e`. -/
def isHit (valueOf : Nat → Option Nat) (test : Nat → Bool) (e : Nat) : Bool :=
  match valueOf e with
  | none => false
  | some v => test v

/-- With `k` units of fuel a forced `Add` to depth `d` at a node `p` of depth at most `d`
returns when `d` is at most `k` levels below `p`; it moves no other element, and on acceptance
the element is owned by a node below `p` of depth at most `d`. -/
def ForcedSpec (vals : Values) (d : Int) (k : Nat) (rec : AddFn) : Prop :=
  ∀ p e s n, Inv vals False s → s.root.find p = some n → (s.cell e).isSome = true →
    s.GetAABB vals e ≠ none → (p.length : Int) + 1 ≤ d → d ≤ (p.length : Int) + k →
    ∃ b s', rec p e d s = .ok (b, s') ∧ (∀ e', e' ≠ e → s'.GetNode e' = s.GetNode e') ∧
      (b = true → ∃ r, s'.GetNode e = some (p ++ r) ∧ ((p ++ r).length : Int) + 1 ≤ d)

/-- The states reached from `Init` on a new tree by `new Element`, `Add` without forced depth
(both forms, `atDeep = 0`), `Remove` and `Refresh` on live elements, whatever the values are
at each call. -/
inductive Unforced : QuadTree → Prop
  | init (maxDeep : Int) (x y width height : ℚ) :
      Unforced ((QuadTree.new maxDeep).Init x y width height)
  | newElement {t : QuadTree} (value : Option Nat) :
      Unforced t → Unforced (t.newElement value).2
  | add {t t' : QuadTree} {vals : Values} {fuel : Nat} {elem : Nat} {b : Bool} :
      Unforced t → (t.cell elem).isSome = true →
      t.Add vals fuel elem 0 = .ok (b, t') → Unforced t'
  | addValue {t t' : QuadTree} {vals : Values} {fuel : Nat} {value : Option Nat}
      {r : Option Nat} :
      Unforced t → t.AddValue vals fuel value 0 = .ok (r, t') → Unforced t'
  | remove {t t' : QuadTree} {elem : Option Nat} {del : Bool} :
      Unforced t → (∀ e, elem = some e → (t.cell e).isSome = true) →
      t.Remove elem del = .ok t' → Unforced t'
  | refresh {t t' : QuadTree} {vals : Values} {fuel : Nat} {elem : Nat} :
      Unforced t → (t.cell elem).isSome = true →
      t.Refresh vals fuel elem = .ok t' → Unforced t'

/-- The constant `MAX_CONVEXVOL_PTS` of InputGeom.h. -/
def MAX_CONVEXVOL_PTS : Nat := 12

/-- The fields of `struct ConvexVolume` that the bounding rectangle depends on: the array
`float verts[MAX_CONVEXVOL_PTS*3]` as the list of its entries, and `nverts`. -/
structure ConvexVolume where
  verts : List ℚ
  nverts : Int
deriving DecidableEq

/-- The statement `minX = minX < x ? minX : x;`, where `none` is the initial `HUGE_VALF`. -/
def minStep (m : Option ℚ) (x : ℚ) : ℚ :=
  match m with
  | none => x
  | some a => if a < x then a else x

/-- The statement `maxX = maxX > x ? maxX : x;`, where `none` is the initial `-HUGE_VALF`. -/
def maxStep (m : Option ℚ) (x : ℚ) : ℚ :=
  match m with
  | none => x
  | some a => if a > x then a else x

/-- The local variables `minX`, `maxX`, `minZ`, `maxZ`. -/
structure Extent where
  minX : Option ℚ
  maxX : Option ℚ
  minZ : Option ℚ
  maxZ : Option ℚ
deriving DecidableEq

namespace Extent

/-- The initial values `HUGE_VALF`, `-HUGE_VALF`, `HUGE_VALF`, `-HUGE_VALF`. -/
def start : Extent := ⟨none, none, none, none⟩

/-- The four updates of one turn of the loop, for the coordinates `x` and `z` it has read. -/
def step (a : Extent) (x z : ℚ) : Extent :=
  ⟨some (minStep a.minX x), some (maxStep a.maxX x), some (minStep a.minZ z),
    some (maxStep a.maxZ z)⟩

/-- The rectangle `(minX, minZ, maxX - minX, maxZ - minZ)`; `none` when no vertex was read and
the values are still infinite. -/
def toAABB (a : Extent) : Option AABB :=
  match a.minX, a.maxX, a.minZ, a.maxZ with
  | some x0, some x1, some z0, some z1 => some ⟨x0, z0, x1 - x0, z1 - z0⟩
  | _, _, _, _ => none

end Extent

namespace ConvexVolume

/-- The array read `verts[k]`; `none` is a read outside the array. -/
def read (v : ConvexVolume) (k : Nat) : Option ℚ := v.verts.get? k

/-- The loop of `ConvexVolume::CalcAABB()`, over the values of `j` still to come. -/
def calcLoop (v : ConvexVolume) : List Nat → Extent → Option Extent
  | [], a => some a
  | j :: js, a =>
    match v.read (j * 3), v.read (j * 3 + 2) with
    | some x, some z => calcLoop v js (a.step x z)
    | _, _ => none

/-- The method `ConvexVolume::CalcAABB()`: the rectangle it stores in `aabb`. -/
def CalcAABB (v : ConvexVolume) : Option (Option AABB) :=
  (v.calcLoop (List.range v.nverts.toNat) Extent.start).map Extent.toAABB

end ConvexVolume

/-- The loop of `Sample::saveRegion()` that computes the `aabb` of one region, over the values
of `j` still to come: `verts` is `&volume->verts[j * 3]`, and the loop reads `verts[j * 3]` and
`verts[j * 3 + 2]`. -/
def saveRegionLoop (volume : ConvexVolume) : List Nat → Extent → Option Extent
  | [], a => some a
  | j :: js, a =>
    let verts := j * 3
    match volume.read (verts + j * 3), volume.read (verts + (j * 3 + 2)) with
    | some x, some z => saveRegionLoop volume js (a.step x z)
    | _, _ => none

/-- The entries `x`, `z`, `width`, `height` of `item["aabb"]` that `Sample::saveRegion()` writes
for one region. -/
def saveRegionAABB (volume : ConvexVolume) : Option (Option AABB) :=
  (saveRegionLoop volume (List.range volume.nverts.toNat) Extent.start).map Extent.toAABB

/-- A triangle with the vertices (0, 0, 0), (10, 0, 10), (1, 0, 1); the rest of the array is
zero. -/
def triangleVolume : ConvexVolume :=
  ⟨[0, 0, 0, 10, 0, 10, 1, 0, 1] ++ List.replicate 27 0, 3⟩

/-! ## Elements whose bounds are as they were when they were placed -/

/-- Between the stores `s` and `s'` the element `e'` stays well placed: if it is stored in
`s'`, it was stored in `s`, and if the regions on the way to its owner contained its bounds
there, so they do in `s'`. -/
def Keeps (vals : Values) (s s' : Store) (e' : Nat) : Prop :=
  ∀ o', s'.GetNode e' = some o' →
    ∃ o, s.GetNode e' = some o ∧ (ContainAt vals s o e' → ContainAt vals s' o' e')

/-- A call of `Add` that returns keeps every other element well placed. -/
def TrackSpec (vals : Values) (rec : AddFn) : Prop :=
  ∀ p e atDeep s b s' n, Inv vals False s → s.root.find p = some n →
    (s.cell e).isSome = true → rec p e atDeep s = .ok (b, s') →
    ∀ e', e' ≠ e → Keeps vals s s' e'

/-- The bounds of the value of element `e` are the same in the environments `v` and `vals`. -/
def Agree (v vals : Values) (t : QuadTree) (e : Nat) : Prop :=
  ∀ w, t.valueOf e = some w → (v w).GetAABB = (vals w).GetAABB

/-- The states a client can reach from `Init` with a region of non-negative size by
`new Element`, `Add` (both forms, any `atDeep`), `Remove` and `Refresh`, each call seeing its
own values, together with the set `K` of the elements whose bounds have not changed since
their last `Add` or `Refresh`: at that call and at every call after it the bounds of their
value were the bounds they have in `vals`. -/
inductive Tracked (vals : Values) : (Nat → Prop) → QuadTree → Prop
  | init (maxDeep : Int) (x y width height : ℚ) (hw : 0 ≤ width) (hh : 0 ≤ height) :
      Tracked vals (fun _ => False) ((QuadTree.new maxDeep).Init x y width height)
  | newElement {K : Nat → Prop} {t : QuadTree} (value : Option Nat) :
      Tracked vals K t → Tracked vals K (t.newElement value).2
  | add {K : Nat → Prop} {t t' : QuadTree} {v : Values} {fuel : Nat} {elem : Nat}
      {atDeep : Int} {b : Bool} :
      Tracked vals K t → (t.cell elem).isSome = true →
      t.Add v fuel elem atDeep = .ok (b, t') →
      Tracked vals (fun e => (K e ∨ e = elem) ∧ Agree v vals t' e) t'
  | addValue {K : Nat → Prop} {t t' : QuadTree} {v : Values} {fuel : Nat}
      {value : Option Nat} {atDeep : Int} {r : Option Nat} :
      Tracked vals K t → t.AddValue v fuel value atDeep = .ok (r, t') →
      Tracked vals (fun e => (K e ∨ r = some e) ∧ Agree v vals t' e) t'
  | remove {K : Nat → Prop} {t t' : QuadTree} {elem : Option Nat} {del : Bool} :
      Tracked vals K t → (∀ e, elem = some e → (t.cell e).isSome = true) →
      t.Remove elem del = .ok t' → Tracked vals K t'
  | refresh {K : Nat → Prop} {t t' : QuadTree} {v : Values} {fuel : Nat} {elem : Nat} :
      Tracked vals K t → (t.cell elem).isSome = true →
      t.Refresh v fuel elem = .ok t' →
      Tracked vals (fun e => (K e ∨ e = elem) ∧ Agree v vals t' e) t'

/-- The tree `stackTree` after value 0 has moved as in `shiftedValues` and its element has been
refreshed. -/
def shiftedTree : QuadTree := okOr stackTree (stackTree.Refresh shiftedValues 6 0)

/-- Two circles that touch: the centres (0, 0) and (11820, 12411) are 17139 apart, the sum of
the radii 8569 and 8570. -/
def touchingA : Circle := ⟨0, 0, 8569⟩

def touchingB : Circle := ⟨11820, 12411, 8570⟩

/-- Every value is the rectangle at (64, 64) of height 1/2 whose width is the float next
above 1: its right edge 64 + (1 + 1/8388608) is rounded to 65. -/
def thinValues : Values := fun _ => boxValue ⟨64, 64, 1 + 1 / 8388608, 1 / 2⟩

/-- The region of every node contains the regions of its children, as `AABB::IsContain`
compares them. The edges of a child are rounded on their own, so this can fail. -/
def Nested (root : QuadNode) : Prop :=
  ∀ q i d c, dataAt root q = some d → dataAt root (q ++ [i]) = some c →
    d.mAABB.IsContain c.mAABB = true

/-- The check of `Nested` on a tree. -/
def QuadNode.nested : QuadNode → Bool
  | .leaf _ => true
  | .split d c0 c1 c2 c3 =>
    d.mAABB.IsContain c0.data.mAABB && d.mAABB.IsContain c1.data.mAABB &&
    d.mAABB.IsContain c2.data.mAABB && d.mAABB.IsContain c3.data.mAABB &&
    c0.nested && c1.nested && c2.nested && c3.nested

/-- Every value is the unit square at (30, 30). -/
def rimValues : Values := fun _ => boxValue ⟨30, 30, 1, 1⟩

/-- The values of `rimValues` after the square has grown to the width 1313997/65536, the float
nearest to 20.050003. -/
def widenedValues : Values := fun _ => boxValue ⟨30, 30, 1313997 / 65536, 1⟩

/-- A tree initialized by `Init(0.1f, 0.1f, 99.9f, 99.9f)`, the arguments being the floats
nearest to 1/10 and 999/10, after `Add(value, 3)` for value 0 of `rimValues`. -/
def rimTree : QuadTree :=
  ((QuadTree.new 6).Init (13421773 / 134217728) (13421773 / 134217728) (13094093 / 131072)
    (13094093 / 131072)).afterAddValue rimValues 3 (some 0) 3

/-- The tree `rimTree` after value 0 has grown as in `widenedValues` and its element has been
refreshed. -/
def widenedTree : QuadTree := okOr rimTree (rimTree.Refresh widenedValues 6 0)

/-! ## What `Add` leaves as it was -/

/-- Whether the element `e` is owned by a node of the subtree at `q`, as 1 or 0. -/
def under (s : Store) (e : Nat) (q : Path) : Int :=
  match s.GetNode e with
  | some o => if q <+: o then 1 else 0
  | none => 0

/-- From `s` to `s'` only the element `e` counts: at the nodes in `N` the route count has
moved only as far as `e` has come into the subtree or left it, and at the nodes in `L` that
have not got children the list is what it was, `e` apart. -/
def Frame (e : Nat) (N L : Path → Prop) (s s' : Store) : Prop :=
  (∀ q, N q → cntAt s'.root q - under s' e q = cntAt s.root q - under s e q) ∧
  (∀ q, L q → kidsAt s'.root q = kidsAt s.root q →
    (s'.elemsAt q).erase e = (s.elemsAt q).erase e)

/-- A call of `Add` that returns changes, at the nodes that exist, no route count but by the
element itself, and no list of a node that it does not split but by the element itself. -/
def FrameSpec (vals : Values) (rec : AddFn) : Prop :=
  ∀ p e atDeep s b s' n, Inv vals False s → s.root.find p = some n →
    (s.cell e).isSome = true → rec p e atDeep s = .ok (b, s') →
    Frame e (fun q => (dataAt s.root q).isSome = true) (fun q => (dataAt s.root q).isSome = true)
      s s'

/-! ## Lemmas -/

/-! ### Rounding -/

/-- The property of a binary logarithm rounded down. -/
theorem lg_shift {g : Nat → Nat} {w : Nat}
    (hg : ∀ n, 0 < n → n < 2 ^ w → 2 ^ g n ≤ n ∧ n < 2 ^ (g n + 1)) (n : Nat) (h0 : 0 < n)
    (h : n < 2 ^ (w + w)) :
    2 ^ (cond (Nat.ble (2 ^ w) n) (g (n / 2 ^ w) + w) (g n)) ≤ n ∧
      n < 2 ^ (cond (Nat.ble (2 ^ w) n) (g (n / 2 ^ w) + w) (g n) + 1) := by
  have hw : 0 < 2 ^ w := Nat.two_pow_pos w
  by_cases hc : 2 ^ w ≤ n
  · have hb : Nat.ble (2 ^ w) n = true := Nat.ble_eq_true_of_le hc
    rw [hb]
    simp only [cond_true]
    have h1 : 0 < n / 2 ^ w := Nat.div_pos hc hw
    have h2 : n / 2 ^ w < 2 ^ w := by
      apply Nat.div_lt_of_lt_mul
      rw [← pow_add]
      exact h
    obtain ⟨a, b⟩ := hg _ h1 h2
    constructor
    · rw [pow_add]
      exact (Nat.le_div_iff_mul_le hw).1 a
    · have : g (n / 2 ^ w) + w + 1 = (g (n / 2 ^ w) + 1) + w := by ring
      rw [this, pow_add]
      exact (Nat.div_lt_iff_lt_mul hw).1 b
  · have hb : Nat.ble (2 ^ w) n = false := by
      cases hx : Nat.ble (2 ^ w) n
      · rfl
      · exact absurd (Nat.le_of_ble_eq_true hx) hc
    rw [hb]
    simp only [cond_false]
    exact hg n h0 (not_le.1 hc)

theorem lg1_spec (n : Nat) (h0 : 0 < n) (h : n < 2 ^ 2) :
    2 ^ lg1 n ≤ n ∧ n < 2 ^ (lg1 n + 1) := by
  have h4 : n < 4 := h
  interval_cases n <;> decide

theorem lg2_spec (n : Nat) (h0 : 0 < n) (h : n < 2 ^ 4) :
    2 ^ lg2 n ≤ n ∧ n < 2 ^ (lg2 n + 1) :=
  lg_shift (w := 2) lg1_spec n h0 h

theorem lg4_spec (n : Nat) (h0 : 0 < n) (h : n < 2 ^ 8) :
    2 ^ lg4 n ≤ n ∧ n < 2 ^ (lg4 n + 1) :=
  lg_shift (w := 4) lg2_spec n h0 h

theorem lg8_spec (n : Nat) (h0 : 0 < n) (h : n < 2 ^ 16) :
    2 ^ lg8 n ≤ n ∧ n < 2 ^ (lg8 n + 1) :=
  lg_shift (w := 8) lg4_spec n h0 h

theorem lg16_spec (n : Nat) (h0 : 0 < n) (h : n < 2 ^ 32) :
    2 ^ lg16 n ≤ n ∧ n < 2 ^ (lg16 n + 1) :=
  lg_shift (w := 16) lg8_spec n h0 h

theorem lg32_spec (n : Nat) (h0 : 0 < n) (h : n < 2 ^ 64) :
    2 ^ lg32 n ≤ n ∧ n < 2 ^ (lg32 n + 1) :=
  lg_shift (w := 32) lg16_spec n h0 h

theorem ilog2_spec : ∀ (fuel n : Nat), 0 < n → n ≤ fuel →
    2 ^ ilog2 fuel n ≤ n ∧ n < 2 ^ (ilog2 fuel n + 1)
  | 0, n, h0, h => by omega
  | fuel + 1, n, h0, h => by
    have hw : 0 < 2 ^ 64 := Nat.two_pow_pos 64
    show 2 ^ (cond (Nat.ble (2 ^ 64) n) (ilog2 fuel (n / 2 ^ 64) + 64) (lg32 n)) ≤ n ∧
      n < 2 ^ (cond (Nat.ble (2 ^ 64) n) (ilog2 fuel (n / 2 ^ 64) + 64) (lg32 n) + 1)
    by_cases hc : 2 ^ 64 ≤ n
    · have hb : Nat.ble (2 ^ 64) n = true := Nat.ble_eq_true_of_le hc
      rw [hb]
      simp only [cond_true]
      have h1 : 0 < n / 2 ^ 64 := Nat.div_pos hc hw
      have h2 : n / 2 ^ 64 ≤ fuel := by
        have : n / 2 ^ 64 < n := Nat.div_lt_self h0 (by norm_num)
        omega
      obtain ⟨a, b⟩ := ilog2_spec fuel _ h1 h2
      constructor
      · rw [pow_add]
        exact (Nat.le_div_iff_mul_le hw).1 a
      · have : ilog2 fuel (n / 2 ^ 64) + 64 + 1 = (ilog2 fuel (n / 2 ^ 64) + 1) + 64 := by ring
        rw [this, pow_add]
        exact (Nat.div_lt_iff_lt_mul hw).1 b
    · have hb : Nat.ble (2 ^ 64) n = false := by
        cases hx : Nat.ble (2 ^ 64) n
        · rfl
        · exact absurd (Nat.le_of_ble_eq_true hx) hc
      rw [hb]
      simp only [cond_false]
      exact lg32_spec n h0 (not_le.1 hc)

/-- The exponent is not too large: `2 ^ expo m d ≤ m / d`. -/
theorem pow_expo_le {m d : Nat} (hm : 0 < m) (hd : 0 < d) :
    (2 : ℚ) ^ expo m d ≤ (m : ℚ) / d := by
  obtain ⟨a1, _⟩ := ilog2_spec m m hm (le_refl _)
  obtain ⟨_, b2⟩ := ilog2_spec d d hd (le_refl _)
  have hdq : (0 : ℚ) < d := by exact_mod_cast hd
  have a1q : (2 : ℚ) ^ (ilog2 m m) ≤ m := by exact_mod_cast a1
  have b2q : (d : ℚ) < 2 ^ (ilog2 d d + 1) := by exact_mod_cast b2
  have h2 : (0 : ℚ) < 2 := by norm_num
  unfold expo
  simp only
  split_ifs with h1 h3 h3
  · -- 0 ≤ e, m < d * 2 ^ e: the exponent is e - 1
    rw [le_div_iff₀ hdq]
    have : (2 : ℚ) ^ ((ilog2 m m : Int) - (ilog2 d d : Int) - 1) * 2 ^ (ilog2 d d + 1) =
        2 ^ (ilog2 m m) := by
      rw [← zpow_natCast (2 : ℚ) (ilog2 d d + 1), ← zpow_add₀ (ne_of_gt h2),
        ← zpow_natCast (2 : ℚ) (ilog2 m m)]
      congr 1
      push_cast
      ring
    calc (2 : ℚ) ^ ((ilog2 m m : Int) - (ilog2 d d : Int) - 1) * d
        ≤ 2 ^ ((ilog2 m m : Int) - (ilog2 d d : Int) - 1) * 2 ^ (ilog2 d d + 1) :=
          mul_le_mul_of_nonneg_left (le_of_lt b2q) (le_of_lt (zpow_pos h2 _))
      _ = 2 ^ (ilog2 m m) := this
      _ ≤ m := a1q
  · -- 0 ≤ e, d * 2 ^ e ≤ m
    rw [le_div_iff₀ hdq]
    have h4 : d * 2 ^ ((ilog2 m m : Int) - (ilog2 d d : Int)).toNat ≤ m := not_lt.1 h3
    have h5 : ((d * 2 ^ ((ilog2 m m : Int) - (ilog2 d d : Int)).toNat : Nat) : ℚ) ≤ m := by
      exact_mod_cast h4
    have h6 : (2 : ℚ) ^ ((ilog2 m m : Int) - (ilog2 d d : Int)) =
        2 ^ ((ilog2 m m : Int) - (ilog2 d d : Int)).toNat := by
      rw [← zpow_natCast, Int.toNat_of_nonneg h1]
    rw [h6, mul_comm]
    push_cast at h5
    exact h5
  · -- e < 0, m * 2 ^ (-e) < d: the exponent is e - 1
    rw [le_div_iff₀ hdq]
    have : (2 : ℚ) ^ ((ilog2 m m : Int) - (ilog2 d d : Int) - 1) * 2 ^ (ilog2 d d + 1) =
        2 ^ (ilog2 m m) := by
      rw [← zpow_natCast (2 : ℚ) (ilog2 d d + 1), ← zpow_add₀ (ne_of_gt h2),
        ← zpow_natCast (2 : ℚ) (ilog2 m m)]
      congr 1
      push_cast
      ring
    calc (2 : ℚ) ^ ((ilog2 m m : Int) - (ilog2 d d : Int) - 1) * d
        ≤ 2 ^ ((ilog2 m m : Int) - (ilog2 d d : Int) - 1) * 2 ^ (ilog2 d d + 1) :=
          mul_le_mul_of_nonneg_left (le_of_lt b2q) (le_of_lt (zpow_pos h2 _))
      _ = 2 ^ (ilog2 m m) := this
      _ ≤ m := a1q
  · -- e < 0, d ≤ m * 2 ^ (-e)
    rw [le_div_iff₀ hdq]
    have h4 : d ≤ m * 2 ^ (-((ilog2 m m : Int) - (ilog2 d d : Int))).toNat := not_lt.1 h3
    have h5 : (d : ℚ) ≤ ((m * 2 ^ (-((ilog2 m m : Int) - (ilog2 d d : Int))).toNat : Nat) : ℚ) := by
      exact_mod_cast h4
    have hneg : 0 ≤ -((ilog2 m m : Int) - (ilog2 d d : Int)) := by omega
    have h6 : (2 : ℚ) ^ (-((ilog2 m m : Int) - (ilog2 d d : Int))) =
        2 ^ (-((ilog2 m m : Int) - (ilog2 d d : Int))).toNat := by
      rw [← zpow_natCast, Int.toNat_of_nonneg hneg]
    push_cast at h5
    rw [← h6, zpow_neg] at h5
    have hp : (0 : ℚ) < 2 ^ ((ilog2 m m : Int) - (ilog2 d d : Int)) := zpow_pos h2 _
    calc (2 : ℚ) ^ ((ilog2 m m : Int) - (ilog2 d d : Int)) * d
        ≤ 2 ^ ((ilog2 m m : Int) - (ilog2 d d : Int)) *
            (m * (2 ^ ((ilog2 m m : Int) - (ilog2 d d : Int)))⁻¹) :=
          mul_le_mul_of_nonneg_left h5 (le_of_lt hp)
      _ = m := by field_simp

theorem roundEven_ge (a b : Nat) (hb : 0 < b) : (a : ℚ) / b - 1 / 2 ≤ roundEven a b := by
  have hbq : (0 : ℚ) < b := by exact_mod_cast hb
  have hdm : (a : ℚ) = b * (a / b : Nat) + (a % b : Nat) := by
    exact_mod_cast (Nat.div_add_mod a b).symm
  have hr : ((a % b : Nat) : ℚ) < b := by exact_mod_cast Nat.mod_lt a hb
  have hr0 : (0 : ℚ) ≤ ((a % b : Nat) : ℚ) := by exact_mod_cast Nat.zero_le _
  have key : (a : ℚ) / b = (a / b : Nat) + ((a % b : Nat) : ℚ) / b := by
    calc (a : ℚ) / b = ((b : ℚ) * (a / b : Nat) + (a % b : Nat)) / b := by rw [← hdm]
      _ = (a / b : Nat) + ((a % b : Nat) : ℚ) / b := by
        field_simp
        ring
  have hfrac : ((a % b : Nat) : ℚ) / b < 1 := (div_lt_one hbq).2 hr
  unfold roundEven
  simp only
  split_ifs with h1 h2 h3
  · have : ((2 * (a % b) : Nat) : ℚ) < b := by exact_mod_cast h1
    push_cast at this
    have h4 : ((a % b : Nat) : ℚ) / b < 1 / 2 := by
      rw [div_lt_iff₀ hbq]
      linarith
    rw [key]
    linarith
  · rw [key]
    push_cast
    linarith
  · have e1 : 2 * (a % b) = b := by omega
    have : ((2 * (a % b) : Nat) : ℚ) = b := by exact_mod_cast e1
    push_cast at this
    have h4 : ((a % b : Nat) : ℚ) / b = 1 / 2 := by
      rw [div_eq_iff (ne_of_gt hbq)]
      linarith
    rw [key, h4]
    linarith
  · rw [key]
    push_cast
    linarith

/-- Rounding a number below `2 ^ 24` takes away less than a half. -/
theorem fl_ge_sub_half {y : ℚ} (h0 : 0 < y) (h : y < 16777216) : y - 1 / 2 ≤ fl y := by
  have hn : 0 < y.num := Rat.num_pos.2 h0
  have hd : 0 < y.den := y.den_pos
  have hm : 0 < y.num.natAbs := Int.natAbs_pos.2 (ne_of_gt hn)
  have hmq : ((y.num.natAbs : Nat) : ℚ) = (y.num : ℚ) := by
    have : ((y.num.natAbs : Nat) : Int) = y.num := Int.natAbs_of_nonneg (le_of_lt hn)
    calc ((y.num.natAbs : Nat) : ℚ) = (((y.num.natAbs : Nat) : Int) : ℚ) :=
          (Int.cast_natCast _).symm
      _ = (y.num : ℚ) := by rw [this]
  have hy : (y.num.natAbs : ℚ) / y.den = y := by
    rw [hmq]
    exact Rat.num_div_den y
  have hfl : fl y = flPos y.num.natAbs y.den := by
    unfold fl
    rw [if_neg (ne_of_gt hn), if_neg (not_lt.2 (le_of_lt hn))]
  rw [hfl]
  have he : expo y.num.natAbs y.den ≤ 23 := by
    have h1 := pow_expo_le hm hd
    rw [hy] at h1
    have h2 : (2 : ℚ) ^ expo y.num.natAbs y.den < 2 ^ (24 : Int) := by
      refine lt_of_le_of_lt h1 (lt_of_lt_of_le h ?_)
      norm_num
    have := (zpow_lt_zpow_iff_right₀ (by norm_num : (1 : ℚ) < 2)).1 h2
    omega
  have hdq : (0 : ℚ) < y.den := by exact_mod_cast hd
  unfold flPos
  simp only
  split_ifs with hk
  · have hk0 : max (expo y.num.natAbs y.den) (-126) - 23 = 0 := by omega
    rw [hk0]
    simp only [Int.toNat_zero, pow_zero, mul_one]
    have := roundEven_ge y.num.natAbs y.den hd
    rw [hy] at this
    exact this
  · set j := (-(max (expo y.num.natAbs y.den) (-126) - 23)).toNat with hj
    have hp : (0 : ℚ) < 2 ^ j := by positivity
    have h1 : (1 : ℚ) ≤ 2 ^ j := one_le_pow₀ (by norm_num)
    have hpos : 0 < y.den := hd
    have := roundEven_ge (y.num.natAbs * 2 ^ j) y.den hd
    rw [Rat.mkRat_eq_div]
    push_cast at this ⊢
    rw [le_div_iff₀ hp]
    have e1 : (y.num.natAbs : ℚ) * 2 ^ j / y.den = y * 2 ^ j := by
      calc (y.num.natAbs : ℚ) * 2 ^ j / y.den = (y.num.natAbs : ℚ) / y.den * 2 ^ j := by ring
        _ = y * 2 ^ j := by rw [hy]
    rw [e1] at this
    nlinarith

theorem fl_neg (q : ℚ) : fl (-q) = -fl q := by
  unfold fl
  simp only [Rat.neg_num, Rat.neg_den, Int.natAbs_neg, neg_eq_zero, Left.neg_neg_iff]
  rcases lt_trichotomy q.num 0 with h | h | h
  · have h1 : ¬ 0 < q.num := by omega
    simp [ne_of_lt h, h, h1]
  · simp [h]
  · have h1 : ¬ q.num < 0 := by omega
    simp [ne_of_gt h, h, h1]

theorem fsub_comm_neg (a b : ℚ) : fsub b a = -fsub a b := by
  unfold fsub
  rw [← fl_neg]
  congr 1
  ring

namespace QuadNode

@[simp] theorem data_setData (n : QuadNode) (d : NodeData) : (n.setData d).data = d := by
  cases n <;> rfl

@[simp] theorem HasChild_setData (n : QuadNode) (d : NodeData) :
    (n.setData d).HasChild = n.HasChild := by
  cases n <;> rfl

@[simp] theorem GetChild_setData (n : QuadNode) (d : NodeData) (i : Nat) :
    (n.setData d).GetChild i = n.GetChild i := by
  cases n with
  | leaf d0 => simp [setData, GetChild]
  | split d0 c0 c1 c2 c3 =>
    match i with
    | 0 => rfl
    | 1 => rfl
    | 2 => rfl
    | 3 => rfl
    | _ + 4 => rfl

@[simp] theorem data_setChild (n : QuadNode) (i : Nat) (c : QuadNode) :
    (n.setChild i c).data = n.data := by
  unfold setChild
  split <;> rfl

@[simp] theorem HasChild_setChild (n : QuadNode) (i : Nat) (c : QuadNode) :
    (n.setChild i c).HasChild = n.HasChild := by
  unfold setChild
  split <;> rfl

theorem GetChild_lt {n c : QuadNode} {i : Nat} (h : n.GetChild i = some c) : i < 4 := by
  unfold GetChild at h
  split at h <;> simp_all

theorem GetChild_hasChild {n c : QuadNode} {i : Nat} (h : n.GetChild i = some c) :
    n.HasChild = true := by
  cases n with
  | leaf d => simp [GetChild] at h
  | split d c0 c1 c2 c3 => rfl

theorem GetChild_isSome_of_hasChild {n : QuadNode} (h : n.HasChild = true) {i : Nat}
    (hi : i < 4) : ∃ c, n.GetChild i = some c := by
  cases n with
  | leaf d => simp [HasChild] at h
  | split d c0 c1 c2 c3 =>
    match i, hi with
    | 0, _ => exact ⟨c0, rfl⟩
    | 1, _ => exact ⟨c1, rfl⟩
    | 2, _ => exact ⟨c2, rfl⟩
    | 3, _ => exact ⟨c3, rfl⟩

theorem GetChild_setChild {n c0 : QuadNode} {i : Nat} (h : n.GetChild i = some c0)
    (c : QuadNode) (j : Nat) :
    (n.setChild i c).GetChild j = if j = i then some c else n.GetChild j := by
  cases n with
  | leaf d => simp [GetChild] at h
  | split d a0 a1 a2 a3 =>
    have hi := GetChild_lt h
    match i, hi with
    | 0, _ =>
      match j with
      | 0 => rfl
      | 1 => rfl
      | 2 => rfl
      | 3 => rfl
      | _ + 4 => rfl
    | 1, _ =>
      match j with
      | 0 => rfl
      | 1 => rfl
      | 2 => rfl
      | 3 => rfl
      | _ + 4 => rfl
    | 2, _ =>
      match j with
      | 0 => rfl
      | 1 => rfl
      | 2 => rfl
      | 3 => rfl
      | _ + 4 => rfl
    | 3, _ =>
      match j with
      | 0 => rfl
      | 1 => rfl
      | 2 => rfl
      | 3 => rfl
      | _ + 4 => rfl

@[simp] theorem find_nil (n : QuadNode) : n.find [] = some n := rfl

theorem find_cons (n : QuadNode) (i : Nat) (p : Path) :
    n.find (i :: p) = (n.GetChild i).bind (fun c => c.find p) := by
  simp only [find]
  cases n.GetChild i <;> rfl

theorem find_append (n : QuadNode) (p r : Path) :
    n.find (p ++ r) = (n.find p).bind (fun m => m.find r) := by
  induction p generalizing n with
  | nil => simp
  | cons i p ih =>
    simp only [List.cons_append, find_cons]
    cases n.GetChild i with
    | none => rfl
    | some c => simpa using ih c

theorem find_setData_cons (n : QuadNode) (d : NodeData) (i : Nat) (r : Path) :
    (n.setData d).find (i :: r) = n.find (i :: r) := by
  simp [find_cons]

theorem update_cons_some {n c : QuadNode} {i : Nat} (h : n.GetChild i = some c)
    (f : QuadNode → QuadNode) (p : Path) :
    n.update f (i :: p) = n.setChild i (c.update f p) := by
  simp [update, h]

theorem update_invalid (f : QuadNode → QuadNode) {root : QuadNode} {p : Path}
    (h : root.find p = none) : root.update f p = root := by
  induction p generalizing root with
  | nil => simp at h
  | cons i p ih =>
    rw [find_cons] at h
    cases hc : root.GetChild i with
    | none => simp [update, hc]
    | some c =>
      rw [hc] at h
      have h1 : c.find p = none := by simpa using h
      rw [update_cons_some hc, ih h1]
      cases root with
      | leaf d => simp [GetChild] at hc
      | split d a0 a1 a2 a3 =>
        have hi := GetChild_lt hc
        match i, hi with
        | 0, _ => simp [GetChild] at hc; simp [setChild, hc]
        | 1, _ => simp [GetChild] at hc; simp [setChild, hc]
        | 2, _ => simp [GetChild] at hc; simp [setChild, hc]
        | 3, _ => simp [GetChild] at hc; simp [setChild, hc]

/-- After an update at `p`, a pointer into the subtree of `p` sees the updated node. -/
theorem find_update_ext (f : QuadNode → QuadNode) {root n : QuadNode} {p : Path}
    (h : root.find p = some n) (r : Path) :
    (root.update f p).find (p ++ r) = (f n).find r := by
  induction p generalizing root with
  | nil =>
    simp at h
    subst h
    simp [update]
  | cons i p ih =>
    rw [find_cons] at h
    cases hc : root.GetChild i with
    | none => simp [hc] at h
    | some c =>
      rw [hc] at h
      have h1 : c.find p = some n := by simpa using h
      rw [update_cons_some hc, List.cons_append, find_cons, GetChild_setChild hc]
      simpa using ih h1

/-- After an update at `p`, a pointer that does not lead into the subtree of `p` sees the
same data and the same children flag as before. -/
theorem find_update_off (f : QuadNode → QuadNode) (root : QuadNode) {p q : Path}
    (h : ¬ p <+: q) :
    ((root.update f p).find q).map data = (root.find q).map data ∧
    ((root.update f p).find q).map HasChild = (root.find q).map HasChild := by
  induction p generalizing root q with
  | nil => simp at h
  | cons i p ih =>
    cases hc : root.GetChild i with
    | none => simp [update, hc]
    | some c =>
      rw [update_cons_some hc]
      cases q with
      | nil => simp
      | cons j q =>
        rw [find_cons, find_cons, GetChild_setChild hc]
        by_cases hj : j = i
        · subst hj
          have h1 : ¬ p <+: q := fun hp => h (by simpa using hp)
          simpa [hc] using ih c h1
        · simp [hj]

end QuadNode

theorem dataAt_update_mapData (g : NodeData → NodeData) (root : QuadNode) (p q : Path) :
    dataAt (root.update (mapData g) p) q =
      (dataAt root q).map (fun d => if q = p then g d else d) := by
  unfold dataAt
  cases hp : root.find p with
  | none =>
    rw [QuadNode.update_invalid _ hp]
    by_cases hq : q = p
    · subst hq; simp [hp]
    · simp [hq, Function.comp_def]
  | some n =>
    by_cases hpq : p <+: q
    · obtain ⟨r, rfl⟩ := hpq
      rw [QuadNode.find_update_ext _ hp, QuadNode.find_append, hp]
      cases r with
      | nil => simp [mapData]
      | cons i r => simp [mapData, QuadNode.find_setData_cons, Function.comp_def]
    · rw [(QuadNode.find_update_off _ root hpq).1]
      have : q ≠ p := fun h => hpq (h ▸ List.prefix_refl _)
      simp [this, Function.comp_def]

theorem kidsAt_update_mapData (g : NodeData → NodeData) (root : QuadNode) (p q : Path) :
    kidsAt (root.update (mapData g) p) q = kidsAt root q := by
  unfold kidsAt
  cases hp : root.find p with
  | none => rw [QuadNode.update_invalid _ hp]
  | some n =>
    by_cases hpq : p <+: q
    · obtain ⟨r, rfl⟩ := hpq
      rw [QuadNode.find_update_ext _ hp, QuadNode.find_append, hp]
      cases r with
      | nil => simp [mapData]
      | cons i r => simp [mapData, QuadNode.find_setData_cons]
    · exact (QuadNode.find_update_off _ root hpq).2

theorem bumpRoute_eq (add : Bool) : bumpRoute add = mapData (bumpData add) := rfl

theorem parentChain_concat (p : Path) (i : Nat) :
    parentChain (p ++ [i]) = (p ++ [i]) :: parentChain p := by
  simp [parentChain, List.inits_append, List.inits]

theorem SetRouteElemCount_concat (root : QuadNode) (p : Path) (i : Nat) (add : Bool) :
    SetRouteElemCount root (p ++ [i]) add =
      SetRouteElemCount (root.update (bumpRoute add) (p ++ [i])) p add := by
  simp [SetRouteElemCount, parentChain_concat]

theorem dataAt_SetRouteElemCount (root : QuadNode) (p q : Path) (add : Bool) :
    dataAt (SetRouteElemCount root p add) q =
      (dataAt root q).map (fun d => if q <+: p then bumpData add d else d) := by
  induction p using List.reverseRecOn generalizing root with
  | nil =>
    simp only [SetRouteElemCount, parentChain, List.inits, List.reverse_cons, List.reverse_nil,
      List.nil_append, List.foldl_cons, List.foldl_nil, bumpRoute_eq, dataAt_update_mapData,
      List.prefix_nil]
  | append_singleton p i ih =>
    rw [SetRouteElemCount_concat, ih, bumpRoute_eq, dataAt_update_mapData]
    cases dataAt root q with
    | none => rfl
    | some d =>
      simp only [Option.map_some']
      by_cases h1 : q = p ++ [i]
      · subst h1
        have : ¬ (p ++ [i] <+: p) := by
          intro h
          have := h.length_le
          simp at this
        simp [this]
      · simp only [h1, if_false]
        have : (q <+: p ++ [i]) ↔ q <+: p := by
          rw [List.prefix_concat_iff]
          simp [h1]
        simp [this]

theorem kidsAt_SetRouteElemCount (root : QuadNode) (p q : Path) (add : Bool) :
    kidsAt (SetRouteElemCount root p add) q = kidsAt root q := by
  induction p using List.reverseRecOn generalizing root with
  | nil =>
    simp only [SetRouteElemCount, parentChain, List.inits, List.reverse_cons, List.reverse_nil,
      List.nil_append, List.foldl_cons, List.foldl_nil, bumpRoute_eq, kidsAt_update_mapData]
  | append_singleton p i ih =>
    rw [SetRouteElemCount_concat, ih, bumpRoute_eq, kidsAt_update_mapData]

namespace Store

@[simp] theorem SetNode_root (s : Store) (e : Nat) (n : Option Path) : (s.SetNode e n).root = s.root := rfl

theorem SetNode_cell (s : Store) (e : Nat) (n : Option Path) (e' : Nat) :
    (s.SetNode e n).cell e' =
      if e' = e then (s.cell e).map (fun c => { c with mNode := n }) else s.cell e' := rfl

theorem RemoveElem_root (s : Store) (o : Path) (e : Nat) (h : s.GetNode e = some o) :
    (s.RemoveElem o e).root = s.detachRoot e := by
  unfold RemoveElem detachRoot
  simp only [h, ne_eq, not_true_eq_false, if_false]
  split <;> rfl

theorem RemoveElem_cell (s : Store) (o : Path) (e : Nat) (h : s.GetNode e = some o) (e' : Nat) :
    (s.RemoveElem o e).cell e' =
      if e' = e then (s.cell e).map (fun c => { c with mNode := none }) else s.cell e' := by
  unfold RemoveElem
  simp only [h, ne_eq, not_true_eq_false, if_false]
  split <;> rfl

theorem AddElem_root (s : Store) (p : Path) (e : Nat) (h : s.GetNode e ≠ some p) :
    (s.AddElem p e).root =
      SetRouteElemCount ((s.detachRoot e).update (mapData (pushData e)) p) p true := by
  unfold AddElem
  simp only [h, if_false]
  cases ho : s.GetNode e with
  | none => simp [detachRoot, ho]; rfl
  | some o => simp [RemoveElem_root s o e ho]; rfl

theorem AddElem_cell (s : Store) (p : Path) (e : Nat) (e' : Nat) :
    (s.AddElem p e).cell e' =
      if e' = e then (s.cell e).map (fun c => { c with mNode := some p }) else s.cell e' := by
  unfold AddElem
  by_cases h : s.GetNode e = some p
  · simp only [h, if_true]
    by_cases he : e' = e
    · subst he
      simp only [if_true]
      unfold GetNode at h
      cases hc : s.cell e' with
      | none => rfl
      | some c =>
        rw [hc] at h
        simp at h
        cases c
        simp_all
    · simp [he]
  · simp only [h, if_false]
    cases ho : s.GetNode e with
    | none =>
      simp only [SetNode_cell]
    | some o =>
      simp only [SetNode_cell, RemoveElem_cell s o e ho]
      by_cases he : e' = e
      · simp [he]
        cases s.cell e <;> simp
      · simp [he]

end Store

theorem QuadNode.find_some_lt {root n : QuadNode} {p : Path} (h : root.find p = some n) :
    ∀ i ∈ p, i < 4 := by
  induction p generalizing root with
  | nil => simp
  | cons j p ih =>
    rw [QuadNode.find_cons] at h
    cases hc : root.GetChild j with
    | none => simp [hc] at h
    | some c =>
      rw [hc] at h
      intro i hi
      rcases List.mem_cons.1 hi with rfl | hi
      · exact QuadNode.GetChild_lt hc
      · exact ih (by simpa using h) i hi

theorem QuadNode.find_prefix {root n : QuadNode} {p q : Path} (h : root.find p = some n)
    (hq : q <+: p) : ∃ m, root.find q = some m := by
  obtain ⟨r, rfl⟩ := hq
  rw [QuadNode.find_append] at h
  cases hm : root.find q with
  | none => simp [hm] at h
  | some m => exact ⟨m, rfl⟩

/-- A node on the way to `t` is `t` itself or has exactly one child on the way to `t`. -/
theorem prefix_sum (t q : Path) (ht : ∀ i ∈ t, i < 4) :
    (if q <+: t then (1 : Int) else 0) = (if q = t then 1 else 0) +
      ((if q ++ [0] <+: t then 1 else 0) + (if q ++ [1] <+: t then 1 else 0) +
       (if q ++ [2] <+: t then 1 else 0) + (if q ++ [3] <+: t then 1 else 0)) := by
  by_cases h : q <+: t
  · obtain ⟨r, rfl⟩ := h
    cases r with
    | nil =>
      have h0 : ∀ j, ¬ (q ++ [j] <+: q) := by
        intro j h
        have := h.length_le
        simp at this
      simp [h0]
    | cons i r =>
      have hi : i < 4 := ht i (by simp)
      have h1 : ∀ j, (q ++ [j] <+: q ++ i :: r) ↔ j = i := by
        intro j
        rw [List.prefix_append_right_inj]
        simp
      simp only [h1, List.prefix_append, if_true]
      have h2 : q ≠ q ++ i :: r := by
        intro h
        have := congrArg List.length h
        simp at this
      simp only [h2, if_false]
      interval_cases i <;> simp
  · have h1 : ∀ j, ¬ (q ++ [j] <+: t) := fun j hj => h ((List.prefix_append q [j]).trans hj)
    have h2 : q ≠ t := fun e => h (e ▸ List.prefix_refl _)
    simp [h, h1, h2]

theorem cntAt_eq (root : QuadNode) (q : Path) :
    cntAt root q = ((dataAt root q).map NodeData.mRouteElemCount).getD 0 := by
  unfold cntAt dataAt
  cases root.find q <;> rfl

theorem Store.elemsAt_eq (s : Store) (q : Path) :
    s.elemsAt q = ((dataAt s.root q).map NodeData.mElems).getD [] := by
  unfold Store.elemsAt dataAt
  cases s.root.find q <;> rfl

theorem dataAt_isSome_of_mem {s : Store} {q : Path} {e : Nat} (h : e ∈ s.elemsAt q) :
    ∃ d, dataAt s.root q = some d ∧ s.elemsAt q = d.mElems := by
  rw [Store.elemsAt_eq] at h ⊢
  cases hd : dataAt s.root q with
  | none => simp [hd] at h
  | some d => exact ⟨d, rfl, rfl⟩

theorem Edit_push (root : QuadNode) (p : Path) (e : Nat) :
    Edit root (SetRouteElemCount (root.update (mapData (pushData e)) p) p true) p true
      (fun l => l ++ [e]) := by
  constructor
  · intro q
    rw [dataAt_SetRouteElemCount, dataAt_update_mapData]
    cases dataAt root q with
    | none => rfl
    | some d =>
      simp only [Option.map_some', editView, bumpData, pushData]
      by_cases h1 : q = p
      · subst h1; simp
      · by_cases h2 : q <+: p <;> simp [h1, h2]
  · intro q
    rw [kidsAt_SetRouteElemCount, kidsAt_update_mapData]

theorem Edit_erase (root : QuadNode) (o : Path) (e : Nat) :
    Edit root ((SetRouteElemCount root o false).update (mapData (eraseData e)) o) o false
      (fun l => l.erase e) := by
  constructor
  · intro q
    rw [dataAt_update_mapData, dataAt_SetRouteElemCount]
    cases dataAt root q with
    | none => rfl
    | some d =>
      simp only [Option.map_some', editView, bumpData, eraseData]
      by_cases h1 : q = o
      · subst h1; simp
      · by_cases h2 : q <+: o <;> simp [h1, h2]
  · intro q
    rw [kidsAt_update_mapData, kidsAt_SetRouteElemCount]

theorem Edit.depth {root root' : QuadNode} {t : Path} {add : Bool} {g : List Nat → List Nat}
    (h : Edit root root' t add g) (hd : DepthInv root) : DepthInv root' := by
  intro q d hq
  rw [h.1 q] at hq
  cases h0 : dataAt root q with
  | none => simp [h0] at hq
  | some d0 =>
    rw [h0] at hq
    simp at hq
    subst hq
    exact hd q d0 h0

theorem Edit.region {root root' : QuadNode} {t : Path} {add : Bool} {g : List Nat → List Nat}
    (h : Edit root root' t add g) (hr : RegionInv root) : RegionInv root' := by
  intro q i d c hq hc
  rw [h.1 q] at hq
  rw [h.1 (q ++ [i])] at hc
  cases h0 : dataAt root q with
  | none => simp [h0] at hq
  | some d0 =>
    cases h1 : dataAt root (q ++ [i]) with
    | none => simp [h1] at hc
    | some c0 =>
      rw [h0] at hq
      rw [h1] at hc
      simp at hq hc
      subst hq hc
      exact hr q i d0 c0 h0 h1

theorem Edit.cntAt {root root' : QuadNode} {t : Path} {add : Bool} {g : List Nat → List Nat}
    (h : Edit root root' t add g) {n : QuadNode} (ht : root.find t = some n) (q : Path) :
    cntAt root' q = cntAt root q +
      (if q <+: t then (if add then 1 else -1) else 0) := by
  rw [cntAt_eq, cntAt_eq, h.1 q]
  cases h0 : dataAt root q with
  | none =>
    have : ¬ q <+: t := by
      intro hq
      obtain ⟨m, hm⟩ := QuadNode.find_prefix ht hq
      simp [dataAt, hm] at h0
    simp [this]
  | some d =>
    simp only [Option.map_some', editView, Option.getD_some]
    by_cases h2 : q <+: t
    · cases add <;> simp [h2]; ring
    · simp [h2]

theorem Edit.count {root root' : QuadNode} {t : Path} {add : Bool} {g : List Nat → List Nat}
    (h : Edit root root' t add g) {n : QuadNode} (ht : root.find t = some n)
    (hg : ((g n.data.mElems).length : Int) = n.data.mElems.length + (if add then 1 else -1))
    (hc : CountInv root) : CountInv root' := by
  intro q d hq
  rw [h.1 q] at hq
  cases h0 : dataAt root q with
  | none => simp [h0] at hq
  | some d0 =>
    rw [h0] at hq
    simp at hq
    subst hq
    have hinv := hc q d0 h0
    have hlt := QuadNode.find_some_lt ht
    have hsum := prefix_sum t q hlt
    rw [h.cntAt ht, h.cntAt ht, h.cntAt ht, h.cntAt ht]
    simp only [editView]
    by_cases hqt : q = t
    · subst hqt
      have hd0 : d0 = n.data := by
        simp [dataAt, ht] at h0
        exact h0.symm
      subst hd0
      have h1 : ∀ j, ¬ (q ++ [j] <+: q) := by
        intro j hj
        have := hj.length_le
        simp at this
      simp only [h1, if_false, if_true, List.prefix_refl, hg]
      cases add <;> simp <;> omega
    · simp only [hqt, if_false] at hsum ⊢
      by_cases hp : q <+: t
      · simp only [hp, if_true] at hsum ⊢
        cases add
        · simp only [Bool.false_eq_true, if_false]
          have e1 : ∀ j, (if q ++ [j] <+: t then (-1 : Int) else 0) =
              -(if q ++ [j] <+: t then (1 : Int) else 0) := by
            intro j; split <;> simp
          rw [e1, e1, e1, e1]
          omega
        · simp only [if_true]
          omega
      · have h1 : ∀ j, ¬ (q ++ [j] <+: t) :=
          fun j hj => hp ((List.prefix_append q [j]).trans hj)
        simp only [hp, h1, if_false]
        omega

theorem Edit.elemsAt {s s' : Store} {t : Path} {add : Bool} {g : List Nat → List Nat}
    (h : Edit s.root s'.root t add g) {n : QuadNode} (ht : s.root.find t = some n) (q : Path) :
    s'.elemsAt q = if q = t then g (s.elemsAt q) else s.elemsAt q := by
  rw [Store.elemsAt_eq, Store.elemsAt_eq, h.1 q]
  cases h0 : dataAt s.root q with
  | none =>
    have : q ≠ t := by
      rintro rfl
      simp [dataAt, ht] at h0
    simp [this]
  | some d =>
    simp only [Option.map_some', editView, Option.getD_some]

theorem Edit.node {root root' : QuadNode} {t : Path} {add : Bool} {g : List Nat → List Nat}
    (h : Edit root root' t add g) (q : Path) (d : NodeData) (hq : dataAt root q = some d) :
    ∃ d', dataAt root' q = some d' ∧ d'.mDeep = d.mDeep ∧ d'.mAABB = d.mAABB := by
  rw [h.1 q, hq]
  exact ⟨_, rfl, rfl, rfl⟩

namespace Store

theorem GetNode_AddElem (s : Store) (p : Path) (e : Nat) (ha : (s.cell e).isSome = true)
    (e' : Nat) : (s.AddElem p e).GetNode e' = if e' = e then some p else s.GetNode e' := by
  unfold GetNode
  rw [AddElem_cell]
  by_cases h : e' = e
  · subst h
    cases hc : s.cell e' with
    | none => simp [hc] at ha
    | some c => simp
  · simp [h]

theorem value_AddElem (s : Store) (p : Path) (e : Nat) (e' : Nat) :
    ((s.AddElem p e).cell e').map Element.mValue = (s.cell e').map Element.mValue := by
  rw [AddElem_cell]
  by_cases h : e' = e
  · subst h
    cases s.cell e' <;> simp
  · simp [h]

theorem GetNode_RemoveElem (s : Store) (o : Path) (e : Nat) (h : s.GetNode e = some o)
    (e' : Nat) : (s.RemoveElem o e).GetNode e' = if e' = e then none else s.GetNode e' := by
  unfold GetNode
  rw [RemoveElem_cell s o e h]
  by_cases h : e' = e
  · subst h
    cases hc : s.cell e' <;> simp
  · simp [h]

theorem value_RemoveElem (s : Store) (o : Path) (e : Nat) (h : s.GetNode e = some o)
    (e' : Nat) :
    ((s.RemoveElem o e).cell e').map Element.mValue = (s.cell e').map Element.mValue := by
  rw [RemoveElem_cell s o e h]
  by_cases h : e' = e
  · subst h
    cases s.cell e' <;> simp
  · simp [h]

theorem GetAABB_congr (vals : Values) {s s' : Store} (e : Nat)
    (h : (s'.cell e).map Element.mValue = (s.cell e).map Element.mValue) :
    s'.GetAABB vals e = s.GetAABB vals e := by
  unfold GetAABB GetValue
  cases h1 : s'.cell e <;> cases h2 : s.cell e <;> simp_all

theorem Edit_attach (s : Store) (p : Path) (e : Nat) (h : s.GetNode e = none) :
    Edit s.root (s.AddElem p e).root p true (fun l => l ++ [e]) := by
  have hne : s.GetNode e ≠ some p := by simp [h]
  rw [AddElem_root s p e hne]
  have : s.detachRoot e = s.root := by simp [detachRoot, h]
  rw [this]
  exact Edit_push s.root p e

theorem Edit_detach (s : Store) (o : Path) (e : Nat) (h : s.GetNode e = some o)
    (hm : e ∈ s.elemsAt o) :
    Edit s.root (s.RemoveElem o e).root o false (fun l => l.erase e) := by
  rw [RemoveElem_root s o e h]
  have : s.detachRoot e = (SetRouteElemCount s.root o false).update (mapData (eraseData e)) o := by
    simp [detachRoot, h, hm]
  rw [this]
  exact Edit_erase s.root o e

end Store

theorem ContainAt.ext {vals : Values} {s s' : Store} {p : Path} {e : Nat} (hx : Ext s s')
    (h : ContainAt vals s p e) : ContainAt vals s' p e := by
  intro q hq hne
  obtain ⟨b, d, hb, hd, hc⟩ := h q hq hne
  obtain ⟨d', hd', _, ha⟩ := hx.node q d hd
  refine ⟨b, d', ?_, hd', ?_⟩
  · rw [Store.GetAABB_congr vals e (hx.value e)]; exact hb
  · rw [ha]; exact hc

theorem Ext.refl_ext (s : Store) : Ext s s :=
  ⟨fun _ d h => ⟨d, h, rfl, rfl⟩, fun _ h => h, fun _ => rfl⟩

theorem Ext.trans_ext {s1 s2 s3 : Store} (h12 : Ext s1 s2) (h23 : Ext s2 s3) : Ext s1 s3 := by
  refine ⟨?_, ?_, ?_⟩
  · intro q d hd
    obtain ⟨d2, hd2, e1, e2⟩ := h12.node q d hd
    obtain ⟨d3, hd3, e3, e4⟩ := h23.node q d2 hd2
    exact ⟨d3, hd3, e3.trans e1, e4.trans e2⟩
  · intro q h
    exact h23.kids q (h12.kids q h)
  · intro e
    exact (h23.value e).trans (h12.value e)

theorem Ext.of_edit {s s' : Store} {t : Path} {add : Bool} {g : List Nat → List Nat}
    (h : Edit s.root s'.root t add g)
    (hv : ∀ e, (s'.cell e).map Element.mValue = (s.cell e).map Element.mValue) : Ext s s' :=
  ⟨h.node, fun q hq => by rw [h.2 q]; exact hq, hv⟩

/-- Storing an element that has no owner keeps the invariant. -/
theorem Inv.attach {vals : Values} {κ : Prop} {s : Store} {p : Path} {e : Nat} {n : QuadNode}
    (hI : Inv vals κ s) (hn : s.GetNode e = none) (ha : (s.cell e).isSome = true)
    (hp : s.root.find p = some n) (hc : κ → ContainAt vals s p e) :
    Inv vals κ (s.AddElem p e) := by
  have hE := Store.Edit_attach s p e hn
  have hx : Ext s (s.AddElem p e) := Ext.of_edit hE (Store.value_AddElem s p e)
  have hel := fun q => hE.elemsAt hp q
  have hnot : ∀ q, e ∉ s.elemsAt q := by
    intro q hq
    have := (hI.own.1 e q).2 hq
    rw [hn] at this
    cases this
  refine ⟨⟨?_, ?_⟩, ?_, hE.depth hI.depth, hE.region hI.region, ?_⟩
  · intro e' q
    rw [Store.GetNode_AddElem s p e ha, hel q]
    by_cases h1 : e' = e
    · subst h1
      by_cases h2 : q = p
      · subst h2; simp
      · have h3 : p ≠ q := fun h => h2 h.symm
        simp [h2, h3, hnot q]
    · simp only [h1, if_false]
      rw [hI.own.1 e' q]
      by_cases h2 : q = p
      · simp [h2, h1]
      · simp [h2]
  · intro q
    rw [hel q]
    by_cases h2 : q = p
    · simp only [h2, if_true]
      rw [List.nodup_append]
      refine ⟨hI.own.2 p, by simp, ?_⟩
      simp [hnot p]
    · simp only [h2, if_false]
      exact hI.own.2 q
  · refine hE.count hp ?_ hI.count
    simp
  · intro hκ e' q hq
    rw [Store.GetNode_AddElem s p e ha] at hq
    by_cases h1 : e' = e
    · subst h1
      simp at hq
      subst hq
      exact (hc hκ).ext hx
    · simp only [h1, if_false] at hq
      exact (hI.contain hκ e' q hq).ext hx

/-- Taking an element out of its owner keeps the invariant. -/
theorem Inv.detach_inv {vals : Values} {κ : Prop} {s : Store} {o : Path} {e : Nat}
    (hI : Inv vals κ s) (ho : s.GetNode e = some o) :
    Inv vals κ (s.RemoveElem o e) := by
  have hm : e ∈ s.elemsAt o := (hI.own.1 e o).1 ho
  obtain ⟨d, hd, hdl⟩ := dataAt_isSome_of_mem hm
  obtain ⟨n, hn⟩ : ∃ n, s.root.find o = some n := by
    unfold dataAt at hd
    cases h : s.root.find o with
    | none => simp [h] at hd
    | some n => exact ⟨n, rfl⟩
  have hE := Store.Edit_detach s o e ho hm
  have hx : Ext s (s.RemoveElem o e) := Ext.of_edit hE (Store.value_RemoveElem s o e ho)
  have hel := fun q => hE.elemsAt hn q
  refine ⟨⟨?_, ?_⟩, ?_, hE.depth hI.depth, hE.region hI.region, ?_⟩
  · intro e' q
    rw [Store.GetNode_RemoveElem s o e ho, hel q]
    by_cases h1 : e' = e
    · subst h1
      by_cases h2 : q = o
      · subst h2
        simp [(hI.own.2 q).mem_erase_iff]
      · simp only [h2, if_false, if_true]
        constructor
        · intro h; cases h
        · intro h
          have := (hI.own.1 e' q).2 h
          rw [ho] at this
          exact absurd (Option.some.inj this).symm h2
    · simp only [h1, if_false]
      rw [hI.own.1 e' q]
      by_cases h2 : q = o
      · simp [h2, List.mem_erase_of_ne h1]
      · simp [h2]
  · intro q
    rw [hel q]
    by_cases h2 : q = o
    · simp only [h2, if_true]
      exact (hI.own.2 o).erase e
    · simp only [h2, if_false]
      exact hI.own.2 q
  · refine hE.count hn ?_ hI.count
    have hmem : e ∈ n.data.mElems := by
      have : s.elemsAt o = n.data.mElems := by simp [Store.elemsAt, hn]
      rw [← this]; exact hm
    rw [List.length_erase_of_mem hmem]
    have : 0 < n.data.mElems.length := List.length_pos_of_mem hmem
    simp
    omega
  · intro hκ e' q hq
    rw [Store.GetNode_RemoveElem s o e ho] at hq
    by_cases h1 : e' = e
    · simp [h1] at hq
    · simp only [h1, if_false] at hq
      exact (hI.contain hκ e' q hq).ext hx

theorem QuadNode.InitChildren_leaf (d : NodeData) :
    (QuadNode.leaf d).InitChildren =
      .split d (.leaf (newChildData d 0)) (.leaf (newChildData d 1))
        (.leaf (newChildData d 2)) (.leaf (newChildData d 3)) := rfl

theorem QuadNode.InitChildren_of_hasChild {n : QuadNode} (h : n.HasChild = true) :
    n.InitChildren = n := by
  simp [QuadNode.InitChildren, h]

theorem QuadNode.update_eq_self (f : QuadNode → QuadNode) {root n : QuadNode} {p : Path}
    (h : root.find p = some n) (hf : f n = n) : root.update f p = root := by
  induction p generalizing root with
  | nil =>
    simp at h
    subst h
    simpa [QuadNode.update] using hf
  | cons i p ih =>
    rw [QuadNode.find_cons] at h
    cases hc : root.GetChild i with
    | none => simp [hc] at h
    | some c =>
      rw [hc] at h
      have h1 : c.find p = some n := by simpa using h
      rw [QuadNode.update_cons_some hc, ih h1]
      cases root with
      | leaf d => simp [QuadNode.GetChild] at hc
      | split d a0 a1 a2 a3 =>
        have hi := QuadNode.GetChild_lt hc
        match i, hi with
        | 0, _ => simp [QuadNode.GetChild] at hc; simp [QuadNode.setChild, hc]
        | 1, _ => simp [QuadNode.GetChild] at hc; simp [QuadNode.setChild, hc]
        | 2, _ => simp [QuadNode.GetChild] at hc; simp [QuadNode.setChild, hc]
        | 3, _ => simp [QuadNode.GetChild] at hc; simp [QuadNode.setChild, hc]

theorem Store.InitChildren_of_hasChild_store {s : Store} {p : Path} {n : QuadNode}
    (h : s.root.find p = some n) (hk : n.HasChild = true) : s.InitChildren p = s := by
  unfold Store.InitChildren
  rw [QuadNode.update_eq_self _ h (QuadNode.InitChildren_of_hasChild hk)]

/-- What a pointer sees after `InitChildren` on the childless node at `p`. -/
theorem find_InitChildren_leaf {root : QuadNode} {p : Path} {d : NodeData}
    (h : root.find p = some (.leaf d)) (q : Path) :
    dataAt (root.update QuadNode.InitChildren p) q =
      (if q = p ++ [0] then some (newChildData d 0)
       else if q = p ++ [1] then some (newChildData d 1)
       else if q = p ++ [2] then some (newChildData d 2)
       else if q = p ++ [3] then some (newChildData d 3)
       else dataAt root q) ∧
    kidsAt (root.update QuadNode.InitChildren p) q =
      (if q = p then some true
       else if q = p ++ [0] ∨ q = p ++ [1] ∨ q = p ++ [2] ∨ q = p ++ [3] then some false
       else kidsAt root q) := by
  by_cases hpq : p <+: q
  · obtain ⟨r, rfl⟩ := hpq
    unfold dataAt kidsAt
    rw [QuadNode.find_update_ext _ h, QuadNode.InitChildren_leaf, QuadNode.find_append, h]
    match r with
    | [] => simp [QuadNode.data, QuadNode.HasChild]
    | [0] => simp [QuadNode.find, QuadNode.GetChild, QuadNode.data, QuadNode.HasChild]
    | [1] => simp [QuadNode.find, QuadNode.GetChild, QuadNode.data, QuadNode.HasChild]
    | [2] => simp [QuadNode.find, QuadNode.GetChild, QuadNode.data, QuadNode.HasChild]
    | [3] => simp [QuadNode.find, QuadNode.GetChild, QuadNode.data, QuadNode.HasChild]
    | [_ + 4] => simp [QuadNode.find, QuadNode.GetChild]
    | 0 :: _ :: _ => simp [QuadNode.find, QuadNode.GetChild]
    | 1 :: _ :: _ => simp [QuadNode.find, QuadNode.GetChild]
    | 2 :: _ :: _ => simp [QuadNode.find, QuadNode.GetChild]
    | 3 :: _ :: _ => simp [QuadNode.find, QuadNode.GetChild]
    | (_ + 4) :: _ :: _ => simp [QuadNode.find, QuadNode.GetChild]
  · have h1 : ∀ r, q ≠ p ++ r := fun r hr => hpq (hr ▸ List.prefix_append p r)
    have h2 : q ≠ p := fun hr => hpq (hr ▸ List.prefix_refl p)
    have := QuadNode.find_update_off QuadNode.InitChildren root hpq
    unfold dataAt kidsAt
    simp only [h1, h2, if_false, false_or]
    exact this

theorem QuadNode.leaf_of_not_hasChild {n : QuadNode} (h : n.HasChild = false) :
    n = .leaf n.data := by
  cases n with
  | leaf d => rfl
  | split d c0 c1 c2 c3 => simp [QuadNode.HasChild] at h

theorem dataAt_child_of_leaf {root : QuadNode} {p : Path} {d : NodeData}
    (h : root.find p = some (.leaf d)) (i : Nat) (r : Path) :
    dataAt root (p ++ i :: r) = none := by
  unfold dataAt
  rw [QuadNode.find_append, h]
  simp [QuadNode.find, QuadNode.GetChild]

section InitChildren

variable {s : Store} {p : Path} {d : NodeData} (h : s.root.find p = some (.leaf d))
include h

theorem Store.dataAt_InitChildren_old (q : Path) (d0 : NodeData)
    (hq : dataAt s.root q = some d0) : dataAt (s.InitChildren p).root q = some d0 := by
  have hv := (find_InitChildren_leaf h q).1
  have hne : ∀ i, q ≠ p ++ [i] := by
    intro i hi
    rw [hi, dataAt_child_of_leaf h] at hq
    cases hq
  unfold Store.InitChildren
  simp only [hne, if_false] at hv
  rw [hv, hq]

theorem Store.dataAt_InitChildren_cases (q : Path) (d1 : NodeData)
    (hq : dataAt (s.InitChildren p).root q = some d1) :
    dataAt s.root q = some d1 ∨
      ∃ i, i < 4 ∧ q = p ++ [i] ∧ d1 = newChildData d i ∧ dataAt s.root q = none := by
  have hv := (find_InitChildren_leaf h q).1
  unfold Store.InitChildren at hq
  rw [hv] at hq
  by_cases h0 : q = p ++ [0]
  · right; refine ⟨0, by omega, h0, ?_, ?_⟩
    · simp [h0] at hq; exact hq.symm
    · rw [h0]; exact dataAt_child_of_leaf h 0 []
  by_cases h1 : q = p ++ [1]
  · right; refine ⟨1, by omega, h1, ?_, ?_⟩
    · simp [h1] at hq; exact hq.symm
    · rw [h1]; exact dataAt_child_of_leaf h 1 []
  by_cases h2 : q = p ++ [2]
  · right; refine ⟨2, by omega, h2, ?_, ?_⟩
    · simp [h2] at hq; exact hq.symm
    · rw [h2]; exact dataAt_child_of_leaf h 2 []
  by_cases h3 : q = p ++ [3]
  · right; refine ⟨3, by omega, h3, ?_, ?_⟩
    · simp [h3] at hq; exact hq.symm
    · rw [h3]; exact dataAt_child_of_leaf h 3 []
  left
  simpa [h0, h1, h2, h3] using hq

theorem Store.elemsAt_InitChildren (q : Path) : (s.InitChildren p).elemsAt q = s.elemsAt q := by
  rw [Store.elemsAt_eq, Store.elemsAt_eq]
  cases h1 : dataAt (s.InitChildren p).root q with
  | none =>
    cases h0 : dataAt s.root q with
    | none => rfl
    | some d0 =>
      rw [Store.dataAt_InitChildren_old h q d0 h0] at h1
      cases h1
  | some d1 =>
    rcases Store.dataAt_InitChildren_cases h q d1 h1 with h0 | ⟨i, _, _, hd, h0⟩
    · rw [h0]
    · rw [h0, hd]; rfl

theorem Store.cntAt_InitChildren (q : Path) :
    cntAt (s.InitChildren p).root q = cntAt s.root q := by
  rw [cntAt_eq, cntAt_eq]
  cases h1 : dataAt (s.InitChildren p).root q with
  | none =>
    cases h0 : dataAt s.root q with
    | none => rfl
    | some d0 =>
      rw [Store.dataAt_InitChildren_old h q d0 h0] at h1
      cases h1
  | some d1 =>
    rcases Store.dataAt_InitChildren_cases h q d1 h1 with h0 | ⟨i, _, _, hd, h0⟩
    · rw [h0]
    · rw [h0, hd]; rfl

theorem Store.Ext_InitChildren_leaf : Ext s (s.InitChildren p) := by
  refine ⟨?_, ?_, fun _ => rfl⟩
  · intro q d0 hq
    exact ⟨d0, Store.dataAt_InitChildren_old h q d0 hq, rfl, rfl⟩
  · intro q hq
    have hv := (find_InitChildren_leaf h q).2
    unfold Store.InitChildren
    rw [hv]
    by_cases h1 : q = p
    · simp [h1]
    · have hne : ∀ i, q ≠ p ++ [i] := by
        intro i hi
        have := dataAt_child_of_leaf h i []
        rw [← hi] at this
        unfold kidsAt at hq
        unfold dataAt at this
        cases hf : s.root.find q with
        | none => simp [hf] at hq
        | some m => simp [hf] at this
      simp [h1, hne, hq]

theorem Inv.InitChildren_leaf_inv {vals : Values} {κ : Prop} (hI : Inv vals κ s) :
    Inv vals κ (s.InitChildren p) := by
  have hx := Store.Ext_InitChildren_leaf h
  have hel := Store.elemsAt_InitChildren h
  have hcn := Store.cntAt_InitChildren h
  have hpd : dataAt s.root p = some d := by simp [dataAt, h, QuadNode.data]
  refine ⟨⟨?_, ?_⟩, ?_, ?_, ?_, ?_⟩
  · intro e q
    rw [hel q]
    exact hI.own.1 e q
  · intro q
    rw [hel q]
    exact hI.own.2 q
  · intro q d1 hq
    rw [hcn, hcn, hcn, hcn]
    rcases Store.dataAt_InitChildren_cases h q d1 hq with h0 | ⟨i, _, hqi, hd, _⟩
    · exact hI.count q d1 h0
    · subst hqi hd
      have hz : ∀ j, cntAt s.root (p ++ [i, j]) = 0 := by
        intro j
        have := dataAt_child_of_leaf h i [j]
        rw [cntAt_eq, this]; rfl
      simp [hz, newChildData]
  · intro q d1 hq
    rcases Store.dataAt_InitChildren_cases h q d1 hq with h0 | ⟨i, _, hqi, hd, _⟩
    · exact hI.depth q d1 h0
    · subst hqi hd
      have := hI.depth p d hpd
      simp [newChildData, this]
  · intro q i d1 c1 hq hc
    rcases Store.dataAt_InitChildren_cases h q d1 hq with h0 | ⟨j, _, hqj, hd, _⟩
    · rcases Store.dataAt_InitChildren_cases h (q ++ [i]) c1 hc with h1 | ⟨j, _, hqj, hd, _⟩
      · exact hI.region q i d1 c1 h0 h1
      · have hqp : q = p ∧ i = j := by
          have := List.append_inj' hqj rfl
          exact ⟨this.1, by simpa using this.2⟩
        obtain ⟨rfl, rfl⟩ := hqp
        rw [hpd] at h0
        cases h0
        rw [hd]; rfl
    · subst hqj
      have hv := (find_InitChildren_leaf h (p ++ [j] ++ [i])).1
      have hnone := dataAt_child_of_leaf h j [i]
      unfold Store.InitChildren at hc
      rw [hv] at hc
      simp at hc hnone
      rw [hnone] at hc
      cases hc
  · intro hκ e q hq
    exact (hI.contain hκ e q hq).ext hx

end InitChildren

theorem Store.find_leaf_of_not_hasChild {s : Store} {p : Path} {n : QuadNode}
    (h : s.root.find p = some n) (hk : n.HasChild = false) :
    s.root.find p = some (.leaf n.data) := by
  rw [h, ← QuadNode.leaf_of_not_hasChild hk]

/-- `InitChildren` on an existing node keeps the invariant. -/
theorem Inv.InitChildren_inv {vals : Values} {κ : Prop} {s : Store} {p : Path} {n : QuadNode}
    (hI : Inv vals κ s) (h : s.root.find p = some n) : Inv vals κ (s.InitChildren p) := by
  cases hk : n.HasChild with
  | true => rw [Store.InitChildren_of_hasChild_store h hk]; exact hI
  | false => exact hI.InitChildren_leaf_inv (Store.find_leaf_of_not_hasChild h hk)

theorem Ext.InitChildren_ext {s : Store} {p : Path} {n : QuadNode}
    (h : s.root.find p = some n) : Ext s (s.InitChildren p) := by
  cases hk : n.HasChild with
  | true => rw [Store.InitChildren_of_hasChild_store h hk]; exact Ext.refl_ext s
  | false => exact Store.Ext_InitChildren_leaf (Store.find_leaf_of_not_hasChild h hk)

theorem kidsAt_InitChildren {s : Store} {p : Path} {n : QuadNode}
    (h : s.root.find p = some n) : kidsAt (s.InitChildren p).root p = some true := by
  cases hk : n.HasChild with
  | true =>
    rw [Store.InitChildren_of_hasChild_store h hk]
    simp [kidsAt, h, hk]
  | false =>
    have := (find_InitChildren_leaf (Store.find_leaf_of_not_hasChild h hk) p).2
    unfold Store.InitChildren
    rw [this]
    simp

theorem Store.AddElem_of_owner {s : Store} {p : Path} {e : Nat} (h : s.GetNode e = some p) :
    s.AddElem p e = s := by
  simp [Store.AddElem, h]

theorem Store.AddElem_eq_detach {s : Store} {o p : Path} {e : Nat} (ho : s.GetNode e = some o)
    (hne : o ≠ p) : s.AddElem p e = (s.RemoveElem o e).AddElem p e := by
  have h1 : (s.RemoveElem o e).GetNode e = none := by
    rw [Store.GetNode_RemoveElem s o e ho]; simp
  unfold Store.AddElem
  simp [ho, hne, h1]

theorem Ext.alive {s s' : Store} (h : Ext s s') (e : Nat) :
    (s'.cell e).isSome = (s.cell e).isSome := by
  have := h.value e
  cases h1 : s'.cell e <;> cases h2 : s.cell e <;> simp_all

theorem Ext.find_ext {s s' : Store} (h : Ext s s') {q : Path} {n : QuadNode}
    (hq : s.root.find q = some n) : ∃ n', s'.root.find q = some n' := by
  obtain ⟨d', hd', _⟩ := h.node q n.data (by simp [dataAt, hq])
  unfold dataAt at hd'
  cases hf : s'.root.find q with
  | none => simp [hf] at hd'
  | some n' => exact ⟨n', rfl⟩

theorem Ext.detach_ext {vals : Values} {κ : Prop} {s : Store} {o : Path} {e : Nat}
    (hI : Inv vals κ s) (ho : s.GetNode e = some o) : Ext s (s.RemoveElem o e) :=
  Ext.of_edit (Store.Edit_detach s o e ho ((hI.own.1 e o).1 ho)) (Store.value_RemoveElem s o e ho)

theorem Ext.AddElem_ext {vals : Values} {κ : Prop} {s : Store} (hI : Inv vals κ s) (p : Path)
    (e : Nat) : Ext s (s.AddElem p e) := by
  cases ho : s.GetNode e with
  | none => exact Ext.of_edit (Store.Edit_attach s p e ho) (Store.value_AddElem s p e)
  | some o =>
    by_cases hne : o = p
    · subst hne
      rw [Store.AddElem_of_owner ho]
      exact Ext.refl_ext s
    · rw [Store.AddElem_eq_detach ho hne]
      have h1 : (s.RemoveElem o e).GetNode e = none := by
        rw [Store.GetNode_RemoveElem s o e ho]; simp
      exact (Ext.detach_ext hI ho).trans_ext
        (Ext.of_edit (Store.Edit_attach _ p e h1) (Store.value_AddElem _ p e))

/-- `AddElem` on an existing node and a live element keeps the invariant. -/
theorem Inv.AddElem_inv {vals : Values} {κ : Prop} {s : Store} {p : Path} {e : Nat} {n : QuadNode}
    (hI : Inv vals κ s) (ha : (s.cell e).isSome = true) (hp : s.root.find p = some n)
    (hc : κ → ContainAt vals s p e) : Inv vals κ (s.AddElem p e) := by
  cases ho : s.GetNode e with
  | none => exact hI.attach ho ha hp hc
  | some o =>
    by_cases hne : o = p
    · subst hne
      rw [Store.AddElem_of_owner ho]
      exact hI
    · rw [Store.AddElem_eq_detach ho hne]
      have hx := Ext.detach_ext hI ho
      have h1 : (s.RemoveElem o e).GetNode e = none := by
        rw [Store.GetNode_RemoveElem s o e ho]; simp
      obtain ⟨n', hn'⟩ := hx.find_ext hp
      exact (hI.detach_inv ho).attach h1 (by rw [hx.alive]; exact ha) hn'
        (fun hκ => (hc hκ).ext hx)

theorem Moved.refl_moved (c : Path) (s : Store) (e : Nat) : Moved c s s e := Or.inl rfl

theorem Moved.trans_moved {c : Path} {s1 s2 s3 : Store} {e : Nat} (h12 : Moved c s1 s2 e)
    (h23 : Moved c s2 s3 e) : Moved c s1 s3 e := by
  rcases h12 with h12 | ⟨o, o', h1, hc1, h2, hc2⟩
  · rcases h23 with h23 | ⟨o, o', h1, hc1, h2, hc2⟩
    · exact Or.inl (h23.trans h12)
    · exact Or.inr ⟨o, o', h12 ▸ h1, hc1, h2, hc2⟩
  · rcases h23 with h23 | ⟨o2, o2', h3, hc3, h4, hc4⟩
    · exact Or.inr ⟨o, o', h1, hc1, h23.trans h2, hc2⟩
    · exact Or.inr ⟨o, o2', h1, hc1, h4, hc4⟩

theorem Moved.mono_moved {c c' : Path} {s s' : Store} {e : Nat} (hc : c <+: c')
    (h : Moved c' s s' e) : Moved c s s' e := by
  rcases h with h | ⟨o, o', h1, hc1, h2, hc2⟩
  · exact Or.inl h
  · exact Or.inr ⟨o, o', h1, hc.trans hc1, h2, hc.trans hc2⟩

theorem Evolve.refl_evolve (e : Nat) (c : Path) (s : Store) : Evolve e c s s :=
  ⟨Ext.refl_ext s, fun e' _ => Moved.refl_moved c s e'⟩

theorem Evolve.trans_evolve {e : Nat} {c : Path} {s1 s2 s3 : Store} (h12 : Evolve e c s1 s2)
    (h23 : Evolve e c s2 s3) : Evolve e c s1 s3 :=
  ⟨h12.ext.trans_ext h23.ext, fun e' he => (h12.others e' he).trans_moved (h23.others e' he)⟩

theorem Evolve.mono_evolve {e : Nat} {c c' : Path} {s s' : Store} (hc : c <+: c')
    (h : Evolve e c' s s') : Evolve e c s s' :=
  ⟨h.ext, fun e' he => (h.others e' he).mono_moved hc⟩

theorem Evolve.AddElem_evolve {vals : Values} {κ : Prop} {s : Store} (hI : Inv vals κ s)
    {e : Nat} (ha : (s.cell e).isSome = true) (c p : Path) :
    Evolve e c s (s.AddElem p e) := by
  refine ⟨Ext.AddElem_ext hI p e, ?_⟩
  intro e' he
  left
  rw [Store.GetNode_AddElem s p e ha]
  simp [he]

theorem Evolve.InitChildren_evolve {s : Store} {p : Path} {n : QuadNode}
    (h : s.root.find p = some n) (e : Nat) (c : Path) : Evolve e c s (s.InitChildren p) :=
  ⟨Ext.InitChildren_ext h, fun _ _ => Or.inl rfl⟩

theorem prefix_dropLast_of_ne {q p : Path} (h : q <+: p) (hne : q ≠ p) : q <+: p.dropLast := by
  obtain ⟨r, rfl⟩ := h
  have hr : r ≠ [] := by
    rintro rfl
    simp at hne
  rw [List.dropLast_append_of_ne_nil _ hr]
  exact List.prefix_append q _

theorem ContainAt.of_check {vals : Values} {s : Store} {p : Path} {e : Nat} {n : QuadNode}
    (hp : s.root.find p = some n) (h : ContainAt vals s p.dropLast e)
    (hc : p ≠ [] → ∃ b, s.GetAABB vals e = some b ∧ n.IsContain b = true) :
    ContainAt vals s p e := by
  intro q hq hne
  by_cases hqp : q = p
  · subst hqp
    obtain ⟨b, hb, hb2⟩ := hc hne
    exact ⟨b, n.data, hb, by simp [dataAt, hp], hb2⟩
  · exact h q (prefix_dropLast_of_ne hq hqp) hne

theorem Store.alive_of_GetNode {s : Store} {e : Nat} {p : Path} (h : s.GetNode e = some p) :
    (s.cell e).isSome = true := by
  unfold Store.GetNode at h
  cases hc : s.cell e with
  | none => simp [hc] at h
  | some c => rfl

section Loops

variable {vals : Values} {κ : Prop} {rec : AddFn} (hrec : AddSpec vals κ rec)
include hrec

theorem tryChildren_spec (p : Path) (e : Nat) (atDeep : Int) (is : List Nat) :
    ∀ (s : Store) (b : Bool) (s' : Store), Inv vals κ s →
      (∀ i ∈ is, ∃ c, s.root.find (p ++ [i]) = some c) → (s.cell e).isSome = true →
      (κ → ContainAt vals s p e) → tryChildren rec p e atDeep is s = .ok (b, s') →
      Inv vals κ s' ∧ Evolve e p s s' ∧ (b = false → s' = s) ∧
      (b = true → ∃ r, s'.GetNode e = some (p ++ r)) := by
  induction is with
  | nil =>
    intro s b s' hI _ _ _ h
    simp only [tryChildren, Except.ok.injEq, Prod.mk.injEq] at h
    obtain ⟨rfl, rfl⟩ := h
    exact ⟨hI, Evolve.refl_evolve e p s, fun _ => rfl, (fun h => by cases h)⟩
  | cons i is ih =>
    intro s b s' hI hv ha hc h
    obtain ⟨c, hci⟩ := hv i (by simp)
    simp only [tryChildren] at h
    cases hr : rec (p ++ [i]) e atDeep s with
    | error err => simp [hr] at h
    | ok r =>
      obtain ⟨b1, s1⟩ := r
      have hpre : κ → ContainAt vals s (p ++ [i]).dropLast e := by
        intro hκ
        rw [List.dropLast_concat]
        exact hc hκ
      obtain ⟨hI1, hE1, hF1, hT1⟩ := hrec (p ++ [i]) e atDeep s b1 s1 c hI hci ha hpre hr
      cases b1 with
      | true =>
        simp only [hr, Except.ok.injEq, Prod.mk.injEq] at h
        obtain ⟨rfl, rfl⟩ := h
        refine ⟨hI1, hE1.mono_evolve (List.prefix_append p [i]), (fun h => by cases h), fun _ => ?_⟩
        obtain ⟨r, hr⟩ := hT1 rfl
        exact ⟨[i] ++ r, by rw [← List.append_assoc]; exact hr⟩
      | false =>
        simp only [hr] at h
        have hs : s1 = s := hF1 rfl
        rw [hs] at h
        exact ih s b s' hI (fun j hj => hv j (by simp [hj])) ha hc h

theorem redistributeElems_spec (p : Path) (i : Nat) (j : Nat) :
    ∀ (s s' : Store) (n c : QuadNode), Inv vals κ s → s.root.find p = some n →
      s.root.find (p ++ [i]) = some c →
      redistributeElems rec p (p ++ [i]) j s = .ok s' →
      Inv vals κ s' ∧ Ext s s' ∧ ∀ e', Moved p s s' e' := by
  induction j with
  | zero =>
    intro s s' n c hI _ _ h
    simp only [redistributeElems, Except.ok.injEq] at h
    subst h
    exact ⟨hI, Ext.refl_ext s, fun e' => Moved.refl_moved p s e'⟩
  | succ j ih =>
    intro s s' n c hI hp hci h
    simp only [redistributeElems, hp] at h
    cases hg : n.GetElem j with
    | none => simp [hg] at h
    | some ej =>
      simp only [hg] at h
      have hmem : ej ∈ s.elemsAt p := by
        have : s.elemsAt p = n.data.mElems := by simp [Store.elemsAt, hp]
        rw [this]
        exact List.get?_mem hg
      have hown : s.GetNode ej = some p := (hI.own.1 ej p).2 hmem
      cases hr : rec (p ++ [i]) ej 0 s with
      | error err => simp [hr] at h
      | ok r =>
        obtain ⟨b1, s1⟩ := r
        simp only [hr] at h
        have hpre : κ → ContainAt vals s (p ++ [i]).dropLast ej := by
          intro hκ
          rw [List.dropLast_concat]
          exact hI.contain hκ ej p hown
        obtain ⟨hI1, hE1, hF1, hT1⟩ :=
          hrec (p ++ [i]) ej 0 s b1 s1 c hI hci (Store.alive_of_GetNode hown) hpre hr
        obtain ⟨n1, hn1⟩ := hE1.ext.find_ext hp
        obtain ⟨c1, hc1⟩ := hE1.ext.find_ext hci
        obtain ⟨hI2, hX2, hM2⟩ := ih s1 s' n1 c1 hI1 hn1 hc1 h
        refine ⟨hI2, hE1.ext.trans_ext hX2, fun e' => Moved.trans_moved ?_ (hM2 e')⟩
        by_cases he : e' = ej
        · subst he
          cases b1 with
          | false => rw [hF1 rfl]; exact Moved.refl_moved p s e'
          | true =>
            obtain ⟨r, hr⟩ := hT1 rfl
            exact Or.inr ⟨p, p ++ [i] ++ r, hown, List.prefix_refl p, hr,
              by rw [List.append_assoc]; exact List.prefix_append p _⟩
        · exact (hE1.others e' he).mono_moved (List.prefix_append p [i])

theorem redistribute_spec (p : Path) (is : List Nat) :
    ∀ (s s' : Store) (n : QuadNode), Inv vals κ s → s.root.find p = some n →
      (∀ i ∈ is, ∃ c, s.root.find (p ++ [i]) = some c) →
      redistribute rec p is s = .ok s' →
      Inv vals κ s' ∧ Ext s s' ∧ ∀ e', Moved p s s' e' := by
  induction is with
  | nil =>
    intro s s' n hI _ _ h
    simp only [redistribute, Except.ok.injEq] at h
    subst h
    exact ⟨hI, Ext.refl_ext s, fun e' => Moved.refl_moved p s e'⟩
  | cons i is ih =>
    intro s s' n hI hp hv h
    obtain ⟨c, hci⟩ := hv i (by simp)
    simp only [redistribute] at h
    cases hr : redistributeElems rec p (p ++ [i]) (s.elemsAt p).length s with
    | error err => simp [hr] at h
    | ok s1 =>
      simp only [hr] at h
      obtain ⟨hI1, hX1, hM1⟩ := redistributeElems_spec hrec p i _ s s1 n c hI hp hci hr
      obtain ⟨n1, hn1⟩ := hX1.find_ext hp
      have hv1 : ∀ k ∈ is, ∃ c, s1.root.find (p ++ [k]) = some c := by
        intro k hk
        obtain ⟨ck, hck⟩ := hv k (by simp [hk])
        exact hX1.find_ext hck
      obtain ⟨hI2, hX2, hM2⟩ := ih s1 s' n1 hI1 hn1 hv1 h
      exact ⟨hI2, hX1.trans_ext hX2, fun e' => (hM1 e').trans_moved (hM2 e')⟩

end Loops

theorem range_node_count : List.range QT_NODE_COUNT = [0, 1, 2, 3] := by decide

theorem children_valid {s : Store} {p : Path} (h : kidsAt s.root p = some true) :
    ∀ i ∈ [0, 1, 2, 3], ∃ c, s.root.find (p ++ [i]) = some c := by
  intro i hi
  unfold kidsAt at h
  cases hn : s.root.find p with
  | none => simp [hn] at h
  | some n =>
    rw [hn] at h
    have hk : n.HasChild = true := by simpa using h
    have hi4 : i < 4 := by
      simp at hi
      omega
    obtain ⟨c, hc⟩ := QuadNode.GetChild_isSome_of_hasChild hk hi4
    refine ⟨c, ?_⟩
    rw [QuadNode.find_append, hn]
    simp [QuadNode.find, hc]

/-- The outcome `node->AddElem(elem); return true;` satisfies the specification of `Add`. -/
theorem AddElem_outcome {vals : Values} {κ : Prop} {s : Store} {p : Path} {e : Nat}
    {n : QuadNode} (hI : Inv vals κ s) (hp : s.root.find p = some n)
    (ha : (s.cell e).isSome = true) (hc : κ → ContainAt vals s p e) :
    Inv vals κ (s.AddElem p e) ∧ Evolve e p s (s.AddElem p e) ∧
      (true = false → s.AddElem p e = s) ∧
      (true = true → ∃ r, (s.AddElem p e).GetNode e = some (p ++ r)) :=
  ⟨hI.AddElem_inv ha hp hc, Evolve.AddElem_evolve hI ha p p, (fun h => by cases h),
    fun _ => ⟨[], by rw [Store.GetNode_AddElem s p e ha]; simp⟩⟩

/-- The tail of `Add`: try the children, and store at the node when none accepts. -/
theorem tryChildren_outcome {vals : Values} {κ : Prop} {rec : AddFn} (hrec : AddSpec vals κ rec)
    {s0 s : Store} {p : Path} {e : Nat} {atDeep : Int} {n : QuadNode} {b : Bool} {s' : Store}
    (h0 : Evolve e p s0 s) (hI : Inv vals κ s) (hp : s.root.find p = some n)
    (hk : kidsAt s.root p = some true) (ha : (s.cell e).isSome = true)
    (hc : κ → ContainAt vals s p e)
    (h : (match tryChildren rec p e atDeep [0, 1, 2, 3] s with
          | .error err => .error err
          | .ok (true, s1) => .ok (true, s1)
          | .ok (false, s1) => .ok (true, s1.AddElem p e)) = Except.ok (b, s')) :
    Inv vals κ s' ∧ Evolve e p s0 s' ∧ (b = false → s' = s0) ∧
      (b = true → ∃ r, s'.GetNode e = some (p ++ r)) := by
  cases ht : tryChildren rec p e atDeep [0, 1, 2, 3] s with
  | error err => simp [ht] at h
  | ok r =>
    obtain ⟨b1, s1⟩ := r
    obtain ⟨hI1, hE1, hF1, hT1⟩ :=
      tryChildren_spec hrec p e atDeep [0, 1, 2, 3] s b1 s1 hI (children_valid hk) ha hc ht
    cases b1 with
    | true =>
      simp only [ht, Except.ok.injEq, Prod.mk.injEq] at h
      obtain ⟨rfl, rfl⟩ := h
      exact ⟨hI1, h0.trans_evolve hE1, (fun h => by cases h), hT1⟩
    | false =>
      simp only [ht, Except.ok.injEq, Prod.mk.injEq] at h
      obtain ⟨rfl, rfl⟩ := h
      have hs : s1 = s := hF1 rfl
      rw [hs]
      obtain ⟨a1, a2, _, a4⟩ := AddElem_outcome hI hp ha hc
      exact ⟨a1, h0.trans_evolve a2, (fun h => by cases h), a4⟩

theorem AddBody_spec {vals : Values} {κ : Prop} {rec : AddFn} (mMaxDeep : Int)
    (hrec : AddSpec vals κ rec) : AddSpec vals κ (AddBody vals mMaxDeep rec) := by
  intro p e atDeep s b s' n hI hp ha hpre h
  have hdeep : n.GetDeep = p.length + 1 := hI.depth p n.data (by simp [dataAt, hp])
  unfold AddBody at h
  simp only [hp] at h
  split at h
  · simp only [Except.ok.injEq, Prod.mk.injEq] at h
    obtain ⟨rfl, rfl⟩ := h
    exact ⟨hI, Evolve.refl_evolve e p s, fun _ => rfl, (fun h => by cases h)⟩
  · rename_i hcheck
    have hc : κ → ContainAt vals s p e := by
      intro hκ
      refine ContainAt.of_check hp (hpre hκ) ?_
      intro hne
      have hgt : n.GetDeep > 1 := by
        rw [hdeep]
        have : 0 < p.length := List.length_pos.2 hne
        omega
      cases hb : s.GetAABB vals e with
      | none => simp [hb, hgt] at hcheck
      | some b0 =>
        refine ⟨b0, rfl, ?_⟩
        simp only [hb, hgt, decide_True, Bool.and_true, Bool.not_eq_true', Bool.not_eq_false] at hcheck
        simpa using hcheck
    split at h
    · simp only [Except.ok.injEq, Prod.mk.injEq] at h
      obtain ⟨rfl, rfl⟩ := h
      exact AddElem_outcome hI hp ha hc
    · split at h
      · cases h
      · split at h
        · simp only [Except.ok.injEq, Prod.mk.injEq] at h
          obtain ⟨rfl, rfl⟩ := h
          exact AddElem_outcome hI hp ha hc
        · split at h
          · rename_i hk
            rw [range_node_count] at h
            exact tryChildren_outcome hrec (Evolve.refl_evolve e p s) hI hp
              (by simp [kidsAt, hp, hk]) ha hc h
          · split at h
            · simp only [Except.ok.injEq, Prod.mk.injEq] at h
              obtain ⟨rfl, rfl⟩ := h
              exact AddElem_outcome hI hp ha hc
            · have hI1 : Inv vals κ (s.InitChildren p) := hI.InitChildren_inv hp
              have hE1 : Evolve e p s (s.InitChildren p) := Evolve.InitChildren_evolve hp e p
              have hk1 : kidsAt (s.InitChildren p).root p = some true := kidsAt_InitChildren hp
              change (match (if atDeep = 0 then
                  redistribute rec p (List.range QT_NODE_COUNT) (s.InitChildren p)
                  else Except.ok (s.InitChildren p)) with
                | .error err => .error err
                | .ok s2 =>
                  match tryChildren rec p e atDeep (List.range QT_NODE_COUNT) s2 with
                  | .error err => .error err
                  | .ok (true, s3) => .ok (true, s3)
                  | .ok (false, s3) => .ok (true, s3.AddElem p e)) = Except.ok (b, s') at h
              rw [range_node_count] at h
              obtain ⟨n1, hn1⟩ := hE1.ext.find_ext hp
              have key : ∀ s2, Inv vals κ s2 → Evolve e p s s2 → Ext (s.InitChildren p) s2 →
                  (match tryChildren rec p e atDeep [0, 1, 2, 3] s2 with
                    | .error err => .error err
                    | .ok (true, s3) => .ok (true, s3)
                    | .ok (false, s3) => .ok (true, s3.AddElem p e)) = Except.ok (b, s') →
                  Inv vals κ s' ∧ Evolve e p s s' ∧ (b = false → s' = s) ∧
                    (b = true → ∃ r, s'.GetNode e = some (p ++ r)) := by
                intro s2 hI2 hE2 hX12 h2
                obtain ⟨n2, hn2⟩ := hE2.ext.find_ext hp
                exact tryChildren_outcome hrec hE2 hI2 hn2 (hX12.kids p hk1)
                  (by rw [hE2.ext.alive]; exact ha) (fun hκ => (hc hκ).ext hE2.ext) h2
              by_cases h0 : atDeep = 0
              · subst h0
                simp only [↓reduceIte] at h
                cases hr : redistribute rec p [0, 1, 2, 3] (s.InitChildren p) with
                | error err => simp [hr] at h
                | ok s2 =>
                  simp only [hr] at h
                  obtain ⟨hI2, hX2, hM2⟩ := redistribute_spec hrec p [0, 1, 2, 3]
                    (s.InitChildren p) s2 n1 hI1 hn1 (children_valid hk1) hr
                  exact key s2 hI2 (hE1.trans_evolve ⟨hX2, fun e' _ => hM2 e'⟩) hX2 h
              · simp only [h0, if_false] at h
                exact key _ hI1 hE1 (Ext.refl_ext _) h

/-- Every call of `Add` that returns meets the specification. -/
theorem Add_spec (vals : Values) (κ : Prop) (mMaxDeep : Int) (fuel : Nat) :
    AddSpec vals κ (Add vals mMaxDeep fuel) := by
  induction fuel with
  | zero =>
    intro p e atDeep s b s' n _ _ _ _ h
    simp [Add] at h
  | succ k ih => exact AddBody_spec mMaxDeep ih

theorem Inv.of_not_inv {vals vals' : Values} {κ : Prop} {s : Store} (hκ : ¬ κ)
    (h : Inv vals κ s) : Inv vals' κ s :=
  ⟨h.own, h.count, h.depth, h.region, fun k => absurd k hκ⟩

/-- The invariant only looks at the back-pointers, and at the values of stored elements. -/
theorem Inv.congr {vals : Values} {κ : Prop} {s s' : Store} (hroot : s'.root = s.root)
    (hnode : ∀ e, s'.GetNode e = s.GetNode e)
    (hval : ∀ e p, s.GetNode e = some p → s'.cell e = s.cell e)
    (h : Inv vals κ s) : Inv vals κ s' := by
  have hel : ∀ q, s'.elemsAt q = s.elemsAt q := by
    intro q; simp [Store.elemsAt, hroot]
  refine ⟨⟨?_, ?_⟩, ?_, ?_, ?_, ?_⟩
  · intro e p
    rw [hnode, hel]
    exact h.own.1 e p
  · intro p
    rw [hel]
    exact h.own.2 p
  · rw [hroot]; exact h.count
  · rw [hroot]; exact h.depth
  · rw [hroot]; exact h.region
  · intro hκ e p hp
    rw [hnode] at hp
    intro q hq hne
    obtain ⟨b, d, hb, hd, hc⟩ := h.contain hκ e p hp q hq hne
    refine ⟨b, d, ?_, by rw [hroot]; exact hd, hc⟩
    have := hval e p hp
    unfold Store.GetAABB Store.GetValue at hb ⊢
    rw [this]
    exact hb

theorem ContainAt.nil (vals : Values) (s : Store) (e : Nat) : ContainAt vals s [] e := by
  intro q hq hne
  exact absurd (List.prefix_nil.1 hq) hne

theorem ContainAt.dropLast {vals : Values} {s : Store} {p : Path} {e : Nat}
    (h : ContainAt vals s p e) : ContainAt vals s p.dropLast e :=
  fun q hq hne => h q (hq.trans (List.dropLast_prefix p)) hne

theorem Inv.init_inv (vals : Values) (κ : Prop) (aabb : AABB) (cell : Nat → Option Element)
    (hc : ∀ e, (cell e).bind Element.mNode = none) :
    Inv vals κ ⟨QuadNode.new 1 aabb, cell⟩ := by
  have hfind : ∀ q d, dataAt (QuadNode.new 1 aabb) q = some d → q = [] ∧
      d = ⟨1, 0, aabb, []⟩ := by
    intro q d hq
    cases q with
    | nil =>
      simp [dataAt, QuadNode.new, QuadNode.data] at hq
      exact ⟨rfl, hq.symm⟩
    | cons i q => simp [dataAt, QuadNode.new, QuadNode.find, QuadNode.GetChild] at hq
  have hel : ∀ q, (Store.mk (QuadNode.new 1 aabb) cell).elemsAt q = [] := by
    intro q
    rw [Store.elemsAt_eq]
    cases hd : dataAt (QuadNode.new 1 aabb) q with
    | none => rfl
    | some d =>
      obtain ⟨_, rfl⟩ := hfind q d hd
      simp [hd]
  refine ⟨⟨?_, ?_⟩, ?_, ?_, ?_, ?_⟩
  · intro e p
    rw [hel]
    simp [Store.GetNode, hc]
  · intro p
    rw [hel]
    exact List.nodup_nil
  · intro q d hq
    obtain ⟨rfl, rfl⟩ := hfind q d hq
    simp [cntAt, QuadNode.new, QuadNode.find, QuadNode.GetChild]
  · intro q d hq
    obtain ⟨rfl, rfl⟩ := hfind q d hq
    simp
  · intro q i d c hq hc
    obtain ⟨h1, _⟩ := hfind _ c hc
    simp at h1
  · intro _ e p hp
    simp [Store.GetNode, hc] at hp

theorem Ext.cell_none {s s' : Store} (h : Ext s s') (e : Nat) :
    s'.cell e = none ↔ s.cell e = none := by
  have := h.alive e
  cases h1 : s'.cell e <;> cases h2 : s.cell e <;> simp_all

theorem TreeInv.init_tree (vals : Values) (κ : Prop) (maxDeep : Int) (x y width height : ℚ) :
    TreeInv vals κ ((QuadTree.new maxDeep).Init x y width height) := by
  refine ⟨?_, ?_, ?_⟩
  · intro root hr
    simp [QuadTree.Init, QuadTree.Clear, QuadTree.new] at hr
    subst hr
    exact Inv.init_inv vals κ _ _ (fun e => rfl)
  · intro e _
    rfl
  · simp [QuadTree.Init]

theorem TreeInv.newElement {vals : Values} {κ : Prop} {t : QuadTree} (h : TreeInv vals κ t)
    (value : Option Nat) : TreeInv vals κ (t.newElement value).2 := by
  have hn : t.cell t.next = none := h.fresh t.next (le_refl _)
  refine ⟨?_, ?_, h.inited⟩
  · intro root hr
    have hI := h.store root hr
    refine Inv.congr (s := ⟨root, t.cell⟩) rfl ?_ ?_ hI
    · intro e
      simp only [Store.GetNode, QuadTree.newElement]
      by_cases he : e = t.next
      · subst he; simp [hn]
      · simp [he]
    · intro e p hp
      simp only [QuadTree.newElement]
      by_cases he : e = t.next
      · subst he; simp [Store.GetNode, hn] at hp
      · simp [he]
  · intro e he
    simp only [QuadTree.newElement] at he ⊢
    have : e ≠ t.next := by omega
    simp only [this, if_false]
    exact h.fresh e (by omega)

/-- A step of the internal `Add` on the store of a tree keeps the invariant of the tree. -/
theorem TreeInv.setStore {vals : Values} {κ : Prop} {t : QuadTree} {root : QuadNode}
    {s' : Store} (h : TreeInv vals κ t) (hI : Inv vals κ s')
    (hx : Ext ⟨root, t.cell⟩ s') : TreeInv vals κ (t.setStore s') := by
  refine ⟨?_, ?_, by simp [QuadTree.setStore]⟩
  · intro r hr
    simp [QuadTree.setStore] at hr
    subst hr
    exact hI
  · intro e he
    simp only [QuadTree.setStore]
    exact (hx.cell_none e).2 (h.fresh e he)

theorem QuadTree.Add_ok {vals : Values} {fuel : Nat} {t t' : QuadTree} {elem : Nat}
    {atDeep : Int} {b : Bool} {root : QuadNode} (hr : t.mRoot = some root)
    (h : t.Add vals fuel elem atDeep = .ok (b, t')) :
    ∃ s', Recast.Add vals t.mMaxDeep fuel [] elem atDeep ⟨root, t.cell⟩ = .ok (b, s') ∧
      t' = t.setStore s' := by
  unfold QuadTree.Add at h
  simp only [hr] at h
  cases ha : Recast.Add vals t.mMaxDeep fuel [] elem atDeep ⟨root, t.cell⟩ with
  | error err => simp [ha] at h
  | ok r =>
    obtain ⟨b1, s1⟩ := r
    simp only [ha, Except.ok.injEq, Prod.mk.injEq] at h
    obtain ⟨rfl, rfl⟩ := h
    exact ⟨s1, rfl, rfl⟩

theorem TreeInv.add {vals : Values} {κ : Prop} {t t' : QuadTree} {fuel : Nat} {elem : Nat}
    {atDeep : Int} {b : Bool} (h : TreeInv vals κ t) (ha : (t.cell elem).isSome = true)
    (hadd : t.Add vals fuel elem atDeep = .ok (b, t')) : TreeInv vals κ t' := by
  cases hr : t.mRoot with
  | none => exact absurd hr h.inited
  | some root =>
    obtain ⟨s', hs', rfl⟩ := QuadTree.Add_ok hr hadd
    obtain ⟨hI, hE, _, _⟩ := Add_spec vals κ t.mMaxDeep fuel [] elem atDeep ⟨root, t.cell⟩ b s'
      root (h.store root hr) rfl ha (fun _ => ContainAt.nil vals _ elem) hs'
    exact h.setStore hI hE.ext

theorem TreeInv.addValue {vals : Values} {κ : Prop} {t t' : QuadTree} {fuel : Nat}
    {value : Option Nat} {atDeep : Int} {r : Option Nat} (h : TreeInv vals κ t)
    (hadd : t.AddValue vals fuel value atDeep = .ok (r, t')) : TreeInv vals κ t' := by
  cases hr : t.mRoot with
  | none => exact absurd hr h.inited
  | some root =>
    have h1 := h.newElement value
    unfold QuadTree.AddValue at hadd
    simp only [hr] at hadd
    cases ha : Recast.Add vals t.mMaxDeep fuel [] (t.newElement value).1 atDeep
        ⟨root, (t.newElement value).2.cell⟩ with
    | error err => simp [ha] at hadd
    | ok r1 =>
      obtain ⟨b1, s1⟩ := r1
      simp only [ha, Except.ok.injEq, Prod.mk.injEq] at hadd
      obtain ⟨_, rfl⟩ := hadd
      have hr1 : (t.newElement value).2.mRoot = some root := hr
      obtain ⟨hI, hE, _, _⟩ := Add_spec vals κ t.mMaxDeep fuel [] _ atDeep _ b1 s1
        root (h1.store root hr1) rfl (by simp [QuadTree.newElement])
        (fun _ => ContainAt.nil vals _ _) ha
      exact h1.setStore hI hE.ext

theorem TreeInv.deleteElem {vals : Values} {κ : Prop} {t : QuadTree} {e : Nat}
    (h : TreeInv vals κ t) (hn : (t.cell e).bind Element.mNode = none) :
    TreeInv vals κ (t.deleteElem e) := by
  refine ⟨?_, ?_, h.inited⟩
  · intro root hr
    have hI := h.store root hr
    refine Inv.congr (s := ⟨root, t.cell⟩) rfl ?_ ?_ hI
    · intro e'
      simp only [Store.GetNode, QuadTree.deleteElem]
      by_cases he : e' = e
      · subst he; simp [hn]
      · simp [he]
    · intro e' p hp
      simp only [QuadTree.deleteElem]
      by_cases he : e' = e
      · subst he; simp [Store.GetNode, hn] at hp
      · simp [he]
  · intro e' he
    simp only [QuadTree.deleteElem]
    split
    · rfl
    · exact h.fresh e' he

theorem TreeInv.remove {vals : Values} {κ : Prop} {t t' : QuadTree} {elem : Option Nat}
    {del : Bool} (h : TreeInv vals κ t) (hrem : t.Remove elem del = .ok t') :
    TreeInv vals κ t' := by
  unfold QuadTree.Remove at hrem
  cases elem with
  | none =>
    simp at hrem
    subst hrem
    exact h
  | some e =>
    simp only at hrem
    cases hn : (t.cell e).bind Element.mNode with
    | none =>
      simp only [hn, Except.ok.injEq] at hrem
      subst hrem
      cases del with
      | true => exact h.deleteElem hn
      | false => exact h
    | some node =>
      simp only [hn] at hrem
      cases hr : t.mRoot with
      | none => exact absurd hr h.inited
      | some root =>
        simp only [hr, Except.ok.injEq] at hrem
        subst hrem
        have hI := h.store root hr
        have ho : (Store.mk root t.cell).GetNode e = some node := hn
        have h1 : TreeInv vals κ (t.setStore (Store.RemoveElem ⟨root, t.cell⟩ node e)) :=
          h.setStore (hI.detach_inv ho) (Ext.detach_ext hI ho)
        cases del with
        | false => exact h1
        | true =>
          refine h1.deleteElem ?_
          have := Store.GetNode_RemoveElem ⟨root, t.cell⟩ node e ho e
          simpa [Store.GetNode, QuadTree.setStore] using this

theorem TreeInv.refresh {vals : Values} {κ : Prop} {t t' : QuadTree} {fuel : Nat} {elem : Nat}
    (h : TreeInv vals κ t) (ha : (t.cell elem).isSome = true)
    (href : t.Refresh vals fuel elem = .ok t') : TreeInv vals κ t' := by
  unfold QuadTree.Refresh at href
  have hvia : ∀ r, (match t.Add vals fuel elem 0 with
      | .error err => .error err
      | .ok (_, t1) => .ok t1) = Except.ok r → TreeInv vals κ r := by
    intro r hr
    cases hadd : t.Add vals fuel elem 0 with
    | error err => simp [hadd] at hr
    | ok x =>
      obtain ⟨b1, t1⟩ := x
      simp only [hadd, Except.ok.injEq] at hr
      subst hr
      exact h.add ha hadd
  cases hn : (t.cell elem).bind Element.mNode with
  | none =>
    simp only [hn] at href
    exact hvia t' href
  | some node =>
    simp only [hn] at href
    cases hr : t.mRoot with
    | none => exact absurd hr h.inited
    | some root =>
      simp only [hr] at href
      cases hf : root.find node with
      | none => simp [hf] at href
      | some n =>
        simp only [hf] at href
        cases hb : Store.GetAABB vals ⟨root, t.cell⟩ elem with
        | none => simp [hb] at href
        | some b =>
          simp only [hb] at href
          split at href
          · exact hvia t' href
          · cases hadd : Recast.Add vals t.mMaxDeep fuel node elem 0 ⟨root, t.cell⟩ with
            | error err => simp [hadd] at href
            | ok x =>
              obtain ⟨b1, s1⟩ := x
              simp only [hadd, Except.ok.injEq] at href
              subst href
              have hI := h.store root hr
              have ho : (Store.mk root t.cell).GetNode elem = some node := hn
              obtain ⟨hI1, hE, _, _⟩ := Add_spec vals κ t.mMaxDeep fuel node elem 0
                ⟨root, t.cell⟩ b1 s1 n hI hf ha
                (fun hκ => (hI.contain hκ elem node ho).dropLast) hadd
              exact h.setStore hI1 hE.ext

theorem TreeInv.of_not_tree {vals vals' : Values} {κ : Prop} {t : QuadTree} (hκ : ¬ κ)
    (h : TreeInv vals κ t) : TreeInv vals' κ t :=
  ⟨fun root hr => (h.store root hr).of_not_inv hκ, h.fresh, h.inited⟩

/-- Every reachable state satisfies the invariant; the part about the bounds (`κ`) needs all
calls to see the same values. -/
theorem Reachable.inv {E : Values → Prop} {vals : Values} {κ : Prop}
    (hE : κ → ∀ v, E v → v = vals) {t : QuadTree} (h : Reachable E t) : TreeInv vals κ t := by
  have conv : ∀ {v : Values} {t : QuadTree}, E v → TreeInv vals κ t → TreeInv v κ t := by
    intro v t hv ht
    by_cases hκ : κ
    · rw [hE hκ v hv]; exact ht
    · exact ht.of_not_tree hκ
  have back : ∀ {v : Values} {t : QuadTree}, E v → TreeInv v κ t → TreeInv vals κ t := by
    intro v t hv ht
    by_cases hκ : κ
    · rw [← hE hκ v hv]; exact ht
    · exact ht.of_not_tree hκ
  induction h with
  | init maxDeep x y w hh => exact TreeInv.init_tree vals κ maxDeep x y w hh
  | newElement value _ ih => exact ih.newElement value
  | add _ hv ha hadd ih => exact back hv ((conv hv ih).add ha hadd)
  | addValue _ hv hadd ih => exact back hv ((conv hv ih).addValue hadd)
  | remove _ _ hrem ih => exact ih.remove hrem
  | refresh _ hv ha href ih => exact back hv ((conv hv ih).refresh ha href)

theorem dataAt_split_cons (d : NodeData) (c0 c1 c2 c3 : QuadNode) (i : Nat) (q : Path) :
    dataAt (.split d c0 c1 c2 c3) (i :: q) =
      match i with
      | 0 => dataAt c0 q
      | 1 => dataAt c1 q
      | 2 => dataAt c2 q
      | 3 => dataAt c3 q
      | _ => none := by
  unfold dataAt
  match i with
  | 0 => simp [QuadNode.find, QuadNode.GetChild]
  | 1 => simp [QuadNode.find, QuadNode.GetChild]
  | 2 => simp [QuadNode.find, QuadNode.GetChild]
  | 3 => simp [QuadNode.find, QuadNode.GetChild]
  | _ + 4 => simp [QuadNode.find, QuadNode.GetChild]

theorem cntAt_split_cons (d : NodeData) (c0 c1 c2 c3 : QuadNode) (i : Nat) (q : Path) :
    cntAt (.split d c0 c1 c2 c3) (i :: q) =
      match i with
      | 0 => cntAt c0 q
      | 1 => cntAt c1 q
      | 2 => cntAt c2 q
      | 3 => cntAt c3 q
      | _ => 0 := by
  unfold cntAt
  match i with
  | 0 => simp [QuadNode.find, QuadNode.GetChild]
  | 1 => simp [QuadNode.find, QuadNode.GetChild]
  | 2 => simp [QuadNode.find, QuadNode.GetChild]
  | 3 => simp [QuadNode.find, QuadNode.GetChild]
  | _ + 4 => simp [QuadNode.find, QuadNode.GetChild]

theorem CountInv.child_count {d : NodeData} {c0 c1 c2 c3 : QuadNode}
    (h : CountInv (.split d c0 c1 c2 c3)) :
    CountInv c0 ∧ CountInv c1 ∧ CountInv c2 ∧ CountInv c3 := by
  refine ⟨?_, ?_, ?_, ?_⟩
  · intro q dq hq
    have := h (0 :: q) dq (by rw [dataAt_split_cons]; exact hq)
    simpa [cntAt_split_cons] using this
  · intro q dq hq
    have := h (1 :: q) dq (by rw [dataAt_split_cons]; exact hq)
    simpa [cntAt_split_cons] using this
  · intro q dq hq
    have := h (2 :: q) dq (by rw [dataAt_split_cons]; exact hq)
    simpa [cntAt_split_cons] using this
  · intro q dq hq
    have := h (3 :: q) dq (by rw [dataAt_split_cons]; exact hq)
    simpa [cntAt_split_cons] using this

theorem cntAt_nil (n : QuadNode) : cntAt n [] = n.GetRouteElemCount := rfl

theorem CountInv.routeCountOK : ∀ {n : QuadNode}, CountInv n → RouteCountOK n
  | .leaf d, h => by
    have := h [] d rfl
    simpa [RouteCountOK, cntAt, QuadNode.find, QuadNode.GetChild] using this
  | .split d c0 c1 c2 c3, h => by
    obtain ⟨h0, h1, h2, h3⟩ := h.child_count
    refine ⟨?_, h0.routeCountOK, h1.routeCountOK, h2.routeCountOK, h3.routeCountOK⟩
    have := h [] d rfl
    simpa [cntAt_split_cons, cntAt_nil] using this

theorem RouteCountOK.countInv : ∀ {n : QuadNode}, RouteCountOK n → CountInv n
  | .leaf d, h => by
    intro q dq hq
    cases q with
    | nil =>
      simp [dataAt, QuadNode.data] at hq
      subst hq
      simpa [RouteCountOK, cntAt, QuadNode.find, QuadNode.GetChild] using h
    | cons i q => simp [dataAt, QuadNode.find, QuadNode.GetChild] at hq
  | .split d c0 c1 c2 c3, h => by
    obtain ⟨hd, h0, h1, h2, h3⟩ := h
    intro q dq hq
    cases q with
    | nil =>
      simp [dataAt, QuadNode.data] at hq
      subst hq
      simpa [cntAt_split_cons, cntAt_nil] using hd
    | cons i q =>
      rw [dataAt_split_cons] at hq
      match i with
      | 0 => simpa [cntAt_split_cons] using h0.countInv q dq hq
      | 1 => simpa [cntAt_split_cons] using h1.countInv q dq hq
      | 2 => simpa [cntAt_split_cons] using h2.countInv q dq hq
      | 3 => simpa [cntAt_split_cons] using h3.countInv q dq hq
      | _ + 4 => simp at hq

/-- Under the count invariant the route count of a node is the number of elements stored in
its subtree. -/
theorem RouteCountOK.count_eq : ∀ {n : QuadNode}, RouteCountOK n →
    n.GetRouteElemCount = n.allElems.length
  | .leaf d, h => by simpa [RouteCountOK] using h
  | .split d c0 c1 c2 c3, h => by
    obtain ⟨hd, h0, h1, h2, h3⟩ := h
    have e0 := h0.count_eq
    have e1 := h1.count_eq
    have e2 := h2.count_eq
    have e3 := h3.count_eq
    simp only [QuadNode.GetRouteElemCount, QuadNode.data, QuadNode.allElems,
      List.length_append, Nat.cast_add] at *
    rw [hd, e0, e1, e2, e3]
    ring

theorem mem_allElems : ∀ {n : QuadNode} {e : Nat},
    e ∈ n.allElems ↔ ∃ q m, n.find q = some m ∧ e ∈ m.data.mElems
  | .leaf d, e => by
    constructor
    · intro h
      exact ⟨[], .leaf d, rfl, h⟩
    · rintro ⟨q, m, hq, hm⟩
      cases q with
      | nil =>
        simp at hq
        subst hq
        exact hm
      | cons i q => simp [QuadNode.find, QuadNode.GetChild] at hq
  | .split d c0 c1 c2 c3, e => by
    simp only [QuadNode.allElems, List.mem_append]
    rw [mem_allElems (n := c0), mem_allElems (n := c1), mem_allElems (n := c2),
      mem_allElems (n := c3)]
    constructor
    · rintro (h | ⟨q, m, hq, hm⟩ | ⟨q, m, hq, hm⟩ | ⟨q, m, hq, hm⟩ | ⟨q, m, hq, hm⟩)
      · exact ⟨[], _, rfl, h⟩
      · exact ⟨0 :: q, m, by simpa [QuadNode.find, QuadNode.GetChild] using hq, hm⟩
      · exact ⟨1 :: q, m, by simpa [QuadNode.find, QuadNode.GetChild] using hq, hm⟩
      · exact ⟨2 :: q, m, by simpa [QuadNode.find, QuadNode.GetChild] using hq, hm⟩
      · exact ⟨3 :: q, m, by simpa [QuadNode.find, QuadNode.GetChild] using hq, hm⟩
    · rintro ⟨q, m, hq, hm⟩
      match q with
      | [] =>
        simp at hq
        subst hq
        exact Or.inl hm
      | 0 :: q =>
        exact Or.inr (Or.inl ⟨q, m, by simpa [QuadNode.find, QuadNode.GetChild] using hq, hm⟩)
      | 1 :: q =>
        exact Or.inr (Or.inr (Or.inl
          ⟨q, m, by simpa [QuadNode.find, QuadNode.GetChild] using hq, hm⟩))
      | 2 :: q =>
        exact Or.inr (Or.inr (Or.inr (Or.inl
          ⟨q, m, by simpa [QuadNode.find, QuadNode.GetChild] using hq, hm⟩)))
      | 3 :: q =>
        exact Or.inr (Or.inr (Or.inr (Or.inr
          ⟨q, m, by simpa [QuadNode.find, QuadNode.GetChild] using hq, hm⟩)))
      | (_ + 4) :: q => simp [QuadNode.find, QuadNode.GetChild] at hq

theorem Store.elemsAt_of_find {s : Store} {q : Path} {m : QuadNode} (h : s.root.find q = some m) :
    s.elemsAt q = m.data.mElems := by
  simp [Store.elemsAt, h]

theorem Own.ownTree {s : Store} (h : Own s) : OwnTree s.root := by
  refine ⟨?_, ?_⟩
  · intro q q' m m' e hq hq' hm hm'
    rw [← Store.elemsAt_of_find hq] at hm
    rw [← Store.elemsAt_of_find hq'] at hm'
    have h1 := (h.1 e q).2 hm
    have h2 := (h.1 e q').2 hm'
    rw [h1] at h2
    exact Option.some.inj h2
  · intro q m hq
    rw [← Store.elemsAt_of_find hq]
    exact h.2 q

theorem OwnTree.child_own {d : NodeData} {c0 c1 c2 c3 c : QuadNode} {i : Nat}
    (h : OwnTree (.split d c0 c1 c2 c3)) (hc : (QuadNode.split d c0 c1 c2 c3).GetChild i = some c) :
    OwnTree c := by
  have hf : ∀ q, (QuadNode.split d c0 c1 c2 c3).find (i :: q) = c.find q := by
    intro q
    rw [QuadNode.find_cons, hc]
    rfl
  refine ⟨?_, ?_⟩
  · intro q q' m m' e hq hq' hm hm'
    have := h.1 (i :: q) (i :: q') m m' e (by rw [hf]; exact hq) (by rw [hf]; exact hq') hm hm'
    simpa using this
  · intro q m hq
    exact h.2 (i :: q) m (by rw [hf]; exact hq)

theorem OwnTree.disjoint_root {d : NodeData} {c0 c1 c2 c3 c : QuadNode} {i : Nat}
    (h : OwnTree (.split d c0 c1 c2 c3)) (hc : (QuadNode.split d c0 c1 c2 c3).GetChild i = some c) :
    List.Disjoint d.mElems c.allElems := by
  intro e he hec
  obtain ⟨q, m, hq, hm⟩ := mem_allElems.1 hec
  have := h.1 [] (i :: q) _ m e rfl (by rw [QuadNode.find_cons, hc]; exact hq) he hm
  cases this

theorem OwnTree.disjoint_children {d : NodeData} {c0 c1 c2 c3 c c' : QuadNode} {i j : Nat}
    (h : OwnTree (.split d c0 c1 c2 c3)) (hc : (QuadNode.split d c0 c1 c2 c3).GetChild i = some c)
    (hc' : (QuadNode.split d c0 c1 c2 c3).GetChild j = some c') (hij : i ≠ j) :
    List.Disjoint c.allElems c'.allElems := by
  intro e he hec
  obtain ⟨q, m, hq, hm⟩ := mem_allElems.1 he
  obtain ⟨q', m', hq', hm'⟩ := mem_allElems.1 hec
  have := h.1 (i :: q) (j :: q') m m' e (by rw [QuadNode.find_cons, hc]; exact hq)
    (by rw [QuadNode.find_cons, hc']; exact hq') hm hm'
  simp at this
  exact hij this.1

theorem OwnTree.nodup : ∀ {n : QuadNode}, OwnTree n → n.allElems.Nodup
  | .leaf d, h => h.2 [] _ rfl
  | .split d c0 c1 c2 c3, h => by
    have n0 := (h.child_own (i := 0) rfl).nodup
    have n1 := (h.child_own (i := 1) rfl).nodup
    have n2 := (h.child_own (i := 2) rfl).nodup
    have n3 := (h.child_own (i := 3) rfl).nodup
    have hd := h.2 [] _ rfl
    have r0 := h.disjoint_root (i := 0) rfl
    have r1 := h.disjoint_root (i := 1) rfl
    have r2 := h.disjoint_root (i := 2) rfl
    have r3 := h.disjoint_root (i := 3) rfl
    have d01 := h.disjoint_children (i := 0) (j := 1) rfl rfl (by decide)
    have d02 := h.disjoint_children (i := 0) (j := 2) rfl rfl (by decide)
    have d03 := h.disjoint_children (i := 0) (j := 3) rfl rfl (by decide)
    have d12 := h.disjoint_children (i := 1) (j := 2) rfl rfl (by decide)
    have d13 := h.disjoint_children (i := 1) (j := 3) rfl rfl (by decide)
    have d23 := h.disjoint_children (i := 2) (j := 3) rfl rfl (by decide)
    simp only [QuadNode.allElems, QuadNode.data] at *
    rw [List.nodup_append]
    refine ⟨hd, ?_, ?_⟩
    · rw [List.nodup_append]
      refine ⟨n0, ?_, ?_⟩
      · rw [List.nodup_append]
        refine ⟨n1, ?_, ?_⟩
        · rw [List.nodup_append]
          exact ⟨n2, n3, d23⟩
        · simp only [List.disjoint_append_right]
          exact ⟨d12, d13⟩
      · simp only [List.disjoint_append_right]
        exact ⟨d01, d02, d03⟩
    · simp only [List.disjoint_append_right]
      exact ⟨r0, r1, r2, r3⟩

theorem TreeInv.mem_allElems_iff {vals : Values} {κ : Prop} {t : QuadTree} {root : QuadNode}
    (h : TreeInv vals κ t) (hr : t.mRoot = some root) (e : Nat) :
    e ∈ root.allElems ↔ t.Stored e := by
  have hI := h.store root hr
  rw [mem_allElems]
  unfold QuadTree.Stored
  constructor
  · rintro ⟨q, m, hq, hm⟩
    have : (Store.mk root t.cell).GetNode e = some q := by
      rw [hI.own.1 e q, Store.elemsAt_of_find (s := ⟨root, t.cell⟩) hq]
      exact hm
    unfold Store.GetNode at this
    simp only at this
    rw [this]
    simp
  · intro hs
    cases hn : (t.cell e).bind Element.mNode with
    | none => exact absurd hn hs
    | some q =>
      have : (Store.mk root t.cell).GetNode e = some q := hn
      have hm := (hI.own.1 e q).1 this
      obtain ⟨dq, hdq, hel⟩ := dataAt_isSome_of_mem hm
      unfold dataAt at hdq
      cases hf : root.find q with
      | none => simp [hf] at hdq
      | some m =>
        refine ⟨q, m, hf, ?_⟩
        rw [← Store.elemsAt_of_find (s := ⟨root, t.cell⟩) hf]
        exact hm

theorem TreeInv.allElems_perm {vals : Values} {κ : Prop} {t : QuadTree} {root : QuadNode}
    (h : TreeInv vals κ t) (hr : t.mRoot = some root) :
    root.allElems.Perm t.storedElems := by
  have hI := h.store root hr
  have hnd : root.allElems.Nodup := hI.own.ownTree.nodup
  unfold QuadTree.storedElems
  rw [List.perm_ext_iff_of_nodup hnd ((List.nodup_range t.next).filter _)]
  intro e
  rw [h.mem_allElems_iff hr]
  simp only [List.mem_filter, List.mem_range, decide_eq_true_eq]
  constructor
  · intro hs
    refine ⟨?_, hs⟩
    by_contra hlt
    have := h.fresh e (by omega)
    unfold QuadTree.Stored at hs
    simp [this] at hs
  · exact fun hs => hs.2

theorem Edit.find_edit {root root' : QuadNode} {t : Path} {add : Bool} {g : List Nat → List Nat}
    (h : Edit root root' t add g) {q : Path} {n : QuadNode} (hq : root.find q = some n) :
    ∃ n', root'.find q = some n' := by
  have := h.2 q
  unfold kidsAt at this
  rw [hq] at this
  cases hf : root'.find q with
  | none => simp [hf] at this
  | some n' => exact ⟨n', rfl⟩

theorem CountInv.RemoveElem (s : Store) (o : Path) (e : Nat) (hc : CountInv s.root) :
    CountInv (s.RemoveElem o e).root := by
  by_cases ho : s.GetNode e = some o
  · rw [Store.RemoveElem_root s o e ho]
    unfold Store.detachRoot
    simp only [ho]
    split
    · rename_i hm
      obtain ⟨d, hd, _⟩ := dataAt_isSome_of_mem hm
      unfold dataAt at hd
      cases hf : s.root.find o with
      | none => simp [hf] at hd
      | some n =>
        refine (Edit_erase s.root o e).count hf ?_ hc
        have hmem : e ∈ n.data.mElems := by
          rw [← Store.elemsAt_of_find hf]; exact hm
        rw [List.length_erase_of_mem hmem]
        have : 0 < n.data.mElems.length := List.length_pos_of_mem hmem
        simp
        omega
    · exact hc
  · have : s.RemoveElem o e = s := by simp [Store.RemoveElem, ho]
    rw [this]
    exact hc

theorem find_detachRoot (s : Store) (e : Nat) {p : Path} {n : QuadNode}
    (hp : s.root.find p = some n) : ∃ n', (s.detachRoot e).find p = some n' := by
  unfold Store.detachRoot
  split
  · exact ⟨n, hp⟩
  · split
    · exact (Edit_erase s.root _ e).find_edit hp
    · exact ⟨n, hp⟩

theorem CountInv.detachRoot (s : Store) (e : Nat) (hc : CountInv s.root) :
    CountInv (s.detachRoot e) := by
  cases ho : s.GetNode e with
  | none => simpa [Store.detachRoot, ho] using hc
  | some o =>
    rw [← Store.RemoveElem_root s o e ho]
    exact CountInv.RemoveElem s o e hc

theorem CountInv.AddElem_count (s : Store) {p : Path} {n : QuadNode} (e : Nat)
    (hp : s.root.find p = some n) (hc : CountInv s.root) : CountInv (s.AddElem p e).root := by
  by_cases ho : s.GetNode e = some p
  · rw [Store.AddElem_of_owner ho]; exact hc
  · rw [Store.AddElem_root s p e ho]
    obtain ⟨n', hn'⟩ := find_detachRoot s e hp
    refine (Edit_push (s.detachRoot e) p e).count hn' ?_ (CountInv.detachRoot s e hc)
    simp

theorem CountInv.InitChildren_count (root : QuadNode) (p : Path) (hc : CountInv root) :
    CountInv (root.update QuadNode.InitChildren p) := by
  cases hf : root.find p with
  | none => rw [QuadNode.update_invalid _ hf]; exact hc
  | some n =>
    cases hk : n.HasChild with
    | true =>
      rw [QuadNode.update_eq_self _ hf (QuadNode.InitChildren_of_hasChild hk)]
      exact hc
    | false =>
      have h : (Store.mk root (fun _ => none)).root.find p = some (.leaf n.data) :=
        Store.find_leaf_of_not_hasChild (s := ⟨root, fun _ => none⟩) hf hk
      have hcn := Store.cntAt_InitChildren h
      intro q d1 hq
      change dataAt ((Store.mk root (fun _ => none)).InitChildren p).root q = some d1 at hq
      have e0 := hcn (q ++ [0])
      have e1 := hcn (q ++ [1])
      have e2 := hcn (q ++ [2])
      have e3 := hcn (q ++ [3])
      simp only [Store.InitChildren] at e0 e1 e2 e3
      rw [e0, e1, e2, e3]
      rcases Store.dataAt_InitChildren_cases h q d1 hq with h0 | ⟨i, _, hqi, hd, _⟩
      · exact hc q d1 h0
      · subst hqi hd
        have hz : ∀ j, cntAt root (p ++ [i, j]) = 0 := by
          intro j
          have := dataAt_child_of_leaf h i [j]
          rw [cntAt_eq]
          simp only at this
          rw [this]; rfl
        simp [hz, newChildData]

/-- C4. In every reachable state the route count of every node is the length of its own list
plus the route counts of its four children, and a direct call of `AddElem` (on an existing
node), `RemoveElem` or `InitChildren` from such a state keeps this; `Add`, `Remove` and
`Refresh`, redistribution included, are steps between reachable states. -/
theorem route_count_invariant {E : Values → Prop} {t : QuadTree} {root : QuadNode}
    (h : Reachable E t) (hr : t.mRoot = some root) :
    RouteCountOK root ∧
    (∀ p n e, root.find p = some n → RouteCountOK (Store.AddElem ⟨root, t.cell⟩ p e).root) ∧
    (∀ p e, RouteCountOK (Store.RemoveElem ⟨root, t.cell⟩ p e).root) ∧
    (∀ p, RouteCountOK (root.update QuadNode.InitChildren p)) := by
  have hT : TreeInv (fun _ => ⟨none, fun _ _ => false, fun _ => false⟩) False t :=
    h.inv (fun hf => absurd hf id)
  have hc : CountInv root := (hT.store root hr).count
  refine ⟨hc.routeCountOK, ?_, ?_, ?_⟩
  · intro p n e hp
    exact (CountInv.AddElem_count ⟨root, t.cell⟩ e hp hc).routeCountOK
  · intro p e
    exact (CountInv.RemoveElem ⟨root, t.cell⟩ p e hc).routeCountOK
  · intro p
    exact (CountInv.InitChildren_count root p hc).routeCountOK

/-- C3. In every reachable state the route count of the root is the number of elements stored
in the tree: the elements found in the lists of its nodes, which are exactly the elements of
the heap whose owner is set. -/
theorem root_count_eq_stored {E : Values → Prop} {t : QuadTree} {root : QuadNode}
    (h : Reachable E t) (hr : t.mRoot = some root) :
    root.GetRouteElemCount = root.allElems.length ∧
    root.GetRouteElemCount = t.storedElems.length ∧
    (∀ e, e ∈ root.allElems ↔ t.Stored e) := by
  have hT : TreeInv (fun _ => ⟨none, fun _ _ => false, fun _ => false⟩) False t :=
    h.inv (fun hf => absurd hf id)
  have hc : CountInv root := (hT.store root hr).count
  have h1 := hc.routeCountOK.count_eq
  refine ⟨h1, ?_, hT.mem_allElems_iff hr⟩
  rw [h1, (hT.allElems_perm hr).length_eq]

theorem pointElems_eq (vals : Values) (cell : Nat → Option Element) (x y : ℚ) (getOne : Bool)
    (l : List Nat) (hv : Bool) (out : List Nat) :
    pointElems vals cell x y getOne l hv out =
      elemsLoop (fun e => (cell e).bind Element.mValue) (fun v => (vals v).IsContain x y)
        getOne l hv out := by
  induction l generalizing hv out with
  | nil => rfl
  | cons e rest ih =>
    simp only [pointElems, elemsLoop]
    cases (cell e).bind Element.mValue with
    | none => rfl
    | some v =>
      simp only
      split
      · exact ih _ _
      · split
        · rfl
        · exact ih _ _

theorem circleElems_eq (vals : Values) (cell : Nat → Option Element) (circle : Circle)
    (getOne : Bool) (l : List Nat) (hv : Bool) (out : List Nat) :
    circleElems vals cell circle getOne l hv out =
      elemsLoop (fun e => (cell e).bind Element.mValue) (fun v => (vals v).Intersect circle)
        getOne l hv out := by
  induction l generalizing hv out with
  | nil => rfl
  | cons e rest ih =>
    simp only [circleElems, elemsLoop]
    cases (cell e).bind Element.mValue with
    | none => rfl
    | some v =>
      simp only
      split
      · exact ih _ _
      · split
        · rfl
        · exact ih _ _

theorem IntersectPointNode_eq (vals : Values) (cell : Nat → Option Element) (x y : ℚ)
    (getOne : Bool) : ∀ (n : QuadNode) (out : List Nat),
    IntersectPointNode vals cell x y getOne n out =
      queryNode (fun e => (cell e).bind Element.mValue) (fun a => a.IsContainPoint x y)
        (fun v => (vals v).IsContain x y) getOne n out
  | .leaf d, out => by
    simp only [IntersectPointNode, queryNode, pointElems_eq]
  | .split d c0 c1 c2 c3, out => by
    simp only [IntersectPointNode, queryNode, pointElems_eq]
    simp only [IntersectPointNode_eq vals cell x y getOne c0,
      IntersectPointNode_eq vals cell x y getOne c1,
      IntersectPointNode_eq vals cell x y getOne c2,
      IntersectPointNode_eq vals cell x y getOne c3]

theorem IntersectCircleNode_eq (vals : Values) (cell : Nat → Option Element) (aabb : AABB)
    (circle : Circle) (getOne : Bool) : ∀ (n : QuadNode) (out : List Nat),
    IntersectCircleNode vals cell aabb circle getOne n out =
      queryNode (fun e => (cell e).bind Element.mValue) (fun a => a.Intersect aabb)
        (fun v => (vals v).Intersect circle) getOne n out
  | .leaf d, out => by
    simp only [IntersectCircleNode, queryNode, circleElems_eq]
  | .split d c0 c1 c2 c3, out => by
    simp only [IntersectCircleNode, queryNode, circleElems_eq]
    simp only [IntersectCircleNode_eq vals cell aabb circle getOne c0,
      IntersectCircleNode_eq vals cell aabb circle getOne c1,
      IntersectCircleNode_eq vals cell aabb circle getOne c2,
      IntersectCircleNode_eq vals cell aabb circle getOne c3]

section Query

variable (valueOf : Nat → Option Nat) (keep : AABB → Bool) (test : Nat → Bool)

theorem hits_cons (e : Nat) (l : List Nat) :
    hits valueOf test (e :: l) =
      (match valueOf e with
        | some v => if test v then [v] else []
        | none => []) ++ hits valueOf test l := by
  unfold hits
  rw [List.filterMap_cons]
  cases valueOf e with
  | none => rfl
  | some v =>
    cases ht : test v <;> simp [ht]

/-- The element loop in multi-hit mode appends the hits of the list. -/
theorem elemsLoop_multi (l : List Nat) (hv : Bool) (out : List Nat)
    (hnn : ∀ e ∈ l, valueOf e ≠ none) :
    elemsLoop valueOf test false l hv out =
      .ok (false, hv || !(hits valueOf test l).isEmpty, out ++ hits valueOf test l) := by
  induction l generalizing hv out with
  | nil => simp [elemsLoop, hits]
  | cons e rest ih =>
    have hr : ∀ e ∈ rest, valueOf e ≠ none := fun x hx => hnn x (by simp [hx])
    rw [hits_cons]
    simp only [elemsLoop]
    cases hve : valueOf e with
    | none => exact absurd hve (hnn e (by simp))
    | some v =>
      simp only
      cases ht : test v with
      | false =>
        simp only [Bool.not_false, if_true, Bool.false_eq_true, if_false, List.nil_append]
        exact ih hv out hr
      | true =>
        simp only [Bool.not_true, Bool.false_eq_true, if_false, if_true]
        rw [ih true (out ++ [v]) hr]
        simp

theorem queryChild_multi (r : Except Err (Bool × List Nat)) (hv : Bool)
    (next : Bool → List Nat → Except Err (Bool × List Nat)) (b : Bool) (out : List Nat)
    (hr : r = .ok (b, out)) : queryChild false r hv next = next (b || hv) out := by
  subst hr
  simp [queryChild]

/-- The traversal in multi-hit mode appends `nodeHits` and reports whether this is non-empty. -/
theorem queryNode_multi : ∀ (n : QuadNode) (out : List Nat),
    (∀ e ∈ n.allElems, valueOf e ≠ none) →
    queryNode valueOf keep test false n out =
      .ok (!(nodeHits valueOf keep test n).isEmpty, out ++ nodeHits valueOf keep test n)
  | .leaf d, out, hnn => by
    simp only [queryNode, nodeHits]
    split
    · simp
    · split
      · simp
      · rw [elemsLoop_multi valueOf test d.mElems false out hnn]
        simp
  | .split d c0 c1 c2 c3, out, hnn => by
    have hd : ∀ e ∈ d.mElems, valueOf e ≠ none :=
      fun e he => hnn e (by simp [QuadNode.allElems, he])
    have h0 : ∀ e ∈ c0.allElems, valueOf e ≠ none :=
      fun e he => hnn e (by simp [QuadNode.allElems, he])
    have h1 : ∀ e ∈ c1.allElems, valueOf e ≠ none :=
      fun e he => hnn e (by simp [QuadNode.allElems, he])
    have h2 : ∀ e ∈ c2.allElems, valueOf e ≠ none :=
      fun e he => hnn e (by simp [QuadNode.allElems, he])
    have h3 : ∀ e ∈ c3.allElems, valueOf e ≠ none :=
      fun e he => hnn e (by simp [QuadNode.allElems, he])
    simp only [queryNode, nodeHits]
    split
    · simp
    · split
      · simp
      · rw [elemsLoop_multi valueOf test d.mElems false out hd]
        simp only
        rw [queryChild_multi _ _ _ _ _ (queryNode_multi c0 _ h0),
          queryChild_multi _ _ _ _ _ (queryNode_multi c1 _ h1),
          queryChild_multi _ _ _ _ _ (queryNode_multi c2 _ h2),
          queryChild_multi _ _ _ _ _ (queryNode_multi c3 _ h3)]
        simp only [List.append_assoc, Except.ok.injEq, Prod.mk.injEq, and_true]
        simp only [List.isEmpty_eq_true, Bool.false_or, List.append_eq_nil, Bool.not_eq_true']
        cases hits valueOf test d.mElems <;> cases nodeHits valueOf keep test c0 <;>
          cases nodeHits valueOf keep test c1 <;> cases nodeHits valueOf keep test c2 <;>
          cases nodeHits valueOf keep test c3 <;> simp

end Query

section Query

variable (valueOf : Nat → Option Nat) (keep : AABB → Bool) (test : Nat → Bool)

theorem mem_hits {l : List Nat} {v : Nat} :
    v ∈ hits valueOf test l ↔ ∃ e ∈ l, valueOf e = some v ∧ test v = true := by
  unfold hits
  rw [List.mem_filterMap]
  constructor
  · rintro ⟨e, he, h⟩
    cases hv : valueOf e with
    | none => simp [hv] at h
    | some w =>
      rw [hv] at h
      simp only [Option.bind] at h
      split at h
      · rename_i ht
        cases h
        exact ⟨e, he, hv, ht⟩
      · cases h
  · rintro ⟨e, he, hv, ht⟩
    exact ⟨e, he, by simp [hv, ht]⟩

theorem Open.nil_iff {n : QuadNode} :
    Open keep n [] ↔ n.data.mRouteElemCount ≠ 0 ∧ keep n.data.mAABB = true := by
  constructor
  · intro h
    exact h [] n (List.prefix_refl _) rfl
  · intro h q' m' hq hm
    have : q' = [] := List.prefix_nil.1 hq
    subst this
    simp at hm
    subst hm
    exact h

theorem Open.cons_iff {n c : QuadNode} {i : Nat} {q : Path} (hc : n.GetChild i = some c) :
    Open keep n (i :: q) ↔
      (n.data.mRouteElemCount ≠ 0 ∧ keep n.data.mAABB = true) ∧ Open keep c q := by
  constructor
  · intro h
    refine ⟨h [] n List.nil_prefix rfl, ?_⟩
    intro q' m' hq hm
    exact h (i :: q') m' (by simpa using hq) (by rw [QuadNode.find_cons, hc]; exact hm)
  · rintro ⟨h0, h1⟩ q' m' hq hm
    cases q' with
    | nil =>
      simp at hm
      subst hm
      exact h0
    | cons j q' =>
      simp only [List.cons_prefix_cons] at hq
      obtain ⟨rfl, hq⟩ := hq
      rw [QuadNode.find_cons, hc] at hm
      exact h1 q' m' hq hm

/-- A value is appended by the multi-hit traversal exactly when it is the value of an element
that passes the exact test and is stored at a node that no pruning hides. -/
theorem mem_nodeHits : ∀ {n : QuadNode} {v : Nat},
    v ∈ nodeHits valueOf keep test n ↔
      ∃ q m e, n.find q = some m ∧ e ∈ m.data.mElems ∧ valueOf e = some v ∧ test v = true ∧
        Open keep n q
  | .leaf d, v => by
    simp only [nodeHits]
    constructor
    · intro h
      split at h
      · simp at h
      · split at h
        · simp at h
        · rename_i h1 h2
          obtain ⟨e, he, hv, ht⟩ := (mem_hits valueOf test).1 h
          refine ⟨[], .leaf d, e, rfl, he, hv, ht, (Open.nil_iff keep).2 ⟨h1, ?_⟩⟩
          simpa using h2
    · rintro ⟨q, m, e, hq, he, hv, ht, ho⟩
      cases q with
      | cons i q => simp [QuadNode.find, QuadNode.GetChild] at hq
      | nil =>
        simp at hq
        subst hq
        obtain ⟨h1, h2⟩ := (Open.nil_iff keep).1 ho
        simp only [QuadNode.data] at h1 h2 he
        simp only [h1, h2, if_false, Bool.not_true, Bool.false_eq_true]
        exact (mem_hits valueOf test).2 ⟨e, he, hv, ht⟩
  | .split d c0 c1 c2 c3, v => by
    simp only [nodeHits]
    constructor
    · intro h
      split at h
      · simp at h
      · split at h
        · simp at h
        · rename_i h1 h2
          have hopen : (QuadNode.split d c0 c1 c2 c3).data.mRouteElemCount ≠ 0 ∧
              keep (QuadNode.split d c0 c1 c2 c3).data.mAABB = true :=
            ⟨h1, by simpa using h2⟩
          simp only [List.mem_append] at h
          rcases h with h | h | h | h | h
          · obtain ⟨e, he, hv, ht⟩ := (mem_hits valueOf test).1 h
            exact ⟨[], _, e, rfl, he, hv, ht, (Open.nil_iff keep).2 hopen⟩
          · obtain ⟨q, m, e, hq, he, hv, ht, ho⟩ := mem_nodeHits.1 h
            exact ⟨0 :: q, m, e, by simpa [QuadNode.find, QuadNode.GetChild] using hq, he, hv, ht,
              (Open.cons_iff keep (n := QuadNode.split d c0 c1 c2 c3) (c := c0) (i := 0) rfl).2 ⟨hopen, ho⟩⟩
          · obtain ⟨q, m, e, hq, he, hv, ht, ho⟩ := mem_nodeHits.1 h
            exact ⟨1 :: q, m, e, by simpa [QuadNode.find, QuadNode.GetChild] using hq, he, hv, ht,
              (Open.cons_iff keep (n := QuadNode.split d c0 c1 c2 c3) (c := c1) (i := 1) rfl).2 ⟨hopen, ho⟩⟩
          · obtain ⟨q, m, e, hq, he, hv, ht, ho⟩ := mem_nodeHits.1 h
            exact ⟨2 :: q, m, e, by simpa [QuadNode.find, QuadNode.GetChild] using hq, he, hv, ht,
              (Open.cons_iff keep (n := QuadNode.split d c0 c1 c2 c3) (c := c2) (i := 2) rfl).2 ⟨hopen, ho⟩⟩
          · obtain ⟨q, m, e, hq, he, hv, ht, ho⟩ := mem_nodeHits.1 h
            exact ⟨3 :: q, m, e, by simpa [QuadNode.find, QuadNode.GetChild] using hq, he, hv, ht,
              (Open.cons_iff keep (n := QuadNode.split d c0 c1 c2 c3) (c := c3) (i := 3) rfl).2 ⟨hopen, ho⟩⟩
    · rintro ⟨q, m, e, hq, he, hv, ht, ho⟩
      have hroot := ho [] _ List.nil_prefix rfl
      simp only [QuadNode.data] at hroot
      simp only [hroot.1, hroot.2, if_false, Bool.not_true, Bool.false_eq_true,
        List.mem_append]
      match q with
      | [] =>
        simp at hq
        subst hq
        exact Or.inl ((mem_hits valueOf test).2 ⟨e, he, hv, ht⟩)
      | 0 :: q =>
        refine Or.inr (Or.inl (mem_nodeHits.2 ⟨q, m, e, ?_, he, hv, ht, ?_⟩))
        · simpa [QuadNode.find, QuadNode.GetChild] using hq
        · exact ((Open.cons_iff keep (n := QuadNode.split d c0 c1 c2 c3) (c := c0) (i := 0) rfl).1 ho).2
      | 1 :: q =>
        refine Or.inr (Or.inr (Or.inl (mem_nodeHits.2 ⟨q, m, e, ?_, he, hv, ht, ?_⟩)))
        · simpa [QuadNode.find, QuadNode.GetChild] using hq
        · exact ((Open.cons_iff keep (n := QuadNode.split d c0 c1 c2 c3) (c := c1) (i := 1) rfl).1 ho).2
      | 2 :: q =>
        refine Or.inr (Or.inr (Or.inr (Or.inl (mem_nodeHits.2 ⟨q, m, e, ?_, he, hv, ht, ?_⟩))))
        · simpa [QuadNode.find, QuadNode.GetChild] using hq
        · exact ((Open.cons_iff keep (n := QuadNode.split d c0 c1 c2 c3) (c := c2) (i := 2) rfl).1 ho).2
      | 3 :: q =>
        refine Or.inr (Or.inr (Or.inr (Or.inr (mem_nodeHits.2 ⟨q, m, e, ?_, he, hv, ht, ?_⟩))))
        · simpa [QuadNode.find, QuadNode.GetChild] using hq
        · exact ((Open.cons_iff keep (n := QuadNode.split d c0 c1 c2 c3) (c := c3) (i := 3) rfl).1 ho).2
      | (_ + 4) :: q => simp [QuadNode.find, QuadNode.GetChild] at hq

end Query

theorem Appends.refl_appends (S : Nat → Prop) (out : List Nat) : Appends S out out :=
  ⟨[], by simp, by simp⟩

theorem Appends.trans_appends {S : Nat → Prop} {a b c : List Nat} (h1 : Appends S a b)
    (h2 : Appends S b c) : Appends S a c := by
  obtain ⟨r1, rfl, hr1⟩ := h1
  obtain ⟨r2, rfl, hr2⟩ := h2
  refine ⟨r1 ++ r2, by simp, ?_⟩
  intro v hv
  rcases List.mem_append.1 hv with h | h
  · exact hr1 v h
  · exact hr2 v h

theorem Appends.mono_appends {S T : Nat → Prop} {a b : List Nat} (h : Appends S a b)
    (hS : ∀ v, S v → T v) : Appends T a b := by
  obtain ⟨r, rfl, hr⟩ := h
  exact ⟨r, rfl, fun v hv => hS v (hr v hv)⟩

theorem Appends.single {S : Nat → Prop} (out : List Nat) {v : Nat} (h : S v) :
    Appends S out (out ++ [v]) :=
  ⟨[v], rfl, by simpa using h⟩

section Query

variable (valueOf : Nat → Option Nat) (keep : AABB → Bool) (test : Nat → Bool)

/-- In either mode the element loop only appends values of listed elements that pass the
exact test. -/
theorem elemsLoop_sound (getOne : Bool) (l : List Nat) :
    ∀ (hv : Bool) (out : List Nat) (early hv' : Bool) (out' : List Nat),
      elemsLoop valueOf test getOne l hv out = .ok (early, hv', out') →
      Appends (fun v => ∃ e ∈ l, valueOf e = some v ∧ test v = true) out out' := by
  induction l with
  | nil =>
    intro hv out early hv' out' h
    simp only [elemsLoop, Except.ok.injEq, Prod.mk.injEq] at h
    obtain ⟨_, _, rfl⟩ := h
    exact Appends.refl_appends _ _
  | cons e rest ih =>
    intro hv out early hv' out' h
    simp only [elemsLoop] at h
    cases hve : valueOf e with
    | none => simp [hve] at h
    | some v =>
      simp only [hve] at h
      cases ht : test v with
      | false =>
        simp only [ht, Bool.not_false, if_true] at h
        exact (ih hv out early hv' out' h).mono_appends
          (fun w ⟨e', he', hw⟩ => ⟨e', by simp [he'], hw⟩)
      | true =>
        simp only [ht, Bool.not_true, Bool.false_eq_true, if_false] at h
        have h1 : Appends (fun v => ∃ e' ∈ e :: rest, valueOf e' = some v ∧ test v = true) out
            (out ++ [v]) := Appends.single out ⟨e, by simp, hve, ht⟩
        cases getOne with
        | true =>
          simp only [if_true, Except.ok.injEq, Prod.mk.injEq] at h
          obtain ⟨_, _, rfl⟩ := h
          exact h1
        | false =>
          simp only [Bool.false_eq_true, if_false] at h
          exact h1.trans_appends ((ih true (out ++ [v]) early hv' out' h).mono_appends
            (fun w ⟨e', he', hw⟩ => ⟨e', by simp [he'], hw⟩))

theorem queryChild_ok {getOne : Bool} {r : Except Err (Bool × List Nat)} {hv : Bool}
    {next : Bool → List Nat → Except Err (Bool × List Nat)} {b' : Bool} {out' : List Nat}
    (h : queryChild getOne r hv next = .ok (b', out')) :
    ∃ b1 out1, r = .ok (b1, out1) ∧ (out' = out1 ∨ next (b1 || hv) out1 = .ok (b', out')) := by
  unfold queryChild at h
  cases r with
  | error err => simp at h
  | ok x =>
    obtain ⟨b1, out1⟩ := x
    simp only at h
    refine ⟨b1, out1, rfl, ?_⟩
    split at h
    · simp only [Except.ok.injEq, Prod.mk.injEq] at h
      exact Or.inl h.2.symm
    · exact Or.inr h

/-- In either mode the traversal only appends values of elements stored in the subtree that
pass the exact test, and leaves what was in the output in place. -/
theorem queryNode_sound (getOne : Bool) : ∀ (n : QuadNode) (out : List Nat) (b : Bool)
    (out' : List Nat), queryNode valueOf keep test getOne n out = .ok (b, out') →
    Appends (fun v => ∃ e ∈ n.allElems, valueOf e = some v ∧ test v = true) out out'
  | .leaf d, out, b, out', h => by
    simp only [queryNode] at h
    split at h
    · simp only [Except.ok.injEq, Prod.mk.injEq] at h
      rw [← h.2]; exact Appends.refl_appends _ _
    · split at h
      · simp only [Except.ok.injEq, Prod.mk.injEq] at h
        rw [← h.2]; exact Appends.refl_appends _ _
      · cases hl : elemsLoop valueOf test getOne d.mElems false out with
        | error err => simp [hl] at h
        | ok x =>
          obtain ⟨early, hv', o1⟩ := x
          have hs := elemsLoop_sound valueOf test getOne d.mElems false out early hv' o1 hl
          have : o1 = out' := by
            cases early <;> simp [hl] at h <;> exact h.2
          subst this
          exact hs
  | .split d c0 c1 c2 c3, out, b, out', h => by
    simp only [queryNode] at h
    split at h
    · simp only [Except.ok.injEq, Prod.mk.injEq] at h
      rw [← h.2]; exact Appends.refl_appends _ _
    · split at h
      · simp only [Except.ok.injEq, Prod.mk.injEq] at h
        rw [← h.2]; exact Appends.refl_appends _ _
      · cases hl : elemsLoop valueOf test getOne d.mElems false out with
        | error err => simp [hl] at h
        | ok x =>
          obtain ⟨early, hv', o1⟩ := x
          have hs := (elemsLoop_sound valueOf test getOne d.mElems false out early hv' o1 hl).mono_appends
            (T := fun v => ∃ e ∈ (QuadNode.split d c0 c1 c2 c3).allElems,
              valueOf e = some v ∧ test v = true)
            (fun w ⟨e', he', hw⟩ => ⟨e', by simp [QuadNode.allElems, he'], hw⟩)
          cases early with
          | true =>
            simp only [hl, Except.ok.injEq, Prod.mk.injEq] at h
            rw [← h.2]; exact hs
          | false =>
            simp only [hl] at h
            obtain ⟨b0, o2, hq0, h⟩ := queryChild_ok h
            have s0 := (queryNode_sound getOne c0 o1 b0 o2 hq0).mono_appends
              (T := fun v => ∃ e ∈ (QuadNode.split d c0 c1 c2 c3).allElems,
                valueOf e = some v ∧ test v = true)
              (fun w ⟨e', he', hw⟩ => ⟨e', by simp [QuadNode.allElems, he'], hw⟩)
            rcases h with rfl | h
            · exact hs.trans_appends s0
            obtain ⟨b1, o3, hq1, h⟩ := queryChild_ok h
            have s1 := (queryNode_sound getOne c1 o2 b1 o3 hq1).mono_appends
              (T := fun v => ∃ e ∈ (QuadNode.split d c0 c1 c2 c3).allElems,
                valueOf e = some v ∧ test v = true)
              (fun w ⟨e', he', hw⟩ => ⟨e', by simp [QuadNode.allElems, he'], hw⟩)
            rcases h with rfl | h
            · exact (hs.trans_appends s0).trans_appends s1
            obtain ⟨b2, o4, hq2, h⟩ := queryChild_ok h
            have s2 := (queryNode_sound getOne c2 o3 b2 o4 hq2).mono_appends
              (T := fun v => ∃ e ∈ (QuadNode.split d c0 c1 c2 c3).allElems,
                valueOf e = some v ∧ test v = true)
              (fun w ⟨e', he', hw⟩ => ⟨e', by simp [QuadNode.allElems, he'], hw⟩)
            rcases h with rfl | h
            · exact ((hs.trans_appends s0).trans_appends s1).trans_appends s2
            obtain ⟨b3, o5, hq3, h⟩ := queryChild_ok h
            have s3 := (queryNode_sound getOne c3 o4 b3 o5 hq3).mono_appends
              (T := fun v => ∃ e ∈ (QuadNode.split d c0 c1 c2 c3).allElems,
                valueOf e = some v ∧ test v = true)
              (fun w ⟨e', he', hw⟩ => ⟨e', by simp [QuadNode.allElems, he'], hw⟩)
            rcases h with rfl | h
            · exact (((hs.trans_appends s0).trans_appends s1).trans_appends s2).trans_appends s3
            simp only [Except.ok.injEq, Prod.mk.injEq] at h
            rw [← h.2]
            exact (((hs.trans_appends s0).trans_appends s1).trans_appends s2).trans_appends s3

end Query

theorem eq_ok_of_isOk {α : Type} (d : α) {r : Except Err α} (h : isOk r = true) :
    r = .ok (okOr d r) := by
  cases r with
  | error err => simp [isOk] at h
  | ok a => rfl

namespace AABB

theorem IsContain_iff (a b : AABB) : a.IsContain b = true ↔
    a.GetLeft ≤ b.GetLeft ∧ b.GetRight ≤ a.GetRight ∧
    a.GetBottom ≤ b.GetBottom ∧ b.GetTop ≤ a.GetTop := by
  simp only [IsContain, Bool.not_eq_true', Bool.or_eq_false_iff, decide_eq_false_iff_not,
    not_lt, gt_iff_lt]
  tauto

theorem IsContainPoint_iff (a : AABB) (x y : ℚ) : a.IsContainPoint x y = true ↔
    a.GetLeft ≤ x ∧ x ≤ a.GetRight ∧ a.GetBottom ≤ y ∧ y ≤ a.GetTop := by
  simp only [IsContainPoint, Bool.and_eq_true, decide_eq_true_eq, ge_iff_le]
  tauto

theorem IsContainPoint_of_IsContain {a b : AABB} {x y : ℚ} (h : a.IsContain b = true)
    (hb : b.IsContainPoint x y = true) : a.IsContainPoint x y = true := by
  rw [IsContain_iff] at h
  rw [IsContainPoint_iff] at hb ⊢
  obtain ⟨h1, h2, h3, h4⟩ := h
  obtain ⟨b1, b2, b3, b4⟩ := hb
  exact ⟨h1.trans b1, b2.trans h2, h3.trans b3, b4.trans h4⟩

end AABB

theorem CountInv.sub {root m : QuadNode} {q : Path} (h : CountInv root)
    (hq : root.find q = some m) : CountInv m := by
  induction q generalizing root with
  | nil =>
    simp at hq
    subst hq
    exact h
  | cons i q ih =>
    rw [QuadNode.find_cons] at hq
    cases hc : root.GetChild i with
    | none => simp [hc] at hq
    | some c =>
      rw [hc] at hq
      have hq' : c.find q = some m := by simpa using hq
      cases root with
      | leaf d => simp [QuadNode.GetChild] at hc
      | split d c0 c1 c2 c3 =>
        obtain ⟨h0, h1, h2, h3⟩ := h.child_count
        have hi := QuadNode.GetChild_lt hc
        match i, hi with
        | 0, _ => simp [QuadNode.GetChild] at hc; subst hc; exact ih h0 hq'
        | 1, _ => simp [QuadNode.GetChild] at hc; subst hc; exact ih h1 hq'
        | 2, _ => simp [QuadNode.GetChild] at hc; subst hc; exact ih h2 hq'
        | 3, _ => simp [QuadNode.GetChild] at hc; subst hc; exact ih h3 hq'

/-- A node with a stored element in its subtree has a non-zero route count. -/
theorem count_ne_zero_of_mem {root m' m : QuadNode} {q' r : Path} {e : Nat}
    (hc : CountInv root) (hq : root.find q' = some m') (hr : m'.find r = some m)
    (he : e ∈ m.data.mElems) : m'.data.mRouteElemCount ≠ 0 := by
  have h1 := (hc.sub hq).routeCountOK.count_eq
  have h2 : e ∈ m'.allElems := mem_allElems.2 ⟨r, m, hr, he⟩
  have h3 : 0 < m'.allElems.length := List.length_pos_of_mem h2
  unfold QuadNode.GetRouteElemCount at h1
  rw [h1]
  omega

/-- No pruning hides a stored element when the region test `keep` holds for the root and for
every region that contains the bounds of the element. -/
theorem open_of_stored {vals : Values} {s : Store} (hI : Inv vals True s) {e : Nat} {p : Path}
    {m : QuadNode} (hp : s.root.find p = some m) (he : e ∈ m.data.mElems)
    (keep : AABB → Bool) (hroot : keep s.root.data.mAABB = true)
    (hk : ∀ a b, s.GetAABB vals e = some b → a.IsContain b = true → keep a = true) :
    Open keep s.root p := by
  intro q' m' hq hm'
  obtain ⟨r, rfl⟩ := hq
  have hr : m'.find r = some m := by
    rw [QuadNode.find_append, hm'] at hp
    simpa using hp
  refine ⟨count_ne_zero_of_mem hI.count hm' hr he, ?_⟩
  by_cases hnil : q' = []
  · subst hnil
    simp at hm'
    subst hm'
    exact hroot
  · have hown : s.GetNode e = some (q' ++ r) := by
      rw [hI.own.1 e, Store.elemsAt_of_find hp]
      exact he
    obtain ⟨b, d, hb, hd, hc⟩ := hI.contain trivial e _ hown q' (List.prefix_append q' r) hnil
    have : d = m'.data := by
      simp [dataAt, hm'] at hd
      exact hd.symm
    subst this
    exact hk _ b hb hc

theorem TreeInv.stored_lt {vals : Values} {κ : Prop} {t : QuadTree} (h : TreeInv vals κ t)
    {e : Nat} (he : t.Stored e) : e < t.next := by
  by_contra hlt
  have := h.fresh e (by omega)
  unfold QuadTree.Stored at he
  simp [this] at he

theorem TreeInv.mem_storedElems {vals : Values} {κ : Prop} {t : QuadTree} (h : TreeInv vals κ t)
    (e : Nat) : e ∈ t.storedElems ↔ t.Stored e := by
  unfold QuadTree.storedElems
  simp only [List.mem_filter, List.mem_range, decide_eq_true_eq]
  exact ⟨fun hs => hs.2, fun hs => ⟨h.stored_lt hs, hs⟩⟩

/-- The multi-hit traversal from the root returns exactly what a scan of the stored elements
returns, provided no stored element is hidden by the pruning. -/
theorem query_exact_generic {vals : Values} {t : QuadTree} {root : QuadNode}
    (hT : TreeInv vals True t) (hr : t.mRoot = some root) (keep : AABB → Bool)
    (test : Nat → Bool) (hval : ∀ e, t.Stored e → t.valueOf e ≠ none)
    (hopen : ∀ e v, t.Stored e → t.valueOf e = some v → test v = true →
      keep root.data.mAABB = true ∧
      ∀ a b, Store.GetAABB vals ⟨root, t.cell⟩ e = some b → a.IsContain b = true →
        keep a = true)
    (output : List Nat) :
    ∃ res, queryNode t.valueOf keep test false root output = .ok (!res.isEmpty, output ++ res) ∧
      ∀ v, v ∈ res ↔ v ∈ hits t.valueOf test t.storedElems := by
  have hI := hT.store root hr
  refine ⟨nodeHits t.valueOf keep test root, ?_, ?_⟩
  · apply queryNode_multi
    intro e he
    exact hval e ((hT.mem_allElems_iff hr e).1 he)
  · intro v
    rw [mem_nodeHits, mem_hits]
    constructor
    · rintro ⟨q, m, e, hq, he, hv, ht, _⟩
      have hs : t.Stored e := (hT.mem_allElems_iff hr e).1 (mem_allElems.2 ⟨q, m, hq, he⟩)
      exact ⟨e, (hT.mem_storedElems e).2 hs, hv, ht⟩
    · rintro ⟨e, he, hv, ht⟩
      have hs : t.Stored e := (hT.mem_storedElems e).1 he
      obtain ⟨q, m, hq, hm⟩ := mem_allElems.1 ((hT.mem_allElems_iff hr e).2 hs)
      obtain ⟨h1, h2⟩ := hopen e v hs hv ht
      exact ⟨q, m, e, hq, hm, hv, ht,
        open_of_stored (s := ⟨root, t.cell⟩) hI hq hm keep h1 h2⟩

theorem Store.GetAABB_eq (vals : Values) (t : QuadTree) (root : QuadNode) (e v : Nat)
    (hv : t.valueOf e = some v) : Store.GetAABB vals ⟨root, t.cell⟩ e = (vals v).GetAABB := by
  unfold Store.GetAABB Store.GetValue
  unfold QuadTree.valueOf at hv
  simp only [hv]

/-- C1 (amended). In a state reached with unchanging values, if every stored value has bounds
inside the region of the root, and contains the query point only if its bounds do, the
multi-hit point query appends exactly the values a brute-force scan finds. -/
theorem point_query_exact {vals : Values} {t : QuadTree} {root : QuadNode}
    (h : Reachable (fun v => v = vals) t) (hr : t.mRoot = some root) (x y : ℚ)
    (output : List Nat)
    (hin : ∀ e, t.Stored e → ∃ v b, t.valueOf e = some v ∧ (vals v).GetAABB = some b ∧
      root.GetAABB.IsContain b = true)
    (hcons : ∀ e v b, t.Stored e → t.valueOf e = some v → (vals v).GetAABB = some b →
      (vals v).IsContain x y = true → b.IsContainPoint x y = true) :
    ∃ res, t.Intersect vals x y output false = .ok (!res.isEmpty, output ++ res) ∧
      ∀ v, v ∈ res ↔ v ∈ t.bruteForcePoint vals x y := by
  have hT : TreeInv vals True t := h.inv (fun _ v hv => hv)
  unfold QuadTree.Intersect QuadTree.bruteForcePoint
  simp only [hr]
  rw [IntersectPointNode_eq]
  refine query_exact_generic hT hr (fun a => a.IsContainPoint x y)
    (fun v => (vals v).IsContain x y) ?_ ?_ output
  · intro e he
    obtain ⟨v, _, hv, _⟩ := hin e he
    simp [hv]
  · intro e v he hv ht
    obtain ⟨v', b, hv', hb, hc⟩ := hin e he
    have : v' = v := by rw [hv'] at hv; exact Option.some.inj hv
    subst this
    have hpt := hcons e v' b he hv hb ht
    refine ⟨AABB.IsContainPoint_of_IsContain hc hpt, ?_⟩
    intro a b' hb' ha
    rw [Store.GetAABB_eq vals t root e v' hv, hb] at hb'
    cases hb'
    exact AABB.IsContainPoint_of_IsContain ha hpt

theorem Reachable.afterAddValue {E : Values → Prop} {t : QuadTree} (h : Reachable E t)
    (vals : Values) (hv : E vals) (fuel : Nat) (value : Option Nat) (atDeep : Int)
    (hok : isOk (t.AddValue vals fuel value atDeep) = true) :
    Reachable E (t.afterAddValue vals fuel value atDeep) :=
  Reachable.addValue h hv (eq_ok_of_isOk (none, t) hok)

theorem outsideTree_reachable : Reachable (fun v => v = outsideValues) outsideTree := by
  have h0 : Reachable (fun v => v = outsideValues) ((QuadTree.new 6).Init 0 0 10 10) :=
    Reachable.init 6 0 0 10 10
  exact h0.afterAddValue outsideValues rfl 2 (some 0) 0 (by decide!)

theorem diagonalTree_reachable : Reachable (fun v => v = diagonalValues) diagonalTree := by
  have h0 : Reachable (fun v => v = diagonalValues) ((QuadTree.new 6).Init 0 0 100 100) :=
    Reachable.init 6 0 0 100 100
  have h1 := h0.afterAddValue diagonalValues rfl 2 (some 0) 0 (by decide!)
  exact h1.afterAddValue diagonalValues rfl 2 (some 1) 0 (by decide!)

theorem boxValue_consistent (b : AABB) (x y : ℚ) (h : (boxValue b).IsContain x y = true) :
    ∃ b', (boxValue b).GetAABB = some b' ∧ b'.IsContainPoint x y = true :=
  ⟨b, rfl, h⟩

/-- C1 as stated fails: a value outside the region of the root is stored at the root, a
brute-force scan finds it at a point it contains, and the point query does not. -/
theorem point_query_exact_counterexample :
    ¬ ∀ (vals : Values) (t : QuadTree) (x y : ℚ), Reachable (fun v => v = vals) t →
      (∀ v px py, (vals v).IsContain px py = true →
        ∃ b, (vals v).GetAABB = some b ∧ b.IsContainPoint px py = true) →
      ∃ b out, t.Intersect vals x y [] false = .ok (b, out) ∧
        ∀ v, v ∈ out ↔ v ∈ t.bruteForcePoint vals x y := by
  intro H
  obtain ⟨b, out, hq, hiff⟩ := H outsideValues outsideTree (41 / 2) (41 / 2)
    outsideTree_reachable (fun _ px py h => boxValue_consistent _ px py h)
  have h1 : outsideTree.Intersect outsideValues (41 / 2) (41 / 2) [] false = .ok (false, []) := by
    decide!
  have h2 : outsideTree.bruteForcePoint outsideValues (41 / 2) (41 / 2) = [0] := by decide!
  rw [h1] at hq
  simp only [Except.ok.injEq, Prod.mk.injEq] at hq
  have := (hiff 0).2 (by rw [h2]; simp)
  rw [← hq.2] at this
  simp at this

theorem diagonalTree_stored {e : Nat} (h : diagonalTree.Stored e) : e = 0 ∨ e = 1 := by
  have hT : TreeInv diagonalValues True diagonalTree :=
    diagonalTree_reachable.inv (fun _ v hv => hv)
  have h1 := hT.stored_lt h
  have h2 : diagonalTree.next = 2 := by decide!
  omega



theorem diagonalTree_root : diagonalTree.mRoot = some diagonalRoot := by decide!

theorem diagonalTree_in_root (e : Nat) (h : diagonalTree.Stored e) :
    ∃ v b, diagonalTree.valueOf e = some v ∧ (diagonalValues v).GetAABB = some b ∧
      diagonalRoot.GetAABB.IsContain b = true := by
  rcases diagonalTree_stored h with rfl | rfl
  · exact ⟨0, ⟨10, 10, 1, 1⟩, by decide!, by decide!, by decide!⟩
  · exact ⟨1, ⟨11, 11, 1, 1⟩, by decide!, by decide!, by decide!⟩

/-- Witness for C1 (amended): the point (21/2, 21/2) on `diagonalTree`. -/
theorem point_query_exact_witness :
    ∃ res, diagonalTree.Intersect diagonalValues (21 / 2) (21 / 2) [] false =
        .ok (!res.isEmpty, [] ++ res) ∧
      ∀ v, v ∈ res ↔ v ∈ diagonalTree.bruteForcePoint diagonalValues (21 / 2) (21 / 2) :=
  point_query_exact diagonalTree_reachable diagonalTree_root (21 / 2) (21 / 2) []
    diagonalTree_in_root
    (fun _ _ _ _ _ hb h => by cases hb; exact h)

/-- Witness for C3: `diagonalTree` holds two elements and its root counts two. -/
theorem root_count_eq_stored_witness :
    diagonalRoot.GetRouteElemCount = diagonalRoot.allElems.length ∧
    diagonalRoot.GetRouteElemCount = diagonalTree.storedElems.length ∧
    (∀ e, e ∈ diagonalRoot.allElems ↔ diagonalTree.Stored e) :=
  root_count_eq_stored diagonalTree_reachable diagonalTree_root

/-- Witness for C4: the root of `diagonalTree`. -/
theorem route_count_invariant_witness :
    RouteCountOK diagonalRoot ∧
    (∀ p n e, diagonalRoot.find p = some n →
      RouteCountOK (Store.AddElem ⟨diagonalRoot, diagonalTree.cell⟩ p e).root) ∧
    (∀ p e, RouteCountOK (Store.RemoveElem ⟨diagonalRoot, diagonalTree.cell⟩ p e).root) ∧
    (∀ p, RouteCountOK (diagonalRoot.update QuadNode.InitChildren p)) :=
  route_count_invariant diagonalTree_reachable diagonalTree_root

/-- `Add` returns `false` only from its first test, which the root always passes. -/
theorem AddBody_true_of_deep {vals : Values} {mMaxDeep : Int} {rec : AddFn} {p : Path}
    {e : Nat} {atDeep : Int} {s s' : Store} {b : Bool} {n : QuadNode}
    (hp : s.root.find p = some n) (hd : n.GetDeep ≤ 1)
    (h : AddBody vals mMaxDeep rec p e atDeep s = .ok (b, s')) : b = true := by
  unfold AddBody at h
  simp only [hp] at h
  have hnot : decide (n.GetDeep > 1) = false := by
    simp only [gt_iff_lt, decide_eq_false_iff_not, not_lt]
    exact hd
  simp only [hnot, Bool.and_false, Bool.false_eq_true, if_false] at h
  split at h
  · simp only [Except.ok.injEq, Prod.mk.injEq] at h
    exact h.1.symm
  · split at h
    · cases h
    · split at h
      · simp only [Except.ok.injEq, Prod.mk.injEq] at h
        exact h.1.symm
      · split at h
        · split at h
          · cases h
          · simp only [Except.ok.injEq, Prod.mk.injEq] at h
            exact h.1.symm
          · simp only [Except.ok.injEq, Prod.mk.injEq] at h
            exact h.1.symm
        · split at h
          · simp only [Except.ok.injEq, Prod.mk.injEq] at h
            exact h.1.symm
          · split at h
            · cases h
            · split at h
              · cases h
              · simp only [Except.ok.injEq, Prod.mk.injEq] at h
                exact h.1.symm
              · simp only [Except.ok.injEq, Prod.mk.injEq] at h
                exact h.1.symm

theorem Add_root_true {vals : Values} {κ : Prop} {mMaxDeep : Int} {fuel : Nat} {e : Nat}
    {atDeep : Int} {s s' : Store} {b : Bool} (hI : Inv vals κ s)
    (h : Add vals mMaxDeep fuel [] e atDeep s = .ok (b, s')) : b = true := by
  cases fuel with
  | zero => simp [Add] at h
  | succ k =>
    have hd : s.root.GetDeep ≤ 1 := by
      have := hI.depth [] s.root.data rfl
      simp [QuadNode.GetDeep, this]
    exact AddBody_true_of_deep (QuadNode.find_nil s.root) hd h

theorem Moved.stored_iff {c : Path} {s s' : Store} {e : Nat} (h : Moved c s s' e) :
    s'.GetNode e ≠ none ↔ s.GetNode e ≠ none := by
  rcases h with h | ⟨o, o', h1, _, h2, _⟩
  · rw [h]
  · simp [h1, h2]

/-- What `Add(value, atDeep)` does when it returns on a tree satisfying the invariant. -/
theorem QuadTree.AddValue_ok {vals : Values} {κ : Prop} {t t1 : QuadTree} {fuel : Nat}
    {value : Option Nat} {atDeep : Int} {r : Option Nat} (hT : TreeInv vals κ t)
    (h : t.AddValue vals fuel value atDeep = .ok (r, t1)) :
    r = some t.next ∧ TreeInv vals κ t1 ∧ t1.Stored t.next ∧ t1.valueOf t.next = value ∧
    ¬ t.Stored t.next ∧
    ∀ e', e' ≠ t.next → (t1.Stored e' ↔ t.Stored e') ∧ t1.valueOf e' = t.valueOf e' := by
  have hT1 := hT.addValue h
  have hn : t.cell t.next = none := hT.fresh t.next (le_refl _)
  cases hr : t.mRoot with
  | none => exact absurd hr hT.inited
  | some root =>
    have h1 := hT.newElement value
    unfold QuadTree.AddValue at h
    simp only [hr] at h
    cases ha : Recast.Add vals t.mMaxDeep fuel [] (t.newElement value).1 atDeep
        ⟨root, (t.newElement value).2.cell⟩ with
    | error err => simp [ha] at h
    | ok r1 =>
      obtain ⟨b1, s1⟩ := r1
      simp only [ha, Except.ok.injEq, Prod.mk.injEq] at h
      obtain ⟨rfl, rfl⟩ := h
      have hr1 : (t.newElement value).2.mRoot = some root := hr
      have hI1 := h1.store root hr1
      have hal : ((t.newElement value).2.cell t.next).isSome = true := by
        simp [QuadTree.newElement]
      obtain ⟨hI, hE, _, hown⟩ := Add_spec vals κ t.mMaxDeep fuel [] _ atDeep _ b1 s1
        root hI1 rfl hal (fun _ => ContainAt.nil vals _ _) ha
      have hb : b1 = true := Add_root_true hI1 ha
      obtain ⟨q, hq⟩ := hown hb
      refine ⟨rfl, hT1, ?_, ?_, ?_, ?_⟩
      · unfold QuadTree.Stored
        have : (s1.cell t.next).bind Element.mNode = some ([] ++ q) := hq
        simp [QuadTree.setStore, this]
      · have := hE.ext.value t.next
        simp only [QuadTree.newElement, if_true, Option.map_some'] at this
        unfold QuadTree.valueOf
        simp only [QuadTree.setStore]
        cases hc : s1.cell t.next with
        | none => simp [hc] at this
        | some c =>
          rw [hc] at this
          simp at this
          simp [this]
      · unfold QuadTree.Stored
        simp [hn]
      · intro e' he'
        have hm := (hE.others e' he').stored_iff
        have hv := hE.ext.value e'
        simp only [QuadTree.newElement, he', if_false] at hv
        constructor
        · unfold QuadTree.Stored
          simp only [QuadTree.setStore]
          simp only [Store.GetNode, QuadTree.newElement, he', if_false] at hm
          exact hm
        · unfold QuadTree.valueOf
          simp only [QuadTree.setStore]
          cases hc : s1.cell e' <;> cases hc0 : t.cell e' <;> simp_all

/-- What `Remove(elem, del)` does to a stored element. -/
theorem QuadTree.Remove_ok {vals : Values} {κ : Prop} {t1 t2 : QuadTree} {e : Nat} {del : Bool}
    (hT : TreeInv vals κ t1) (hs : t1.Stored e) (h : t1.Remove (some e) del = .ok t2) :
    TreeInv vals κ t2 ∧ ¬ t2.Stored e ∧
    ∀ e', e' ≠ e → (t2.Stored e' ↔ t1.Stored e') ∧ t2.valueOf e' = t1.valueOf e' := by
  have hT2 := hT.remove h
  refine ⟨hT2, ?_⟩
  unfold QuadTree.Remove at h
  simp only at h
  cases hn : (t1.cell e).bind Element.mNode with
  | none => exact absurd hn hs
  | some node =>
    simp only [hn] at h
    cases hr : t1.mRoot with
    | none => exact absurd hr hT.inited
    | some root =>
      simp only [hr, Except.ok.injEq] at h
      have ho : (Store.mk root t1.cell).GetNode e = some node := hn
      have hg := Store.GetNode_RemoveElem ⟨root, t1.cell⟩ node e ho
      have hc := Store.RemoveElem_cell ⟨root, t1.cell⟩ node e ho
      subst h
      constructor
      · unfold QuadTree.Stored
        have := hg e
        simp only [Store.GetNode, if_true] at this
        cases del
        · simpa [QuadTree.setStore] using this
        · simp [QuadTree.deleteElem]
      · intro e' he'
        have h1 := hc e'
        simp only [he', if_false] at h1
        unfold QuadTree.Stored QuadTree.valueOf
        cases del
        · simp [QuadTree.setStore, h1]
        · simp [QuadTree.setStore, QuadTree.deleteElem, he', h1]

theorem QuadTree.Intersect_sound {vals : Values} {κ : Prop} {t : QuadTree} {x y : ℚ}
    {output out' : List Nat} {getOne b : Bool} (hT : TreeInv vals κ t)
    (h : t.Intersect vals x y output getOne = .ok (b, out')) :
    Appends (fun v => ∃ e, t.Stored e ∧ t.valueOf e = some v ∧ (vals v).IsContain x y = true)
      output out' := by
  cases hr : t.mRoot with
  | none => exact absurd hr hT.inited
  | some root =>
    unfold QuadTree.Intersect at h
    simp only [hr] at h
    rw [IntersectPointNode_eq] at h
    refine (queryNode_sound _ _ _ getOne root output b out' h).mono_appends ?_
    rintro v ⟨e, he, hv, ht⟩
    exact ⟨e, (hT.mem_allElems_iff hr e).1 he, hv, ht⟩

theorem QuadTree.IntersectCircle_sound {vals : Values} {κ : Prop} {t : QuadTree}
    {circle : Circle} {output out' : List Nat} {getOne b : Bool} (hT : TreeInv vals κ t)
    (h : t.IntersectCircle vals circle output getOne = .ok (b, out')) :
    Appends (fun v => ∃ e, t.Stored e ∧ t.valueOf e = some v ∧
      (vals v).Intersect circle = true) output out' := by
  cases hr : t.mRoot with
  | none => exact absurd hr hT.inited
  | some root =>
    unfold QuadTree.IntersectCircle at h
    simp only [hr] at h
    rw [IntersectCircleNode_eq] at h
    refine (queryNode_sound _ _ _ getOne root output b out' h).mono_appends ?_
    rintro v ⟨e, he, hv, ht⟩
    exact ⟨e, (hT.mem_allElems_iff hr e).1 he, hv, ht⟩

/-- Two trees that store the same elements have the same route count at the root. -/
theorem root_count_congr {vals : Values} {κ : Prop} {t t' : QuadTree} {root root' : QuadNode}
    (hT : TreeInv vals κ t) (hT' : TreeInv vals κ t') (hr : t.mRoot = some root)
    (hr' : t'.mRoot = some root') (h : ∀ e, t'.Stored e ↔ t.Stored e) :
    root'.GetRouteElemCount = root.GetRouteElemCount := by
  have hI := hT.store root hr
  have hI' := hT'.store root' hr'
  rw [hI.count.routeCountOK.count_eq, hI'.count.routeCountOK.count_eq]
  have hp : root'.allElems.Perm root.allElems := by
    rw [List.perm_ext_iff_of_nodup hI'.own.ownTree.nodup hI.own.ownTree.nodup]
    intro e
    rw [hT'.mem_allElems_iff hr', hT.mem_allElems_iff hr, h]
  rw [hp.length_eq]

theorem Inv.basic {vals vals' : Values} {κ : Prop} {s : Store} (h : Inv vals κ s) :
    Inv vals' False s :=
  ⟨h.own, h.count, h.depth, h.region, fun k => absurd k id⟩

theorem tryChildren_nosplit {vals : Values} {rec : AddFn} (hrec : AddSpec vals False rec)
    (hns : NoSplitSpec rec) (p : Path) (e : Nat) (atDeep : Int) (is : List Nat) :
    ∀ (s : Store) (b : Bool) (s' : Store), Inv vals False s →
      (∀ i ∈ is, ∃ c, s.root.find (p ++ [i]) = some c) → (s.cell e).isSome = true →
      tryChildren rec p e atDeep is s = .ok (b, s') →
      (∀ q, kidsAt s'.root q = kidsAt s.root q) →
      s' = s ∨ ∃ p' n', s.root.find p' = some n' ∧ s' = s.AddElem p' e := by
  induction is with
  | nil =>
    intro s b s' _ _ _ h _
    simp only [tryChildren, Except.ok.injEq, Prod.mk.injEq] at h
    exact Or.inl h.2.symm
  | cons i is ih =>
    intro s b s' hI hv ha h hk
    obtain ⟨c, hci⟩ := hv i (by simp)
    simp only [tryChildren] at h
    cases hr : rec (p ++ [i]) e atDeep s with
    | error err => simp [hr] at h
    | ok r =>
      obtain ⟨b1, s1⟩ := r
      obtain ⟨_, _, hF1, _⟩ := hrec (p ++ [i]) e atDeep s b1 s1 c hI hci ha
        (fun k => absurd k id) hr
      cases b1 with
      | true =>
        simp only [hr, Except.ok.injEq, Prod.mk.injEq] at h
        obtain ⟨_, rfl⟩ := h
        exact hns (p ++ [i]) e atDeep s true s1 c hI.basic hci ha hr hk
      | false =>
        simp only [hr] at h
        have hs : s1 = s := hF1 rfl
        rw [hs] at h
        exact ih s b s' hI (fun j hj => hv j (by simp [hj])) ha h hk

theorem AddBody_nosplit {vals : Values} {rec : AddFn} (mMaxDeep : Int)
    (hrec : AddSpec vals False rec) (hns : NoSplitSpec rec) :
    NoSplitSpec (AddBody vals mMaxDeep rec) := by
  intro p e atDeep s b s' n hI0 hp ha h hk
  have hI : Inv vals False s := hI0.basic
  have hstore : s.AddElem p e = s ∨ ∃ p' n', s.root.find p' = some n' ∧
      s.AddElem p e = s.AddElem p' e := Or.inr ⟨p, n, hp, rfl⟩
  unfold AddBody at h
  simp only [hp] at h
  split at h
  · simp only [Except.ok.injEq, Prod.mk.injEq] at h
    exact Or.inl h.2.symm
  · split at h
    · simp only [Except.ok.injEq, Prod.mk.injEq] at h
      rw [← h.2]; exact hstore
    · split at h
      · cases h
      · split at h
        · simp only [Except.ok.injEq, Prod.mk.injEq] at h
          rw [← h.2]; exact hstore
        · split at h
          · rename_i hkid
            rw [range_node_count] at h
            have hkids : kidsAt s.root p = some true := by simp [kidsAt, hp, hkid]
            cases ht : tryChildren rec p e atDeep [0, 1, 2, 3] s with
            | error err => simp [ht] at h
            | ok r =>
              obtain ⟨b1, s1⟩ := r
              obtain ⟨_, _, hF1, _⟩ := tryChildren_spec hrec p e atDeep [0, 1, 2, 3] s b1 s1 hI
                (children_valid hkids) ha (fun k => absurd k id) ht
              cases b1 with
              | true =>
                simp only [ht, Except.ok.injEq, Prod.mk.injEq] at h
                obtain ⟨_, rfl⟩ := h
                exact tryChildren_nosplit hrec hns p e atDeep [0, 1, 2, 3] s true s1 hI
                  (children_valid hkids) ha ht hk
              | false =>
                simp only [ht, Except.ok.injEq, Prod.mk.injEq] at h
                have hs : s1 = s := hF1 rfl
                rw [hs] at h
                rw [← h.2]; exact hstore
          · rename_i hkid
            split at h
            · simp only [Except.ok.injEq, Prod.mk.injEq] at h
              rw [← h.2]; exact hstore
            · exfalso
              have hk0 : kidsAt s.root p = some false := by
                simp only [kidsAt, hp, Option.map_some']
                simpa using hkid
              have hI1 : Inv vals False (s.InitChildren p) := hI.InitChildren_inv hp
              have hk1 : kidsAt (s.InitChildren p).root p = some true := kidsAt_InitChildren hp
              change (match (if atDeep = 0 then
                  redistribute rec p (List.range QT_NODE_COUNT) (s.InitChildren p)
                  else Except.ok (s.InitChildren p)) with
                | .error err => .error err
                | .ok s2 =>
                  match tryChildren rec p e atDeep (List.range QT_NODE_COUNT) s2 with
                  | .error err => .error err
                  | .ok (true, s3) => .ok (true, s3)
                  | .ok (false, s3) => .ok (true, s3.AddElem p e)) = Except.ok (b, s') at h
              rw [range_node_count] at h
              obtain ⟨n1, hn1⟩ := (Ext.InitChildren_ext hp).find_ext hp
              have key : ∀ s2, Inv vals False s2 → Ext (s.InitChildren p) s2 →
                  (match tryChildren rec p e atDeep [0, 1, 2, 3] s2 with
                    | .error err => .error err
                    | .ok (true, s3) => .ok (true, s3)
                    | .ok (false, s3) => .ok (true, s3.AddElem p e)) = Except.ok (b, s') →
                  Ext (s.InitChildren p) s' := by
                intro s2 hI2 hX2 h2
                have hk2 := hX2.kids p hk1
                have ha2 : (s2.cell e).isSome = true := by
                  rw [hX2.alive]; exact ha
                cases ht : tryChildren rec p e atDeep [0, 1, 2, 3] s2 with
                | error err => simp [ht] at h2
                | ok r =>
                  obtain ⟨b1, s3⟩ := r
                  obtain ⟨hI3, hE3, _, _⟩ := tryChildren_spec hrec p e atDeep [0, 1, 2, 3] s2 b1
                    s3 hI2 (children_valid hk2) ha2 (fun k => absurd k id) ht
                  cases b1 with
                  | true =>
                    simp only [ht, Except.ok.injEq, Prod.mk.injEq] at h2
                    rw [← h2.2]
                    exact hX2.trans_ext hE3.ext
                  | false =>
                    simp only [ht, Except.ok.injEq, Prod.mk.injEq] at h2
                    rw [← h2.2]
                    exact (hX2.trans_ext hE3.ext).trans_ext (Ext.AddElem_ext hI3 p e)
              have hX : Ext (s.InitChildren p) s' := by
                by_cases h0 : atDeep = 0
                · subst h0
                  simp only [↓reduceIte] at h
                  cases hr : redistribute rec p [0, 1, 2, 3] (s.InitChildren p) with
                  | error err => simp [hr] at h
                  | ok s2 =>
                    simp only [hr] at h
                    obtain ⟨hI2, hX2, _⟩ := redistribute_spec hrec p [0, 1, 2, 3]
                      (s.InitChildren p) s2 n1 hI1 hn1 (children_valid hk1) hr
                    exact key s2 hI2 hX2 h
                · simp only [h0, if_false] at h
                  exact key _ hI1 (Ext.refl_ext _) h
              have := hX.kids p hk1
              rw [hk p, hk0] at this
              cases this

/-- A call of `Add` that creates no node has only stored the element at an existing node. -/
theorem Add_nosplit (vals : Values) (mMaxDeep : Int) (fuel : Nat) :
    NoSplitSpec (Add vals mMaxDeep fuel) := by
  induction fuel with
  | zero =>
    intro p e atDeep s b s' n _ _ _ h
    simp [Add] at h
  | succ k ih => exact AddBody_nosplit mMaxDeep (Add_spec vals False mMaxDeep k) ih

/-- Two trees that show the same data and the same children flags to every pointer are equal. -/
theorem QuadNode.ext_views : ∀ (r r' : QuadNode), (∀ q, dataAt r q = dataAt r' q) →
    (∀ q, kidsAt r q = kidsAt r' q) → r = r'
  | .leaf d, .leaf d', hd, _ => by
    have := hd []
    simp [dataAt, QuadNode.data] at this
    rw [this]
  | .leaf d, .split d' _ _ _ _, _, hk => by
    have := hk []
    simp [kidsAt, QuadNode.HasChild] at this
  | .split d _ _ _ _, .leaf d', _, hk => by
    have := hk []
    simp [kidsAt, QuadNode.HasChild] at this
  | .split d c0 c1 c2 c3, .split d' c0' c1' c2' c3', hd, hk => by
    have h0 := hd []
    simp [dataAt, QuadNode.data] at h0
    have e0 : c0 = c0' := QuadNode.ext_views c0 c0'
      (fun q => by simpa [dataAt_split_cons] using hd (0 :: q))
      (fun q => by simpa [kidsAt, QuadNode.find, QuadNode.GetChild] using hk (0 :: q))
    have e1 : c1 = c1' := QuadNode.ext_views c1 c1'
      (fun q => by simpa [dataAt_split_cons] using hd (1 :: q))
      (fun q => by simpa [kidsAt, QuadNode.find, QuadNode.GetChild] using hk (1 :: q))
    have e2 : c2 = c2' := QuadNode.ext_views c2 c2'
      (fun q => by simpa [dataAt_split_cons] using hd (2 :: q))
      (fun q => by simpa [kidsAt, QuadNode.find, QuadNode.GetChild] using hk (2 :: q))
    have e3 : c3 = c3' := QuadNode.ext_views c3 c3'
      (fun q => by simpa [dataAt_split_cons] using hd (3 :: q))
      (fun q => by simpa [kidsAt, QuadNode.find, QuadNode.GetChild] using hk (3 :: q))
    rw [h0, e0, e1, e2, e3]

/-- Removing an element right after storing it restores the tree. -/
theorem RemoveElem_AddElem_root {vals : Values} {κ : Prop} {s : Store} {p : Path} {e : Nat}
    {n : QuadNode} (hI : Inv vals κ s) (hn : s.GetNode e = none)
    (ha : (s.cell e).isSome = true) (hp : s.root.find p = some n) :
    ((s.AddElem p e).RemoveElem p e).root = s.root := by
  have hI0 : Inv vals False s := hI.basic
  have hI1 : Inv vals False (s.AddElem p e) := hI0.attach hn ha hp (fun k => absurd k id)
  have ho : (s.AddElem p e).GetNode e = some p := by
    rw [Store.GetNode_AddElem s p e ha]; simp
  have hm : e ∈ (s.AddElem p e).elemsAt p := (hI1.own.1 e p).1 ho
  have hE1 := Store.Edit_attach s p e hn
  have hE2 := Store.Edit_detach (s.AddElem p e) p e ho hm
  have hnot : e ∉ n.data.mElems := by
    intro hmem
    have : e ∈ s.elemsAt p := by rw [Store.elemsAt_of_find hp]; exact hmem
    have := (hI.own.1 e p).2 this
    rw [hn] at this
    cases this
  apply QuadNode.ext_views
  · intro q
    rw [hE2.1 q, hE1.1 q]
    cases hd : dataAt s.root q with
    | none => rfl
    | some d =>
      simp only [Option.map_some', editView, Bool.false_eq_true, if_false, if_true]
      by_cases hqp : q = p
      · subst hqp
        have hdn : d = n.data := by
          simp [dataAt, hp] at hd
          exact hd.symm
        subst hdn
        simp only [List.prefix_refl, if_true]
        rw [List.erase_append_right _ hnot]
        simp
      · by_cases hpre : q <+: p
        · simp [hqp, hpre]
        · simp [hqp, hpre]
  · intro q
    rw [hE2.2 q, hE1.2 q]

theorem QuadTree.AddValue_unfold {vals : Values} {t t1 : QuadTree} {fuel : Nat}
    {value : Option Nat} {atDeep : Int} {r : Option Nat} {root : QuadNode}
    (hr : t.mRoot = some root) (h : t.AddValue vals fuel value atDeep = .ok (r, t1)) :
    ∃ b s1, Recast.Add vals t.mMaxDeep fuel [] t.next atDeep
        ⟨root, (t.newElement value).2.cell⟩ = .ok (b, s1) ∧
      t1 = (t.newElement value).2.setStore s1 := by
  unfold QuadTree.AddValue at h
  simp only [hr] at h
  cases ha : Recast.Add vals t.mMaxDeep fuel [] (t.newElement value).1 atDeep
      ⟨root, (t.newElement value).2.cell⟩ with
  | error err => simp [ha] at h
  | ok r1 =>
    obtain ⟨b1, s1⟩ := r1
    simp only [ha, Except.ok.injEq, Prod.mk.injEq] at h
    exact ⟨b1, s1, ha, h.2.symm⟩

theorem QuadTree.Remove_unfold {t1 t2 : QuadTree} {e : Nat} {del : Bool} {root1 : QuadNode}
    {node : Path} (hr : t1.mRoot = some root1) (hn : (t1.cell e).bind Element.mNode = some node)
    (h : t1.Remove (some e) del = .ok t2) :
    t2.mRoot = some (Store.RemoveElem ⟨root1, t1.cell⟩ node e).root := by
  unfold QuadTree.Remove at h
  simp only [hn, hr, Except.ok.injEq] at h
  subst h
  cases del <;> rfl

theorem QuadTree.AddValue_eq_of_eval (vals : Values) (fuel : Nat) (t : QuadTree)
    (value : Option Nat) (atDeep : Int) (e : Nat)
    (h1 : isOk (t.AddValue vals fuel value atDeep) = true)
    (h2 : (okOr (none, t) (t.AddValue vals fuel value atDeep)).1 = some e) :
    t.AddValue vals fuel value atDeep = .ok (some e, t.afterAddValue vals fuel value atDeep) := by
  have := eq_ok_of_isOk (none, t) h1
  rw [this]
  unfold QuadTree.afterAddValue
  rw [← h2]

theorem QuadTree.Remove_eq_of_eval (t : QuadTree) (elem : Option Nat) (del : Bool)
    (h : isOk (t.Remove elem del) = true) :
    t.Remove elem del = .ok (t.afterRemove elem del) :=
  eq_ok_of_isOk t h

theorem Reachable.afterAddValues {E : Values → Prop} (vals : Values) (hv : E vals) (fuel : Nat) :
    ∀ (vs : List Nat) {t : QuadTree}, Reachable E t →
      Reachable E (t.afterAddValues vals fuel vs)
  | [], _, h => h
  | v :: vs, t, h => by
    unfold QuadTree.afterAddValues
    apply Reachable.afterAddValues vals hv fuel vs
    unfold QuadTree.afterAddValue
    cases hr : t.AddValue vals fuel (some v) 0 with
    | error err => simpa [okOr] using h
    | ok r => exact Reachable.addValue h hv (r := r.1) (by simpa [okOr] using hr)

theorem clusterTree_reachable (E : Values → Prop) (hE : E clusterValues) :
    Reachable E clusterTree :=
  Reachable.afterAddValues clusterValues hE 1 _ (Reachable.init 6 0 0 100 100)

theorem clusterTree_root : clusterTree.mRoot = some clusterRoot := by decide!

theorem clusterTree_stored {e : Nat} (h : clusterTree.Stored e) : e < 8 := by
  have hT : TreeInv clusterValues False clusterTree :=
    (clusterTree_reachable (fun _ => True) trivial).inv (fun hf => absurd hf id)
  have h1 := hT.stored_lt h
  have h2 : clusterTree.next = 8 := by decide!
  omega

theorem clusterTree_fresh (e : Nat) (h : clusterTree.Stored e) :
    clusterTree.valueOf e ≠ some 8 := by
  have H : ∀ e, e < 8 → clusterTree.valueOf e ≠ some 8 := by decide!
  exact H e (clusterTree_stored h)

/-- C8. On a tree without root both forms of `Add` fail and change nothing: `Add(Element*)`
returns false, `Add(ValueType*)` returns null, and tree and element heap are as before. -/
theorem add_uninitialized (vals : Values) (fuel : Nat) (t : QuadTree) (elem : Nat)
    (value : Option Nat) (atDeep : Int) (h : t.mRoot = none) :
    t.Add vals fuel elem atDeep = .ok (false, t) ∧
    t.AddValue vals fuel value atDeep = .ok (none, t) := by
  simp [QuadTree.Add, QuadTree.AddValue, h]

/-- Witness for C8: a tree that was never initialized. -/
theorem add_uninitialized_witness :
    (QuadTree.new 6).Add diagonalValues 5 0 0 = .ok (false, QuadTree.new 6) ∧
    (QuadTree.new 6).AddValue diagonalValues 5 (some 0) 0 = .ok (none, QuadTree.new 6) :=
  add_uninitialized diagonalValues 5 (QuadTree.new 6) 0 (some 0) 0 rfl

theorem kidsAt_RemoveElem {vals : Values} {κ : Prop} {s : Store} {o : Path} {e : Nat}
    (hI : Inv vals κ s) (ho : s.GetNode e = some o) (q : Path) :
    kidsAt (s.RemoveElem o e).root q = kidsAt s.root q :=
  (Store.Edit_detach s o e ho ((hI.own.1 e o).1 ho)).2 q

theorem kidsAt_AddElem {vals : Values} {κ : Prop} {s : Store} (hI : Inv vals κ s) (p : Path)
    (e : Nat) (q : Path) : kidsAt (s.AddElem p e).root q = kidsAt s.root q := by
  cases ho : s.GetNode e with
  | none => exact (Store.Edit_attach s p e ho).2 q
  | some o =>
    by_cases hne : o = p
    · subst hne
      rw [Store.AddElem_of_owner ho]
    · rw [Store.AddElem_eq_detach ho hne]
      have h1 : (s.RemoveElem o e).GetNode e = none := by
        rw [Store.GetNode_RemoveElem s o e ho]; simp
      rw [(Store.Edit_attach _ p e h1).2 q, kidsAt_RemoveElem hI ho]

/-- The first two tests of `Add` at a node of depth 1 with an element that is too wide or too
high for a child: the element is stored at the node, whatever `atDeep`. -/
theorem AddBody_oversized {vals : Values} {mMaxDeep : Int} {rec : AddFn} {p : Path} {e : Nat}
    {atDeep : Int} {s : Store} {n : QuadNode} {b : AABB} (hp : s.root.find p = some n)
    (hd : n.GetDeep ≤ 1) (hb : s.GetAABB vals e = some b)
    (hbig : fmul n.GetWidth (1 / 2) < b.GetWidth ∨ fmul n.GetHeight (1 / 2) < b.GetHeight) :
    AddBody vals mMaxDeep rec p e atDeep s = .ok (true, s.AddElem p e) := by
  unfold AddBody
  simp only [hp, hb]
  have hnot : decide (n.GetDeep > 1) = false := by
    simp only [gt_iff_lt, decide_eq_false_iff_not, not_lt]
    exact hd
  have hbig' : (decide (fmul n.GetWidth (1 / 2) < b.GetWidth) ||
      decide (fmul n.GetHeight (1 / 2) < b.GetHeight)) = true := by
    simpa using hbig
  simp only [hnot, Bool.and_false, Bool.false_eq_true, if_false, hbig', if_true]
  split <;> rfl

/-- C9. An element wider than half the width of the root, or higher than half its height, is
stored directly at the root by `Add` from the root, for any `atDeep`: the call returns true
without any nested call (one unit of fuel is enough), the element is in the list of the root,
no node gets children, and no other element changes its owner or its list. -/
theorem oversized_stays_at_root {E : Values → Prop} {vals : Values} {t : QuadTree}
    {root : QuadNode} (h : Reachable E t) (hr : t.mRoot = some root) (elem v : Nat) (b : AABB)
    (atDeep : Int) (fuel : Nat) (ha : t.valueOf elem = some v)
    (hb : (vals v).GetAABB = some b)
    (hbig : fmul root.GetWidth (1 / 2) < b.GetWidth ∨ fmul root.GetHeight (1 / 2) < b.GetHeight) :
    t.Add vals (fuel + 1) elem atDeep =
      .ok (true, t.setStore (Store.AddElem ⟨root, t.cell⟩ [] elem)) ∧
    elem ∈ (Store.AddElem ⟨root, t.cell⟩ [] elem).elemsAt [] ∧
    (Store.AddElem ⟨root, t.cell⟩ [] elem).GetNode elem = some [] ∧
    (∀ q, kidsAt (Store.AddElem ⟨root, t.cell⟩ [] elem).root q = kidsAt root q) ∧
    ∀ e', e' ≠ elem →
      (Store.AddElem ⟨root, t.cell⟩ [] elem).GetNode e' = Store.GetNode ⟨root, t.cell⟩ e' ∧
      ∀ q, e' ∈ (Store.AddElem ⟨root, t.cell⟩ [] elem).elemsAt q ↔
        e' ∈ Store.elemsAt ⟨root, t.cell⟩ q := by
  have hT : TreeInv vals False t := h.inv (fun hf => absurd hf id)
  have hI := hT.store root hr
  have hal : (t.cell elem).isSome = true := by
    unfold QuadTree.valueOf at ha
    cases hc : t.cell elem with
    | none => simp [hc] at ha
    | some c => rfl
  have hI' : Inv vals False (Store.AddElem ⟨root, t.cell⟩ [] elem) :=
    hI.AddElem_inv hal (QuadNode.find_nil root) (fun k => absurd k id)
  have hg := Store.GetNode_AddElem ⟨root, t.cell⟩ [] elem hal
  have hd : root.GetDeep ≤ 1 := by
    have := hI.depth [] root.data rfl
    simp [QuadNode.GetDeep, this]
  refine ⟨?_, ?_, ?_, ?_, ?_⟩
  · unfold QuadTree.Add
    simp only [hr, Recast.Add]
    rw [AddBody_oversized (s := ⟨root, t.cell⟩) (QuadNode.find_nil root) hd
      (by rw [Store.GetAABB_eq vals t root elem v ha]; exact hb) hbig]
  · rw [← hI'.own.1 elem [], hg]
    simp
  · rw [hg]; simp
  · exact kidsAt_AddElem hI [] elem
  · intro e' he'
    have hg' : (Store.AddElem ⟨root, t.cell⟩ [] elem).GetNode e' =
        Store.GetNode ⟨root, t.cell⟩ e' := by
      rw [hg]; simp [he']
    refine ⟨hg', fun q => ?_⟩
    rw [← hI'.own.1 e' q, ← hI.own.1 e' q, hg']

theorem oneElementTree_reachable (E : Values → Prop) : Reachable E oneElementTree :=
  Reachable.newElement (some 0) (Reachable.init 6 0 0 100 100)

/-- Witness for C9: a value 60 wide offered to a root 100 wide. -/
theorem oversized_stays_at_root_witness :
    oneElementTree.Add wideValues 1 0 0 = .ok (true, oneElementTree.setStore
      (Store.AddElem ⟨QuadNode.new 1 ⟨0, 0, 100, 100⟩, oneElementTree.cell⟩ [] 0)) :=
  (oversized_stays_at_root (oneElementTree_reachable (fun _ => True)) rfl 0 0 ⟨10, 10, 60, 1⟩ 0 0
    rfl rfl (Or.inl (by decide!))).1

/-- The first tests of `Add` at a node of depth 1 with an element without bounds: unless
`atDeep` is 1, the null pointer `aabb` is dereferenced. -/
theorem AddBody_no_bounds {vals : Values} {mMaxDeep : Int} {rec : AddFn} {p : Path} {e : Nat}
    {atDeep : Int} {s : Store} {n : QuadNode} (hp : s.root.find p = some n)
    (hd : n.GetDeep = 1) (hb : s.GetAABB vals e = none) :
    AddBody vals mMaxDeep rec p e atDeep s =
      if atDeep = 1 then .ok (true, s.AddElem p e) else .error .nullDeref := by
  unfold AddBody
  simp only [hp, hb, hd]
  by_cases h1 : atDeep = 1
  · subst h1
    simp
  · simp [h1]

/-- An element without bounds is rejected by every node below the root. -/
theorem AddBody_no_bounds_below {vals : Values} {mMaxDeep : Int} {rec : AddFn} {p : Path}
    {e : Nat} {atDeep : Int} {s : Store} {n : QuadNode} (hp : s.root.find p = some n)
    (hd : n.GetDeep > 1) (hb : s.GetAABB vals e = none) :
    AddBody vals mMaxDeep rec p e atDeep s = .ok (false, s) := by
  unfold AddBody
  simp only [hp, hb]
  simp [hd]

/-- C7, what the code does. For an element whose value has no bounds, `Add` from the root
dereferences the null `aabb` unless `atDeep` is 1 (then the element is stored at the root),
and `Add` at any node below the root returns false and changes nothing. -/
theorem add_without_bounds {E : Values → Prop} {vals : Values} {t : QuadTree}
    {root : QuadNode} (h : Reachable E t) (hr : t.mRoot = some root) (elem : Nat)
    (hb : Store.GetAABB vals ⟨root, t.cell⟩ elem = none) (fuel : Nat) :
    (∀ atDeep, atDeep ≠ 1 → t.Add vals (fuel + 1) elem atDeep = .error .nullDeref) ∧
    t.Add vals (fuel + 1) elem 1 =
      .ok (true, t.setStore (Store.AddElem ⟨root, t.cell⟩ [] elem)) ∧
    ∀ p n atDeep, p ≠ [] → root.find p = some n →
      Recast.Add vals t.mMaxDeep (fuel + 1) p elem atDeep ⟨root, t.cell⟩ =
        .ok (false, ⟨root, t.cell⟩) := by
  have hT : TreeInv vals False t := h.inv (fun hf => absurd hf id)
  have hI := hT.store root hr
  have hd : root.GetDeep = 1 := by
    have := hI.depth [] root.data rfl
    simp [QuadNode.GetDeep, this]
  refine ⟨?_, ?_, ?_⟩
  · intro atDeep hne
    unfold QuadTree.Add
    simp only [hr, Recast.Add]
    rw [AddBody_no_bounds (s := ⟨root, t.cell⟩) (QuadNode.find_nil root) hd hb]
    simp [hne]
  · unfold QuadTree.Add
    simp only [hr, Recast.Add]
    rw [AddBody_no_bounds (s := ⟨root, t.cell⟩) (QuadNode.find_nil root) hd hb]
    simp
  · intro p n atDeep hne hp
    simp only [Recast.Add]
    refine AddBody_no_bounds_below (s := ⟨root, t.cell⟩) hp ?_ hb
    have := hI.depth p n.data (by simp [dataAt, hp])
    have hpos : 0 < p.length := List.length_pos.2 hne
    simp only [QuadNode.GetDeep, this]
    omega

/-- C7 at the failing input: on a fresh tree over (0, 0, 100, 100), `Add(value)` for a value
whose `GetAABB()` is null dereferences the null pointer instead of storing it at the root. -/
theorem add_without_bounds_fails :
    errOf (((QuadTree.new 6).Init 0 0 100 100).AddValue noBoundsValues 5 (some 0) 0) =
      some .nullDeref := by
  decide!

theorem QuadNode.height_pos (n : QuadNode) : 1 ≤ n.height := by
  cases n <;> simp [QuadNode.height]

theorem bounded_height : ∀ (root : QuadNode), Bounded root.height root
  | .leaf d => by
    intro q n hq
    cases q with
    | nil => simp [QuadNode.height]
    | cons i q => simp [QuadNode.find, QuadNode.GetChild] at hq
  | .split d c0 c1 c2 c3 => by
    intro q n hq
    have b0 := bounded_height c0
    have b1 := bounded_height c1
    have b2 := bounded_height c2
    have b3 := bounded_height c3
    match q with
    | [] => simp [QuadNode.height]
    | 0 :: q =>
      have := b0 q n (by simpa [QuadNode.find, QuadNode.GetChild] using hq)
      simp only [QuadNode.height, List.length_cons]
      omega
    | 1 :: q =>
      have := b1 q n (by simpa [QuadNode.find, QuadNode.GetChild] using hq)
      simp only [QuadNode.height, List.length_cons]
      omega
    | 2 :: q =>
      have := b2 q n (by simpa [QuadNode.find, QuadNode.GetChild] using hq)
      simp only [QuadNode.height, List.length_cons]
      omega
    | 3 :: q =>
      have := b3 q n (by simpa [QuadNode.find, QuadNode.GetChild] using hq)
      simp only [QuadNode.height, List.length_cons]
      omega
    | (_ + 4) :: q => simp [QuadNode.find, QuadNode.GetChild] at hq

theorem Bounded.mono_bounded {B B' : Nat} {root : QuadNode} (h : Bounded B root) (hB : B ≤ B') :
    Bounded B' root :=
  fun q n hq => le_trans (h q n hq) hB

theorem find_isSome_of_kidsAt {root root' : QuadNode} {q : Path} {n' : QuadNode}
    (hk : kidsAt root' q = kidsAt root q) (hq : root'.find q = some n') :
    ∃ n, root.find q = some n := by
  unfold kidsAt at hk
  rw [hq] at hk
  cases hf : root.find q with
  | none => simp [hf] at hk
  | some n => exact ⟨n, rfl⟩

theorem Bounded.AddElem_bounded {vals : Values} {κ : Prop} {B : Nat} {s : Store}
    (hI : Inv vals κ s) (h : Bounded B s.root) (p : Path) (e : Nat) :
    Bounded B (s.AddElem p e).root := by
  intro q n hq
  obtain ⟨n0, hn0⟩ := find_isSome_of_kidsAt (kidsAt_AddElem hI p e q) hq
  exact h q n0 hn0

theorem Bounded.InitChildren_bounded {B : Nat} {s : Store} {p : Path} {n : QuadNode}
    (h : Bounded B s.root) (hp : s.root.find p = some n) (hB : p.length + 2 ≤ B) :
    Bounded B (s.InitChildren p).root := by
  cases hk : n.HasChild with
  | true => rw [Store.InitChildren_of_hasChild_store hp hk]; exact h
  | false =>
    have hl := Store.find_leaf_of_not_hasChild hp hk
    intro q m hq
    rcases Store.dataAt_InitChildren_cases hl q m.data (by simp [dataAt, hq]) with
      h0 | ⟨i, _, hqi, _, _⟩
    · unfold dataAt at h0
      cases hf : s.root.find q with
      | none => simp [hf] at h0
      | some m0 => exact h q m0 hf
    · subst hqi
      simp only [List.length_append, List.length_singleton]
      omega

theorem length_le_of_moved_subset {l l' : List Nat} {a : Nat} (hl : l.Nodup)
    (h : ∀ x ∈ l, x ≠ a → x ∈ l') : l.length ≤ l'.length + 1 := by
  have hsub : l.erase a ⊆ l' := by
    intro x hx
    have hx' := (hl.mem_erase_iff).1 hx
    exact h x hx'.2 hx'.1
  have h1 := (List.subperm_of_subset (hl.erase a) hsub).length_le
  have h2 : l.length ≤ (l.erase a).length + 1 := by
    rw [List.length_erase]
    split <;> omega
  omega

/-- A call of `Add` at a child takes at most the element it was given out of the list of the
parent. -/
theorem length_after_child_add {vals : Values} {κ : Prop} {s s1 : Store} {p : Path} {i ej : Nat}
    (hI : Inv vals κ s) (hI1 : Inv vals κ s1) (hE : Evolve ej (p ++ [i]) s s1) :
    (s.elemsAt p).length ≤ (s1.elemsAt p).length + 1 := by
  refine length_le_of_moved_subset (a := ej) (hI.own.2 p) ?_
  intro x hx hne
  have hown : s.GetNode x = some p := (hI.own.1 x p).2 hx
  rw [← hI1.own.1 x p]
  rcases hE.others x hne with h | ⟨o, o', h1, hc1, _, _⟩
  · rw [h]; exact hown
  · rw [hown] at h1
    cases h1
    have := hc1.length_le
    simp at this

section Progress

variable {vals : Values} {B k : Nat} {rec : AddFn} (hrec : AddSpec vals False rec)
  (hprog : ProgSpec vals B k rec)
include hrec hprog

theorem tryChildren_progress (p : Path) (e : Nat) (is : List Nat) :
    ∀ (s : Store), Inv vals False s → (∀ i ∈ is, ∃ c, s.root.find (p ++ [i]) = some c) →
      (s.cell e).isSome = true → Bounded B s.root → B ≤ p.length + 1 + k →
      ∃ b s', tryChildren rec p e 0 is s = .ok (b, s') ∧ Bounded B s'.root := by
  induction is with
  | nil =>
    intro s _ _ _ hB _
    exact ⟨false, s, rfl, hB⟩
  | cons i is ih =>
    intro s hI hv ha hB hk
    obtain ⟨c, hci⟩ := hv i (by simp)
    obtain ⟨b1, s1, hr, hB1⟩ := hprog (p ++ [i]) e s c hI hci ha hB
      (by simp only [List.length_append, List.length_singleton]; omega)
      (fun h => by simp at h)
    obtain ⟨_, _, hF1, _⟩ := hrec (p ++ [i]) e 0 s b1 s1 c hI hci ha (fun f => absurd f id) hr
    simp only [tryChildren, hr]
    cases b1 with
    | true => exact ⟨true, s1, rfl, hB1⟩
    | false =>
      have hs : s1 = s := hF1 rfl
      simp only [hs]
      exact ih s hI (fun j hj => hv j (by simp [hj])) ha hB hk

theorem redistributeElems_progress (p : Path) (i : Nat) (j : Nat) :
    ∀ (s : Store) (n c : QuadNode), Inv vals False s → s.root.find p = some n →
      s.root.find (p ++ [i]) = some c → Bounded B s.root → B ≤ p.length + 1 + k →
      j ≤ (s.elemsAt p).length →
      ∃ s', redistributeElems rec p (p ++ [i]) j s = .ok s' ∧ Bounded B s'.root := by
  induction j with
  | zero =>
    intro s n c _ _ _ hB _ _
    exact ⟨s, rfl, hB⟩
  | succ j ih =>
    intro s n c hI hp hci hB hk hj
    have hel : s.elemsAt p = n.data.mElems := Store.elemsAt_of_find hp
    rw [hel] at hj
    have hlt : j < n.data.mElems.length := by omega
    have hg : n.GetElem j = some (n.data.mElems.get ⟨j, hlt⟩) := by
      simp [QuadNode.GetElem, List.getElem?_eq_getElem hlt]
    have hmem : n.data.mElems.get ⟨j, hlt⟩ ∈ s.elemsAt p := by
      rw [hel]; exact List.get_mem _ _ _
    have hown := (hI.own.1 _ p).2 hmem
    have ha := Store.alive_of_GetNode hown
    obtain ⟨b1, s1, hr, hB1⟩ := hprog (p ++ [i]) _ s c hI hci ha hB
      (by simp only [List.length_append, List.length_singleton]; omega)
      (fun h => by simp at h)
    obtain ⟨hI1, hE1, _, _⟩ := hrec (p ++ [i]) _ 0 s b1 s1 c hI hci ha (fun f => absurd f id) hr
    obtain ⟨n1, hn1⟩ := hE1.ext.find_ext hp
    obtain ⟨c1, hc1⟩ := hE1.ext.find_ext hci
    have hlen := length_after_child_add hI hI1 hE1
    rw [hel] at hlen
    obtain ⟨s', hs', hB'⟩ := ih s1 n1 c1 hI1 hn1 hc1 hB1 hk (by omega)
    refine ⟨s', ?_, hB'⟩
    simp only [redistributeElems, hp, hg, hr]
    exact hs'

theorem redistribute_progress (p : Path) (is : List Nat) :
    ∀ (s : Store) (n : QuadNode), Inv vals False s → s.root.find p = some n →
      (∀ i ∈ is, ∃ c, s.root.find (p ++ [i]) = some c) → Bounded B s.root →
      B ≤ p.length + 1 + k →
      ∃ s', redistribute rec p is s = .ok s' ∧ Bounded B s'.root := by
  induction is with
  | nil =>
    intro s n _ _ _ hB _
    exact ⟨s, rfl, hB⟩
  | cons i is ih =>
    intro s n hI hp hv hB hk
    obtain ⟨c, hci⟩ := hv i (by simp)
    obtain ⟨s1, hr, hB1⟩ := redistributeElems_progress hrec hprog p i _ s n c hI hp hci hB hk
      (le_refl _)
    obtain ⟨hI1, hX1, _⟩ := redistributeElems_spec hrec p i _ s s1 n c hI hp hci hr
    obtain ⟨n1, hn1⟩ := hX1.find_ext hp
    have hv1 : ∀ j ∈ is, ∃ c, s1.root.find (p ++ [j]) = some c := by
      intro j hj
      obtain ⟨cj, hcj⟩ := hv j (by simp [hj])
      exact hX1.find_ext hcj
    obtain ⟨s', hs', hB'⟩ := ih s1 n1 hI1 hn1 hv1 hB1 hk
    refine ⟨s', ?_, hB'⟩
    simp only [redistribute, hr]
    exact hs'

/-- The tail of `Add` returns: the children are tried and the element is stored at the node
when none accepts. -/
theorem tryChildren_tail_progress (p : Path) (e : Nat) (s : Store)
    (hI : Inv vals False s)
    (hkids : kidsAt s.root p = some true) (ha : (s.cell e).isSome = true)
    (hB : Bounded B s.root) (hk : B ≤ p.length + 1 + k) :
    ∃ b s', (match tryChildren rec p e 0 [0, 1, 2, 3] s with
        | .error err => .error err
        | .ok (true, s1) => .ok (true, s1)
        | .ok (false, s1) => .ok (true, s1.AddElem p e)) = Except.ok (b, s') ∧
      Bounded B s'.root := by
  obtain ⟨b1, s1, ht, hB1⟩ := tryChildren_progress hrec hprog p e [0, 1, 2, 3] s hI
    (children_valid hkids) ha hB hk
  obtain ⟨hI1, _, _, _⟩ := tryChildren_spec hrec p e 0 [0, 1, 2, 3] s b1 s1 hI
    (children_valid hkids) ha (fun f => absurd f id) ht
  rw [ht]
  cases b1 with
  | true => exact ⟨true, s1, rfl, hB1⟩
  | false => exact ⟨true, _, rfl, Bounded.AddElem_bounded hI1 hB1 p e⟩

end Progress

theorem AddBody_progress {vals : Values} {B k : Nat} {rec : AddFn} (mMaxDeep : Int)
    (hmax : mMaxDeep ≤ B) (hrec : AddSpec vals False rec) (hprog : ProgSpec vals B k rec) :
    ProgSpec vals B (k + 1) (AddBody vals mMaxDeep rec) := by
  intro p e s n hI hp ha hB hk haabb
  have hdeep : n.GetDeep = p.length + 1 := hI.depth p n.data (by simp [dataAt, hp])
  have hk' : B ≤ p.length + 1 + k := by omega
  have hstore : ∃ b s', (Except.ok (true, s.AddElem p e) : Except Err (Bool × Store)) =
      Except.ok (b, s') ∧ Bounded B s'.root := ⟨true, _, rfl, Bounded.AddElem_bounded hI hB p e⟩
  unfold AddBody
  simp only [hp]
  split
  · exact ⟨false, s, rfl, hB⟩
  · rename_i hcheck
    simp only [ne_eq, not_true_eq_false, decide_False, Bool.false_and, Bool.false_eq_true,
      if_false]
    split
    · rename_i hnone
      exfalso
      by_cases hnil : p = []
      · exact haabb hnil hnone
      · have hgt : n.GetDeep > 1 := by
          rw [hdeep]
          have : 0 < p.length := List.length_pos.2 hnil
          omega
        simp [hnone, hgt] at hcheck
    · split
      · exact hstore
      · split
        · rename_i hkid
          rw [range_node_count]
          exact tryChildren_tail_progress hrec hprog p e s hI
            (by simp [kidsAt, hp, hkid]) ha hB hk'
        · split
          · exact hstore
          · rename_i hthr
            have hlt : n.GetDeep < mMaxDeep := by
              simp only [decide_True, Bool.true_and, Bool.or_eq_true, decide_eq_true_eq,
                not_or, not_le, not_lt] at hthr
              exact hthr.1
            have hB2 : p.length + 2 ≤ B := by
              rw [hdeep] at hlt
              have : ((p.length : Int) + 1) < B := lt_of_lt_of_le hlt hmax
              omega
            have hI1 : Inv vals False (s.InitChildren p) := hI.InitChildren_inv hp
            have hX1 : Ext s (s.InitChildren p) := Ext.InitChildren_ext hp
            have hk1 : kidsAt (s.InitChildren p).root p = some true := kidsAt_InitChildren hp
            have hB1 : Bounded B (s.InitChildren p).root :=
              Bounded.InitChildren_bounded hB hp hB2
            obtain ⟨n1, hn1⟩ := hX1.find_ext hp
            change ∃ b s', (match (if (0 : Int) = 0 then
                redistribute rec p (List.range QT_NODE_COUNT) (s.InitChildren p)
                else Except.ok (s.InitChildren p)) with
              | .error err => .error err
              | .ok s2 =>
                match tryChildren rec p e 0 (List.range QT_NODE_COUNT) s2 with
                | .error err => .error err
                | .ok (true, s3) => .ok (true, s3)
                | .ok (false, s3) => .ok (true, s3.AddElem p e)) = Except.ok (b, s') ∧
              Bounded B s'.root
            rw [range_node_count]
            simp only [↓reduceIte]
            obtain ⟨s2, hr, hB2'⟩ := redistribute_progress hrec hprog p [0, 1, 2, 3]
              (s.InitChildren p) n1 hI1 hn1 (children_valid hk1) hB1 hk'
            obtain ⟨hI2, hX2, _⟩ := redistribute_spec hrec p [0, 1, 2, 3]
              (s.InitChildren p) s2 n1 hI1 hn1 (children_valid hk1) hr
            simp only [hr]
            exact tryChildren_tail_progress hrec hprog p e s2 hI2 (hX2.kids p hk1)
              (by rw [hX2.alive, hX1.alive]; exact ha) hB2' hk'

/-- With enough fuel a non-forced `Add` returns. -/
theorem Add_progress (vals : Values) (mMaxDeep : Int) (B : Nat) (hmax : mMaxDeep ≤ B)
    (k : Nat) : ProgSpec vals B k (Add vals mMaxDeep k) := by
  induction k with
  | zero =>
    intro p e s n _ hp _ hB hk _
    have := hB p n hp
    omega
  | succ k ih => exact AddBody_progress mMaxDeep hmax (Add_spec vals False mMaxDeep k) ih

/-- When the loop over the children returns true, one child has accepted the element in the
state in which the loop started. -/
theorem tryChildren_true {vals : Values} {κ : Prop} {rec : AddFn} (hrec : AddSpec vals κ rec)
    (p : Path) (e : Nat) (atDeep : Int) (is : List Nat) :
    ∀ (s s' : Store), Inv vals κ s → (∀ i ∈ is, ∃ c, s.root.find (p ++ [i]) = some c) →
      (s.cell e).isSome = true → (κ → ContainAt vals s p e) →
      tryChildren rec p e atDeep is s = .ok (true, s') →
      ∃ i ∈ is, rec (p ++ [i]) e atDeep s = .ok (true, s') := by
  induction is with
  | nil =>
    intro s s' _ _ _ _ h
    simp [tryChildren] at h
  | cons i is ih =>
    intro s s' hI hv ha hc h
    obtain ⟨c, hci⟩ := hv i (by simp)
    simp only [tryChildren] at h
    cases hr : rec (p ++ [i]) e atDeep s with
    | error err => simp [hr] at h
    | ok r =>
      obtain ⟨b1, s1⟩ := r
      have hpre : κ → ContainAt vals s (p ++ [i]).dropLast e := by
        intro hκ
        rw [List.dropLast_concat]
        exact hc hκ
      obtain ⟨_, _, hF1, _⟩ := hrec (p ++ [i]) e atDeep s b1 s1 c hI hci ha hpre hr
      cases b1 with
      | true =>
        simp only [hr, Except.ok.injEq, Prod.mk.injEq, true_and] at h
        subst h
        exact ⟨i, by simp, hr⟩
      | false =>
        simp only [hr] at h
        have hs : s1 = s := hF1 rfl
        rw [hs] at h
        obtain ⟨j, hj, hrj⟩ := ih s s' hI (fun j hj => hv j (by simp [hj])) ha hc h
        exact ⟨j, by simp [hj], hrj⟩

theorem QuadTree.Add_eq_of_eval (vals : Values) (fuel : Nat) (t : QuadTree) (elem : Nat)
    (atDeep : Int) (b : Bool) (h1 : isOk (t.Add vals fuel elem atDeep) = true)
    (h2 : (okOr (false, t) (t.Add vals fuel elem atDeep)).1 = b) :
    t.Add vals fuel elem atDeep = .ok (b, t.afterAdd vals fuel elem atDeep) := by
  have := eq_ok_of_isOk (false, t) h1
  rw [this]
  unfold QuadTree.afterAdd
  rw [← h2]

theorem Store.elemsAt_AddElem_new (s : Store) {p : Path} {e : Nat} {n : QuadNode}
    (h : s.GetNode e = none) (hp : s.root.find p = some n) (q : Path) :
    (s.AddElem p e).elemsAt q = if q = p then s.elemsAt q ++ [e] else s.elemsAt q :=
  (Store.Edit_attach s p e h).elemsAt hp q

theorem Store.elemsAt_AddElem_move {vals : Values} {κ : Prop} {s : Store} {o p : Path} {e : Nat}
    {n : QuadNode} (hI : Inv vals κ s) (ho : s.GetNode e = some o) (hne : o ≠ p)
    (hp : s.root.find p = some n) (q : Path) :
    (s.AddElem p e).elemsAt q =
      if q = p then s.elemsAt q ++ [e] else if q = o then (s.elemsAt q).erase e
      else s.elemsAt q := by
  have hm : e ∈ s.elemsAt o := (hI.own.1 e o).1 ho
  obtain ⟨d, hd, _⟩ := dataAt_isSome_of_mem hm
  have hfo : ∃ m, s.root.find o = some m := by
    unfold dataAt at hd
    cases hf : s.root.find o with
    | none => simp [hf] at hd
    | some m => exact ⟨m, rfl⟩
  obtain ⟨m, hm0⟩ := hfo
  have hx := Ext.detach_ext hI ho
  obtain ⟨n', hn'⟩ := hx.find_ext hp
  have h1 : (s.RemoveElem o e).GetNode e = none := by
    rw [Store.GetNode_RemoveElem s o e ho]; simp
  rw [Store.AddElem_eq_detach ho hne, Store.elemsAt_AddElem_new _ h1 hn',
    (Store.Edit_detach s o e ho hm).elemsAt hm0 q]
  by_cases hqp : q = p
  · have : q ≠ o := fun h => hne (h.symm.trans hqp)
    simp [hqp, this, Ne.symm hne]
  · simp [hqp]

/-- A node without children that is at `mMaxDeep`, or holds fewer than `QT_ELEM_MIN_SIZE`
elements, or is offered an element too large for a child, stores the element itself. -/
theorem AddBody_leaf_accept {vals : Values} {mMaxDeep : Int} {rec : AddFn} {p : Path} {e : Nat}
    {s : Store} {n : QuadNode} {b : AABB} (hp : s.root.find p = some n)
    (hk : n.HasChild = false) (hb : s.GetAABB vals e = some b)
    (hin : n.GetDeep ≤ 1 ∨ n.IsContain b = true)
    (hsmall : n.GetDeep ≥ mMaxDeep ∨ n.GetElemCount < QT_ELEM_MIN_SIZE ∨
      fmul n.GetWidth (1 / 2) < b.GetWidth ∨ fmul n.GetHeight (1 / 2) < b.GetHeight) :
    AddBody vals mMaxDeep rec p e 0 s = .ok (true, s.AddElem p e) := by
  unfold AddBody
  simp only [hp, hb, hk]
  have hcheck : ((!n.IsContain b) && decide (n.GetDeep > 1)) = false := by
    rcases hin with h | h
    · have : decide (n.GetDeep > 1) = false := by
        simp only [gt_iff_lt, decide_eq_false_iff_not, not_lt]; exact h
      simp [this]
    · simp [h]
  simp only [hcheck, Bool.false_eq_true, if_false, ne_eq, not_true_eq_false, decide_False,
    Bool.false_and]
  by_cases hbig : fmul n.GetWidth (1 / 2) < b.GetWidth ∨ fmul n.GetHeight (1 / 2) < b.GetHeight
  · have hbig' : (decide (fmul n.GetWidth (1 / 2) < b.GetWidth) ||
        decide (fmul n.GetHeight (1 / 2) < b.GetHeight)) = true := by
      simpa using hbig
    simp only [hbig', if_true]
  · have hbig' : (decide (fmul n.GetWidth (1 / 2) < b.GetWidth) ||
        decide (fmul n.GetHeight (1 / 2) < b.GetHeight)) = false := by
      simpa using hbig
    have hthr : (decide True && (decide (n.GetDeep ≥ mMaxDeep) ||
        decide (n.GetElemCount < QT_ELEM_MIN_SIZE))) = true := by
      rcases hsmall with h | h | h
      · simp [h]
      · simp [h]
      · exact absurd h hbig
    simp only [hbig', Bool.false_eq_true, if_false, hthr, if_true]

/-- A node below the root whose region does not contain the bounds rejects the element. -/
theorem AddBody_reject {vals : Values} {mMaxDeep : Int} {rec : AddFn} {p : Path} {e : Nat}
    {atDeep : Int} {s : Store} {n : QuadNode} {b : AABB} (hp : s.root.find p = some n)
    (hd : n.GetDeep > 1) (hb : s.GetAABB vals e = some b) (hout : n.IsContain b = false) :
    AddBody vals mMaxDeep rec p e atDeep s = .ok (false, s) := by
  unfold AddBody
  simp only [hp, hb]
  simp [hd, hout]

theorem tryChildren_append (rec : AddFn) (p : Path) (e : Nat) (atDeep : Int) (l1 l2 : List Nat)
    (s : Store) (h : ∀ i ∈ l1, rec (p ++ [i]) e atDeep s = .ok (false, s)) :
    tryChildren rec p e atDeep (l1 ++ l2) s = tryChildren rec p e atDeep l2 s := by
  induction l1 with
  | nil => rfl
  | cons i l1 ih =>
    simp only [List.cons_append, tryChildren, h i (by simp)]
    exact ih (fun j hj => h j (by simp [hj]))

theorem redistributeElems_reject (rec : AddFn) (p c : Path) (s : Store) {n : QuadNode}
    (hp : s.root.find p = some n)
    (h : ∀ e ∈ n.data.mElems, rec c e 0 s = .ok (false, s)) :
    ∀ j, j ≤ n.data.mElems.length → redistributeElems rec p c j s = .ok s := by
  intro j
  induction j with
  | zero => intro _; rfl
  | succ j ih =>
    intro hj
    have hlt : j < n.data.mElems.length := hj
    have hg : n.GetElem j = some (n.data.mElems.get ⟨j, hlt⟩) := by
      unfold QuadNode.GetElem
      simp [List.get?_eq_get hlt]
    simp only [redistributeElems, hp, hg, h _ (List.get_mem _ _ _)]
    exact ih (by omega)

theorem redistribute_append (rec : AddFn) (p : Path) (l1 l2 : List Nat) (s : Store) :
    redistribute rec p (l1 ++ l2) s =
      match redistribute rec p l1 s with
      | .error err => .error err
      | .ok s1 => redistribute rec p l2 s1 := by
  induction l1 generalizing s with
  | nil => rfl
  | cons i l1 ih =>
    simp only [List.cons_append, redistribute]
    cases redistributeElems rec p (p ++ [i]) (s.elemsAt p).length s with
    | error err => rfl
    | ok s1 => exact ih s1

theorem redistribute_reject (rec : AddFn) (p : Path) (s : Store) {n : QuadNode}
    (hp : s.root.find p = some n) (l : List Nat)
    (h : ∀ i ∈ l, ∀ e ∈ n.data.mElems, rec (p ++ [i]) e 0 s = .ok (false, s)) :
    redistribute rec p l s = .ok s := by
  induction l with
  | nil => rfl
  | cons i l ih =>
    have hel : s.elemsAt p = n.data.mElems := Store.elemsAt_of_find hp
    simp only [redistribute, hel,
      redistributeElems_reject rec p (p ++ [i]) s hp (h i (by simp)) _ (le_refl _)]
    exact ih (fun j hj => h j (by simp [hj]))

theorem redistribute_empty (rec : AddFn) (p : Path) (s : Store) (h : s.elemsAt p = [])
    (l : List Nat) : redistribute rec p l s = .ok s := by
  induction l with
  | nil => rfl
  | cons i l ih =>
    simp only [redistribute, h, List.length_nil, redistributeElems]
    exact ih

theorem QuadTree.AddValue_of_store {vals : Values} {t : QuadTree} {fuel : Nat}
    {value : Option Nat} {atDeep : Int} {root : QuadNode} {b : Bool} {s1 : Store}
    (hr : t.mRoot = some root)
    (h : Recast.Add vals t.mMaxDeep fuel [] t.next atDeep
      ⟨root, (t.newElement value).2.cell⟩ = .ok (b, s1)) :
    t.AddValue vals fuel value atDeep = .ok (some t.next, (t.newElement value).2.setStore s1) := by
  unfold QuadTree.AddValue
  simp only [hr]
  have h' : Recast.Add vals t.mMaxDeep fuel [] (t.newElement value).1 atDeep
      ⟨root, (t.newElement value).2.cell⟩ = .ok (b, s1) := h
  simp only [h']
  rfl

theorem Filled.init_filled (vals : Values) (x y w h : ℚ) (val : Nat → Nat) :
    Filled vals ⟨x, y, w, h⟩ val 0 ((QuadTree.new 6).Init x y w h) where
  inv := TreeInv.init_tree vals False 6 x y w h
  maxDeep := rfl
  next := rfl
  root := ⟨QuadNode.new 1 ⟨x, y, w, h⟩, rfl, rfl, rfl, rfl⟩
  value := fun e he => absurd he (Nat.not_lt_zero e)

/-- The store on which the `k`-th call works: the new element is alive, has the value of the
call and no owner. -/
theorem Filled.newElement_store {vals : Values} {R : AABB} {val : Nat → Nat} {k : Nat}
    {t : QuadTree} (hF : Filled vals R val k t) {root : QuadNode} (hr : t.mRoot = some root)
    (v : Nat) :
    Inv vals False ⟨root, (t.newElement (some v)).2.cell⟩ ∧
    Store.GetNode ⟨root, (t.newElement (some v)).2.cell⟩ k = none ∧
    (∀ e, e ≠ k → Store.GetNode ⟨root, (t.newElement (some v)).2.cell⟩ e =
      Store.GetNode ⟨root, t.cell⟩ e) ∧
    (∀ e, e < k → Store.GetAABB vals ⟨root, (t.newElement (some v)).2.cell⟩ e =
      (vals (val e)).GetAABB) ∧
    Store.GetAABB vals ⟨root, (t.newElement (some v)).2.cell⟩ k = (vals v).GetAABB := by
  have hT1 := hF.inv.newElement (some v)
  have hnext := hF.next
  refine ⟨hT1.store root hr, ?_, ?_, ?_, ?_⟩
  · simp [Store.GetNode, QuadTree.newElement, hnext]
  · intro e he
    simp [Store.GetNode, QuadTree.newElement, hnext, he]
  · intro e he
    have hv := hF.value e he
    have hne : e ≠ k := by omega
    unfold QuadTree.valueOf at hv
    simp [Store.GetAABB, Store.GetValue, QuadTree.newElement, hnext, hne, hv]
  · simp [Store.GetAABB, Store.GetValue, QuadTree.newElement, hnext]

/-- One of the first eight calls: the element is appended to the list of the childless root. -/
theorem Filled.step {vals : Values} {R : AABB} {val : Nat → Nat} {k : Nat} {t : QuadTree}
    (hF : Filled vals R val k t) (hk : k < 8) {b : AABB}
    (hb : (vals (val k)).GetAABB = some b) (fuel : Nat) :
    ∃ t', t.AddValue vals (fuel + 1) (some (val k)) 0 = .ok (some k, t') ∧
      Filled vals R val (k + 1) t' := by
  obtain ⟨root, hr, hkid, hreg, hel⟩ := hF.root
  obtain ⟨hI, hnone, hsame, _, hbox⟩ := hF.newElement_store hr (val k)
  have hdeep : root.GetDeep = 1 := by
    have := hI.depth [] root.data rfl
    simpa [QuadNode.GetDeep] using this
  have hadd : Recast.Add vals t.mMaxDeep (fuel + 1) [] t.next 0
      ⟨root, (t.newElement (some (val k))).2.cell⟩ =
      .ok (true, Store.AddElem ⟨root, (t.newElement (some (val k))).2.cell⟩ [] k) := by
    rw [hF.next]
    exact AddBody_leaf_accept (s := ⟨root, (t.newElement (some (val k))).2.cell⟩) rfl hkid
      (by rw [hbox, hb]) (Or.inl (le_of_eq hdeep))
      (Or.inr (Or.inl (by
        simp only [QuadNode.GetElemCount, hel, List.length_range, QT_ELEM_MIN_SIZE]
        omega)))
  have hres := QuadTree.AddValue_of_store hr hadd
  rw [hF.next] at hres
  refine ⟨_, hres, ?_⟩
  have hT' : TreeInv vals False _ := hF.inv.addValue hres
  obtain ⟨_, _, _, hval, _, hothers⟩ := QuadTree.AddValue_ok hF.inv hres
  have hx := Ext.AddElem_ext hI [] k
  refine ⟨hT', ?_, ?_, ?_, ?_⟩
  · simp [QuadTree.setStore, QuadTree.newElement, hF.maxDeep]
  · simp [QuadTree.setStore, QuadTree.newElement, hF.next]
  · refine ⟨_, rfl, ?_, ?_, ?_⟩
    · have := kidsAt_AddElem hI [] k []
      simpa [kidsAt, hkid] using this
    · obtain ⟨d', hd', _, hd'a⟩ := hx.node [] root.data rfl
      simp only [dataAt, QuadNode.find_nil, Option.map_some', Option.some.injEq] at hd'
      rw [hd', hd'a, hreg]
    · have := Store.elemsAt_AddElem_new ⟨root, (t.newElement (some (val k))).2.cell⟩ hnone
        (p := []) rfl []
      simp only [Store.elemsAt, QuadNode.find_nil, if_true] at this
      rw [this, hel, List.range_succ]
  · intro e he
    by_cases hek : e = k
    · subst hek
      rw [← hF.next]; exact hF.next ▸ hval
    · rw [(hothers e (by rw [hF.next]; exact hek)).2]
      exact hF.value e (by omega)

/-- The first `k ≤ 8` calls of the scenario return and leave the root childless. -/
theorem Filled.steps {vals : Values} {R : AABB} {val : Nat → Nat} {b : Nat → AABB}
    (hb : ∀ k, k < 9 → (vals (val k)).GetAABB = some (b k)) (fuel : Nat) :
    ∀ (n k : Nat) (t : QuadTree), Filled vals R val k t → k + n ≤ 8 →
      ∃ t', t.AddValues vals (fuel + 1) ((List.range' k n).map val) = .ok t' ∧
        Filled vals R val (k + n) t' := by
  intro n
  induction n with
  | zero =>
    intro k t hF _
    exact ⟨t, rfl, hF⟩
  | succ n ih =>
    intro k t hF hk
    obtain ⟨t1, h1, hF1⟩ := hF.step (by omega) (hb k (by omega)) fuel
    obtain ⟨t', h', hF'⟩ := ih (k + 1) t1 hF1 (by omega)
    have hkn : k + 1 + n = k + (n + 1) := by omega
    rw [hkn] at hF'
    refine ⟨t', ?_, hF'⟩
    simp only [List.range'_succ, List.map_cons, QuadTree.AddValues, h1]
    exact h'

theorem Mid.child {vals : Values} {R : AABB} {b : Nat → AABB} {q j : Nat} {s : Store}
    (hM : Mid vals R b q j s) {i : Nat} (hi : i < 4) :
    ∃ c, s.root.find [i] = some c ∧ c.HasChild = false ∧ c.GetDeep = 2 ∧
      c.data.mAABB = childAABB R i ∧ c.data.mElems = s.elemsAt [i] := by
  have hk := hM.leaves i hi
  unfold kidsAt at hk
  cases hf : s.root.find [i] with
  | none => simp [hf] at hk
  | some c =>
    simp only [hf, Option.map_some', Option.some.injEq] at hk
    have hd : dataAt s.root [i] = some c.data := by simp [dataAt, hf]
    refine ⟨c, rfl, hk, ?_, ?_, (Store.elemsAt_of_find hf).symm⟩
    · have := hM.inv.depth [i] c.data hd
      simpa [QuadNode.GetDeep] using this
    · have := hM.inv.region [] i s.root.data c.data rfl hd
      rw [this, hM.region]

/-- A child before `q` rejects each of the nine elements. -/
theorem Mid.reject {vals : Values} {R : AABB} {b : Nat → AABB} {q j : Nat} {s : Store}
    (hM : Mid vals R b q j s) (hq : q < 4) {i e : Nat} (hi : i < q) (he : e < 9)
    (hout : (childAABB R i).IsContain (b e) = false) (mMaxDeep : Int) (k : Nat)
    (atDeep : Int) :
    Add vals mMaxDeep (k + 1) ([] ++ [i]) e atDeep s = .ok (false, s) := by
  obtain ⟨c, hc, _, hd, hreg, _⟩ := hM.child (show i < 4 by omega)
  exact AddBody_reject (p := [] ++ [i]) hc (by rw [hd]; decide) (hM.box e he)
    (by unfold QuadNode.IsContain QuadNode.GetAABB; rw [hreg]; exact hout)

/-- Child `q`, childless and holding fewer than eight elements, takes an element of the list of
the root into its own list. -/
theorem Mid.move {vals : Values} {R : AABB} {b : Nat → AABB} {q j : Nat} {s : Store}
    (hM : Mid vals R b q (j + 1) s) (hq : q < 4) {e : Nat} (he : e ∈ s.elemsAt [])
    (hin : ∀ e, e < 9 → (childAABB R q).IsContain (b e) = true) (mMaxDeep : Int) (k : Nat) :
    Add vals mMaxDeep (k + 1) ([] ++ [q]) e 0 s = .ok (true, s.AddElem [q] e) ∧
    Mid vals R b q j (s.AddElem [q] e) := by
  obtain ⟨c, hc, hkid, hd, hreg, hel⟩ := hM.child hq
  have hown : s.GetNode e = some [] := (hM.inv.own.1 e []).2 he
  have he8 : e < 8 := by
    by_contra hge
    have := hM.rest e (by omega)
    rw [hown] at this
    cases this
  have hbox := hM.box e (by omega)
  have hlive : (s.cell e).isSome = true := Store.alive_of_GetNode hown
  have hne : ([] : Path) ≠ [q] := by simp
  have hcl := hM.childLen
  have hrl := hM.rootLen
  refine ⟨?_, ?_⟩
  · exact AddBody_leaf_accept (p := [] ++ [q]) hc hkid hbox
      (Or.inr (by unfold QuadNode.IsContain QuadNode.GetAABB; rw [hreg]; exact hin e (by omega)))
      (Or.inr (Or.inl (by
        simp only [QuadNode.GetElemCount, hel, QT_ELEM_MIN_SIZE]
        omega)))
  · have hx := Ext.AddElem_ext hM.inv [q] e
    have hels := Store.elemsAt_AddElem_move hM.inv hown hne hc
    refine ⟨hM.inv.AddElem_inv hlive hc (fun f => absurd f id), ?_, ?_, ?_, ?_, ?_, ?_, ?_, ?_,
      ?_, ?_⟩
    · obtain ⟨d', hd', _, hd'a⟩ := hx.node [] s.root.data rfl
      simp only [dataAt, QuadNode.find_nil, Option.map_some', Option.some.injEq] at hd'
      rw [hd', hd'a, hM.region]
    · rw [kidsAt_AddElem hM.inv]; exact hM.kids
    · intro i hi
      rw [kidsAt_AddElem hM.inv]; exact hM.leaves i hi
    · rw [hels []]
      simp only [show ([] : Path) ≠ [q] from hne, if_false, if_true]
      rw [List.length_erase_of_mem he, hrl]
      rfl
    · rw [hels [q]]
      simp only [if_true, List.length_append, List.length_singleton]
      omega
    · intro i hi hiq
      rw [hels [i]]
      have h1 : [i] ≠ [q] := by simpa using hiq
      have h2 : [i] ≠ ([] : Path) := by simp
      simp only [h1, h2, if_false]
      exact hM.other i hi hiq
    · intro e' he'
      rw [Store.GetAABB_congr vals e' (Store.value_AddElem s [q] e e')]
      exact hM.box e' he'
    · intro e' he'
      rw [Store.GetNode_AddElem s [q] e hlive]
      by_cases h : e' = e
      · simp [h]
      · simp only [h, if_false]
        exact hM.owner e' he'
    · intro e' he'
      rw [Store.GetNode_AddElem s [q] e hlive]
      have h : e' ≠ e := by omega
      simp only [h, if_false]
      exact hM.rest e' he'
    · exact Bounded.AddElem_bounded hM.inv hM.bounded [q] e

/-- The inner loop of the redistribution for child `q` empties the list of the root. -/
theorem Mid.redistributeElems_mid {vals : Values} {R : AABB} {b : Nat → AABB} {q : Nat}
    (hq : q < 4) (hin : ∀ e, e < 9 → (childAABB R q).IsContain (b e) = true) (mMaxDeep : Int)
    (k : Nat) :
    ∀ (j : Nat) (s : Store), Mid vals R b q j s →
      ∃ s', redistributeElems (Add vals mMaxDeep (k + 1)) [] ([] ++ [q]) j s = .ok s' ∧
        Mid vals R b q 0 s' := by
  intro j
  induction j with
  | zero =>
    intro s hM
    exact ⟨s, rfl, hM⟩
  | succ j ih =>
    intro s hM
    have hrl := hM.rootLen
    have hel : s.elemsAt [] = s.root.data.mElems := Store.elemsAt_of_find rfl
    have hlt : j < s.root.data.mElems.length := by rw [← hel, hrl]; omega
    have hg : s.root.GetElem j = some (s.root.data.mElems.get ⟨j, hlt⟩) := by
      unfold QuadNode.GetElem
      simp [List.get?_eq_get hlt]
    have hmem : s.root.data.mElems.get ⟨j, hlt⟩ ∈ s.elemsAt [] := by
      rw [hel]; exact List.get_mem _ _ _
    obtain ⟨hadd, hM'⟩ := hM.move hq hmem hin mMaxDeep k
    obtain ⟨s', hs', hM''⟩ := ih _ hM'
    refine ⟨s', ?_, hM''⟩
    simp only [redistributeElems, QuadNode.find_nil, hg, hadd]
    exact hs'

theorem quadrants_split {q : Nat} (hq : q < 4) :
    [0, 1, 2, 3] = List.range q ++ q :: List.range' (q + 1) (3 - q) := by
  interval_cases q <;> rfl

/-- The redistribution moves the eight elements of the root into child `q`. -/
theorem Mid.redistribute_mid {vals : Values} {R : AABB} {b : Nat → AABB} {q : Nat} {s : Store}
    (hM : Mid vals R b q 8 s) (hq : q < 4)
    (hin : ∀ e, e < 9 → (childAABB R q).IsContain (b e) = true)
    (hout : ∀ e, e < 9 → ∀ i, i < q → (childAABB R i).IsContain (b e) = false)
    (mMaxDeep : Int) (k : Nat) :
    ∃ s', redistribute (Add vals mMaxDeep (k + 1)) [] [0, 1, 2, 3] s = .ok s' ∧
      Mid vals R b q 0 s' := by
  have hmem9 : ∀ e ∈ s.root.data.mElems, e < 9 := by
    intro e he
    have hown : s.GetNode e = some [] := (hM.inv.own.1 e []).2 (by
      rw [Store.elemsAt_of_find (show s.root.find [] = some s.root from rfl)]; exact he)
    by_contra hge
    have := hM.rest e (by omega)
    rw [hown] at this
    cases this
  have h1 : redistribute (Add vals mMaxDeep (k + 1)) [] (List.range q) s = .ok s :=
    redistribute_reject _ [] s (show s.root.find [] = some s.root from rfl) _
      (fun i hi e he => hM.reject hq (List.mem_range.1 hi) (hmem9 e he)
        (hout e (hmem9 e he) i (List.mem_range.1 hi)) mMaxDeep k 0)
  obtain ⟨s', hs', hM'⟩ := Mid.redistributeElems_mid hq hin mMaxDeep k 8 s hM
  have hempty : s'.elemsAt [] = [] := List.length_eq_zero.1 hM'.rootLen
  refine ⟨s', ?_, hM'⟩
  rw [quadrants_split hq, redistribute_append, h1]
  simp only [redistribute, hM.rootLen, hs']
  exact redistribute_empty _ [] s' hempty _

/-- A childless node below `mMaxDeep` that holds `QT_ELEM_MIN_SIZE` elements or more and is
offered an element that is not too large for a child: `Add` creates the children,
redistributes the list and then tries the children. -/
theorem AddBody_split_unfold {vals : Values} {mMaxDeep : Int} {rec : AddFn} {p : Path} {e : Nat}
    {s : Store} {n : QuadNode} {b : AABB} (hp : s.root.find p = some n)
    (hk : n.HasChild = false) (hb : s.GetAABB vals e = some b)
    (hin : n.GetDeep ≤ 1 ∨ n.IsContain b = true)
    (hfit : ¬ (fmul n.GetWidth (1 / 2) < b.GetWidth ∨ fmul n.GetHeight (1 / 2) < b.GetHeight))
    (hdeep : n.GetDeep < mMaxDeep) (hfull : QT_ELEM_MIN_SIZE ≤ n.GetElemCount) :
    AddBody vals mMaxDeep rec p e 0 s =
      match redistribute rec p [0, 1, 2, 3] (s.InitChildren p) with
      | .error err => .error err
      | .ok s2 =>
        match tryChildren rec p e 0 [0, 1, 2, 3] s2 with
        | .error err => .error err
        | .ok (true, s3) => .ok (true, s3)
        | .ok (false, s3) => .ok (true, s3.AddElem p e) := by
  unfold AddBody
  simp only [hp, hb, hk]
  have hcheck : ((!n.IsContain b) && decide (n.GetDeep > 1)) = false := by
    rcases hin with h | h
    · have : decide (n.GetDeep > 1) = false := by
        simp only [gt_iff_lt, decide_eq_false_iff_not, not_lt]; exact h
      simp [this]
    · simp [h]
  have hbig' : (decide (fmul n.GetWidth (1 / 2) < b.GetWidth) ||
      decide (fmul n.GetHeight (1 / 2) < b.GetHeight)) = false := by
    simpa using hfit
  have hthr : (decide True && (decide (n.GetDeep ≥ mMaxDeep) ||
      decide (n.GetElemCount < QT_ELEM_MIN_SIZE))) = false := by
    have h1 : ¬ n.GetDeep ≥ mMaxDeep := by omega
    have h2 : ¬ n.GetElemCount < QT_ELEM_MIN_SIZE := by omega
    simp [h1, h2]
  simp only [hcheck, Bool.false_eq_true, if_false, ne_eq, not_true_eq_false, decide_False,
    Bool.false_and, hbig', hthr, if_true, range_node_count]
  rfl

/-- Such a call returns true and leaves the node with children. -/
theorem AddBody_splits {vals : Values} {mMaxDeep : Int} {rec : AddFn}
    (hrec : AddSpec vals False rec) {p : Path} {e : Nat} {s s' : Store} {n : QuadNode}
    {b : AABB} {r : Bool} (hI : Inv vals False s) (hp : s.root.find p = some n)
    (ha : (s.cell e).isSome = true)
    (hk : n.HasChild = false) (hb : s.GetAABB vals e = some b)
    (hin : n.GetDeep ≤ 1 ∨ n.IsContain b = true)
    (hfit : ¬ (fmul n.GetWidth (1 / 2) < b.GetWidth ∨ fmul n.GetHeight (1 / 2) < b.GetHeight))
    (hdeep : n.GetDeep < mMaxDeep) (hfull : QT_ELEM_MIN_SIZE ≤ n.GetElemCount)
    (h : AddBody vals mMaxDeep rec p e 0 s = .ok (r, s')) :
    r = true ∧ kidsAt s'.root p = some true := by
  rw [AddBody_split_unfold hp hk hb hin hfit hdeep hfull] at h
  have hI1 : Inv vals False (s.InitChildren p) := hI.InitChildren_inv hp
  have hX1 : Ext s (s.InitChildren p) := Ext.InitChildren_ext hp
  have hk1 : kidsAt (s.InitChildren p).root p = some true := kidsAt_InitChildren hp
  obtain ⟨n1, hn1⟩ := hX1.find_ext hp
  cases hr : redistribute rec p [0, 1, 2, 3] (s.InitChildren p) with
  | error err => simp [hr] at h
  | ok s2 =>
    simp only [hr] at h
    obtain ⟨hI2, hX2, _⟩ := redistribute_spec hrec p [0, 1, 2, 3]
      (s.InitChildren p) s2 n1 hI1 hn1 (children_valid hk1) hr
    have hk2 : kidsAt s2.root p = some true := hX2.kids p hk1
    have ha2 : (s2.cell e).isSome = true := by rw [hX2.alive, hX1.alive]; exact ha
    cases ht : tryChildren rec p e 0 [0, 1, 2, 3] s2 with
    | error err => simp [ht] at h
    | ok res =>
      obtain ⟨b1, s3⟩ := res
      obtain ⟨hI3, hE3, _, _⟩ := tryChildren_spec hrec p e 0 [0, 1, 2, 3] s2 b1 s3 hI2
        (children_valid hk2) ha2 (fun f => absurd f id) ht
      have hk3 : kidsAt s3.root p = some true := hE3.ext.kids p hk2
      cases b1 with
      | true =>
        simp only [ht, Except.ok.injEq, Prod.mk.injEq] at h
        obtain ⟨h1, h2⟩ := h
        exact ⟨h1.symm, h2 ▸ hk3⟩
      | false =>
        simp only [ht, Except.ok.injEq, Prod.mk.injEq] at h
        obtain ⟨h1, h2⟩ := h
        refine ⟨h1.symm, ?_⟩
        rw [← h2, kidsAt_AddElem hI3]
        exact hk3

theorem Store.alive_of_GetAABB {vals : Values} {s : Store} {e : Nat} {b : AABB}
    (h : s.GetAABB vals e = some b) : (s.cell e).isSome = true := by
  unfold Store.GetAABB Store.GetValue at h
  cases hc : s.cell e with
  | none => simp [hc] at h
  | some c => rfl

/-- The ninth call finds the root childless with eight elements: after `InitChildren` the
redistribution starts from this store. -/
theorem Filled.split {vals : Values} {R : AABB} {val : Nat → Nat} {b : Nat → AABB} {t : QuadTree}
    (hF : Filled vals R val 8 t) (hb : ∀ k, k < 9 → (vals (val k)).GetAABB = some (b k))
    {root : QuadNode} (hr : t.mRoot = some root) (hkid : root.HasChild = false)
    (hreg : root.data.mAABB = R) (hel : root.data.mElems = List.range 8) (q : Nat) :
    Mid vals R b q 8
      (Store.InitChildren ⟨root, (t.newElement (some (val 8))).2.cell⟩ []) := by
  obtain ⟨hI, hnone, hsame, hbox, hbox8⟩ := hF.newElement_store hr (val 8)
  have hl : (Store.mk root (t.newElement (some (val 8))).2.cell).root.find [] =
      some (.leaf root.data) := Store.find_leaf_of_not_hasChild rfl hkid
  have hel0 : ∀ i, (Store.mk root (t.newElement (some (val 8))).2.cell).elemsAt [i] = [] := by
    intro i
    have h0 : dataAt (Store.mk root (t.newElement (some (val 8))).2.cell).root [i] = none :=
      dataAt_child_of_leaf hl i []
    rw [Store.elemsAt_eq, h0]
    rfl
  have hroot : (Store.mk root (t.newElement (some (val 8))).2.cell).elemsAt [] =
      List.range 8 := by
    rw [Store.elemsAt_of_find (show (Store.mk root _).root.find [] = some root from rfl), hel]
  refine ⟨hI.InitChildren_inv rfl, ?_, kidsAt_InitChildren rfl, ?_, ?_, ?_, ?_, ?_, ?_, ?_, ?_⟩
  · have := Store.dataAt_InitChildren_old hl [] root.data rfl
    simp only [dataAt, QuadNode.find_nil, Option.map_some', Option.some.injEq] at this
    rw [this, hreg]
  · intro i hi
    have := (find_InitChildren_leaf hl [i]).2
    unfold Store.InitChildren
    rw [this]
    interval_cases i <;> simp
  · rw [Store.elemsAt_InitChildren hl, hroot]
    rfl
  · rw [Store.elemsAt_InitChildren hl, hel0]
    rfl
  · intro i _ _
    rw [Store.elemsAt_InitChildren hl, hel0]
  · intro e he
    show Store.GetAABB vals ⟨root, (t.newElement (some (val 8))).2.cell⟩ e = _
    by_cases h8 : e = 8
    · subst h8
      rw [hbox8]; exact hb 8 he
    · rw [hbox e (by omega)]; exact hb e he
  · intro e he
    left
    show Store.GetNode ⟨root, (t.newElement (some (val 8))).2.cell⟩ e = _
    rw [(hI.own.1 e []).symm.symm, hroot]
    exact List.mem_range.2 he
  · intro e he
    show Store.GetNode ⟨root, (t.newElement (some (val 8))).2.cell⟩ e = _
    by_cases h8 : e = 8
    · subst h8; exact hnone
    · rw [hsame e h8]
      have := hF.inv.fresh e (by rw [hF.next]; exact he)
      simp [Store.GetNode, this]
  · have hB : Bounded 6 root := by
      have := bounded_height root
      rw [QuadNode.leaf_of_not_hasChild hkid] at this ⊢
      exact this.mono_bounded (by simp [QuadNode.height])
    exact Bounded.InitChildren_bounded (s := ⟨root, _⟩) hB rfl (by simp)

/-- After the redistribution child `q` takes the ninth element: it returns true, the list of
the root stays empty and all nine elements are in the subtree of child `q`. If the element is
too large for a child of child `q` it is stored in the list of child `q` and no further node
is split; if not, child `q`, holding eight elements, is split in turn. -/
theorem Mid.place {vals : Values} {R : AABB} {b : Nat → AABB} {q : Nat} {s : Store}
    (hM : Mid vals R b q 0 s) (hq : q < 4)
    (hin : ∀ e, e < 9 → (childAABB R q).IsContain (b e) = true) (k : Nat) (hk : 4 ≤ k) :
    ∃ s3, Add vals 6 (k + 1) ([] ++ [q]) 8 0 s = .ok (true, s3) ∧
      Ext s s3 ∧ kidsAt s3.root [] = some true ∧ s3.elemsAt [] = [] ∧
      (∀ e, e < 9 → ∃ r, s3.GetNode e = some (q :: r)) ∧
      ((fmul (childAABB R q).GetWidth (1 / 2) < (b 8).GetWidth ∨
          fmul (childAABB R q).GetHeight (1 / 2) < (b 8).GetHeight) →
        (∀ i, i < 4 → kidsAt s3.root [i] = some false) ∧
        ∀ e, e < 9 → s3.GetNode e = some [q]) ∧
      (¬ (fmul (childAABB R q).GetWidth (1 / 2) < (b 8).GetWidth ∨
          fmul (childAABB R q).GetHeight (1 / 2) < (b 8).GetHeight) →
        kidsAt s3.root [q] = some true) := by
  obtain ⟨c, hc, hkid, hd, hreg, hel⟩ := hM.child hq
  have hbox := hM.box 8 (by omega)
  have hlive : (s.cell 8).isSome = true := Store.alive_of_GetAABB hbox
  have hcin : c.IsContain (b 8) = true := by
    unfold QuadNode.IsContain QuadNode.GetAABB; rw [hreg]; exact hin 8 (by omega)
  have hcw : c.GetWidth = (childAABB R q).GetWidth := by
    unfold QuadNode.GetWidth QuadNode.GetAABB; rw [hreg]
  have hch : c.GetHeight = (childAABB R q).GetHeight := by
    unfold QuadNode.GetHeight QuadNode.GetAABB; rw [hreg]
  have hempty : s.elemsAt [] = [] := List.length_eq_zero.1 hM.rootLen
  have hown8 : ∀ e, e < 8 → s.GetNode e = some [q] := by
    intro e he
    rcases hM.owner e he with h | h
    · have := (hM.inv.own.1 e []).1 h
      rw [hempty] at this
      cases this
    · exact h
  -- the call returns
  obtain ⟨r0, s3, hadd, _⟩ := Add_progress vals 6 6 (by norm_num) (k + 1) ([] ++ [q]) 8 s c
    hM.inv hc hlive hM.bounded (by simp only [List.nil_append, List.length_singleton]; omega)
    (fun h => by simp at h)
  obtain ⟨hI3, hE3, _, hacc⟩ := Add_spec vals False 6 (k + 1) ([] ++ [q]) 8 0 s r0 s3 c hM.inv
    hc hlive (fun f => absurd f id) hadd
  have hcases : r0 = true ∧
      ((fmul (childAABB R q).GetWidth (1 / 2) < (b 8).GetWidth ∨
          fmul (childAABB R q).GetHeight (1 / 2) < (b 8).GetHeight) → s3 = s.AddElem [q] 8) ∧
      (¬ (fmul (childAABB R q).GetWidth (1 / 2) < (b 8).GetWidth ∨
          fmul (childAABB R q).GetHeight (1 / 2) < (b 8).GetHeight) →
        kidsAt s3.root [q] = some true) := by
    by_cases hbig : fmul (childAABB R q).GetWidth (1 / 2) < (b 8).GetWidth ∨
        fmul (childAABB R q).GetHeight (1 / 2) < (b 8).GetHeight
    · have hacc : AddBody vals 6 (Add vals 6 k) ([] ++ [q]) 8 0 s =
          .ok (true, s.AddElem ([] ++ [q]) 8) :=
        AddBody_leaf_accept hc hkid hbox (Or.inr hcin)
          (Or.inr (Or.inr (by rw [hcw, hch]; exact hbig)))
      have heq : Add vals 6 (k + 1) ([] ++ [q]) 8 0 s = .ok (true, s.AddElem [q] 8) := hacc
      rw [heq] at hadd
      simp only [Except.ok.injEq, Prod.mk.injEq] at hadd
      exact ⟨hadd.1.symm, fun _ => hadd.2.symm, fun h => absurd hbig h⟩
    · have hcl := hM.childLen
      have hbody : AddBody vals 6 (Add vals 6 k) ([] ++ [q]) 8 0 s = .ok (r0, s3) := hadd
      have := AddBody_splits (Add_spec vals False 6 k) hM.inv hc hlive hkid hbox
        (Or.inr hcin) (by rw [hcw, hch]; exact hbig) (by rw [hd]; norm_num)
        (by
          simp only [QuadNode.GetElemCount, hel, QT_ELEM_MIN_SIZE]
          omega) hbody
      exact ⟨this.1, fun h => absurd h hbig, fun _ => this.2⟩
  obtain ⟨hr0, hover, hsplit⟩ := hcases
  subst hr0
  have hmoved : ∀ e, e < 8 → ∃ r, s3.GetNode e = some (q :: r) := by
    intro e he
    rcases hE3.others e (by omega) with h | ⟨o, o', _, _, ho', hpre⟩
    · exact ⟨[], by rw [h]; exact hown8 e he⟩
    · obtain ⟨r, rfl⟩ := hpre
      exact ⟨r, ho'⟩
  obtain ⟨r8, hr8⟩ := hacc rfl
  refine ⟨s3, hadd, hE3.ext, hE3.ext.kids [] hM.kids, ?_, ?_, ?_, hsplit⟩
  · rw [List.eq_nil_iff_forall_not_mem]
    intro e he
    have hown := (hI3.own.1 e []).2 he
    by_cases h8 : e = 8
    · subst h8
      rw [hr8] at hown
      simp at hown
    · rcases hE3.others e h8 with h | ⟨o, o', _, _, ho', hpre⟩
      · rw [hown] at h
        have := (hM.inv.own.1 e []).1 h.symm
        rw [hempty] at this
        cases this
      · rw [hown] at ho'
        cases ho'
        simp at hpre
  · intro e he
    by_cases h8 : e = 8
    · subst h8
      exact ⟨r8, hr8⟩
    · exact hmoved e (by omega)
  · intro hbig
    have hs3 := hover hbig
    subst hs3
    refine ⟨fun i hi => by rw [kidsAt_AddElem hM.inv]; exact hM.leaves i hi, ?_⟩
    intro e he
    rw [Store.GetNode_AddElem s [q] 8 hlive]
    by_cases h8 : e = 8
    · simp [h8]
    · simp only [h8, if_false]
      exact hown8 e (by omega)

/-- When the four children of the root have no children, the root is the only node that may
have some. -/
theorem only_root_has_children {root : QuadNode}
    (h : ∀ i, i < 4 → kidsAt root [i] = some false) {p : Path} {n : QuadNode}
    (hp : root.find p = some n) (hn : n.HasChild = true) : p = [] := by
  cases p with
  | nil => rfl
  | cons i r =>
    exfalso
    have hi : i < 4 := QuadNode.find_some_lt hp i (by simp)
    have hk := h i hi
    have hsplit : root.find ([i] ++ r) = some n := hp
    rw [QuadNode.find_append] at hsplit
    unfold kidsAt at hk
    cases hc : root.find [i] with
    | none => simp [hc] at hk
    | some c =>
      simp only [hc, Option.map_some', Option.some.injEq] at hk
      simp only [hc, Option.some_bind] at hsplit
      cases r with
      | nil =>
        simp only [QuadNode.find_nil, Option.some.injEq] at hsplit
        rw [hsplit, hn] at hk
        cases hk
      | cons j r =>
        rw [QuadNode.leaf_of_not_hasChild hk] at hsplit
        simp [QuadNode.find, QuadNode.GetChild] at hsplit

theorem QuadTree.AddValues_eq_of_eval (vals : Values) (fuel : Nat) (t : QuadTree)
    (vs : List Nat) (h : isOk (t.AddValues vals fuel vs) = true) :
    t.AddValues vals fuel vs = .ok (okOr t (t.AddValues vals fuel vs)) :=
  eq_ok_of_isOk t h

theorem exists_child_of_eval (root : QuadNode) (p : Path)
    (h : (root.find p).map QuadNode.HasChild = some true) :
    ∃ c, root.find p = some c ∧ c.HasChild = true := by
  cases hf : root.find p with
  | none => simp [hf] at h
  | some c => exact ⟨c, rfl, by simpa [hf] using h⟩

/-- C18. `AABB::Intersect` is the inclusive overlap test: it is true exactly when each
rectangle starts no later than the other ends, on both axes; it is symmetric; and two
rectangles with a common point, be it only a point of an edge or a corner, overlap. -/
theorem aabb_intersect_inclusive (a b : AABB) :
    (a.Intersect b = true ↔
      a.GetLeft ≤ b.GetRight ∧ b.GetLeft ≤ a.GetRight ∧
      a.GetBottom ≤ b.GetTop ∧ b.GetBottom ≤ a.GetTop) ∧
    a.Intersect b = b.Intersect a ∧
    (∀ x y, a.IsContainPoint x y = true → b.IsContainPoint x y = true →
      a.Intersect b = true) := by
  have key : ∀ a b : AABB, a.Intersect b = true ↔
      a.GetLeft ≤ b.GetRight ∧ b.GetLeft ≤ a.GetRight ∧
      a.GetBottom ≤ b.GetTop ∧ b.GetBottom ≤ a.GetTop := by
    intro a b
    simp only [AABB.Intersect, Bool.not_eq_true', Bool.or_eq_false_iff, decide_eq_false_iff_not,
      not_lt, gt_iff_lt]
    constructor
    · rintro ⟨⟨⟨h1, h2⟩, h3⟩, h4⟩
      exact ⟨h2, h1, h4, h3⟩
    · rintro ⟨h1, h2, h3, h4⟩
      exact ⟨⟨⟨h2, h1⟩, h4⟩, h3⟩
  refine ⟨key a b, ?_, ?_⟩
  · rw [Bool.eq_iff_iff, key a b, key b a]
    constructor
    · rintro ⟨h1, h2, h3, h4⟩
      exact ⟨h2, h1, h4, h3⟩
    · rintro ⟨h1, h2, h3, h4⟩
      exact ⟨h2, h1, h4, h3⟩
  · intro x y ha hb
    rw [AABB.IsContainPoint_iff] at ha hb
    rw [key a b]
    obtain ⟨a1, a2, a3, a4⟩ := ha
    obtain ⟨b1, b2, b3, b4⟩ := hb
    exact ⟨le_trans a1 b2, le_trans b1 a2, le_trans a3 b4, le_trans b3 a4⟩

/-- C19. `AABB::IsContain(other)` is inclusive enclosure: it is true exactly when `other`
starts no earlier and ends no later on both axes; every rectangle contains itself; and a
rectangle that contains `b` contains, by the inclusive point test, every point that `b`
contains (whatever the sign of the sizes). -/
theorem aabb_contain_inclusive (a b : AABB) :
    (a.IsContain b = true ↔
      a.GetLeft ≤ b.GetLeft ∧ b.GetRight ≤ a.GetRight ∧
      a.GetBottom ≤ b.GetBottom ∧ b.GetTop ≤ a.GetTop) ∧
    a.IsContain a = true ∧
    (a.IsContain b = true → ∀ x y, b.IsContainPoint x y = true →
      a.IsContainPoint x y = true) := by
  refine ⟨AABB.IsContain_iff a b, ?_, ?_⟩
  · rw [AABB.IsContain_iff]
    exact ⟨le_refl _, le_refl _, le_refl _, le_refl _⟩
  · intro h x y hb
    exact AABB.IsContainPoint_of_IsContain h hb

/-- C17. `InitChildren` on a node without children with region (x, y, w, h) and depth d keeps
the fields of the node and gives it exactly four children, all without children, of depth
d + 1, size (w/2, h/2), empty list and route count 0, at (x + w/2, y + h/2), (x, y + h/2),
(x, y) and (x + w/2, y) under RIGHT_TOP, LEFT_TOP, LEFT_BOTTOM and RIGHT_BOTTOM, the halves and
the sums being the `float` results; the parent of the child in slot `i` of the node at `p` is
the node at `p`; and on a node that has children `InitChildren` changes nothing. -/
theorem init_children_quadrants (n : QuadNode) (p : Path) :
    (n.HasChild = false →
      n.InitChildren.data = n.data ∧
      n.InitChildren.GetChild RIGHT_TOP = some (.leaf ⟨n.GetDeep + 1, 0,
        ⟨fadd n.GetAABB.mX (fmul n.GetAABB.mWidth (1 / 2)), fadd n.GetAABB.mY (fmul n.GetAABB.mHeight (1 / 2)),
          fmul n.GetAABB.mWidth (1 / 2), fmul n.GetAABB.mHeight (1 / 2)⟩, []⟩) ∧
      n.InitChildren.GetChild LEFT_TOP = some (.leaf ⟨n.GetDeep + 1, 0,
        ⟨n.GetAABB.mX, fadd n.GetAABB.mY (fmul n.GetAABB.mHeight (1 / 2)),
          fmul n.GetAABB.mWidth (1 / 2), fmul n.GetAABB.mHeight (1 / 2)⟩, []⟩) ∧
      n.InitChildren.GetChild LEFT_BOTTOM = some (.leaf ⟨n.GetDeep + 1, 0,
        ⟨n.GetAABB.mX, n.GetAABB.mY,
          fmul n.GetAABB.mWidth (1 / 2), fmul n.GetAABB.mHeight (1 / 2)⟩, []⟩) ∧
      n.InitChildren.GetChild RIGHT_BOTTOM = some (.leaf ⟨n.GetDeep + 1, 0,
        ⟨fadd n.GetAABB.mX (fmul n.GetAABB.mWidth (1 / 2)), n.GetAABB.mY,
          fmul n.GetAABB.mWidth (1 / 2), fmul n.GetAABB.mHeight (1 / 2)⟩, []⟩) ∧
      (∀ i, QT_NODE_COUNT ≤ i → n.InitChildren.GetChild i = none) ∧
      (∀ i, GetParent (p ++ [i]) = some p)) ∧
    (n.HasChild = true → n.InitChildren = n) := by
  constructor
  · intro h
    refine ⟨?_, ?_, ?_, ?_, ?_, ?_, ?_⟩
    · simp [QuadNode.InitChildren, h, QuadNode.data]
    · simp [QuadNode.InitChildren, h, QuadNode.GetChild, RIGHT_TOP, QuadNode.new, AABB.SetXY,
        AABB.GetLeft, AABB.GetBottom, AABB.GetWidth, AABB.GetHeight]
    · simp [QuadNode.InitChildren, h, QuadNode.GetChild, LEFT_TOP, QuadNode.new, AABB.SetXY,
        AABB.GetLeft, AABB.GetBottom, AABB.GetWidth, AABB.GetHeight]
    · simp [QuadNode.InitChildren, h, QuadNode.GetChild, LEFT_BOTTOM, QuadNode.new, AABB.SetXY,
        AABB.GetLeft, AABB.GetBottom, AABB.GetWidth, AABB.GetHeight]
    · simp [QuadNode.InitChildren, h, QuadNode.GetChild, RIGHT_BOTTOM, QuadNode.new, AABB.SetXY,
        AABB.GetLeft, AABB.GetBottom, AABB.GetWidth, AABB.GetHeight]
    · intro i hi
      cases hc : n.InitChildren.GetChild i with
      | none => rfl
      | some c =>
        have := QuadNode.GetChild_lt hc
        simp only [QT_NODE_COUNT] at hi
        omega
    · intro i
      cases hp : p ++ [i] with
      | nil => simp at hp
      | cons j r =>
        simp only [GetParent]
        rw [← hp, List.dropLast_concat]
  · intro h
    simp [QuadNode.InitChildren, h]

/-- C16. `Remove` of an element without owner returns, leaves the tree (every node, with its
element list and route count) as it is and touches no other element; with `del` the element
itself is destroyed, without it nothing changes at all. `Remove(null)` changes nothing. -/
theorem remove_without_owner (t : QuadTree) (e : Nat) (del : Bool)
    (h : (t.cell e).bind Element.mNode = none) :
    (∃ t', t.Remove (some e) del = .ok t' ∧ t'.mRoot = t.mRoot ∧
      (∀ e', e' ≠ e → t'.cell e' = t.cell e') ∧
      (del = false → t' = t) ∧ (del = true → t'.cell e = none)) ∧
    t.Remove none del = .ok t := by
  refine ⟨⟨if del then t.deleteElem e else t, ?_, ?_, ?_, ?_, ?_⟩, rfl⟩
  · simp [QuadTree.Remove, h]
  · cases del <;> simp [QuadTree.deleteElem]
  · intro e' he'
    cases del <;> simp [QuadTree.deleteElem, he']
  · intro hd
    simp [hd]
  · intro hd
    simp [hd, QuadTree.deleteElem]

/-- Witness for C16: the element of `oneElementTree` was created but never added. -/
theorem remove_without_owner_witness :
    (∃ t', oneElementTree.Remove (some 0) true = .ok t' ∧ t'.mRoot = oneElementTree.mRoot ∧
      (∀ e', e' ≠ 0 → t'.cell e' = oneElementTree.cell e') ∧
      (true = false → t' = oneElementTree) ∧ (true = true → t'.cell 0 = none)) ∧
    oneElementTree.Remove none true = .ok oneElementTree :=
  remove_without_owner oneElementTree 0 true (by decide!)

section Query

variable (valueOf : Nat → Option Nat) (keep : AABB → Bool) (test : Nat → Bool)

/-- Whenever the element loop in multi-hit mode returns, it has appended the hits of the
list. -/
theorem elemsLoop_multi_ok (l : List Nat) : ∀ (hv : Bool) (out : List Nat)
    (r : Bool × Bool × List Nat), elemsLoop valueOf test false l hv out = .ok r →
    r = (false, hv || !(hits valueOf test l).isEmpty, out ++ hits valueOf test l) := by
  induction l with
  | nil =>
    intro hv out r h
    simp only [elemsLoop, Except.ok.injEq] at h
    simp [← h, hits]
  | cons e rest ih =>
    intro hv out r h
    rw [hits_cons]
    simp only [elemsLoop] at h
    cases hve : valueOf e with
    | none => simp [hve] at h
    | some v =>
      simp only [hve] at h ⊢
      cases ht : test v with
      | false =>
        simp only [ht, Bool.not_false, if_true, Bool.false_eq_true, if_false,
          List.nil_append] at h ⊢
        exact ih hv out r h
      | true =>
        simp only [ht, Bool.not_true, Bool.false_eq_true, if_false, if_true] at h ⊢
        rw [ih true (out ++ [v]) r h]
        simp

theorem queryChild_multi_ok {r : Except Err (Bool × List Nat)} {hv : Bool}
    {next : Bool → List Nat → Except Err (Bool × List Nat)} {res : Bool × List Nat}
    (h : queryChild false r hv next = .ok res) :
    ∃ b out, r = .ok (b, out) ∧ next (b || hv) out = .ok res := by
  cases r with
  | error err => simp [queryChild] at h
  | ok x =>
    obtain ⟨b, out⟩ := x
    refine ⟨b, out, rfl, ?_⟩
    simpa [queryChild] using h

/-- Whenever the traversal in multi-hit mode returns, it has appended `nodeHits`: the hits of
the node itself first, then those of the four children in the order of their slots. -/
theorem queryNode_multi_ok : ∀ (n : QuadNode) (out : List Nat) (b : Bool) (out' : List Nat),
    queryNode valueOf keep test false n out = .ok (b, out') →
    b = !(nodeHits valueOf keep test n).isEmpty ∧ out' = out ++ nodeHits valueOf keep test n
  | .leaf d, out, b, out', h => by
    simp only [queryNode] at h
    simp only [nodeHits]
    split at h
    · rename_i h0
      simp only [Except.ok.injEq, Prod.mk.injEq] at h
      simp [h0, ← h.1, ← h.2]
    · rename_i h0
      split at h
      · rename_i h1
        simp only [Except.ok.injEq, Prod.mk.injEq] at h
        simp [h0, h1, ← h.1, ← h.2]
      · rename_i h1
        simp only [h0, h1, if_false]
        cases hl : elemsLoop valueOf test false d.mElems false out with
        | error err => simp [hl] at h
        | ok x =>
          have := elemsLoop_multi_ok valueOf test d.mElems false out x hl
          subst this
          simp only [hl, Bool.false_or, Except.ok.injEq, Prod.mk.injEq] at h
          exact ⟨h.1.symm, h.2.symm⟩
  | .split d c0 c1 c2 c3, out, b, out', h => by
    simp only [queryNode] at h
    simp only [nodeHits]
    split at h
    · rename_i h0
      simp only [Except.ok.injEq, Prod.mk.injEq] at h
      simp [h0, ← h.1, ← h.2]
    · rename_i h0
      split at h
      · rename_i h1
        simp only [Except.ok.injEq, Prod.mk.injEq] at h
        simp [h0, h1, ← h.1, ← h.2]
      · rename_i h1
        simp only [h0, h1, if_false]
        cases hl : elemsLoop valueOf test false d.mElems false out with
        | error err => simp [hl] at h
        | ok x =>
          have := elemsLoop_multi_ok valueOf test d.mElems false out x hl
          subst this
          simp only [hl, Bool.false_or] at h
          obtain ⟨b0, o0, hq0, h⟩ := queryChild_multi_ok h
          obtain ⟨b1, o1, hq1, h⟩ := queryChild_multi_ok h
          obtain ⟨b2, o2, hq2, h⟩ := queryChild_multi_ok h
          obtain ⟨b3, o3, hq3, h⟩ := queryChild_multi_ok h
          obtain ⟨e0, f0⟩ := queryNode_multi_ok c0 _ _ _ hq0
          obtain ⟨e1, f1⟩ := queryNode_multi_ok c1 _ _ _ hq1
          obtain ⟨e2, f2⟩ := queryNode_multi_ok c2 _ _ _ hq2
          obtain ⟨e3, f3⟩ := queryNode_multi_ok c3 _ _ _ hq3
          simp only [Except.ok.injEq, Prod.mk.injEq] at h
          obtain ⟨hb, ho⟩ := h
          subst e0 e1 e2 e3 f0 f1 f2 f3
          refine ⟨?_, by rw [← ho]; simp only [List.append_assoc, Bool.false_eq_true, if_false]⟩
          rw [← hb]
          cases hits valueOf test d.mElems <;> cases nodeHits valueOf keep test c0 <;>
            cases nodeHits valueOf keep test c1 <;> cases nodeHits valueOf keep test c2 <;>
            cases nodeHits valueOf keep test c3 <;> simp

/-- The hits of a node that is visited form one block of the hits of the whole subtree. -/
theorem nodeHits_block : ∀ {n : QuadNode} {q : Path} {m : QuadNode}, n.find q = some m →
    Open keep n q → ∃ pre post,
      nodeHits valueOf keep test n = pre ++ (nodeHits valueOf keep test m ++ post)
  | n, [], m, hq, _ => by
    simp only [QuadNode.find_nil, Option.some.injEq] at hq
    subst hq
    exact ⟨[], [], by simp⟩
  | .leaf d, i :: q, m, hq, _ => by
    simp [QuadNode.find, QuadNode.GetChild] at hq
  | .split d c0 c1 c2 c3, i :: q, m, hq, ho => by
    rw [QuadNode.find_cons] at hq
    cases hc : (QuadNode.split d c0 c1 c2 c3).GetChild i with
    | none => simp [hc] at hq
    | some c =>
      simp only [hc, Option.some_bind] at hq
      obtain ⟨⟨h0, h1⟩, hoc⟩ := (Open.cons_iff keep hc).1 ho
      obtain ⟨pre, post, hblock⟩ := nodeHits_block hq hoc
      have hi := QuadNode.GetChild_lt hc
      simp only [QuadNode.data] at h0 h1
      simp only [nodeHits, h0, h1, if_false, Bool.not_true, Bool.false_eq_true]
      interval_cases i <;> simp only [QuadNode.GetChild, Option.some.injEq] at hc <;>
        subst hc <;> rw [hblock]
      · exact ⟨hits valueOf test d.mElems ++ pre, post ++ (nodeHits valueOf keep test c1 ++
          (nodeHits valueOf keep test c2 ++ nodeHits valueOf keep test c3)), by
            simp only [List.append_assoc]⟩
      · exact ⟨hits valueOf test d.mElems ++ (nodeHits valueOf keep test c0 ++ pre),
          post ++ (nodeHits valueOf keep test c2 ++ nodeHits valueOf keep test c3), by
            simp only [List.append_assoc]⟩
      · exact ⟨hits valueOf test d.mElems ++ (nodeHits valueOf keep test c0 ++
          (nodeHits valueOf keep test c1 ++ pre)), post ++ nodeHits valueOf keep test c3, by
            simp only [List.append_assoc]⟩
      · exact ⟨hits valueOf test d.mElems ++ (nodeHits valueOf keep test c0 ++
          (nodeHits valueOf keep test c1 ++ (nodeHits valueOf keep test c2 ++ pre))), post, by
            simp only [List.append_assoc]⟩

/-- The hits of a visited node start with the hits of its own list. -/
theorem nodeHits_own {m : QuadNode} (ho : Open keep m []) :
    ∃ rest, nodeHits valueOf keep test m = hits valueOf test m.data.mElems ++ rest := by
  obtain ⟨h0, h1⟩ := (Open.nil_iff keep).1 ho
  cases m with
  | leaf d =>
    simp only [QuadNode.data] at h0 h1
    exact ⟨[], by simp [nodeHits, h0, h1, QuadNode.data]⟩
  | split d c0 c1 c2 c3 =>
    simp only [QuadNode.data] at h0 h1
    exact ⟨nodeHits valueOf keep test c0 ++ (nodeHits valueOf keep test c1 ++
      (nodeHits valueOf keep test c2 ++ nodeHits valueOf keep test c3)), by
      simp only [nodeHits, h0, h1, if_false, Bool.not_true, Bool.false_eq_true, QuadNode.data]⟩

end Query

theorem Open.of_prefix {keep : AABB → Bool} {n : QuadNode} {q q' : Path}
    (h : Open keep n q) (hq : q' <+: q) : Open keep n q' :=
  fun q'' m' hq'' hm' => h q'' m' (hq''.trans hq) hm'

theorem Open.below {keep : AABB → Bool} {n m : QuadNode} {q r : Path}
    (h : Open keep n (q ++ r)) (hq : n.find q = some m) : Open keep m r := by
  intro q' m' hq' hm'
  refine h (q ++ q') m' ((List.prefix_append_right_inj q).2 hq') ?_
  rw [QuadNode.find_append, hq]
  exact hm'

/-- A matching value stored at a visited node comes before a matching value stored at a
visited node below it. -/
theorem nodeHits_shallow_first (valueOf : Nat → Option Nat) (keep : AABB → Bool)
    (test : Nat → Bool) {n m m2 : QuadNode} {q r : Path} {e1 e2 v1 v2 : Nat}
    (hq : n.find q = some m) (hr : r ≠ []) (hqr : n.find (q ++ r) = some m2)
    (ho : Open keep n (q ++ r)) (he1 : e1 ∈ m.data.mElems) (hv1 : valueOf e1 = some v1)
    (ht1 : test v1 = true) (he2 : e2 ∈ m2.data.mElems) (hv2 : valueOf e2 = some v2)
    (ht2 : test v2 = true) :
    ∃ l1 l2 l3, nodeHits valueOf keep test n = l1 ++ v1 :: (l2 ++ v2 :: l3) := by
  obtain ⟨pre, post, hblock⟩ := nodeHits_block valueOf keep test hq
    (ho.of_prefix (List.prefix_append q r))
  have hom : Open keep m r := ho.below hq
  have hmr : m.find r = some m2 := by
    rw [QuadNode.find_append, hq] at hqr
    exact hqr
  have hin1 : v1 ∈ hits valueOf test m.data.mElems :=
    (mem_hits valueOf test).2 ⟨e1, he1, hv1, ht1⟩
  obtain ⟨a, b, hab⟩ := List.append_of_mem hin1
  cases r with
  | nil => exact absurd rfl hr
  | cons i r =>
    cases m with
    | leaf d => simp [QuadNode.find, QuadNode.GetChild] at hmr
    | split d c0 c1 c2 c3 =>
      rw [QuadNode.find_cons] at hmr
      cases hc : (QuadNode.split d c0 c1 c2 c3).GetChild i with
      | none => simp [hc] at hmr
      | some c =>
        simp only [hc, Option.some_bind] at hmr
        obtain ⟨⟨h0, h1⟩, hoc⟩ := (Open.cons_iff keep hc).1 hom
        have hin2 : v2 ∈ nodeHits valueOf keep test c :=
          (mem_nodeHits valueOf keep test).2 ⟨r, m2, e2, hmr, he2, hv2, ht2, hoc⟩
        have hi := QuadNode.GetChild_lt hc
        simp only [QuadNode.data] at h0 h1 hab
        have hrest : v2 ∈ nodeHits valueOf keep test c0 ++ (nodeHits valueOf keep test c1 ++
            (nodeHits valueOf keep test c2 ++ nodeHits valueOf keep test c3)) := by
          interval_cases i <;> simp only [QuadNode.GetChild, Option.some.injEq] at hc <;>
            subst hc <;> simp [hin2]
        obtain ⟨a', b', hab'⟩ := List.append_of_mem hrest
        refine ⟨pre ++ a, b ++ a', b' ++ post, ?_⟩
        rw [hblock]
        simp only [nodeHits, h0, h1, if_false, Bool.not_true, Bool.false_eq_true, hab, hab']
        simp only [List.append_assoc, List.cons_append]

/-- C13. For every tree with a root, whenever the multi-hit point query (resp. circle query)
returns it has appended `nodeHits` of the root, and it does return when every stored element
has a value; `nodeHits` of a visited node lists the matching values of the node's own list
first and then those of its four children in the order of the slots RIGHT_TOP, LEFT_TOP,
LEFT_BOTTOM, RIGHT_BOTTOM, depth first; so of two matching values stored at visited nodes on
one path from the root the one at the shallower node comes first. -/
theorem query_preorder (vals : Values) (t : QuadTree) (root : QuadNode)
    (hroot : t.mRoot = some root) :
    (∀ x y out b out', t.Intersect vals x y out false = .ok (b, out') →
      out' = out ++ nodeHits t.valueOf (fun a => a.IsContainPoint x y)
        (fun v => (vals v).IsContain x y) root) ∧
    (∀ circle out b out', t.IntersectCircle vals circle out false = .ok (b, out') →
      out' = out ++ nodeHits t.valueOf (fun a => a.Intersect (circleBox circle))
        (fun v => (vals v).Intersect circle) root) ∧
    ((∀ e ∈ root.allElems, t.valueOf e ≠ none) → ∀ x y circle out,
      isOk (t.Intersect vals x y out false) = true ∧
      isOk (t.IntersectCircle vals circle out false) = true) ∧
    (∀ keep test d c0 c1 c2 c3, d.mRouteElemCount ≠ 0 → keep d.mAABB = true →
      nodeHits t.valueOf keep test (.leaf d) = hits t.valueOf test d.mElems ∧
      nodeHits t.valueOf keep test (.split d c0 c1 c2 c3) =
        hits t.valueOf test d.mElems ++ (nodeHits t.valueOf keep test c0 ++
          (nodeHits t.valueOf keep test c1 ++ (nodeHits t.valueOf keep test c2 ++
            nodeHits t.valueOf keep test c3)))) ∧
    (∀ keep test q r m m2 e1 e2 v1 v2, root.find q = some m → r ≠ [] →
      root.find (q ++ r) = some m2 → Open keep root (q ++ r) →
      e1 ∈ m.data.mElems → t.valueOf e1 = some v1 → test v1 = true →
      e2 ∈ m2.data.mElems → t.valueOf e2 = some v2 → test v2 = true →
      ∃ l1 l2 l3, nodeHits t.valueOf keep test root = l1 ++ v1 :: (l2 ++ v2 :: l3)) := by
  refine ⟨?_, ?_, ?_, ?_, ?_⟩
  · intro x y out b out' h
    unfold QuadTree.Intersect at h
    simp only [hroot] at h
    rw [IntersectPointNode_eq] at h
    exact (queryNode_multi_ok _ _ _ root out b out' h).2
  · intro circle out b out' h
    unfold QuadTree.IntersectCircle at h
    simp only [hroot] at h
    rw [IntersectCircleNode_eq] at h
    exact (queryNode_multi_ok _ _ _ root out b out' h).2
  · intro hval x y circle out
    constructor
    · unfold QuadTree.Intersect
      simp only [hroot]
      rw [IntersectPointNode_eq, queryNode_multi (fun e => (t.cell e).bind Element.mValue)
        _ _ root out hval]
      rfl
    · unfold QuadTree.IntersectCircle
      simp only [hroot]
      rw [IntersectCircleNode_eq, queryNode_multi (fun e => (t.cell e).bind Element.mValue)
        _ _ root out hval]
      rfl
  · intro keep test d c0 c1 c2 c3 h0 h1
    simp only [nodeHits, h0, h1, if_false, Bool.not_true, Bool.false_eq_true, and_self]
  · intro keep test q r m m2 e1 e2 v1 v2 hq hr hqr ho he1 hv1 ht1 he2 hv2 ht2
    exact nodeHits_shallow_first t.valueOf keep test hq hr hqr ho he1 hv1 ht1 he2 hv2 ht2

/-- Witness for C13: in `stackTree` value 9 is stored at the root and value 0 in its RIGHT_TOP
child, both contain the point (121/2, 121/2), and the query lists 9 before 0 although it was
added last. -/
theorem query_preorder_witness :
    okOr (false, []) (stackTree.Intersect stackValues (121 / 2) (121 / 2) [] false) =
      (true, [9, 7, 6, 5, 4, 3, 2, 1, 0, 8]) ∧
    ∃ l1 l2 l3, nodeHits stackTree.valueOf (fun a => a.IsContainPoint (121 / 2) (121 / 2))
      (fun v => (stackValues v).IsContain (121 / 2) (121 / 2)) stackRoot =
        l1 ++ 9 :: (l2 ++ 0 :: l3) :=
  ⟨by decide!,
    (query_preorder stackValues stackTree stackRoot (by decide!)).2.2.2.2
      (fun a => a.IsContainPoint (121 / 2) (121 / 2))
      (fun v => (stackValues v).IsContain (121 / 2) (121 / 2))
      [] [0] stackRoot (.leaf ⟨2, 9, ⟨50, 50, 50, 50⟩, [7, 6, 5, 4, 3, 2, 1, 0, 8]⟩) 9 0 9 0
      rfl (by simp) rfl
      (by
        intro q' m' hq' hm'
        have hcases : q' = [] ∨ q' = [0] := by
          cases q' with
          | nil => exact Or.inl rfl
          | cons i r =>
            right
            have := List.IsPrefix.length_le hq'
            cases r with
            | nil =>
              obtain ⟨s, hs⟩ := hq'
              simp at hs
              simp [hs.1]
            | cons j r => simp at this
        rcases hcases with rfl | rfl
        · simp only [QuadNode.find_nil, Option.some.injEq] at hm'
          subst hm'
          exact ⟨by decide!, by decide!⟩
        · have : m' = .leaf ⟨2, 9, ⟨50, 50, 50, 50⟩, [7, 6, 5, 4, 3, 2, 1, 0, 8]⟩ := by
            have h2 : stackRoot.find [0] =
                some (.leaf ⟨2, 9, ⟨50, 50, 50, 50⟩, [7, 6, 5, 4, 3, 2, 1, 0, 8]⟩) := rfl
            rw [h2] at hm'
            exact (Option.some.inj hm').symm
          subst this
          exact ⟨by decide!, by decide!⟩)
      (by decide!) (by decide!) (by decide!) (by decide!) (by decide!) (by decide!)⟩

theorem range_succ_erase (j : Nat) : (List.range (j + 1)).erase j = List.range j := by
  rw [List.range_succ, List.erase_append_right _ (by simp)]
  simp

/-- The inner loop of the redistribution hands the list of the root over from its last element
to its first: child `q` receives it in reverse order. -/
theorem Mid.redistributeElems_order {vals : Values} {R : AABB} {b : Nat → AABB} {q : Nat}
    (hq : q < 4) (hin : ∀ e, e < 9 → (childAABB R q).IsContain (b e) = true) (mMaxDeep : Int)
    (k : Nat) :
    ∀ (j : Nat) (s : Store) (L : List Nat), Mid vals R b q j s → s.elemsAt [] = List.range j →
      s.elemsAt [q] = L →
      ∃ s', redistributeElems (Add vals mMaxDeep (k + 1)) [] ([] ++ [q]) j s = .ok s' ∧
        Mid vals R b q 0 s' ∧ s'.elemsAt [q] = L ++ (List.range j).reverse := by
  intro j
  induction j with
  | zero =>
    intro s L hM _ hL
    exact ⟨s, rfl, hM, by simp [hL]⟩
  | succ j ih =>
    intro s L hM hroot hL
    have hel : s.elemsAt [] = s.root.data.mElems := Store.elemsAt_of_find rfl
    have hg : s.root.GetElem j = some j := by
      unfold QuadNode.GetElem
      rw [← hel, hroot]
      simp
    have hmem : j ∈ s.elemsAt [] := by rw [hroot]; simp
    obtain ⟨hadd, hM'⟩ := hM.move hq hmem hin mMaxDeep k
    obtain ⟨c, hc, _⟩ := hM.child hq
    have hown : s.GetNode j = some [] := (hM.inv.own.1 j []).2 hmem
    have hels := Store.elemsAt_AddElem_move hM.inv hown (by simp) hc
    have hroot' : (s.AddElem [q] j).elemsAt [] = List.range j := by
      rw [hels []]
      simp only [show ([] : Path) ≠ [q] by simp, if_false, if_true]
      rw [hroot, range_succ_erase]
    have hL' : (s.AddElem [q] j).elemsAt [q] = L ++ [j] := by
      rw [hels [q]]
      simp only [if_true, hL]
    obtain ⟨s', hs', hM'', hord⟩ := ih _ (L ++ [j]) hM' hroot' hL'
    refine ⟨s', ?_, hM'', ?_⟩
    · simp only [redistributeElems, QuadNode.find_nil, hg, hadd]
      exact hs'
    · rw [hord, List.range_succ, List.reverse_append]
      simp

/-- The redistribution leaves the eight elements in the list of child `q` in the reverse of
their order in the list of the root. -/
theorem Mid.redistribute_order {vals : Values} {R : AABB} {b : Nat → AABB} {q : Nat} {s : Store}
    (hM : Mid vals R b q 8 s) (hroot : s.elemsAt [] = List.range 8) (hq : q < 4)
    (hin : ∀ e, e < 9 → (childAABB R q).IsContain (b e) = true)
    (hout : ∀ e, e < 9 → ∀ i, i < q → (childAABB R i).IsContain (b e) = false)
    (mMaxDeep : Int) (k : Nat) :
    ∃ s', redistribute (Add vals mMaxDeep (k + 1)) [] [0, 1, 2, 3] s = .ok s' ∧
      Mid vals R b q 0 s' ∧ s'.elemsAt [q] = [7, 6, 5, 4, 3, 2, 1, 0] := by
  have hmem9 : ∀ e ∈ s.root.data.mElems, e < 9 := by
    intro e he
    rw [← Store.elemsAt_of_find (show s.root.find [] = some s.root from rfl), hroot] at he
    have := List.mem_range.1 he
    omega
  have h1 : redistribute (Add vals mMaxDeep (k + 1)) [] (List.range q) s = .ok s :=
    redistribute_reject _ [] s (show s.root.find [] = some s.root from rfl) _
      (fun i hi e he => hM.reject hq (List.mem_range.1 hi) (hmem9 e he)
        (hout e (hmem9 e he) i (List.mem_range.1 hi)) mMaxDeep k 0)
  have hchild : s.elemsAt [q] = [] := by
    have := hM.childLen
    exact List.length_eq_zero.1 (by omega)
  obtain ⟨s', hs', hM', hord⟩ := Mid.redistributeElems_order hq hin mMaxDeep k 8 s [] hM hroot
    hchild
  have hempty : s'.elemsAt [] = [] := List.length_eq_zero.1 hM'.rootLen
  refine ⟨s', ?_, hM', by rw [hord]; rfl⟩
  rw [quadrants_split hq, redistribute_append, h1]
  simp only [redistribute, hM.rootLen, hs']
  exact redistribute_empty _ [] s' hempty _

theorem hits_append (valueOf : Nat → Option Nat) (test : Nat → Bool) (l1 l2 : List Nat) :
    hits valueOf test (l1 ++ l2) = hits valueOf test l1 ++ hits valueOf test l2 := by
  unfold hits
  rw [List.filterMap_append]

theorem hits_cons_match (valueOf : Nat → Option Nat) (test : Nat → Bool) {e v : Nat}
    (hv : valueOf e = some v) (ht : test v = true) (l : List Nat) :
    hits valueOf test (e :: l) = v :: hits valueOf test l := by
  rw [hits_cons, hv]
  simp [ht]

/-- Two matching values of one visited node come in the order of the list of the node. -/
theorem nodeHits_list_order (valueOf : Nat → Option Nat) (keep : AABB → Bool)
    (test : Nat → Bool) {n m : QuadNode} {q : Path} {l1 l2 l3 : List Nat} {e1 e2 v1 v2 : Nat}
    (hq : n.find q = some m) (ho : Open keep n q)
    (hl : m.data.mElems = l1 ++ e1 :: (l2 ++ e2 :: l3))
    (hv1 : valueOf e1 = some v1) (ht1 : test v1 = true)
    (hv2 : valueOf e2 = some v2) (ht2 : test v2 = true) :
    ∃ a b c, nodeHits valueOf keep test n = a ++ v1 :: (b ++ v2 :: c) := by
  obtain ⟨pre, post, hblock⟩ := nodeHits_block valueOf keep test hq ho
  have hom : Open keep m [] := by
    have h' : Open keep n (q ++ []) := by rw [List.append_nil]; exact ho
    exact h'.below hq
  obtain ⟨rest, hrest⟩ := nodeHits_own valueOf keep test hom
  refine ⟨pre ++ hits valueOf test l1, hits valueOf test l2,
    hits valueOf test l3 ++ (rest ++ post), ?_⟩
  rw [hblock, hrest, hl, hits_append, hits_cons_match valueOf test hv1 ht1, hits_append,
    hits_cons_match valueOf test hv2 ht2]
  simp only [List.append_assoc, List.cons_append]

/-- `AddElem` appends: the element goes to the end of the list of the node, and the other
lists only lose it. -/
theorem AddElem_appends {vals : Values} {κ : Prop} {s : Store} {p : Path} {e : Nat}
    {n : QuadNode} (hI : Inv vals κ s) (hp : s.root.find p = some n)
    (hne : s.GetNode e ≠ some p) :
    (s.AddElem p e).elemsAt p = s.elemsAt p ++ [e] ∧
    ∀ q, q ≠ p → (s.AddElem p e).elemsAt q = (s.elemsAt q).erase e := by
  cases ho : s.GetNode e with
  | none =>
    have hels := Store.elemsAt_AddElem_new s ho hp
    refine ⟨by rw [hels p]; simp, ?_⟩
    intro q hq
    rw [hels q]
    simp only [hq, if_false]
    have : e ∉ s.elemsAt q := by
      intro hmem
      have := (hI.own.1 e q).2 hmem
      rw [ho] at this
      cases this
    rw [List.erase_of_not_mem this]
  | some o =>
    have hop : o ≠ p := fun h => hne (by rw [ho, h])
    have hels := Store.elemsAt_AddElem_move hI ho hop hp
    refine ⟨by rw [hels p]; simp, ?_⟩
    intro q hq
    rw [hels q]
    simp only [hq, if_false]
    by_cases hqo : q = o
    · simp [hqo]
    · simp only [hqo, if_false]
      have : e ∉ s.elemsAt q := by
        intro hmem
        have := (hI.own.1 e q).2 hmem
        rw [ho] at this
        exact hqo (Option.some.inj this).symm
      rw [List.erase_of_not_mem this]

theorem between_cases {p q r : Path} {i : Nat} (h1 : p <+: q) (h2 : q <+: p ++ i :: r) :
    q = p ∨ p ++ [i] <+: q := by
  obtain ⟨t, rfl⟩ := h1
  have h3 : t <+: i :: r := (List.prefix_append_right_inj p).1 h2
  cases t with
  | nil => left; simp
  | cons j t =>
    right
    obtain ⟨u, hu⟩ := h3
    simp only [List.cons_append, List.cons.injEq] at hu
    obtain ⟨rfl, _⟩ := hu
    exact ⟨t, by simp⟩

theorem AddBody_place {vals : Values} {rec : AddFn} (mMaxDeep : Int)
    (hrec : AddSpec vals False rec) (hplace : PlaceSpec vals rec) :
    PlaceSpec vals (AddBody vals mMaxDeep rec) := by
  intro p e atDeep s s' n hI hp ha h
  obtain ⟨hI', hE, _, _⟩ := AddBody_spec mMaxDeep hrec p e atDeep s true s' n hI hp ha
    (fun f => absurd f id) h
  have hX := hE.ext
  have hdeep : n.GetDeep = p.length + 1 := hI.depth p n.data (by simp [dataAt, hp])
  -- the test at the head of `Add`
  have hP : p ≠ [] → ∃ b d, s'.GetAABB vals e = some b ∧ dataAt s'.root p = some d ∧
      d.mAABB.IsContain b = true := by
    intro hne
    have hgt : n.GetDeep > 1 := by
      have : 0 < p.length := List.length_pos.2 hne
      omega
    unfold AddBody at h
    simp only [hp] at h
    split at h
    · simp at h
    · rename_i hcheck
      cases hb : s.GetAABB vals e with
      | none => simp [hb, hgt] at hcheck
      | some b =>
        simp only [hb, hgt, decide_True, Bool.and_true, Bool.not_eq_true', Bool.not_eq_false]
          at hcheck
        obtain ⟨d', hd', _, hd'a⟩ := hX.node p n.data (by simp [dataAt, hp])
        refine ⟨b, d', ?_, hd', ?_⟩
        · rw [Store.GetAABB_congr vals e (hX.value e)]; exact hb
        · rw [hd'a]
          have : n.IsContain b = true := by simpa using hcheck
          exact this
  have hstore : ∀ s1 : Store, (s1.cell e).isSome = true → s' = s1.AddElem p e →
      ∃ r, s'.GetNode e = some (p ++ r) ∧
        ∀ q, p <+: q → q <+: p ++ r → q ≠ [] →
          ∃ b d, s'.GetAABB vals e = some b ∧ dataAt s'.root q = some d ∧
            d.mAABB.IsContain b = true := by
    intro s1 ha1 hs
    refine ⟨[], ?_, ?_⟩
    · rw [hs, Store.GetNode_AddElem s1 p e ha1]
      simp
    · intro q h1 h2 hne
      rw [List.append_nil] at h2
      have hqp : q = p := by
        obtain ⟨t, rfl⟩ := h1
        have hlen := h2.length_le
        simp only [List.length_append] at hlen
        have : t = [] := List.length_eq_zero.1 (by omega)
        simp [this]
      rw [hqp] at hne ⊢
      exact hP hne
  have key : ∀ s2 : Store, Inv vals False s2 → (s2.cell e).isSome = true →
      kidsAt s2.root p = some true →
      (match tryChildren rec p e atDeep [0, 1, 2, 3] s2 with
        | .error err => .error err
        | .ok (true, s3) => .ok (true, s3)
        | .ok (false, s3) => .ok (true, s3.AddElem p e)) = Except.ok (true, s') →
      ∃ r, s'.GetNode e = some (p ++ r) ∧
        ∀ q, p <+: q → q <+: p ++ r → q ≠ [] →
          ∃ b d, s'.GetAABB vals e = some b ∧ dataAt s'.root q = some d ∧
            d.mAABB.IsContain b = true := by
    intro s2 hI2 ha2 hk2 h2
    cases ht : tryChildren rec p e atDeep [0, 1, 2, 3] s2 with
    | error err => simp [ht] at h2
    | ok res =>
      obtain ⟨b1, s3⟩ := res
      cases b1 with
      | true =>
        simp only [ht, Except.ok.injEq, Prod.mk.injEq, true_and] at h2
        subst h2
        obtain ⟨i, hi, hri⟩ := tryChildren_true hrec p e atDeep [0, 1, 2, 3] s2 s3 hI2
          (children_valid hk2) ha2 (fun f => absurd f id) ht
        obtain ⟨c, hc⟩ := children_valid hk2 i hi
        obtain ⟨r, hr, hcont⟩ := hplace (p ++ [i]) e atDeep s2 s3 c hI2 hc ha2 hri
        refine ⟨i :: r, by rw [hr]; simp, ?_⟩
        intro q h1 h2 hne
        rcases between_cases h1 h2 with rfl | hpre
        · exact hP hne
        · exact hcont q hpre (by simpa using h2) hne
      | false =>
        obtain ⟨_, _, hF, _⟩ := tryChildren_spec hrec p e atDeep [0, 1, 2, 3] s2 false s3 hI2
          (children_valid hk2) ha2 (fun f => absurd f id) ht
        simp only [ht, Except.ok.injEq, Prod.mk.injEq, true_and] at h2
        rw [hF rfl] at h2
        exact hstore s2 ha2 h2.symm
  unfold AddBody at h
  simp only [hp] at h
  split at h
  · simp at h
  · split at h
    · simp only [Except.ok.injEq, Prod.mk.injEq, true_and] at h
      exact hstore s ha h.symm
    · split at h
      · cases h
      · split at h
        · simp only [Except.ok.injEq, Prod.mk.injEq, true_and] at h
          exact hstore s ha h.symm
        · split at h
          · rename_i hkid
            rw [range_node_count] at h
            exact key s hI ha (by simp [kidsAt, hp, hkid]) h
          · split at h
            · simp only [Except.ok.injEq, Prod.mk.injEq, true_and] at h
              exact hstore s ha h.symm
            · have hI1 : Inv vals False (s.InitChildren p) := hI.InitChildren_inv hp
              have hX1 : Ext s (s.InitChildren p) := Ext.InitChildren_ext hp
              have hk1 : kidsAt (s.InitChildren p).root p = some true := kidsAt_InitChildren hp
              obtain ⟨n1, hn1⟩ := hX1.find_ext hp
              change (match (if atDeep = 0 then
                  redistribute rec p (List.range QT_NODE_COUNT) (s.InitChildren p)
                  else Except.ok (s.InitChildren p)) with
                | .error err => .error err
                | .ok s2 =>
                  match tryChildren rec p e atDeep (List.range QT_NODE_COUNT) s2 with
                  | .error err => .error err
                  | .ok (true, s3) => .ok (true, s3)
                  | .ok (false, s3) => .ok (true, s3.AddElem p e)) = Except.ok (true, s') at h
              rw [range_node_count] at h
              by_cases h0 : atDeep = 0
              · subst h0
                simp only [↓reduceIte] at h
                cases hr : redistribute rec p [0, 1, 2, 3] (s.InitChildren p) with
                | error err => simp [hr] at h
                | ok s2 =>
                  simp only [hr] at h
                  obtain ⟨hI2, hX2, _⟩ := redistribute_spec hrec p [0, 1, 2, 3]
                    (s.InitChildren p) s2 n1 hI1 hn1 (children_valid hk1) hr
                  exact key s2 hI2 (by rw [hX2.alive, hX1.alive]; exact ha)
                    (hX2.kids p hk1) h
              · simp only [h0, if_false] at h
                exact key _ hI1 (by rw [hX1.alive]; exact ha) hk1 h

theorem Add_place (vals : Values) (mMaxDeep : Int) (fuel : Nat) :
    PlaceSpec vals (Add vals mMaxDeep fuel) := by
  induction fuel with
  | zero =>
    intro p e atDeep s s' n _ _ _ h
    simp [Add] at h
  | succ k ih => exact AddBody_place mMaxDeep (Add_spec vals False mMaxDeep k) ih

theorem QuadTree.Refresh_unowned {vals : Values} {t : QuadTree} {fuel elem : Nat}
    (h : (t.cell elem).bind Element.mNode = none) :
    t.Refresh vals fuel elem =
      match t.Add vals fuel elem 0 with
      | .error err => .error err
      | .ok (_, t1) => .ok t1 := by
  simp only [QuadTree.Refresh, h]

theorem QuadTree.Refresh_outside {vals : Values} {t : QuadTree} {fuel elem : Nat} {node : Path}
    {root n : QuadNode} {b : AABB} (h : (t.cell elem).bind Element.mNode = some node)
    (hr : t.mRoot = some root) (hn : root.find node = some n)
    (hb : Store.GetAABB vals ⟨root, t.cell⟩ elem = some b) (hout : n.IsContain b = false) :
    t.Refresh vals fuel elem =
      match t.Add vals fuel elem 0 with
      | .error err => .error err
      | .ok (_, t1) => .ok t1 := by
  simp only [QuadTree.Refresh, h, hr, hn, hb, hout, Bool.not_false, if_true]

theorem QuadTree.Refresh_inside {vals : Values} {t : QuadTree} {fuel elem : Nat} {node : Path}
    {root n : QuadNode} {b : AABB} (h : (t.cell elem).bind Element.mNode = some node)
    (hr : t.mRoot = some root) (hn : root.find node = some n)
    (hb : Store.GetAABB vals ⟨root, t.cell⟩ elem = some b) (hin : n.IsContain b = true) :
    t.Refresh vals fuel elem =
      match Recast.Add vals t.mMaxDeep fuel node elem 0 ⟨root, t.cell⟩ with
      | .error err => .error err
      | .ok (_, s) => .ok (t.setStore s) := by
  simp only [QuadTree.Refresh, h, hr, hn, hb, hin, Bool.not_true, Bool.false_eq_true, if_false]

/-- With fuel for the height of the tree and for `mMaxDeep`, `Add(elem)` at any node of a
tree that satisfies the invariant returns, for an element that has bounds. -/
theorem Add_returns {vals : Values} {t : QuadTree} {root n : QuadNode} {p : Path}
    (hT : TreeInv vals False t) (hr : t.mRoot = some root) (hp : root.find p = some n)
    {elem : Nat} {b : AABB} (hb : Store.GetAABB vals ⟨root, t.cell⟩ elem = some b)
    {fuel : Nat} (hfuel : max root.height t.mMaxDeep.toNat ≤ fuel) :
    ∃ r s', Recast.Add vals t.mMaxDeep fuel p elem 0 ⟨root, t.cell⟩ = .ok (r, s') ∧
      Inv vals False s' ∧ Evolve elem p ⟨root, t.cell⟩ s' ∧ (r = false → s' = ⟨root, t.cell⟩) ∧
      (r = true → ∃ q, s'.GetNode elem = some (p ++ q)) := by
  have hI := hT.store root hr
  have hlive : ((Store.mk root t.cell).cell elem).isSome = true := Store.alive_of_GetAABB hb
  have hmax : t.mMaxDeep ≤ ((max root.height t.mMaxDeep.toNat : Nat) : Int) := by
    have h1 : t.mMaxDeep ≤ (t.mMaxDeep.toNat : Int) := Int.self_le_toNat _
    have h2 : t.mMaxDeep.toNat ≤ max root.height t.mMaxDeep.toNat := le_max_right _ _
    omega
  obtain ⟨r, s', hadd, _⟩ := Add_progress vals t.mMaxDeep _ hmax fuel p elem
    ⟨root, t.cell⟩ n hI hp hlive
    ((bounded_height root).mono_bounded (le_max_left _ _)) (by omega)
    (fun _ => by rw [hb]; simp)
  obtain ⟨hI', hE, hF, hA⟩ := Add_spec vals False t.mMaxDeep fuel p elem 0 ⟨root, t.cell⟩
    r s' n hI hp hlive (fun f => absurd f id) hadd
  exact ⟨r, s', hadd, hI', hE, hF, hA⟩

/-- What a step of `Add` that keeps or makes the element stored means for the tree: the element
is in the list of exactly one node, no list holds an element twice, the other elements are
stored as before, and the stored elements and the count of the root are as before, or have
grown by the element if it was not stored. -/
theorem stored_after_step {vals : Values} {t : QuadTree} {root : QuadNode} {elem : Nat}
    {p : Path} {s' : Store} (hT : TreeInv vals False t) (hr : t.mRoot = some root)
    (hI' : Inv vals False s') (hE : Evolve elem p ⟨root, t.cell⟩ s')
    (hst : s'.GetNode elem ≠ none) :
    (∃ o n, ((t.setStore s').cell elem).bind Element.mNode = some o ∧
      s'.root.find o = some n ∧ elem ∈ n.data.mElems ∧
      ∀ o' n', s'.root.find o' = some n' → elem ∈ n'.data.mElems → o' = o) ∧
    s'.root.allElems.Nodup ∧
    (∀ e', e' ≠ elem → ((t.setStore s').Stored e' ↔ t.Stored e')) ∧
    (t.Stored elem → s'.root.allElems.Perm root.allElems ∧
      s'.root.GetRouteElemCount = root.GetRouteElemCount) ∧
    (¬ t.Stored elem → s'.root.allElems.Perm (elem :: root.allElems) ∧
      s'.root.GetRouteElemCount = root.GetRouteElemCount + 1) := by
  have hI := hT.store root hr
  have hT' : TreeInv vals False (t.setStore s') := hT.setStore hI' hE.ext
  have hr' : (t.setStore s').mRoot = some s'.root := rfl
  have hothers : ∀ e', e' ≠ elem → ((t.setStore s').Stored e' ↔ t.Stored e') := by
    intro e' hne
    exact (hE.others e' hne).stored_iff
  have hnd' : s'.root.allElems.Nodup := hI'.own.ownTree.nodup
  have hnd : root.allElems.Nodup := hI.own.ownTree.nodup
  have hst' : (t.setStore s').Stored elem := hst
  refine ⟨?_, hnd', hothers, ?_, ?_⟩
  · cases ho : s'.GetNode elem with
    | none => exact absurd ho hst
    | some o =>
      have hm := (hI'.own.1 elem o).1 ho
      unfold Store.elemsAt at hm
      cases hf : s'.root.find o with
      | none => simp [hf] at hm
      | some n =>
        simp only [hf] at hm
        refine ⟨o, n, ho, hf, hm, ?_⟩
        intro o' n' hf' hm'
        have : s'.GetNode elem = some o' := by
          rw [hI'.own.1 elem o', Store.elemsAt_of_find hf']
          exact hm'
        rw [ho] at this
        exact (Option.some.inj this).symm
  · intro hs
    have hall : ∀ e, (t.setStore s').Stored e ↔ t.Stored e := by
      intro e
      by_cases he : e = elem
      · subst he
        exact ⟨fun _ => hs, fun _ => hst'⟩
      · exact hothers e he
    refine ⟨?_, root_count_congr hT hT' hr hr' hall⟩
    rw [List.perm_ext_iff_of_nodup hnd' hnd]
    intro e
    rw [hT'.mem_allElems_iff hr', hT.mem_allElems_iff hr, hall]
  · intro hs
    have hnot : elem ∉ root.allElems := fun h => hs ((hT.mem_allElems_iff hr elem).1 h)
    have hperm : s'.root.allElems.Perm (elem :: root.allElems) := by
      rw [List.perm_ext_iff_of_nodup hnd' (List.nodup_cons.2 ⟨hnot, hnd⟩)]
      intro e
      rw [hT'.mem_allElems_iff hr', List.mem_cons, hT.mem_allElems_iff hr]
      by_cases he : e = elem
      · subst he
        exact ⟨fun _ => Or.inl rfl, fun _ => hst'⟩
      · rw [hothers e he]
        exact ⟨fun h => Or.inr h, fun h => h.resolve_left he⟩
    refine ⟨hperm, ?_⟩
    rw [hI'.count.routeCountOK.count_eq, hI.count.routeCountOK.count_eq, hperm.length_eq]
    simp

/-- What `Refresh` does for an element that has bounds, on any reachable tree and with fuel
for the height of the tree and `mMaxDeep`: it returns; afterwards the element is in the list
of exactly one node, the node its back-pointer names, and no list holds an element twice; the
other elements are stored as before; if the element was stored, the stored elements and the
route count of the root are as before; if it was not, `Refresh` is `Add(elem)` from the root,
the element is the one new stored element and the route count of the root grows by one. -/
theorem refresh_keeps_elements {E : Values → Prop} {vals : Values} {t : QuadTree}
    {root : QuadNode} (h : Reachable E t) (hr : t.mRoot = some root) (elem v : Nat) (b : AABB)
    (fuel : Nat) (hv : t.valueOf elem = some v) (hb : (vals v).GetAABB = some b)
    (hfuel : max root.height t.mMaxDeep.toNat ≤ fuel) :
    ∃ t' root', t.Refresh vals fuel elem = .ok t' ∧ t'.mRoot = some root' ∧
      (∃ o n, (t'.cell elem).bind Element.mNode = some o ∧ root'.find o = some n ∧
        elem ∈ n.data.mElems ∧
        ∀ o' n', root'.find o' = some n' → elem ∈ n'.data.mElems → o' = o) ∧
      root'.allElems.Nodup ∧
      (∀ e', e' ≠ elem → (t'.Stored e' ↔ t.Stored e')) ∧
      (t.Stored elem → root'.allElems.Perm root.allElems ∧
        root'.GetRouteElemCount = root.GetRouteElemCount) ∧
      (¬ t.Stored elem → (∃ r, t.Add vals fuel elem 0 = .ok (r, t')) ∧
        root'.allElems.Perm (elem :: root.allElems) ∧
        root'.GetRouteElemCount = root.GetRouteElemCount + 1) := by
  have hT : TreeInv vals False t := h.inv (fun f => absurd f id)
  have hI := hT.store root hr
  have hbox : Store.GetAABB vals ⟨root, t.cell⟩ elem = some b := by
    rw [Store.GetAABB_eq vals t root elem v hv, hb]
  -- the call through `Add(elem)` from the root
  have viaRoot : t.Refresh vals fuel elem =
      (match t.Add vals fuel elem 0 with
        | .error err => .error err
        | .ok (_, t1) => .ok t1) →
      ∃ t' root', t.Refresh vals fuel elem = .ok t' ∧ t'.mRoot = some root' ∧
        (∃ o n, (t'.cell elem).bind Element.mNode = some o ∧ root'.find o = some n ∧
          elem ∈ n.data.mElems ∧
          ∀ o' n', root'.find o' = some n' → elem ∈ n'.data.mElems → o' = o) ∧
        root'.allElems.Nodup ∧
        (∀ e', e' ≠ elem → (t'.Stored e' ↔ t.Stored e')) ∧
        (t.Stored elem → root'.allElems.Perm root.allElems ∧
          root'.GetRouteElemCount = root.GetRouteElemCount) ∧
        (¬ t.Stored elem → (∃ r, t.Add vals fuel elem 0 = .ok (r, t')) ∧
          root'.allElems.Perm (elem :: root.allElems) ∧
          root'.GetRouteElemCount = root.GetRouteElemCount + 1) := by
    intro heq
    obtain ⟨r, s', hadd, hI', hE, _, hA⟩ := Add_returns hT hr (p := []) rfl hbox hfuel
    have hr1 : r = true := Add_root_true hI hadd
    obtain ⟨q, hq⟩ := hA hr1
    have hst : s'.GetNode elem ≠ none := by rw [hq]; simp
    have hAdd : t.Add vals fuel elem 0 = .ok (r, t.setStore s') := by
      simp [QuadTree.Add, hr, hadd]
    obtain ⟨h1, h2, h3, h4, h5⟩ := stored_after_step hT hr hI' hE hst
    refine ⟨t.setStore s', s'.root, ?_, rfl, h1, h2, h3, h4, ?_⟩
    · rw [heq, hAdd]
    · intro hns
      exact ⟨⟨r, hAdd⟩, h5 hns⟩
  cases hn : (t.cell elem).bind Element.mNode with
  | none => exact viaRoot (QuadTree.Refresh_unowned hn)
  | some node =>
    have hown : (Store.mk root t.cell).GetNode elem = some node := hn
    have hm := (hI.own.1 elem node).1 hown
    obtain ⟨d, hd, _⟩ := dataAt_isSome_of_mem hm
    have hfo : ∃ n, root.find node = some n := by
      unfold dataAt at hd
      cases hf : (Store.mk root t.cell).root.find node with
      | none => simp [hf] at hd
      | some m => exact ⟨m, rfl⟩
    obtain ⟨n, hfn⟩ := hfo
    cases hc : n.IsContain b with
    | false => exact viaRoot (QuadTree.Refresh_outside hn hr hfn hbox hc)
    | true =>
      have heq : t.Refresh vals fuel elem = _ := QuadTree.Refresh_inside hn hr hfn hbox hc
      obtain ⟨r, s', hadd, hI', hE, hF, hA⟩ := Add_returns hT hr hfn hbox hfuel
      have hst : s'.GetNode elem ≠ none := by
        cases r with
        | true =>
          obtain ⟨q, hq⟩ := hA rfl
          rw [hq]; simp
        | false =>
          rw [hF rfl, hown]; simp
      obtain ⟨h1, h2, h3, h4, h5⟩ := stored_after_step hT hr hI' hE hst
      refine ⟨t.setStore s', s'.root, ?_, rfl, h1, h2, h3, h4, ?_⟩
      · rw [heq, hadd]
      · intro hns
        exact absurd (show t.Stored elem by unfold QuadTree.Stored; rw [hn]; simp) hns

/-- C12 at the failing input: the element of `oneElementTree` has no owner and its value has
no bounds; `Refresh` calls `Add(elem)` from the root, which dereferences the null bounds
instead of storing the element. -/
theorem refresh_unowned_without_bounds_fails :
    (oneElementTree.cell 0).bind Element.mNode = none ∧
    oneElementTree.valueOf 0 = some 0 ∧ (noBoundsValues 0).GetAABB = none ∧
    errOf (oneElementTree.Refresh noBoundsValues 6 0) = some .nullDeref := by
  decide!

theorem bind_value_of_map {c c' : Option Element}
    (h : c'.map Element.mValue = c.map Element.mValue) :
    c'.bind Element.mValue = c.bind Element.mValue := by
  cases c <;> cases c' <;> simp_all

theorem QuadTree.Refresh_eq_of_eval (vals : Values) (fuel : Nat) (t : QuadTree) (elem : Nat)
    (h : isOk (t.Refresh vals fuel elem) = true) :
    t.Refresh vals fuel elem = .ok (okOr t (t.Refresh vals fuel elem)) :=
  eq_ok_of_isOk t h

/-- C11 (amended). An element is stored at a node whose region does not contain the new bounds
of its value (in particular when the bounds have moved entirely outside it). Then
`Refresh(elem)` returns (with fuel for the height of the tree and `mMaxDeep`), and afterwards:
a multi-hit point query at a point that the value contains and that lies inside the new bounds
and inside the region of the root appends the value and returns true, whenever it returns; it
does return when no stored element has a null value; and no point query, single-hit or
multi-hit, appends the value at a point that the value does not contain. -/
theorem refresh_after_move {E : Values → Prop} {vals : Values} {t : QuadTree}
    {root n : QuadNode} {node : Path} (h : Reachable E t) (hr : t.mRoot = some root)
    (elem v : Nat) (b : AABB) (fuel : Nat) (hv : t.valueOf elem = some v)
    (hown : (t.cell elem).bind Element.mNode = some node) (hn : root.find node = some n)
    (hb : (vals v).GetAABB = some b) (hout : n.IsContain b = false)
    (hfuel : max root.height t.mMaxDeep.toNat ≤ fuel) :
    ∃ t', t.Refresh vals fuel elem = .ok t' ∧
      (∀ x y out r out', root.GetAABB.IsContainPoint x y = true →
        b.IsContainPoint x y = true → (vals v).IsContain x y = true →
        t'.Intersect vals x y out false = .ok (r, out') →
        r = true ∧ ∃ res, out' = out ++ res ∧ v ∈ res) ∧
      ((∀ e, t.Stored e → t.valueOf e ≠ none) → ∀ x y out,
        isOk (t'.Intersect vals x y out false) = true) ∧
      (∀ x y out getOne r out', (vals v).IsContain x y = false →
        t'.Intersect vals x y out getOne = .ok (r, out') →
        ∃ res, out' = out ++ res ∧ v ∉ res) := by
  have hT : TreeInv vals False t := h.inv (fun f => absurd f id)
  have hI := hT.store root hr
  have hbox : Store.GetAABB vals ⟨root, t.cell⟩ elem = some b := by
    rw [Store.GetAABB_eq vals t root elem v hv, hb]
  have hlive : ((Store.mk root t.cell).cell elem).isSome = true := Store.alive_of_GetAABB hbox
  obtain ⟨r0, s', hadd, hI', hE, _, _⟩ := Add_returns hT hr (p := []) rfl hbox hfuel
  have hr0 : r0 = true := Add_root_true hI hadd
  subst hr0
  obtain ⟨q, hq, hcont⟩ := Add_place vals t.mMaxDeep fuel [] elem 0 ⟨root, t.cell⟩ s' root hI
    rfl hlive hadd
  rw [List.nil_append] at hq
  have hAdd : t.Add vals fuel elem 0 = .ok (true, t.setStore s') := by
    simp [QuadTree.Add, hr, hadd]
  have href : t.Refresh vals fuel elem = .ok (t.setStore s') := by
    rw [QuadTree.Refresh_outside hown hr hn hbox hout, hAdd]
  have hT' : TreeInv vals False (t.setStore s') := hT.setStore hI' hE.ext
  have hr' : (t.setStore s').mRoot = some s'.root := rfl
  have hval' : (t.setStore s').valueOf elem = some v := by
    have := bind_value_of_map (hE.ext.value elem)
    unfold QuadTree.valueOf at hv ⊢
    exact this.trans hv
  have hbox' : s'.GetAABB vals elem = some b := by
    rw [Store.GetAABB_congr vals elem (hE.ext.value elem)]; exact hbox
  -- the node that now owns the element
  have hm := (hI'.own.1 elem q).1 hq
  obtain ⟨m, hfm, hmem⟩ : ∃ m, s'.root.find q = some m ∧ elem ∈ m.data.mElems := by
    unfold Store.elemsAt at hm
    cases hf : s'.root.find q with
    | none => simp [hf] at hm
    | some m => exact ⟨m, rfl, by simpa [hf] using hm⟩
  have hregion : s'.root.data.mAABB = root.data.mAABB := by
    obtain ⟨d', hd', _, hd'a⟩ := hE.ext.node [] root.data rfl
    simp only [dataAt, QuadNode.find_nil, Option.map_some', Option.some.injEq] at hd'
    rw [hd', hd'a]
  refine ⟨t.setStore s', href, ?_, ?_, ?_⟩
  · intro x y out r out' hroot hbpt htest hquery
    have hopen : Open (fun a => a.IsContainPoint x y) s'.root q := by
      intro q' m' hq' hm'
      obtain ⟨rest, rfl⟩ := hq'
      have hrest : m'.find rest = some m := by
        rw [QuadNode.find_append, hm'] at hfm
        simpa using hfm
      refine ⟨count_ne_zero_of_mem hI'.count hm' hrest hmem, ?_⟩
      by_cases hnil : q' = []
      · subst hnil
        simp only [QuadNode.find_nil, Option.some.injEq] at hm'
        subst hm'
        show s'.root.data.mAABB.IsContainPoint x y = true
        rw [hregion]
        exact hroot
      · obtain ⟨b', d, hb', hd, hin⟩ := hcont q' (by simp) (by simp) hnil
        rw [hbox'] at hb'
        cases hb'
        have hdm : d = m'.data := by
          simp only [dataAt, hm', Option.map_some', Option.some.injEq] at hd
          exact hd.symm
        rw [← hdm]
        exact AABB.IsContainPoint_of_IsContain hin hbpt
    have hhit : v ∈ nodeHits (t.setStore s').valueOf (fun a => a.IsContainPoint x y)
        (fun w => (vals w).IsContain x y) s'.root :=
      (mem_nodeHits _ _ _).2 ⟨q, m, elem, hfm, hmem, hval', htest, hopen⟩
    unfold QuadTree.Intersect at hquery
    simp only [hr'] at hquery
    rw [IntersectPointNode_eq] at hquery
    obtain ⟨h1, h2⟩ := queryNode_multi_ok _ _ _ s'.root out r out' hquery
    refine ⟨?_, _, h2, hhit⟩
    rw [h1]
    cases hl : nodeHits (fun e => ((t.setStore s').cell e).bind Element.mValue)
        (fun a => a.IsContainPoint x y) (fun w => (vals w).IsContain x y) s'.root with
    | nil =>
      have : v ∈ nodeHits (fun e => ((t.setStore s').cell e).bind Element.mValue)
          (fun a => a.IsContainPoint x y) (fun w => (vals w).IsContain x y) s'.root := hhit
      rw [hl] at this
      cases this
    | cons a l => rfl
  · intro hval x y out
    have hnn : ∀ e ∈ s'.root.allElems,
        (fun e => ((t.setStore s').cell e).bind Element.mValue) e ≠ none := by
      intro e he
      have hst : (t.setStore s').Stored e := (hT'.mem_allElems_iff hr' e).1 he
      by_cases hee : e = elem
      · subst hee
        have : ((t.setStore s').cell e).bind Element.mValue = some v := hval'
        simp [this]
      · have hst0 : t.Stored e := ((hE.others e hee).stored_iff).1 hst
        have h0 := hval e hst0
        have := bind_value_of_map (hE.ext.value e)
        unfold QuadTree.valueOf at h0
        simp only [ne_eq]
        rw [show ((t.setStore s').cell e).bind Element.mValue = (t.cell e).bind Element.mValue
          from this]
        exact h0
    unfold QuadTree.Intersect
    simp only [hr']
    rw [IntersectPointNode_eq, queryNode_multi _ _ _ s'.root out hnn]
    rfl
  · intro x y out getOne r out' hno hquery
    obtain ⟨res, hres, hall⟩ := QuadTree.Intersect_sound hT' hquery
    refine ⟨res, hres, ?_⟩
    intro hmem
    obtain ⟨e, _, _, ht⟩ := hall v hmem
    rw [hno] at ht
    cases ht

theorem diagonalTree_reachable_any : Reachable (fun _ => True) diagonalTree := by
  have h0 : Reachable (fun _ => True) ((QuadTree.new 6).Init 0 0 100 100) :=
    Reachable.init 6 0 0 100 100
  have h1 := h0.afterAddValue diagonalValues trivial 2 (some 0) 0 (by decide!)
  exact h1.afterAddValue diagonalValues trivial 2 (some 1) 0 (by decide!)

/-- C11 as stated fails: value 0 of `diagonalTree` is stored at the root; its bounds move to
the unit square at (200, 200), entirely outside the region (0, 0, 100, 100) of the root.
After `Refresh` the element is still at the root, and the query at the centre of the new
square is cut off by the region test of the root: the value is not returned. -/
theorem refresh_after_move_counterexample :
    ¬ ∀ (vals : Values) (t t' : QuadTree) (root n : QuadNode) (node : Path) (elem v : Nat)
      (b : AABB) (fuel : Nat) (x y : ℚ) (r : Bool) (out : List Nat),
      Reachable (fun _ => True) t → t.mRoot = some root → t.valueOf elem = some v →
      (t.cell elem).bind Element.mNode = some node → root.find node = some n →
      (vals v).GetAABB = some b → n.IsContain b = false → n.Intersect b = false →
      (vals v).IsContain x y = true → t.Refresh vals fuel elem = .ok t' →
      t'.Intersect vals x y [] false = .ok (r, out) → v ∈ out := by
  intro H
  have href := QuadTree.Refresh_eq_of_eval movedValues 6 diagonalTree 0 (by decide!)
  have hq := eq_ok_of_isOk (false, [])
    (r := (okOr diagonalTree (diagonalTree.Refresh movedValues 6 0)).Intersect movedValues
      (401 / 2) (401 / 2) [] false) (by decide!)
  have := H movedValues diagonalTree _ diagonalRoot diagonalRoot [] 0 0 ⟨200, 200, 1, 1⟩ 6
    (401 / 2) (401 / 2) _ _ diagonalTree_reachable_any diagonalTree_root (by decide!)
    (by decide!) rfl (by decide!) (by decide!) (by decide!) (by decide!) href hq
  revert this
  decide!

theorem stackTree_reachable : Reachable (fun _ => True) stackTree :=
  Reachable.afterAddValues stackValues trivial 6 [0, 1, 2, 3, 4, 5, 6, 7, 8, 9]
    (Reachable.init 6 0 0 100 100)

/-- Witness for C11 (amended): value 0 of `stackTree`, stored in the RIGHT_TOP child, moves to
the unit square at (10, 10); after `Refresh` the query at (21/2, 21/2) returns it. -/
theorem refresh_after_move_witness :
    ∃ t', stackTree.Refresh shiftedValues 6 0 = .ok t' ∧
      ∀ r out', t'.Intersect shiftedValues (21 / 2) (21 / 2) [] false = .ok (r, out') →
        r = true ∧ ∃ res, out' = [] ++ res ∧ 0 ∈ res := by
  obtain ⟨t', h1, h2, _, _⟩ := @refresh_after_move (fun _ => True) shiftedValues stackTree
    stackRoot (.leaf ⟨2, 9, ⟨50, 50, 50, 50⟩, [7, 6, 5, 4, 3, 2, 1, 0, 8]⟩) [0]
    stackTree_reachable (show stackTree.mRoot = some stackRoot by decide!) 0 0
    ⟨10, 10, 1, 1⟩ 6 (by decide!) (by decide!) rfl (by decide!) (by decide!) (by decide!)
  exact ⟨t', h1, fun r out' hq =>
    h2 (21 / 2) (21 / 2) [] r out' (by decide!) (by decide!) (by decide!) hq⟩

section Query

variable (valueOf : Nat → Option Nat) (keep : AABB → Bool) (test : Nat → Bool)

/-- The element loop in single-hit mode stops at the first hit of the list. -/
theorem elemsLoop_single (l : List Nat) (out : List Nat) (hnn : ∀ e ∈ l, valueOf e ≠ none) :
    elemsLoop valueOf test true l false out =
      .ok (!(hits valueOf test l).isEmpty, !(hits valueOf test l).isEmpty,
        out ++ (hits valueOf test l).take 1) := by
  induction l with
  | nil => simp [elemsLoop, hits]
  | cons e rest ih =>
    have hr : ∀ e ∈ rest, valueOf e ≠ none := fun x hx => hnn x (by simp [hx])
    rw [hits_cons]
    simp only [elemsLoop]
    cases hve : valueOf e with
    | none => exact absurd hve (hnn e (by simp))
    | some v =>
      simp only
      cases ht : test v with
      | false =>
        simp only [Bool.not_false, if_true, Bool.false_eq_true, if_false, List.nil_append]
        exact ih hr
      | true =>
        simp

theorem queryChild_single (r : Except Err (Bool × List Nat))
    (next : Bool → List Nat → Except Err (Bool × List Nat)) (l out : List Nat)
    (hr : r = .ok (!l.isEmpty, out ++ l.take 1)) :
    queryChild true r false next =
      if l.isEmpty then next false out else .ok (true, out ++ l.take 1) := by
  subst hr
  cases l <;> simp [queryChild]

/-- The traversal in single-hit mode appends the first value of `nodeHits`, if there is one. -/
theorem queryNode_single : ∀ (n : QuadNode) (out : List Nat),
    (∀ e ∈ n.allElems, valueOf e ≠ none) →
    queryNode valueOf keep test true n out =
      .ok (!(nodeHits valueOf keep test n).isEmpty,
        out ++ (nodeHits valueOf keep test n).take 1)
  | .leaf d, out, hnn => by
    simp only [queryNode, nodeHits]
    split
    · simp
    · split
      · simp
      · rw [elemsLoop_single valueOf test d.mElems out hnn]
        cases hits valueOf test d.mElems <;> simp
  | .split d c0 c1 c2 c3, out, hnn => by
    have hd : ∀ e ∈ d.mElems, valueOf e ≠ none :=
      fun e he => hnn e (by simp [QuadNode.allElems, he])
    have h0 : ∀ e ∈ c0.allElems, valueOf e ≠ none :=
      fun e he => hnn e (by simp [QuadNode.allElems, he])
    have h1 : ∀ e ∈ c1.allElems, valueOf e ≠ none :=
      fun e he => hnn e (by simp [QuadNode.allElems, he])
    have h2 : ∀ e ∈ c2.allElems, valueOf e ≠ none :=
      fun e he => hnn e (by simp [QuadNode.allElems, he])
    have h3 : ∀ e ∈ c3.allElems, valueOf e ≠ none :=
      fun e he => hnn e (by simp [QuadNode.allElems, he])
    simp only [queryNode, nodeHits]
    split
    · simp
    · split
      · simp
      · rw [elemsLoop_single valueOf test d.mElems out hd]
        cases hh : hits valueOf test d.mElems with
        | cons a l => simp
        | nil =>
          simp only [List.isEmpty_nil, Bool.not_true, List.take_nil, List.append_nil,
            List.nil_append]
          rw [queryChild_single _ _ _ _ (queryNode_single c0 out h0)]
          cases hc0 : nodeHits valueOf keep test c0 with
          | cons a l => simp
          | nil =>
            simp only [List.isEmpty_nil, if_true, List.nil_append]
            rw [queryChild_single _ _ _ _ (queryNode_single c1 out h1)]
            cases hc1 : nodeHits valueOf keep test c1 with
            | cons a l => simp
            | nil =>
              simp only [List.isEmpty_nil, if_true, List.nil_append]
              rw [queryChild_single _ _ _ _ (queryNode_single c2 out h2)]
              cases hc2 : nodeHits valueOf keep test c2 with
              | cons a l => simp
              | nil =>
                simp only [List.isEmpty_nil, if_true, List.nil_append]
                have h3' := queryNode_single c3 out h3
                rw [h3']
                cases hc3 : nodeHits valueOf keep test c3 <;> simp [queryChild]

end Query

theorem Loaded.init_loaded (vals : Values) (x y w h : ℚ) :
    Loaded vals ⟨x, y, w, h⟩ 6 0 ((QuadTree.new 6).Init x y w h) where
  reach := Reachable.init 6 x y w h
  maxDeep := by simp [QuadTree.Init, QuadTree.Clear, QuadTree.new]
  next := rfl
  root := ⟨QuadNode.new 1 ⟨x, y, w, h⟩, rfl, rfl, by
    have := bounded_height (QuadNode.new 1 ⟨x, y, w, h⟩)
    exact this.mono_bounded (by simp [QuadNode.new, QuadNode.height])⟩
  value := fun e he => absurd he (Nat.not_lt_zero e)

/-- One call `Add(value)` of the scenario returns and keeps the description of the tree. -/
theorem Loaded.step_loaded {vals : Values} {R : AABB} {B k : Nat} {t : QuadTree}
    (hL : Loaded vals R B k t) {b : AABB} (hb : (vals k).GetAABB = some b) {fuel : Nat}
    (hfuel : B ≤ fuel) :
    ∃ t', t.AddValue vals fuel (some k) 0 = .ok (some k, t') ∧ Loaded vals R B (k + 1) t' := by
  obtain ⟨root, hr, hreg, hB⟩ := hL.root
  have hT : TreeInv vals False t := hL.reach.inv (fun f => absurd f id)
  have hT1 := hT.newElement (some k)
  have hI0 : Inv vals False ⟨root, (t.newElement (some k)).2.cell⟩ := hT1.store root hr
  have hlive : ((Store.mk root (t.newElement (some k)).2.cell).cell t.next).isSome = true := by
    simp [QuadTree.newElement]
  have hbox : Store.GetAABB vals ⟨root, (t.newElement (some k)).2.cell⟩ t.next = some b := by
    simp [Store.GetAABB, Store.GetValue, QuadTree.newElement, hb]
  obtain ⟨r, s', hadd, hB'⟩ := Add_progress vals t.mMaxDeep B hL.maxDeep fuel [] t.next
    ⟨root, (t.newElement (some k)).2.cell⟩ root hI0 rfl hlive hB (by simpa using hfuel)
    (fun _ => by rw [hbox]; simp)
  obtain ⟨_, hE, _, _⟩ := Add_spec vals False t.mMaxDeep fuel [] t.next 0
    ⟨root, (t.newElement (some k)).2.cell⟩ r s' root hI0 rfl hlive (fun f => absurd f id) hadd
  have hres := QuadTree.AddValue_of_store hr hadd
  obtain ⟨_, _, hst, hval, _, hothers⟩ := QuadTree.AddValue_ok hT hres
  have hnext := hL.next
  refine ⟨_, by rw [hnext] at hres; exact hres, ?_⟩
  refine ⟨Reachable.addValue hL.reach rfl hres, ?_, ?_, ⟨s'.root, rfl, ?_, hB'⟩, ?_⟩
  · simpa [QuadTree.setStore, QuadTree.newElement] using hL.maxDeep
  · simp [QuadTree.setStore, QuadTree.newElement, hnext]
  · obtain ⟨d', hd', _, hd'a⟩ := hE.ext.node [] root.data rfl
    simp only [dataAt, QuadNode.find_nil, Option.map_some', Option.some.injEq] at hd'
    rw [hd', hd'a, hreg]
  · intro e he
    by_cases hek : e = k
    · subst hek
      rw [hnext] at hst hval
      exact ⟨hst, hval⟩
    · obtain ⟨h1, h2⟩ := hothers e (by rw [hnext]; exact hek)
      obtain ⟨h3, h4⟩ := hL.value e (by omega)
      exact ⟨h1.2 h3, h2.trans h4⟩

/-- The calls for the values `k, ..., k + n - 1` return, one after the other. -/
theorem Loaded.steps_loaded {vals : Values} {R : AABB} {B : Nat} {fuel : Nat} (hfuel : B ≤ fuel) :
    ∀ (n k : Nat) (t : QuadTree), Loaded vals R B k t →
      (∀ j, j < k + n → (vals j).GetAABB ≠ none) →
      ∃ t', t.AddValues vals fuel (List.range' k n) = .ok t' ∧ Loaded vals R B (k + n) t' := by
  intro n
  induction n with
  | zero =>
    intro k t hL _
    exact ⟨t, rfl, hL⟩
  | succ n ih =>
    intro k t hL hb
    cases hbk : (vals k).GetAABB with
    | none => exact absurd hbk (hb k (by omega))
    | some b =>
      obtain ⟨t1, h1, hL1⟩ := hL.step_loaded hbk hfuel
      obtain ⟨t', h', hL'⟩ := ih (k + 1) t1 hL1 (fun j hj => hb j (by omega))
      have hkn : k + 1 + n = k + (n + 1) := by omega
      rw [hkn] at hL'
      refine ⟨t', ?_, hL'⟩
      simp only [List.range'_succ, QuadTree.AddValues, h1]
      exact h'

/-- In a tree of the scenario, a single-hit point query at a point of the region of the root
that value `k` contains, and no other of the values does, returns true and appends `k`. -/
theorem Loaded.single_hit {vals : Values} {R : AABB} {B n : Nat} {t : QuadTree}
    (hL : Loaded vals R B n t) {k : Nat} (hk : k < n) {x y : ℚ}
    (hroot : R.IsContainPoint x y = true)
    (hbox : ∀ j, j < n → ∃ b, (vals j).GetAABB = some b ∧
      ((vals j).IsContain x y = true → b.IsContainPoint x y = true))
    (hhit : (vals k).IsContain x y = true)
    (hmiss : ∀ j, j < n → j ≠ k → (vals j).IsContain x y = false) (out : List Nat) :
    t.Intersect vals x y out true = .ok (true, out ++ [k]) := by
  obtain ⟨root, hr, hreg, _⟩ := hL.root
  have hT : TreeInv vals True t := hL.reach.inv (fun _ v hv => hv)
  have hI := hT.store root hr
  have hstored : ∀ e, t.Stored e → e < n := fun e he => by
    have := hT.stored_lt he
    rw [hL.next] at this
    exact this
  have hnn : ∀ e ∈ root.allElems, (fun e => (t.cell e).bind Element.mValue) e ≠ none := by
    intro e he
    have hs := (hT.mem_allElems_iff hr e).1 he
    have := (hL.value e (hstored e hs)).2
    unfold QuadTree.valueOf at this
    simp [this]
  -- the hits at the point
  have hall : ∀ v ∈ nodeHits t.valueOf (fun a => a.IsContainPoint x y)
      (fun v => (vals v).IsContain x y) root, v = k := by
    intro v hv
    obtain ⟨q, m, e, hq, he, hve, ht, _⟩ := (mem_nodeHits _ _ _).1 hv
    have hs : t.Stored e := (hT.mem_allElems_iff hr e).1 (mem_allElems.2 ⟨q, m, hq, he⟩)
    have hlt := hstored e hs
    have hev : v = e := by
      have := (hL.value e hlt).2
      rw [hve] at this
      exact Option.some.inj this
    subst hev
    by_contra hne
    rw [hmiss v hlt hne] at ht
    cases ht
  have hmem : k ∈ nodeHits t.valueOf (fun a => a.IsContainPoint x y)
      (fun v => (vals v).IsContain x y) root := by
    obtain ⟨hs, hv⟩ := hL.value k hk
    obtain ⟨q, m, hq, hm⟩ := mem_allElems.1 ((hT.mem_allElems_iff hr k).2 hs)
    obtain ⟨b, hb, hpt⟩ := hbox k hk
    refine (mem_nodeHits _ _ _).2 ⟨q, m, k, hq, hm, hv, hhit, ?_⟩
    refine open_of_stored (s := ⟨root, t.cell⟩) hI hq hm _ (by
      show root.data.mAABB.IsContainPoint x y = true
      rw [hreg]; exact hroot) ?_
    intro a b' hb' ha
    rw [Store.GetAABB_eq vals t root k k hv, hb] at hb'
    cases hb'
    exact AABB.IsContainPoint_of_IsContain ha (hpt hhit)
  unfold QuadTree.Intersect
  simp only [hr]
  rw [IntersectPointNode_eq, queryNode_single _ _ _ root out hnn]
  cases hl : nodeHits (fun e => (t.cell e).bind Element.mValue)
      (fun a => a.IsContainPoint x y) (fun v => (vals v).IsContain x y) root with
  | nil =>
    have h2 : k ∈ nodeHits (fun e => (t.cell e).bind Element.mValue)
      (fun a => a.IsContainPoint x y) (fun v => (vals v).IsContain x y) root := hmem
    rw [hl] at h2
    cases h2
  | cons a l =>
    have h2 : a = k := hall a (by
      show a ∈ nodeHits (fun e => (t.cell e).bind Element.mValue)
        (fun a => a.IsContainPoint x y) (fun v => (vals v).IsContain x y) root
      rw [hl]; simp)
    subst h2
    simp

/-- A unit square with its centre in the region (0, 0, 100, 100) contains its centre, also
with the rounded right and top edge. -/
theorem unitSquare_centre (x y : ℚ)
    (h : (AABB.mk 0 0 100 100).IsContainPoint x y = true) :
    (unitSquare x y).IsContainPoint x y = true := by
  rw [AABB.IsContainPoint_iff] at h ⊢
  have e100 : fadd 0 100 = 100 := by decide!
  simp only [unitSquare, AABB.GetLeft, AABB.GetRight, AABB.GetBottom, AABB.GetTop, e100]
    at h ⊢
  obtain ⟨hx0, hx1, hy0, hy1⟩ := h
  have hx := fl_ge_sub_half (y := x - 1 / 2 + 1) (by linarith) (by linarith)
  have hy := fl_ge_sub_half (y := y - 1 / 2 + 1) (by linarith) (by linarith)
  unfold fadd
  refine ⟨?_, ?_, ?_, ?_⟩ <;> linarith

/-- C15 (amended). Tree over (0, 0, 100, 100) with `mMaxDeep` 6; twenty values, value `j`
having the unit square with centre (cx j, cy j) as bounds and membership in that closed square
as exact point test, all centres inside the region; fuel 6 or more. Then the twenty calls
`Add(value)` return, and for each square whose centre lies in none of the other squares, a
single-hit point query at that centre returns true and appends exactly that value. -/
theorem twenty_squares (vals : Values) (cx cy : Nat → ℚ) (fuel : Nat) (hfuel : 6 ≤ fuel)
    (hsq : ∀ j, j < 20 → (vals j).GetAABB = some (unitSquare (cx j) (cy j)) ∧
      ∀ x y, (vals j).IsContain x y = (unitSquare (cx j) (cy j)).IsContainPoint x y)
    (hin : ∀ j, j < 20 → (AABB.mk 0 0 100 100).IsContainPoint (cx j) (cy j) = true) :
    ∃ t, ((QuadTree.new 6).Init 0 0 100 100).AddValues vals fuel (List.range 20) = .ok t ∧
      ∀ k, k < 20 →
        (∀ j, j < 20 → j ≠ k →
          (unitSquare (cx j) (cy j)).IsContainPoint (cx k) (cy k) = false) →
        ∀ out, t.Intersect vals (cx k) (cy k) out true = .ok (true, out ++ [k]) := by
  obtain ⟨t, ht, hL⟩ := @Loaded.steps_loaded vals ⟨0, 0, 100, 100⟩ 6 fuel hfuel 20 0 _
    (Loaded.init_loaded vals 0 0 100 100)
    (fun j hj => by rw [(hsq j (by omega)).1]; simp)
  rw [← List.range_eq_range'] at ht
  refine ⟨t, ht, ?_⟩
  intro k hk hmiss out
  have hL' : Loaded vals ⟨0, 0, 100, 100⟩ 6 20 t := by simpa using hL
  refine hL'.single_hit hk (hin k hk) ?_ ?_ ?_ out
  · intro j hj
    refine ⟨_, (hsq j hj).1, ?_⟩
    intro h
    rw [(hsq j hj).2] at h
    exact h
  · rw [(hsq k hk).2]
    exact unitSquare_centre _ _ (hin k hk)
  · intro j hj hne
    rw [(hsq j hj).2]
    exact hmiss j hj hne

/-- Witness for C15 (amended): twenty unit squares side by side on the line y = 50; the query
at the centre (16, 50) of square 3 returns value 3. -/
theorem twenty_squares_witness :
    ∃ t, ((QuadTree.new 6).Init 0 0 100 100).AddValues gridValues 6 (List.range 20) = .ok t ∧
      ∀ out, t.Intersect gridValues (5 * (3 : Nat) + 1) 50 out true = .ok (true, out ++ [3]) := by
  obtain ⟨t, h1, h2⟩ := twenty_squares gridValues (fun v => 5 * v + 1) (fun _ => 50) 6
    (le_refl 6) (fun j _ => ⟨rfl, fun _ _ => rfl⟩)
    (fun j hj => by interval_cases j <;> decide!)
  exact ⟨t, h1, h2 3 (by decide) (fun j hj hne => by
    interval_cases j <;> first | exact absurd rfl hne | decide!)⟩

/-- C15 as stated fails: the squares 0 and 1 of `twentyValues` have distinct centres but
overlap, and after the twenty insertions the single-hit query at the centre (10, 10) of
square 0 returns square 1, which also contains that point and is met first. -/
theorem twenty_squares_counterexample :
    ¬ ∀ (vals : Values) (cx cy : Nat → ℚ) (fuel : Nat) (t : QuadTree) (k : Nat) (r : Bool)
      (out : List Nat),
      (∀ j, j < 20 → (vals j).GetAABB = some (unitSquare (cx j) (cy j)) ∧
        ∀ x y, (vals j).IsContain x y = (unitSquare (cx j) (cy j)).IsContainPoint x y) →
      (∀ j, j < 20 → (AABB.mk 0 0 100 100).IsContainPoint (cx j) (cy j) = true) →
      (∀ i, i < 20 → ∀ j, j < 20 → i ≠ j → ¬ (cx i = cx j ∧ cy i = cy j)) →
      ((QuadTree.new 6).Init 0 0 100 100).AddValues vals fuel (List.range 20) = .ok t →
      k < 20 → t.Intersect vals (cx k) (cy k) [] true = .ok (r, out) →
      r = true ∧ out = [k] := by
  intro H
  have E : isOk (((QuadTree.new 6).Init 0 0 100 100).AddValues twentyValues 6
        (List.range 20)) = true ∧
      isOk ((okOr ((QuadTree.new 6).Init 0 0 100 100)
        (((QuadTree.new 6).Init 0 0 100 100).AddValues twentyValues 6
          (List.range 20))).Intersect twentyValues (twentyCentreX 0) (twentyCentreY 0)
        [] true) = true ∧
      (∀ j, j < 20 →
        (AABB.mk 0 0 100 100).IsContainPoint (twentyCentreX j) (twentyCentreY j) = true) ∧
      (∀ i, i < 20 → ∀ j, j < 20 → i ≠ j →
        ¬ (twentyCentreX i = twentyCentreX j ∧ twentyCentreY i = twentyCentreY j)) ∧
      ¬ ((okOr (false, []) ((okOr ((QuadTree.new 6).Init 0 0 100 100)
        (((QuadTree.new 6).Init 0 0 100 100).AddValues twentyValues 6
          (List.range 20))).Intersect twentyValues (twentyCentreX 0) (twentyCentreY 0)
        [] true)).1 = true ∧
        (okOr (false, []) ((okOr ((QuadTree.new 6).Init 0 0 100 100)
        (((QuadTree.new 6).Init 0 0 100 100).AddValues twentyValues 6
          (List.range 20))).Intersect twentyValues (twentyCentreX 0) (twentyCentreY 0)
        [] true)).2 = [0]) := by
    decide!
  obtain ⟨a1, a2, a3, a4, a5⟩ := E
  have h20 := QuadTree.AddValues_eq_of_eval twentyValues 6 ((QuadTree.new 6).Init 0 0 100 100)
    (List.range 20) a1
  have hq := eq_ok_of_isOk (false, []) a2
  exact a5 (H twentyValues twentyCentreX twentyCentreY 6 _ 0 _ _
    (fun j _ => ⟨rfl, fun _ _ => rfl⟩) a3 a4 h20 (by decide) hq)

theorem nodeElems_sublist (keep : AABB → Bool) :
    ∀ n : QuadNode, (nodeElems keep n).Sublist n.allElems
  | .leaf d => by
    simp only [nodeElems, QuadNode.allElems]
    split
    · exact List.nil_sublist _
    · split
      · exact List.nil_sublist _
      · exact List.Sublist.refl _
  | .split d c0 c1 c2 c3 => by
    simp only [nodeElems, QuadNode.allElems]
    split
    · exact List.nil_sublist _
    · split
      · exact List.nil_sublist _
      · exact (List.Sublist.refl _).append ((nodeElems_sublist keep c0).append
          ((nodeElems_sublist keep c1).append ((nodeElems_sublist keep c2).append
            (nodeElems_sublist keep c3))))

theorem nodeHits_eq_hits (valueOf : Nat → Option Nat) (keep : AABB → Bool) (test : Nat → Bool) :
    ∀ n : QuadNode, nodeHits valueOf keep test n = hits valueOf test (nodeElems keep n)
  | .leaf d => by
    simp only [nodeHits, nodeElems]
    split
    · rfl
    · split <;> rfl
  | .split d c0 c1 c2 c3 => by
    simp only [nodeHits, nodeElems]
    split
    · rfl
    · split
      · rfl
      · simp only [hits_append, nodeHits_eq_hits valueOf keep test c0,
          nodeHits_eq_hits valueOf keep test c1, nodeHits_eq_hits valueOf keep test c2,
          nodeHits_eq_hits valueOf keep test c3]

theorem hits_map_some (valueOf : Nat → Option Nat) (test : Nat → Bool) (l : List Nat) :
    (hits valueOf test l).map some = (l.filter (isHit valueOf test)).map valueOf := by
  induction l with
  | nil => rfl
  | cons e l ih =>
    unfold hits at ih ⊢
    cases hv : valueOf e with
    | none => simp [List.filterMap_cons, List.filter_cons, isHit, hv, ih]
    | some v =>
      cases ht : test v <;> simp [List.filterMap_cons, List.filter_cons, isHit, hv, ht, ih]

/-- What a multi-hit traversal appends are the values of pairwise distinct stored elements. -/
theorem queryNode_distinct {vals : Values} {κ : Prop} {t : QuadTree} {root : QuadNode}
    (hT : TreeInv vals κ t) (hr : t.mRoot = some root) (keep : AABB → Bool) (test : Nat → Bool)
    {out : List Nat} {b : Bool} {out' : List Nat}
    (h : queryNode t.valueOf keep test false root out = .ok (b, out')) :
    ∃ els : List Nat, els.Nodup ∧ (∀ e ∈ els, t.Stored e) ∧
      out'.map some = out.map some ++ els.map t.valueOf := by
  obtain ⟨_, rfl⟩ := queryNode_multi_ok t.valueOf keep test root out b out' h
  have hsub := nodeElems_sublist keep root
  have hnd : root.allElems.Nodup := (Own.ownTree (hT.store root hr).own).nodup
  refine ⟨(nodeElems keep root).filter (isHit t.valueOf test),
    (hnd.sublist hsub).filter _, ?_, ?_⟩
  · intro e he
    exact (hT.mem_allElems_iff hr e).1 (hsub.subset (List.mem_of_mem_filter he))
  · rw [List.map_append, nodeHits_eq_hits, hits_map_some]

/-- C24. `AddElem` of an element on the node that already owns it changes nothing: the store
(every list with its order, every owner, every route count) is the same afterwards, and in a
store with consistent ownership the element is in the list of the node exactly once. -/
theorem add_elem_idempotent (s : Store) (p : Path) (e : Nat) (h : s.GetNode e = some p) :
    s.AddElem p e = s ∧
    (∀ q, dataAt (s.AddElem p e).root q = dataAt s.root q) ∧
    (∀ e', (s.AddElem p e).GetNode e' = s.GetNode e') ∧
    (Own s → ((s.AddElem p e).elemsAt p).count e = 1) := by
  have heq := Store.AddElem_of_owner h
  rw [heq]
  refine ⟨rfl, fun _ => rfl, fun _ => rfl, fun ho => ?_⟩
  exact List.count_eq_one_of_mem (ho.2 p) ((ho.1 e p).1 h)

/-- Witness for C24: element 9 of `stackTree` is owned by the root; `AddElem` on the root
leaves the store as it is. -/
theorem add_elem_idempotent_witness :
    Store.AddElem ⟨stackRoot, stackTree.cell⟩ [] 9 = ⟨stackRoot, stackTree.cell⟩ :=
  (add_elem_idempotent ⟨stackRoot, stackTree.cell⟩ [] 9 (by decide!)).1

/-- C26. In every reachable state the owner of an element is the node at `p` exactly when the
element is in the list of that node; it is there once, and in the list of no other node; so
the values a multi-hit query appends, to a point or a circle, are those of pairwise distinct
elements. -/
theorem ownership_consistent {E : Values → Prop} {t : QuadTree} {root : QuadNode}
    (h : Reachable E t) (hr : t.mRoot = some root) :
    (∀ e p, (t.cell e).bind Element.mNode = some p ↔
      ∃ n, root.find p = some n ∧ n.data.mElems.count e = 1) ∧
    (∀ e p q n m, root.find p = some n → root.find q = some m → e ∈ n.data.mElems →
      e ∈ m.data.mElems → p = q) ∧
    root.allElems.Nodup ∧
    (∀ vals x y out b out', t.Intersect vals x y out false = .ok (b, out') →
      ∃ els : List Nat, els.Nodup ∧ (∀ e ∈ els, t.Stored e) ∧
        out'.map some = out.map some ++ els.map t.valueOf) ∧
    (∀ vals circle out b out', t.IntersectCircle vals circle out false = .ok (b, out') →
      ∃ els : List Nat, els.Nodup ∧ (∀ e ∈ els, t.Stored e) ∧
        out'.map some = out.map some ++ els.map t.valueOf) := by
  have hT : TreeInv (fun _ => ⟨none, fun _ _ => false, fun _ => false⟩) False t :=
    h.inv (fun hf => absurd hf id)
  have hI := hT.store root hr
  have hO := Own.ownTree hI.own
  refine ⟨?_, ?_, hO.nodup, ?_, ?_⟩
  · intro e p
    have h1 := hI.own.1 e p
    have h2 := hI.own.2 p
    change (t.cell e).bind Element.mNode = some p ↔ _ at h1
    rw [h1]
    constructor
    · intro he
      cases hf : root.find p with
      | none => simp [Store.elemsAt, hf] at he
      | some n =>
        refine ⟨n, rfl, ?_⟩
        have hel : Store.elemsAt ⟨root, t.cell⟩ p = n.data.mElems := Store.elemsAt_of_find hf
        rw [hel] at he h2
        exact List.count_eq_one_of_mem h2 he
    · rintro ⟨n, hf, hc⟩
      have hel : Store.elemsAt ⟨root, t.cell⟩ p = n.data.mElems := Store.elemsAt_of_find hf
      rw [hel]
      exact List.count_pos_iff.1 (by omega)
  · intro e p q n m hp hq hn hm
    exact hO.1 p q n m e hp hq hn hm
  · intro vals x y out b out' hq
    unfold QuadTree.Intersect at hq
    simp only [hr] at hq
    rw [IntersectPointNode_eq] at hq
    exact queryNode_distinct hT hr _ _ hq
  · intro vals circle out b out' hq
    unfold QuadTree.IntersectCircle at hq
    simp only [hr] at hq
    rw [IntersectCircleNode_eq] at hq
    exact queryNode_distinct hT hr _ _ hq

/-- Witness for C26: in `stackTree` the root owns element 9 and no other list holds it. -/
theorem ownership_consistent_witness :
    ((stackTree.cell 9).bind Element.mNode = some [] ↔
      ∃ n, stackRoot.find [] = some n ∧ n.data.mElems.count 9 = 1) ∧
    stackRoot.allElems.Nodup :=
  ⟨(ownership_consistent stackTree_reachable
      (show stackTree.mRoot = some stackRoot by decide!)).1 9 [],
    (ownership_consistent stackTree_reachable
      (show stackTree.mRoot = some stackRoot by decide!)).2.2.1⟩

/-- C27. In a state reached by `Add` (any `atDeep`), `Remove` and `Refresh` with unchanging
values, an element owned by a node below the root has bounds, and the region of that node
contains them, borders included. -/
theorem containment_invariant {vals : Values} {t : QuadTree} {root : QuadNode}
    (h : Reachable (fun v => v = vals) t) (hr : t.mRoot = some root) (e : Nat) (p : Path)
    (hp : (t.cell e).bind Element.mNode = some p) (hne : p ≠ []) :
    ∃ v b n, t.valueOf e = some v ∧ (vals v).GetAABB = some b ∧ root.find p = some n ∧
      n.IsContain b = true ∧
      (n.GetAABB.GetLeft ≤ b.GetLeft ∧ b.GetRight ≤ n.GetAABB.GetRight ∧
        n.GetAABB.GetBottom ≤ b.GetBottom ∧ b.GetTop ≤ n.GetAABB.GetTop) := by
  have hT : TreeInv vals True t := h.inv (fun _ v hv => hv)
  have hI := hT.store root hr
  obtain ⟨b, d, hb, hd, hc⟩ := hI.contain trivial e p hp p (List.prefix_refl p) hne
  cases hf : root.find p with
  | none => simp [dataAt, hf] at hd
  | some n =>
    have hdn : d = n.data := by
      simp [dataAt, hf] at hd
      exact hd.symm
    subst hdn
    cases hv : t.valueOf e with
    | none =>
      unfold QuadTree.valueOf at hv
      simp [Store.GetAABB, Store.GetValue, hv] at hb
    | some v =>
      rw [Store.GetAABB_eq vals t root e v hv] at hb
      refine ⟨v, b, n, rfl, hb, rfl, hc, ?_⟩
      have := (AABB.IsContain_iff n.data.mAABB b).1 hc
      exact this

/-- Witness for C27: element 0 of `stackTree`, moved into the RIGHT_TOP child by the
redistribution, has bounds inside the region (50, 50, 50, 50) of that child. -/
theorem containment_invariant_witness :
    ∃ v b n, stackTree.valueOf 0 = some v ∧ (stackValues v).GetAABB = some b ∧
      stackRoot.find [0] = some n ∧ n.IsContain b = true ∧
      (n.GetAABB.GetLeft ≤ b.GetLeft ∧ b.GetRight ≤ n.GetAABB.GetRight ∧
        n.GetAABB.GetBottom ≤ b.GetBottom ∧ b.GetTop ≤ n.GetAABB.GetTop) :=
  containment_invariant
    (show Reachable (fun v => v = stackValues) stackTree from
      Reachable.afterAddValues (E := fun v => v = stackValues) stackValues rfl 6
        [0, 1, 2, 3, 4, 5, 6, 7, 8, 9] (Reachable.init 6 0 0 100 100))
    (show stackTree.mRoot = some stackRoot by decide!) 0 [0] (by decide!) (by decide)

section Query

variable (valueOf : Nat → Option Nat) (keep : AABB → Bool) (test : Nat → Bool)

/-- An element loop in multi-hit mode that returns has read a value from every element. -/
theorem elemsLoop_multi_values (l : List Nat) : ∀ (hv : Bool) (out : List Nat)
    (r : Bool × Bool × List Nat), elemsLoop valueOf test false l hv out = .ok r →
    ∀ e ∈ l, valueOf e ≠ none := by
  induction l with
  | nil => intro _ _ _ _ e he; cases he
  | cons a rest ih =>
    intro hv out r h e he
    simp only [elemsLoop] at h
    cases hva : valueOf a with
    | none => simp [hva] at h
    | some v =>
      simp only [hva] at h
      rcases List.mem_cons.1 he with rfl | hmem
      · simp [hva]
      · cases ht : test v with
        | false =>
          simp only [ht, Bool.not_false, if_true] at h
          exact ih hv out r h e hmem
        | true =>
          simp only [ht, Bool.not_true, Bool.false_eq_true, if_false] at h
          exact ih true _ r h e hmem

/-- A traversal in multi-hit mode that returns has read a value from every element of every
node it did not prune. -/
theorem queryNode_multi_values : ∀ (n : QuadNode) (out : List Nat) (b : Bool)
    (out' : List Nat), queryNode valueOf keep test false n out = .ok (b, out') →
    ∀ e ∈ nodeElems keep n, valueOf e ≠ none
  | .leaf d, out, b, out', h => by
    simp only [queryNode] at h
    simp only [nodeElems]
    split
    · intro e he; cases he
    · rename_i hcnt
      simp only [hcnt, if_false] at h
      split
      · intro e he; cases he
      · rename_i hkeep
        simp only [hkeep, if_false] at h
        cases hl : elemsLoop valueOf test false d.mElems false out with
        | error err => simp [hl] at h
        | ok r => exact elemsLoop_multi_values valueOf test d.mElems false out r hl
  | .split d c0 c1 c2 c3, out, b, out', h => by
    simp only [queryNode] at h
    simp only [nodeElems]
    split
    · intro e he; cases he
    · rename_i hcnt
      simp only [hcnt, if_false] at h
      split
      · intro e he; cases he
      · rename_i hkeep
        simp only [hkeep, if_false] at h
        cases hl : elemsLoop valueOf test false d.mElems false out with
        | error err => simp [hl] at h
        | ok r =>
          have hd := elemsLoop_multi_values valueOf test d.mElems false out r hl
          have hr := elemsLoop_multi_ok valueOf test d.mElems false out r hl
          subst hr
          simp only [hl, Bool.false_or, Bool.false_eq_true, if_false] at h
          obtain ⟨b0, o0, e0, h⟩ := queryChild_multi_ok h
          obtain ⟨b1, o1, e1, h⟩ := queryChild_multi_ok h
          obtain ⟨b2, o2, e2, h⟩ := queryChild_multi_ok h
          obtain ⟨b3, o3, e3, h⟩ := queryChild_multi_ok h
          have v0 := queryNode_multi_values c0 _ b0 o0 e0
          have v1 := queryNode_multi_values c1 _ b1 o1 e1
          have v2 := queryNode_multi_values c2 _ b2 o2 e2
          have v3 := queryNode_multi_values c3 _ b3 o3 e3
          intro e he
          simp only [List.mem_append] at he
          rcases he with he | he | he | he | he
          · exact hd e he
          · exact v0 e he
          · exact v1 e he
          · exact v2 e he
          · exact v3 e he

/-- The traversal in single-hit mode appends the first value of `nodeHits`, if there is one,
as soon as the elements of the nodes a traversal does not prune have values. -/
theorem queryNode_single_visited : ∀ (n : QuadNode) (out : List Nat),
    (∀ e ∈ nodeElems keep n, valueOf e ≠ none) →
    queryNode valueOf keep test true n out =
      .ok (!(nodeHits valueOf keep test n).isEmpty,
        out ++ (nodeHits valueOf keep test n).take 1)
  | .leaf d, out, hnn => by
    simp only [queryNode, nodeHits]
    split
    · simp
    · rename_i hcnt
      split
      · simp
      · rename_i hkeep
        have hnn' : ∀ e ∈ d.mElems, valueOf e ≠ none := by
          intro e he
          exact hnn e (by simp [nodeElems, hcnt, hkeep, he])
        rw [elemsLoop_single valueOf test d.mElems out hnn']
        cases hits valueOf test d.mElems <;> simp
  | .split d c0 c1 c2 c3, out, hnn => by
    simp only [queryNode, nodeHits]
    split
    · simp
    · rename_i hcnt
      split
      · simp
      · rename_i hkeep
        have hE : nodeElems keep (.split d c0 c1 c2 c3) = d.mElems ++
            (nodeElems keep c0 ++ (nodeElems keep c1 ++
              (nodeElems keep c2 ++ nodeElems keep c3))) := by
          simp [nodeElems, hcnt, hkeep]
        rw [hE] at hnn
        have hd : ∀ e ∈ d.mElems, valueOf e ≠ none :=
          fun e he => hnn e (by simp [he])
        have h0 : ∀ e ∈ nodeElems keep c0, valueOf e ≠ none :=
          fun e he => hnn e (by simp [he])
        have h1 : ∀ e ∈ nodeElems keep c1, valueOf e ≠ none :=
          fun e he => hnn e (by simp [he])
        have h2 : ∀ e ∈ nodeElems keep c2, valueOf e ≠ none :=
          fun e he => hnn e (by simp [he])
        have h3 : ∀ e ∈ nodeElems keep c3, valueOf e ≠ none :=
          fun e he => hnn e (by simp [he])
        rw [elemsLoop_single valueOf test d.mElems out hd]
        cases hh : hits valueOf test d.mElems with
        | cons a l => simp
        | nil =>
          simp only [List.isEmpty_nil, Bool.not_true, List.take_nil, List.append_nil,
            List.nil_append]
          rw [queryChild_single _ _ _ _ (queryNode_single_visited c0 out h0)]
          cases hc0 : nodeHits valueOf keep test c0 with
          | cons a l => simp
          | nil =>
            simp only [List.isEmpty_nil, if_true, List.nil_append]
            rw [queryChild_single _ _ _ _ (queryNode_single_visited c1 out h1)]
            cases hc1 : nodeHits valueOf keep test c1 with
            | cons a l => simp
            | nil =>
              simp only [List.isEmpty_nil, if_true, List.nil_append]
              rw [queryChild_single _ _ _ _ (queryNode_single_visited c2 out h2)]
              cases hc2 : nodeHits valueOf keep test c2 with
              | cons a l => simp
              | nil =>
                simp only [List.isEmpty_nil, if_true, List.nil_append]
                have h3' := queryNode_single_visited c3 out h3
                rw [h3']
                cases hc3 : nodeHits valueOf keep test c3 <;> simp [queryChild]

/-- When the multi-hit traversal returns, the single-hit traversal from the same output
returns too, with the first of the values the multi-hit traversal appends. -/
theorem queryNode_single_of_multi (n : QuadNode) (out : List Nat) (b : Bool) (out' : List Nat)
    (h : queryNode valueOf keep test false n out = .ok (b, out')) :
    ∃ res, out' = out ++ res ∧ b = !res.isEmpty ∧
      queryNode valueOf keep test true n out = .ok (!res.isEmpty, out ++ res.take 1) := by
  obtain ⟨hb, ho⟩ := queryNode_multi_ok valueOf keep test n out b out' h
  exact ⟨nodeHits valueOf keep test n, ho, hb,
    queryNode_single_visited valueOf keep test n out
      (queryNode_multi_values valueOf keep test n out b out' h)⟩

end Query

/-- C28. Whenever the multi-hit query returns, to a point or to a circle, the single-hit query
from the same output vector returns too: it appends nothing when the multi-hit query appends
nothing, else exactly the first value the multi-hit query appends; in both modes the result is
`true` exactly when a value was appended, and the old content of the output stays in front.
The multi-hit query returns as soon as every stored element has a value. -/
theorem single_hit_agrees (vals : Values) (t : QuadTree) :
    (∀ x y out b out', t.Intersect vals x y out false = .ok (b, out') →
      ∃ res, out' = out ++ res ∧ b = !res.isEmpty ∧
        t.Intersect vals x y out true = .ok (!res.isEmpty, out ++ res.take 1)) ∧
    (∀ circle out b out', t.IntersectCircle vals circle out false = .ok (b, out') →
      ∃ res, out' = out ++ res ∧ b = !res.isEmpty ∧
        t.IntersectCircle vals circle out true = .ok (!res.isEmpty, out ++ res.take 1)) ∧
    (∀ root, t.mRoot = some root → (∀ e ∈ root.allElems, t.valueOf e ≠ none) →
      ∀ x y circle out, (∃ r, t.Intersect vals x y out false = .ok r) ∧
        ∃ r, t.IntersectCircle vals circle out false = .ok r) := by
  refine ⟨?_, ?_, ?_⟩
  · intro x y out b out' h
    unfold QuadTree.Intersect at h ⊢
    cases hr : t.mRoot with
    | none =>
      simp only [hr, Except.ok.injEq, Prod.mk.injEq] at h
      obtain ⟨rfl, rfl⟩ := h
      exact ⟨[], by simp, by simp, by simp⟩
    | some root =>
      simp only [hr] at h ⊢
      rw [IntersectPointNode_eq] at h ⊢
      exact queryNode_single_of_multi _ _ _ root out b out' h
  · intro circle out b out' h
    unfold QuadTree.IntersectCircle at h ⊢
    cases hr : t.mRoot with
    | none =>
      simp only [hr, Except.ok.injEq, Prod.mk.injEq] at h
      obtain ⟨rfl, rfl⟩ := h
      exact ⟨[], by simp, by simp, by simp⟩
    | some root =>
      simp only [hr] at h ⊢
      rw [IntersectCircleNode_eq] at h ⊢
      exact queryNode_single_of_multi _ _ _ root out b out' h
  · intro root hr hnn x y circle out
    unfold QuadTree.Intersect QuadTree.IntersectCircle
    simp only [hr]
    rw [IntersectPointNode_eq, IntersectCircleNode_eq]
    exact ⟨⟨_, queryNode_multi _ _ _ root out hnn⟩, ⟨_, queryNode_multi _ _ _ root out hnn⟩⟩

/-- Witness for C28: at (121/2, 121/2) the multi-hit query of `stackTree` appends ten values
after the old content `[42]`, value 9 first, and the single-hit query appends value 9. -/
theorem single_hit_agrees_witness :
    stackTree.Intersect stackValues (121 / 2) (121 / 2) [42] false =
      .ok (true, [42, 9, 7, 6, 5, 4, 3, 2, 1, 0, 8]) ∧
    ∃ res, [42, 9, 7, 6, 5, 4, 3, 2, 1, 0, 8] = [42] ++ res ∧ true = !res.isEmpty ∧
      stackTree.Intersect stackValues (121 / 2) (121 / 2) [42] true =
        .ok (!res.isEmpty, [42] ++ res.take 1) :=
  ⟨by decide!, (single_hit_agrees stackValues stackTree).1 (121 / 2) (121 / 2) [42] true
    [42, 9, 7, 6, 5, 4, 3, 2, 1, 0, 8] (by decide!)⟩

section Mono

variable {rec rec' : AddFn}
  (hm : ∀ p e a s r, rec p e a s = .ok r → rec' p e a s = .ok r)
include hm

theorem tryChildren_mono (p : Path) (e : Nat) (a : Int) :
    ∀ (is : List Nat) (s : Store) (r : Bool × Store),
      tryChildren rec p e a is s = .ok r → tryChildren rec' p e a is s = .ok r := by
  intro is
  induction is with
  | nil => intro s r h; simpa [tryChildren] using h
  | cons i is ih =>
    intro s r h
    simp only [tryChildren] at h ⊢
    cases hr : rec (p ++ [i]) e a s with
    | error err => simp [hr] at h
    | ok x =>
      obtain ⟨b, s1⟩ := x
      rw [hm _ _ _ _ _ hr]
      rw [hr] at h
      cases b with
      | true => exact h
      | false => exact ih s1 r h

theorem redistributeElems_mono (p c : Path) :
    ∀ (j : Nat) (s s' : Store),
      redistributeElems rec p c j s = .ok s' → redistributeElems rec' p c j s = .ok s' := by
  intro j
  induction j with
  | zero => intro s s' h; simpa [redistributeElems] using h
  | succ j ih =>
    intro s s' h
    simp only [redistributeElems] at h ⊢
    cases hp : s.root.find p with
    | none => simp [hp] at h
    | some n =>
      simp only [hp] at h ⊢
      cases hg : n.GetElem j with
      | none => simp [hg] at h
      | some ej =>
        simp only [hg] at h ⊢
        cases hr : rec c ej 0 s with
        | error err => simp [hr] at h
        | ok x =>
          obtain ⟨b, s1⟩ := x
          rw [hm _ _ _ _ _ hr]
          rw [hr] at h
          exact ih s1 s' h

theorem redistribute_mono (p : Path) :
    ∀ (is : List Nat) (s s' : Store),
      redistribute rec p is s = .ok s' → redistribute rec' p is s = .ok s' := by
  intro is
  induction is with
  | nil => intro s s' h; simpa [redistribute] using h
  | cons i is ih =>
    intro s s' h
    simp only [redistribute] at h ⊢
    cases hr : redistributeElems rec p (p ++ [i]) (s.elemsAt p).length s with
    | error err => simp [hr] at h
    | ok s1 =>
      rw [redistributeElems_mono hm _ _ _ _ _ hr]
      rw [hr] at h
      exact ih s1 s' h

theorem AddBody_mono (vals : Values) (mMaxDeep : Int) (p : Path) (e : Nat) (a : Int)
    (s : Store) (r : Bool × Store) (h : AddBody vals mMaxDeep rec p e a s = .ok r) :
    AddBody vals mMaxDeep rec' p e a s = .ok r := by
  have tail : ∀ s2 : Store,
      (match tryChildren rec p e a (List.range QT_NODE_COUNT) s2 with
        | .error err => .error err
        | .ok (true, s3) => .ok (true, s3)
        | .ok (false, s3) => .ok (true, s3.AddElem p e)) = Except.ok r →
      (match tryChildren rec' p e a (List.range QT_NODE_COUNT) s2 with
        | .error err => .error err
        | .ok (true, s3) => .ok (true, s3)
        | .ok (false, s3) => .ok (true, s3.AddElem p e)) = Except.ok r := by
    intro s2 h2
    cases ht : tryChildren rec p e a (List.range QT_NODE_COUNT) s2 with
    | error err => simp [ht] at h2
    | ok x =>
      rw [tryChildren_mono hm p e a _ _ _ ht]
      rw [ht] at h2
      exact h2
  unfold AddBody at h ⊢
  cases hp : s.root.find p with
  | none => simp [hp] at h
  | some n =>
    simp only [hp] at h ⊢
    split
    · rename_i hc
      simpa only [hc, if_true] using h
    · rename_i hc
      simp only [hc, if_false] at h
      split
      · rename_i hc2
        simpa only [hc2, if_true] using h
      · rename_i hc2
        simp only [hc2, if_false] at h
        cases hb : s.GetAABB vals e with
        | none => simp [hb] at h
        | some b =>
          simp only [hb] at h ⊢
          split
          · rename_i hc3
            simpa only [hc3, if_true] using h
          · rename_i hc3
            simp only [hc3, if_false] at h
            split
            · rename_i hc4
              simp only [hc4, if_true] at h
              exact tail s h
            · rename_i hc4
              simp only [hc4, if_false] at h
              split
              · rename_i hc5
                simpa only [hc5, if_true] using h
              · rename_i hc5
                simp only [hc5, if_false] at h
                by_cases h0 : a = 0
                · simp only [h0, if_true] at h ⊢
                  cases hr : redistribute rec p (List.range QT_NODE_COUNT)
                      { root := s.root.update QuadNode.InitChildren p, cell := s.cell } with
                  | error err => simp [hr] at h
                  | ok s2 =>
                    rw [redistribute_mono hm p _ _ _ hr]
                    rw [hr] at h
                    subst h0
                    exact tail s2 h
                · simp only [h0, if_false] at h ⊢
                  exact tail _ h

end Mono

/-- More fuel does not change the result of a call of `Add` that returned. -/
theorem Add_mono (vals : Values) (mMaxDeep : Int) {k k' : Nat} (hk : k ≤ k') :
    ∀ p e a s r, Add vals mMaxDeep k p e a s = .ok r → Add vals mMaxDeep k' p e a s = .ok r := by
  induction k generalizing k' with
  | zero => intro p e a s r h; simp [Add] at h
  | succ k ih =>
    intro p e a s r h
    cases k' with
    | zero => omega
    | succ k' =>
      simp only [Add] at h ⊢
      exact AddBody_mono (ih (by omega)) vals mMaxDeep p e a s r h

/-- A forced `Add` at a node of the forced depth stores the element there, unless the node
rejects it. -/
theorem AddBody_at_depth {vals : Values} {mMaxDeep : Int} {rec : AddFn} {p : Path} {e : Nat}
    {atDeep : Int} {s : Store} {n : QuadNode} {b : AABB} (hp : s.root.find p = some n)
    (hb : s.GetAABB vals e = some b) (hin : n.GetDeep ≤ 1 ∨ n.IsContain b = true)
    (h0 : atDeep ≠ 0) (heq : atDeep = n.GetDeep) :
    AddBody vals mMaxDeep rec p e atDeep s = .ok (true, s.AddElem p e) := by
  unfold AddBody
  simp only [hp, hb]
  have hcheck : ((!n.IsContain b) && decide (n.GetDeep > 1)) = false := by
    rcases hin with h | h
    · have : decide (n.GetDeep > 1) = false := by
        simp only [gt_iff_lt, decide_eq_false_iff_not, not_lt]; exact h
      simp [this]
    · simp [h]
  subst heq
  have hforce : (decide ((n.GetDeep : Int) ≠ 0) && decide ((n.GetDeep : Int) = n.GetDeep)) = true := by
    simp [h0]
  simp [hcheck, h0]

/-- A forced `Add` at a node above the forced depth: an element too large for a child is
stored at the node; otherwise the node gets children if it has none, nothing is
redistributed, and the children are tried in order. -/
theorem AddBody_forced_unfold {vals : Values} {mMaxDeep : Int} {rec : AddFn} {p : Path}
    {e : Nat} {atDeep : Int} {s : Store} {n : QuadNode} {b : AABB}
    (hp : s.root.find p = some n) (hb : s.GetAABB vals e = some b)
    (hin : n.GetDeep ≤ 1 ∨ n.IsContain b = true) (h0 : atDeep ≠ 0)
    (hne : atDeep ≠ n.GetDeep) :
    AddBody vals mMaxDeep rec p e atDeep s =
      if fmul n.GetWidth (1 / 2) < b.GetWidth ∨ fmul n.GetHeight (1 / 2) < b.GetHeight then
        .ok (true, s.AddElem p e)
      else
        match tryChildren rec p e atDeep [0, 1, 2, 3] (s.InitChildren p) with
        | .error err => .error err
        | .ok (true, s3) => .ok (true, s3)
        | .ok (false, s3) => .ok (true, s3.AddElem p e) := by
  unfold AddBody
  simp only [hp, hb]
  have hcheck : ((!n.IsContain b) && decide (n.GetDeep > 1)) = false := by
    rcases hin with h | h
    · have : decide (n.GetDeep > 1) = false := by
        simp only [gt_iff_lt, decide_eq_false_iff_not, not_lt]; exact h
      simp [this]
    · simp [h]
  have hforce : (decide (atDeep ≠ 0) && decide (atDeep = n.GetDeep)) = false := by
    simp [hne]
  simp only [hcheck, hforce, Bool.false_eq_true, if_false, range_node_count]
  by_cases hbig : fmul n.GetWidth (1 / 2) < b.GetWidth ∨ fmul n.GetHeight (1 / 2) < b.GetHeight
  · have hbig' : (decide (fmul n.GetWidth (1 / 2) < b.GetWidth) ||
        decide (fmul n.GetHeight (1 / 2) < b.GetHeight)) = true := by
      simpa using hbig
    simp only [hbig', if_true, hbig]
  · have hbig' : (decide (fmul n.GetWidth (1 / 2) < b.GetWidth) ||
        decide (fmul n.GetHeight (1 / 2) < b.GetHeight)) = false := by
      simpa using hbig
    simp only [hbig', Bool.false_eq_true, if_false, hbig]
    cases hk : n.HasChild with
    | true =>
      simp only [if_true]
      rw [Store.InitChildren_of_hasChild_store hp hk]
    | false =>
      have hthr : (decide (atDeep = 0) && (decide (n.GetDeep ≥ mMaxDeep) ||
          decide (n.GetElemCount < QT_ELEM_MIN_SIZE))) = false := by
        simp [h0]
      simp only [Bool.false_eq_true, if_false, hthr, h0]
      rfl

section Forced

variable {vals : Values} {d : Int} {k : Nat} {rec : AddFn}
  (hrec : ForcedSpec vals d k rec) (hspec : AddSpec vals False rec)
include hrec hspec

theorem tryChildren_forced (p : Path) (e : Nat) (is : List Nat) :
    ∀ s : Store, Inv vals False s → (∀ i ∈ is, ∃ c, s.root.find (p ++ [i]) = some c) →
      (s.cell e).isSome = true → s.GetAABB vals e ≠ none → (p.length : Int) + 2 ≤ d →
      d ≤ (p.length : Int) + 1 + k →
      ∃ b s', tryChildren rec p e d is s = .ok (b, s') ∧
        (∀ e', e' ≠ e → s'.GetNode e' = s.GetNode e') ∧ (b = false → s' = s) ∧
        (b = true → ∃ r, s'.GetNode e = some (p ++ r) ∧ ((p ++ r).length : Int) + 1 ≤ d) := by
  induction is with
  | nil =>
    intro s _ _ _ _ _ _
    exact ⟨false, s, rfl, fun _ _ => rfl, fun _ => rfl, fun h => by cases h⟩
  | cons i is ih =>
    intro s hI hv ha hb hle hfuel
    obtain ⟨c, hci⟩ := hv i (by simp)
    obtain ⟨b1, s1, h1, ho1, hT1⟩ := hrec (p ++ [i]) e s c hI hci ha hb
      (by simp only [List.length_append, List.length_singleton]; push_cast; omega)
      (by simp only [List.length_append, List.length_singleton]; push_cast; omega)
    obtain ⟨_, _, hF1, _⟩ := hspec (p ++ [i]) e d s b1 s1 c hI hci ha (fun f => absurd f id) h1
    cases b1 with
    | true =>
      obtain ⟨r, hr, hlen⟩ := hT1 rfl
      refine ⟨true, s1, by simp only [tryChildren, h1], ho1, (fun h => by cases h),
        fun _ => ⟨[i] ++ r, ?_, ?_⟩⟩
      · rw [← List.append_assoc]; exact hr
      · rw [← List.append_assoc]; exact hlen
    | false =>
      have hs : s1 = s := hF1 rfl
      subst hs
      obtain ⟨b2, s2, h2, r2⟩ := ih s1 hI (fun j hj => hv j (by simp [hj])) ha hb hle hfuel
      exact ⟨b2, s2, by simp only [tryChildren, h1]; exact h2, r2⟩

theorem AddBody_forced (mMaxDeep : Int) :
    ForcedSpec vals d (k + 1) (AddBody vals mMaxDeep rec) := by
  intro p e s n hI hp ha hb hle hfuel
  obtain ⟨b, hb⟩ := Option.ne_none_iff_exists'.1 hb
  have hdeep : n.GetDeep = p.length + 1 := hI.depth p n.data (by simp [dataAt, hp])
  have hd0 : d ≠ 0 := by omega
  have hself : ∀ s0 : Store, (s0.cell e).isSome = true →
      (∀ e', e' ≠ e → s0.GetNode e' = s.GetNode e') →
      (∀ e', e' ≠ e → (s0.AddElem p e).GetNode e' = s.GetNode e') ∧
      (true = true → ∃ r, (s0.AddElem p e).GetNode e = some (p ++ r) ∧
        ((p ++ r).length : Int) + 1 ≤ d) := by
    intro s0 ha0 h0
    refine ⟨fun e' he' => ?_, fun _ => ⟨[], ?_, ?_⟩⟩
    · rw [Store.GetNode_AddElem s0 p e ha0, if_neg he']
      exact h0 e' he'
    · rw [Store.GetNode_AddElem s0 p e ha0]; simp
    · simpa using hle
  by_cases hrej : n.IsContain b = false ∧ n.GetDeep > 1
  · exact ⟨false, s, AddBody_reject hp hrej.2 hb hrej.1, fun _ _ => rfl, fun h => by cases h⟩
  · have hin : n.GetDeep ≤ 1 ∨ n.IsContain b = true := by
      by_cases hc : n.IsContain b = true
      · exact Or.inr hc
      · left
        have : n.IsContain b = false := by simpa using hc
        by_contra hgt
        exact hrej ⟨this, by omega⟩
    by_cases heq : d = n.GetDeep
    · obtain ⟨a1, a2⟩ := hself s ha (fun _ _ => rfl)
      exact ⟨true, _, AddBody_at_depth hp hb hin hd0 heq, a1, a2⟩
    · rw [AddBody_forced_unfold hp hb hin hd0 heq]
      split
      · obtain ⟨a1, a2⟩ := hself s ha (fun _ _ => rfl)
        exact ⟨true, _, rfl, a1, a2⟩
      · have hlt : (p.length : Int) + 2 ≤ d := by
          rw [hdeep] at heq
          omega
        obtain ⟨b1, s1, h1, ho1, hF1, hT1⟩ := tryChildren_forced hrec hspec p e [0, 1, 2, 3]
          (s.InitChildren p) (hI.InitChildren_inv hp) (children_valid (kidsAt_InitChildren hp))
          ha (by rw [show (s.InitChildren p).GetAABB vals e = s.GetAABB vals e from rfl, hb]; simp)
          hlt (by omega)
        rw [h1]
        cases b1 with
        | true => exact ⟨true, s1, rfl, ho1, hT1⟩
        | false =>
          have hs : s1 = s.InitChildren p := hF1 rfl
          subst hs
          obtain ⟨a1, a2⟩ := hself (s.InitChildren p) ha (fun _ _ => rfl)
          exact ⟨true, _, rfl, a1, a2⟩

end Forced

/-- A forced `Add` to depth `d` returns with `d` units of fuel counted from the root. -/
theorem Add_forced (vals : Values) (mMaxDeep : Int) (d : Int) (k : Nat) :
    ForcedSpec vals d k (Add vals mMaxDeep k) := by
  induction k with
  | zero =>
    intro p e s n _ _ _ _ hle hfuel
    omega
  | succ k ih => exact AddBody_forced ih (Add_spec vals False mMaxDeep k) mMaxDeep

/-- The method `Add(Element*, int)` in terms of the recursive `Add` from the root. -/
theorem QuadTree.Add_of_store {vals : Values} {t : QuadTree} {fuel : Nat} {elem : Nat}
    {atDeep : Int} {root : QuadNode} {b : Bool} {s' : Store} (hr : t.mRoot = some root)
    (h : Recast.Add vals t.mMaxDeep fuel [] elem atDeep ⟨root, t.cell⟩ = .ok (b, s')) :
    t.Add vals fuel elem atDeep = .ok (b, t.setStore s') := by
  unfold QuadTree.Add
  simp only [hr, h]

/-- C23. In every reachable state, for an element with bounds and `atDeep = d ≥ 1`, the call
`Add(elem, d)` returns true with `d` units of fuel, the element is then owned by a node of
depth at most `d`, by the root when `d = 1` whatever its bounds, and every other element has
the owner it had. -/
theorem forced_depth {E : Values → Prop} {t : QuadTree} {root : QuadNode}
    (h : Reachable E t) (hr : t.mRoot = some root) (vals : Values) (elem : Nat)
    (hb : Store.GetAABB vals ⟨root, t.cell⟩ elem ≠ none) (d : Int) (hd : 1 ≤ d) (fuel : Nat)
    (hfuel : d ≤ fuel) :
    ∃ t' root' p n, t.Add vals fuel elem d = .ok (true, t') ∧ t'.mRoot = some root' ∧
      (t'.cell elem).bind Element.mNode = some p ∧ root'.find p = some n ∧ n.GetDeep ≤ d ∧
      (d = 1 → p = []) ∧
      ∀ e', e' ≠ elem → (t'.cell e').bind Element.mNode = (t.cell e').bind Element.mNode := by
  have hT : TreeInv vals False t := h.inv (fun hf => absurd hf id)
  have hI := hT.store root hr
  obtain ⟨b0, hb0⟩ := Option.ne_none_iff_exists'.1 hb
  have ha : ((Store.mk root t.cell).cell elem).isSome = true := Store.alive_of_GetAABB hb0
  obtain ⟨b, s', hadd, ho, hown⟩ := Add_forced vals t.mMaxDeep d fuel [] elem ⟨root, t.cell⟩
    root hI (QuadNode.find_nil root) ha hb (by simpa using hd) (by simpa using hfuel)
  have hbt : b = true := Add_root_true hI hadd
  subst hbt
  obtain ⟨hI', _, _, _⟩ := Add_spec vals False t.mMaxDeep fuel [] elem d ⟨root, t.cell⟩ true s'
    root hI (QuadNode.find_nil root) ha (fun f => absurd f id) hadd
  obtain ⟨r, hr', hlen⟩ := hown rfl
  simp only [List.nil_append] at hr' hlen
  have hmem : elem ∈ s'.elemsAt r := (hI'.own.1 elem r).1 hr'
  cases hf : s'.root.find r with
  | none => simp [Store.elemsAt, hf] at hmem
  | some n =>
    have hdeep : n.GetDeep = r.length + 1 := hI'.depth r n.data (by simp [dataAt, hf])
    refine ⟨t.setStore s', s'.root, r, n, QuadTree.Add_of_store hr hadd, rfl, hr', hf,
      by rw [hdeep]; exact hlen, ?_, fun e' he' => ho e' he'⟩
    intro h1
    subst h1
    have : r.length = 0 := by omega
    exact List.length_eq_zero.1 this

/-- Witness for C23: element 0 of `stackTree` lies in the RIGHT_TOP child and fits there;
`Add(elem, 1)` moves it to the root. -/
theorem forced_depth_witness :
    ∃ t' root' p n, stackTree.Add stackValues 1 0 1 = .ok (true, t') ∧
      t'.mRoot = some root' ∧
      (t'.cell 0).bind Element.mNode = some p ∧ root'.find p = some n ∧ n.GetDeep ≤ 1 ∧
      ((1 : Int) = 1 → p = []) ∧
      ∀ e', e' ≠ 0 →
        (t'.cell e').bind Element.mNode = (stackTree.cell e').bind Element.mNode :=
  forced_depth stackTree_reachable (show stackTree.mRoot = some stackRoot by decide!)
    stackValues 0 (by decide!) 1 (by decide) 1 (by decide)

/-- C29. In every reachable state, for an element with bounds (of any size) and every
`atDeep ≥ 0`, the call `Add(elem, atDeep)` returns true as soon as the number of nested calls
allowed is at least the largest of `mMaxDeep`, `atDeep` and the height of the tree, and with
more calls allowed the result is the same. -/
theorem add_terminates {E : Values → Prop} {t : QuadTree} {root : QuadNode}
    (h : Reachable E t) (hr : t.mRoot = some root) (vals : Values) (elem : Nat)
    (hb : Store.GetAABB vals ⟨root, t.cell⟩ elem ≠ none) (atDeep : Int) (h0 : 0 ≤ atDeep)
    (fuel : Nat) (hfuel : max (max t.mMaxDeep atDeep) (root.height : Int) ≤ fuel) :
    ∃ t', t.Add vals fuel elem atDeep = .ok (true, t') ∧
      ∀ fuel', fuel ≤ fuel' → t.Add vals fuel' elem atDeep = .ok (true, t') := by
  have hT : TreeInv vals False t := h.inv (fun hf => absurd hf id)
  have hI := hT.store root hr
  obtain ⟨b0, hb0⟩ := Option.ne_none_iff_exists'.1 hb
  have ha : ((Store.mk root t.cell).cell elem).isSome = true := Store.alive_of_GetAABB hb0
  have h1 : t.mMaxDeep ≤ fuel := le_trans (le_trans (le_max_left _ _) (le_max_left _ _)) hfuel
  have h2 : atDeep ≤ fuel := le_trans (le_trans (le_max_right _ _) (le_max_left _ _)) hfuel
  have h3 : (root.height : Int) ≤ fuel := le_trans (le_max_right _ _) hfuel
  have key : ∃ b s', Recast.Add vals t.mMaxDeep fuel [] elem atDeep ⟨root, t.cell⟩ =
      .ok (b, s') := by
    by_cases hz : atDeep = 0
    · subst hz
      obtain ⟨r, s', hadd, _⟩ := Add_returns hT hr (QuadNode.find_nil root) hb0
        (show max root.height t.mMaxDeep.toNat ≤ fuel by
          have : t.mMaxDeep.toNat ≤ fuel := by omega
          have : root.height ≤ fuel := by omega
          exact max_le ‹_› ‹_›)
      exact ⟨r, s', hadd⟩
    · obtain ⟨b, s', hadd, _⟩ := Add_forced vals t.mMaxDeep atDeep fuel [] elem
        ⟨root, t.cell⟩ root hI (QuadNode.find_nil root) ha hb
        (by simp only [List.length_nil]; push_cast; omega)
        (by simp only [List.length_nil]; push_cast; omega)
      exact ⟨b, s', hadd⟩
  obtain ⟨b, s', hadd⟩ := key
  have hbt : b = true := Add_root_true hI hadd
  subst hbt
  refine ⟨t.setStore s', QuadTree.Add_of_store hr hadd, fun fuel' hle => ?_⟩
  exact QuadTree.Add_of_store hr (Add_mono vals t.mMaxDeep hle _ _ _ _ _ hadd)

/-- Witness for C29: `stackTree` has `mMaxDeep = 6` and height 2; with 6 nested calls allowed,
`Add` of element 0 returns. -/
theorem add_terminates_witness :
    ∃ t', stackTree.Add stackValues 6 0 0 = .ok (true, t') ∧
      ∀ fuel', 6 ≤ fuel' → stackTree.Add stackValues fuel' 0 0 = .ok (true, t') :=
  add_terminates stackTree_reachable (show stackTree.mRoot = some stackRoot by decide!)
    stackValues 0 (by decide!) 0 (by decide) 6 (by decide!)

theorem Unforced.reachable_unforced {t : QuadTree} (h : Unforced t) : Reachable (fun _ => True) t := by
  induction h with
  | init maxDeep x y w hh => exact Reachable.init maxDeep x y w hh
  | newElement value _ ih => exact Reachable.newElement value ih
  | add _ ha hadd ih => exact Reachable.add ih trivial ha hadd
  | addValue _ hadd ih => exact Reachable.addValue ih trivial hadd
  | remove _ ha hrem ih => exact Reachable.remove ih ha hrem
  | refresh _ ha href ih => exact Reachable.refresh ih trivial ha href

/-- A non-forced `Add` that returns creates no node deeper than `B`, when the tree and
`mMaxDeep` are bounded by `B`. -/
theorem Add_bounded {vals : Values} {mMaxDeep : Int} {B : Nat} (hmax : mMaxDeep ≤ B)
    {fuel : Nat} {p : Path} {e : Nat} {s s' : Store} {b : Bool} {n : QuadNode}
    (hI : Inv vals False s) (hp : s.root.find p = some n) (ha : (s.cell e).isSome = true)
    (hB : Bounded B s.root) (h : Add vals mMaxDeep fuel p e 0 s = .ok (b, s')) :
    Bounded B s'.root := by
  have hK := Add_mono vals mMaxDeep (le_max_left fuel B) p e 0 s (b, s') h
  have hbounds : p = [] → s.GetAABB vals e ≠ none := by
    intro hnil hnone
    subst hnil
    cases fuel with
    | zero => simp [Add] at h
    | succ k =>
      have hd : n.GetDeep = 1 := by
        have := hI.depth [] n.data (by simp [dataAt, hp])
        simpa [QuadNode.GetDeep] using this
      simp only [Add] at h
      rw [AddBody_no_bounds hp hd hnone] at h
      simp at h
  obtain ⟨b2, s2, h2, hB2⟩ := Add_progress vals mMaxDeep B hmax (max fuel B) p e s n hI hp ha hB
    (by have := le_max_right fuel B; omega) hbounds
  rw [hK] at h2
  simp only [Except.ok.injEq, Prod.mk.injEq] at h2
  rw [h2.2]
  exact hB2

theorem Bounded.RemoveElem_bounded {vals : Values} {κ : Prop} {B : Nat} {s : Store}
    (hI : Inv vals κ s) (h : Bounded B s.root) {o : Path} {e : Nat}
    (ho : s.GetNode e = some o) : Bounded B (s.RemoveElem o e).root := by
  intro q n hq
  obtain ⟨n0, hn0⟩ := find_isSome_of_kidsAt (kidsAt_RemoveElem hI ho q) hq
  exact h q n0 hn0

/-- Without forced depth no node gets deeper than `max(1, mMaxDeep)`. -/
theorem Unforced.bounded_tree {t : QuadTree} (h : Unforced t) :
    ∀ root, t.mRoot = some root → Bounded (max 1 t.mMaxDeep).toNat root := by
  have hmaxB : ∀ M : Int, M ≤ ((max 1 M).toNat : Int) := by
    intro M
    have h1 : (0 : Int) ≤ max 1 M := le_trans (by decide) (le_max_left 1 M)
    rw [Int.toNat_of_nonneg h1]
    exact le_max_right 1 M
  have via : ∀ {t t' : QuadTree} {vals : Values} {fuel elem : Nat} {b : Bool},
      TreeInv vals False t → (t.cell elem).isSome = true →
      (∀ root, t.mRoot = some root → Bounded (max 1 t.mMaxDeep).toNat root) →
      t.Add vals fuel elem 0 = .ok (b, t') →
      ∀ root, t'.mRoot = some root → Bounded (max 1 t'.mMaxDeep).toNat root := by
    intro t t' vals fuel elem b hT ha ih hadd root' hr'
    cases hr : t.mRoot with
    | none => exact absurd hr hT.inited
    | some root =>
      obtain ⟨s', hs', rfl⟩ := QuadTree.Add_ok hr hadd
      simp only [QuadTree.setStore, Option.some.injEq] at hr' ⊢
      subst hr'
      exact Add_bounded (hmaxB _) (hT.store root hr) (QuadNode.find_nil root) ha (ih root hr) hs'
  induction h with
  | init maxDeep x y w hh =>
    intro root hr
    simp [QuadTree.Init, QuadTree.Clear, QuadTree.new] at hr
    subst hr
    intro q n hq
    cases q with
    | nil =>
      simp only [List.length_nil, zero_add]
      have : (1 : Int) ≤ max 1 maxDeep := le_max_left _ _
      simp only [QuadTree.Init, QuadTree.Clear, QuadTree.new]
      omega
    | cons i q => simp [QuadNode.find, QuadNode.new, QuadNode.GetChild] at hq
  | newElement value _ ih => exact ih
  | @add t t' vals fuel elem b hu ha hadd ih =>
    exact via (hu.reachable_unforced.inv (fun hf => absurd hf id)) ha ih hadd
  | @addValue t t' vals fuel value r hu hadd ih =>
    intro root' hr'
    have hT : TreeInv vals False t := hu.reachable_unforced.inv (fun hf => absurd hf id)
    cases hr : t.mRoot with
    | none => exact absurd hr hT.inited
    | some root =>
      obtain ⟨b, s1, hs1, rfl⟩ := QuadTree.AddValue_unfold hr hadd
      simp only [QuadTree.setStore, Option.some.injEq] at hr' ⊢
      subst hr'
      have hr1 : (t.newElement value).2.mRoot = some root := hr
      exact Add_bounded (hmaxB _) ((hT.newElement value).store root hr1)
        (QuadNode.find_nil root) (by simp [QuadTree.newElement]) (ih root hr) hs1
  | @remove t t' elem del hu _ hrem ih =>
    intro root' hr'
    have hT : TreeInv (fun _ => ⟨none, fun _ _ => false, fun _ => false⟩) False t :=
      hu.reachable_unforced.inv (fun hf => absurd hf id)
    unfold QuadTree.Remove at hrem
    cases elem with
    | none =>
      simp at hrem
      subst hrem
      exact ih root' hr'
    | some e =>
      simp only at hrem
      cases hn : (t.cell e).bind Element.mNode with
      | none =>
        simp only [hn, Except.ok.injEq] at hrem
        subst hrem
        cases del with
        | true => exact ih root' hr'
        | false => exact ih root' hr'
      | some node =>
        simp only [hn] at hrem
        cases hr : t.mRoot with
        | none => exact absurd hr hT.inited
        | some root =>
          simp only [hr, Except.ok.injEq] at hrem
          subst hrem
          have hI := hT.store root hr
          have ho : (Store.mk root t.cell).GetNode e = some node := hn
          have hB := Bounded.RemoveElem_bounded hI (ih root hr) ho
          cases del with
          | false =>
            simp only [QuadTree.setStore, Bool.false_eq_true, if_false,
              Option.some.injEq] at hr' ⊢
            subst hr'
            exact hB
          | true =>
            simp only [QuadTree.setStore, QuadTree.deleteElem, if_true,
              Option.some.injEq] at hr' ⊢
            subst hr'
            exact hB
  | @refresh t t' vals fuel elem hu ha href ih =>
    have hT : TreeInv vals False t := hu.reachable_unforced.inv (fun hf => absurd hf id)
    have hvia : ∀ r, (match t.Add vals fuel elem 0 with
        | .error err => .error err
        | .ok (_, t1) => .ok t1) = Except.ok r →
        ∀ root, r.mRoot = some root → Bounded (max 1 r.mMaxDeep).toNat root := by
      intro r hr
      cases hadd : t.Add vals fuel elem 0 with
      | error err => simp [hadd] at hr
      | ok x =>
        obtain ⟨b1, t1⟩ := x
        simp only [hadd, Except.ok.injEq] at hr
        subst hr
        exact via hT ha ih hadd
    unfold QuadTree.Refresh at href
    cases hn : (t.cell elem).bind Element.mNode with
    | none =>
      simp only [hn] at href
      exact hvia t' href
    | some node =>
      simp only [hn] at href
      cases hr : t.mRoot with
      | none => exact absurd hr hT.inited
      | some root =>
        simp only [hr] at href
        cases hf : root.find node with
        | none => simp [hf] at href
        | some n =>
          simp only [hf] at href
          cases hb : Store.GetAABB vals ⟨root, t.cell⟩ elem with
          | none => simp [hb] at href
          | some b =>
            simp only [hb] at href
            split at href
            · exact hvia t' href
            · cases hadd : Recast.Add vals t.mMaxDeep fuel node elem 0 ⟨root, t.cell⟩ with
              | error err => simp [hadd] at href
              | ok x =>
                obtain ⟨b1, s1⟩ := x
                simp only [hadd, Except.ok.injEq] at href
                subst href
                intro root' hr'
                simp only [QuadTree.setStore, Option.some.injEq] at hr' ⊢
                subst hr'
                exact Add_bounded (hmaxB _) (hT.store root hr) hf ha (ih root hr) hadd

theorem Unforced.afterAddValues_unforced (vals : Values) (fuel : Nat) :
    ∀ (vs : List Nat) {t : QuadTree}, Unforced t → Unforced (t.afterAddValues vals fuel vs)
  | [], _, h => h
  | v :: vs, t, h => by
    unfold QuadTree.afterAddValues
    apply Unforced.afterAddValues_unforced vals fuel vs
    unfold QuadTree.afterAddValue
    cases hr : t.AddValue vals fuel (some v) 0 with
    | error err => simpa [okOr] using h
    | ok r => exact Unforced.addValue (r := r.1) h (by simpa [okOr] using hr)

theorem stackTree_unforced : Unforced stackTree :=
  Unforced.afterAddValues_unforced stackValues 6 [0, 1, 2, 3, 4, 5, 6, 7, 8, 9]
    (Unforced.init 6 0 0 100 100)

theorem saveRegionLoop_append (v : ConvexVolume) (l1 l2 : List Nat) (a : Extent) :
    saveRegionLoop v (l1 ++ l2) a = (saveRegionLoop v l1 a).bind (saveRegionLoop v l2) := by
  induction l1 generalizing a with
  | nil => rfl
  | cons j l1 ih =>
    simp only [List.cons_append, saveRegionLoop]
    cases v.read (j * 3 + j * 3) with
    | none => rfl
    | some x =>
      cases v.read (j * 3 + (j * 3 + 2)) with
      | none => rfl
      | some z => exact ih _

/-- With seven or more vertices the loop of `saveRegion` reads `verts[36]`, outside the
array. -/
theorem saveRegion_out_of_bounds (v : ConvexVolume)
    (hlen : v.verts.length = MAX_CONVEXVOL_PTS * 3) (hn : 7 ≤ v.nverts) :
    saveRegionAABB v = none := by
  unfold saveRegionAABB
  obtain ⟨m, hm⟩ : ∃ m, v.nverts.toNat = 7 + m := ⟨v.nverts.toNat - 7, by omega⟩
  have hsplit : List.range (7 + m) = List.range 6 ++ 6 :: List.range' 7 m := by
    rw [List.range_eq_range', Nat.add_comm 7 m]
    simp [List.range'_succ, List.range_succ, List.range'_eq_cons_iff]
  have hread : v.read (6 * 3 + 6 * 3) = none := by
    unfold ConvexVolume.read
    rw [List.get?_eq_none]
    rw [hlen]; decide
  rw [hm, hsplit, saveRegionLoop_append]
  cases saveRegionLoop v (List.range 6) Extent.start with
  | none => rfl
  | some a => simp [saveRegionLoop, hread]

/-- The loop of `saveRegion` reads the entries 6 j and 6 j + 2 of the array, the coordinates
of vertex 2 j, where `CalcAABB` reads those of vertex j. -/
theorem saveRegionLoop_eq_stride (v : ConvexVolume) (js : List Nat) (a : Extent) :
    saveRegionLoop v js a = v.calcLoop (js.map (fun j => 2 * j)) a := by
  induction js generalizing a with
  | nil => rfl
  | cons j js ih =>
    simp only [saveRegionLoop, List.map_cons, ConvexVolume.calcLoop]
    have h1 : j * 3 + j * 3 = 2 * j * 3 := by ring
    have h2 : j * 3 + (j * 3 + 2) = 2 * j * 3 + 2 := by ring
    rw [h1, h2]
    cases v.read (2 * j * 3) with
    | none => rfl
    | some x =>
      cases v.read (2 * j * 3 + 2) with
      | none => rfl
      | some z => exact ih _

/-- C30, what the code does. The rectangle `saveRegion` writes is that of the vertices
0, 2, 4, ..., 2 (nverts - 1), not of the vertices 0, ..., nverts - 1 that `CalcAABB` reads:
for the triangle (0, 0, 0), (10, 0, 10), (1, 0, 1) `CalcAABB` gives (0, 0, 10, 10) and
`saveRegion` writes (0, 0, 1, 1), after reading entry 12 of the array, beyond the 9 entries of
the three vertices; and with seven or more vertices it reads entry 36, outside the array. -/
theorem save_region_aabb_diverges :
    (1 ≤ triangleVolume.nverts ∧ triangleVolume.nverts ≤ MAX_CONVEXVOL_PTS ∧
      triangleVolume.verts.length = MAX_CONVEXVOL_PTS * 3 ∧
      triangleVolume.CalcAABB = some (some ⟨0, 0, 10, 10⟩) ∧
      saveRegionAABB triangleVolume = some (some ⟨0, 0, 1, 1⟩)) ∧
    (∀ v : ConvexVolume, saveRegionAABB v =
      (v.calcLoop ((List.range v.nverts.toNat).map (fun j => 2 * j)) Extent.start).map
        Extent.toAABB) ∧
    (∀ v : ConvexVolume, v.verts.length = MAX_CONVEXVOL_PTS * 3 → 7 ≤ v.nverts →
      saveRegionAABB v = none) := by
  refine ⟨⟨by decide, by decide, by decide, by decide!, by decide!⟩, ?_,
    saveRegion_out_of_bounds⟩
  intro v
  unfold saveRegionAABB
  rw [saveRegionLoop_eq_stride]

theorem Keeps.refl_keeps (vals : Values) (s : Store) (e' : Nat) : Keeps vals s s e' :=
  fun o' h => ⟨o', h, id⟩

theorem Keeps.trans_keeps {vals : Values} {s1 s2 s3 : Store} {e' : Nat}
    (h12 : Keeps vals s1 s2 e') (h23 : Keeps vals s2 s3 e') : Keeps vals s1 s3 e' := by
  intro o3 h3
  obtain ⟨o2, h2, c23⟩ := h23 o3 h3
  obtain ⟨o1, h1, c12⟩ := h12 o2 h2
  exact ⟨o1, h1, fun c => c23 (c12 c)⟩

theorem Keeps.of_same {vals : Values} {s s' : Store} {e' : Nat} (hx : Ext s s')
    (h : s'.GetNode e' = s.GetNode e') : Keeps vals s s' e' := by
  intro o' ho'
  exact ⟨o', by rw [← h]; exact ho', fun c => c.ext hx⟩

theorem Keeps.AddElem_keeps {vals : Values} {s : Store} (hI : Inv vals False s) {e : Nat}
    (ha : (s.cell e).isSome = true) (p : Path) {e' : Nat} (hne : e' ≠ e) :
    Keeps vals s (s.AddElem p e) e' :=
  Keeps.of_same (Ext.AddElem_ext hI p e) (by rw [Store.GetNode_AddElem s p e ha, if_neg hne])

/-- An element that a child accepts is well placed below the child, if it was well placed at
the parent. -/
theorem Keeps.of_place {vals : Values} {rec : AddFn} (hrec : AddSpec vals False rec)
    (hplace : PlaceSpec vals rec) {p : Path} {i : Nat} {e : Nat} {atDeep : Int}
    {s s1 : Store} {b1 : Bool} {c : QuadNode} (hI : Inv vals False s)
    (hci : s.root.find (p ++ [i]) = some c) (hown : s.GetNode e = some p)
    (hr : rec (p ++ [i]) e atDeep s = .ok (b1, s1)) : Keeps vals s s1 e := by
  have ha := Store.alive_of_GetNode hown
  obtain ⟨_, hE1, hF1, _⟩ := hrec (p ++ [i]) e atDeep s b1 s1 c hI hci ha
    (fun f => absurd f id) hr
  intro o' ho'
  refine ⟨p, hown, fun hc => ?_⟩
  cases b1 with
  | false =>
    have hs : s1 = s := hF1 rfl
    subst hs
    rw [hown] at ho'
    cases ho'
    exact hc
  | true =>
    obtain ⟨r, hr1, hcon⟩ := hplace (p ++ [i]) e atDeep s s1 c hI hci ha hr
    rw [hr1] at ho'
    cases ho'
    intro q hq hne
    rcases List.prefix_or_prefix_of_prefix hq
        (show p <+: p ++ [i] ++ r by rw [List.append_assoc]; exact List.prefix_append p _) with
      hqp | hpq
    · exact (hc.ext hE1.ext) q hqp hne
    · rcases between_cases hpq (by simpa [List.append_assoc] using hq) with rfl | hpi
      · exact (hc.ext hE1.ext) q (List.prefix_refl q) hne
      · exact hcon q hpi hq hne

section Track

variable {vals : Values} {rec : AddFn} (hrec : AddSpec vals False rec)
  (hplace : PlaceSpec vals rec) (htrack : TrackSpec vals rec)
include hrec htrack

theorem tryChildren_track (p : Path) (e : Nat) (atDeep : Int) (is : List Nat) :
    ∀ (s : Store) (b : Bool) (s' : Store), Inv vals False s →
      (∀ i ∈ is, ∃ c, s.root.find (p ++ [i]) = some c) → (s.cell e).isSome = true →
      tryChildren rec p e atDeep is s = .ok (b, s') →
      ∀ e', e' ≠ e → Keeps vals s s' e' := by
  induction is with
  | nil =>
    intro s b s' _ _ _ h e' _
    simp only [tryChildren, Except.ok.injEq, Prod.mk.injEq] at h
    rw [← h.2]
    exact Keeps.refl_keeps vals s e'
  | cons i is ih =>
    intro s b s' hI hv ha h e' hne
    obtain ⟨c, hci⟩ := hv i (by simp)
    simp only [tryChildren] at h
    cases hr : rec (p ++ [i]) e atDeep s with
    | error err => simp [hr] at h
    | ok r =>
      obtain ⟨b1, s1⟩ := r
      obtain ⟨_, _, hF1, _⟩ := hrec (p ++ [i]) e atDeep s b1 s1 c hI hci ha
        (fun f => absurd f id) hr
      cases b1 with
      | true =>
        simp only [hr, Except.ok.injEq, Prod.mk.injEq] at h
        rw [← h.2]
        exact htrack (p ++ [i]) e atDeep s true s1 c hI hci ha hr e' hne
      | false =>
        simp only [hr] at h
        have hs : s1 = s := hF1 rfl
        rw [hs] at h
        exact ih s b s' hI (fun j hj => hv j (by simp [hj])) ha h e' hne

/-- The tail of `Add`: try the children, and store at the node when none accepts. -/
theorem tryChildren_tail_track {s : Store} {p : Path} {e : Nat} {atDeep : Int} {n : QuadNode}
    {b : Bool} {s' : Store} (hI : Inv vals False s) (_hp : s.root.find p = some n)
    (hk : kidsAt s.root p = some true) (ha : (s.cell e).isSome = true)
    (h : (match tryChildren rec p e atDeep [0, 1, 2, 3] s with
          | .error err => .error err
          | .ok (true, s1) => .ok (true, s1)
          | .ok (false, s1) => .ok (true, s1.AddElem p e)) = Except.ok (b, s')) :
    ∀ e', e' ≠ e → Keeps vals s s' e' := by
  intro e' hne
  cases ht : tryChildren rec p e atDeep [0, 1, 2, 3] s with
  | error err => simp [ht] at h
  | ok r =>
    obtain ⟨b1, s1⟩ := r
    have hK := tryChildren_track hrec htrack p e atDeep [0, 1, 2, 3] s b1 s1 hI
      (children_valid hk) ha ht e' hne
    obtain ⟨hI1, hE1, _, _⟩ :=
      tryChildren_spec hrec p e atDeep [0, 1, 2, 3] s b1 s1 hI (children_valid hk) ha
        (fun f => absurd f id) ht
    cases b1 with
    | true =>
      simp only [ht, Except.ok.injEq, Prod.mk.injEq] at h
      rw [← h.2]
      exact hK
    | false =>
      simp only [ht, Except.ok.injEq, Prod.mk.injEq] at h
      rw [← h.2]
      exact hK.trans_keeps
        (Keeps.AddElem_keeps hI1 (by rw [hE1.ext.alive]; exact ha) p hne)

include hplace

theorem redistributeElems_track (p : Path) (i : Nat) (j : Nat) :
    ∀ (s s' : Store) (n c : QuadNode), Inv vals False s → s.root.find p = some n →
      s.root.find (p ++ [i]) = some c →
      redistributeElems rec p (p ++ [i]) j s = .ok s' → ∀ e', Keeps vals s s' e' := by
  induction j with
  | zero =>
    intro s s' n c _ _ _ h e'
    simp only [redistributeElems, Except.ok.injEq] at h
    subst h
    exact Keeps.refl_keeps vals s e'
  | succ j ih =>
    intro s s' n c hI hp hci h e'
    simp only [redistributeElems, hp] at h
    cases hg : n.GetElem j with
    | none => simp [hg] at h
    | some ej =>
      simp only [hg] at h
      have hmem : ej ∈ s.elemsAt p := by
        have : s.elemsAt p = n.data.mElems := by simp [Store.elemsAt, hp]
        rw [this]
        exact List.get?_mem hg
      have hown : s.GetNode ej = some p := (hI.own.1 ej p).2 hmem
      cases hr : rec (p ++ [i]) ej 0 s with
      | error err => simp [hr] at h
      | ok r =>
        obtain ⟨b1, s1⟩ := r
        simp only [hr] at h
        obtain ⟨hI1, hE1, _, _⟩ :=
          hrec (p ++ [i]) ej 0 s b1 s1 c hI hci (Store.alive_of_GetNode hown)
            (fun f => absurd f id) hr
        obtain ⟨n1, hn1⟩ := hE1.ext.find_ext hp
        obtain ⟨c1, hc1⟩ := hE1.ext.find_ext hci
        refine Keeps.trans_keeps ?_ (ih s1 s' n1 c1 hI1 hn1 hc1 h e')
        by_cases he : e' = ej
        · subst he
          exact Keeps.of_place hrec hplace hI hci hown hr
        · exact htrack (p ++ [i]) ej 0 s b1 s1 c hI hci (Store.alive_of_GetNode hown) hr e' he

theorem redistribute_track (p : Path) (is : List Nat) :
    ∀ (s s' : Store) (n : QuadNode), Inv vals False s → s.root.find p = some n →
      (∀ i ∈ is, ∃ c, s.root.find (p ++ [i]) = some c) →
      redistribute rec p is s = .ok s' → ∀ e', Keeps vals s s' e' := by
  induction is with
  | nil =>
    intro s s' n _ _ _ h e'
    simp only [redistribute, Except.ok.injEq] at h
    subst h
    exact Keeps.refl_keeps vals s e'
  | cons i is ih =>
    intro s s' n hI hp hv h e'
    obtain ⟨c, hci⟩ := hv i (by simp)
    simp only [redistribute] at h
    cases hr : redistributeElems rec p (p ++ [i]) (s.elemsAt p).length s with
    | error err => simp [hr] at h
    | ok s1 =>
      simp only [hr] at h
      obtain ⟨hI1, hX1, _⟩ := redistributeElems_spec hrec p i _ s s1 n c hI hp hci hr
      obtain ⟨n1, hn1⟩ := hX1.find_ext hp
      have hv1 : ∀ k ∈ is, ∃ c, s1.root.find (p ++ [k]) = some c := by
        intro k hk
        obtain ⟨ck, hck⟩ := hv k (by simp [hk])
        exact hX1.find_ext hck
      exact Keeps.trans_keeps
        (redistributeElems_track hrec hplace htrack p i _ s s1 n c hI hp hci hr e')
        (ih s1 s' n1 hI1 hn1 hv1 h e')

theorem AddBody_track (mMaxDeep : Int) : TrackSpec vals (AddBody vals mMaxDeep rec) := by
  intro p e atDeep s b s' n hI hp ha h e' hne
  unfold AddBody at h
  simp only [hp] at h
  split at h
  · simp only [Except.ok.injEq, Prod.mk.injEq] at h
    rw [← h.2]
    exact Keeps.refl_keeps vals s e'
  · split at h
    · simp only [Except.ok.injEq, Prod.mk.injEq] at h
      rw [← h.2]
      exact Keeps.AddElem_keeps hI ha p hne
    · split at h
      · cases h
      · split at h
        · simp only [Except.ok.injEq, Prod.mk.injEq] at h
          rw [← h.2]
          exact Keeps.AddElem_keeps hI ha p hne
        · split at h
          · rename_i hk
            rw [range_node_count] at h
            exact tryChildren_tail_track hrec htrack hI hp
              (by simp [kidsAt, hp, hk]) ha h e' hne
          · split at h
            · simp only [Except.ok.injEq, Prod.mk.injEq] at h
              rw [← h.2]
              exact Keeps.AddElem_keeps hI ha p hne
            · have hI1 : Inv vals False (s.InitChildren p) := hI.InitChildren_inv hp
              have hX1 : Ext s (s.InitChildren p) := Ext.InitChildren_ext hp
              have hk1 : kidsAt (s.InitChildren p).root p = some true := kidsAt_InitChildren hp
              have hK1 : Keeps vals s (s.InitChildren p) e' := Keeps.of_same hX1 rfl
              change (match (if atDeep = 0 then
                  redistribute rec p (List.range QT_NODE_COUNT) (s.InitChildren p)
                  else Except.ok (s.InitChildren p)) with
                | .error err => .error err
                | .ok s2 =>
                  match tryChildren rec p e atDeep (List.range QT_NODE_COUNT) s2 with
                  | .error err => .error err
                  | .ok (true, s3) => .ok (true, s3)
                  | .ok (false, s3) => .ok (true, s3.AddElem p e)) = Except.ok (b, s') at h
              rw [range_node_count] at h
              obtain ⟨n1, hn1⟩ := hX1.find_ext hp
              by_cases h0 : atDeep = 0
              · subst h0
                simp only [↓reduceIte] at h
                cases hr : redistribute rec p [0, 1, 2, 3] (s.InitChildren p) with
                | error err => simp [hr] at h
                | ok s2 =>
                  simp only [hr] at h
                  obtain ⟨hI2, hX2, _⟩ := redistribute_spec hrec p [0, 1, 2, 3]
                    (s.InitChildren p) s2 n1 hI1 hn1 (children_valid hk1) hr
                  have hK2 := redistribute_track hrec hplace htrack p [0, 1, 2, 3]
                    (s.InitChildren p) s2 n1 hI1 hn1 (children_valid hk1) hr e'
                  obtain ⟨n2, hn2⟩ := hX2.find_ext hn1
                  exact (hK1.trans_keeps hK2).trans_keeps
                    (tryChildren_tail_track hrec htrack hI2 hn2 (hX2.kids p hk1)
                      (by rw [hX2.alive, hX1.alive]; exact ha) h e' hne)
              · simp only [h0, if_false] at h
                exact hK1.trans_keeps
                  (tryChildren_tail_track hrec htrack hI1 hn1 hk1
                    (by rw [hX1.alive]; exact ha) h e' hne)

end Track

/-- Every call of `Add` that returns keeps the other elements well placed. -/
theorem Add_track (vals : Values) (mMaxDeep : Int) (fuel : Nat) :
    TrackSpec vals (Add vals mMaxDeep fuel) := by
  induction fuel with
  | zero =>
    intro p e atDeep s b s' n _ _ _ h
    simp [Add] at h
  | succ k ih =>
    exact AddBody_track (Add_spec vals False mMaxDeep k) (Add_place vals mMaxDeep k) ih mMaxDeep

theorem Tracked.reachable_tracked {vals : Values} {K : Nat → Prop} {t : QuadTree}
    (h : Tracked vals K t) : Reachable (fun _ => True) t := by
  induction h with
  | init maxDeep x y w hh _ _ => exact Reachable.init maxDeep x y w hh
  | newElement value _ ih => exact Reachable.newElement value ih
  | add _ ha hadd ih => exact Reachable.add ih trivial ha hadd
  | addValue _ hadd ih => exact Reachable.addValue ih trivial hadd
  | remove _ ha hrem ih => exact Reachable.remove ih ha hrem
  | refresh _ ha href ih => exact Reachable.refresh ih trivial ha href

theorem ContainAt.congr_vals {v vals : Values} {s : Store} {p : Path} {e : Nat}
    (h : s.GetAABB v e = s.GetAABB vals e) (hc : ContainAt v s p e) : ContainAt vals s p e := by
  intro q hq hne
  obtain ⟨b, d, hb, hd, hcb⟩ := hc q hq hne
  exact ⟨b, d, by rw [← h]; exact hb, hd, hcb⟩

theorem ContainAt.congr_cell {vals : Values} (s s' : Store) {p : Path} {e : Nat}
    (hroot : s'.root = s.root) (hc : s'.cell e = s.cell e) (h : ContainAt vals s p e) :
    ContainAt vals s' p e := by
  intro q hq hne
  obtain ⟨b, d, hb, hd, hcb⟩ := h q hq hne
  refine ⟨b, d, ?_, by rw [hroot]; exact hd, hcb⟩
  have h1 : s'.GetAABB vals e = s.GetAABB vals e := Store.GetAABB_congr vals e (by rw [hc])
  rw [h1]
  exact hb

theorem Agree.getAABB {v vals : Values} {t : QuadTree} {e : Nat} (h : Agree v vals t e)
    (root : QuadNode) :
    Store.GetAABB v ⟨root, t.cell⟩ e = Store.GetAABB vals ⟨root, t.cell⟩ e := by
  unfold Store.GetAABB Store.GetValue
  cases hw : (t.cell e).bind Element.mValue with
  | none => rfl
  | some w => exact h w hw

/-- What a call of `Add` at `p0` does for the placement of the elements: the element itself is
well placed afterwards, if it was well placed at `p0` and a rejection leaves it at `p0`, and
the other elements stay well placed. -/
theorem Add_step_placed {v : Values} {mMaxDeep : Int} {fuel : Nat} {p0 : Path} {elem : Nat}
    {atDeep : Int} {s s' : Store} {n : QuadNode} {b : Bool} (hI : Inv v False s)
    (hp : s.root.find p0 = some n) (ha : (s.cell elem).isSome = true)
    (hadd : Add v mMaxDeep fuel p0 elem atDeep s = .ok (b, s'))
    (hup : ContainAt v s p0 elem) (hfalse : b = false → s.GetNode elem = some p0) :
    (∀ o', s'.GetNode elem = some o' → ContainAt v s' o' elem) ∧
    (∀ e', e' ≠ elem → Keeps v s s' e') ∧ Inv v False s' ∧ Ext s s' := by
  obtain ⟨hI', hE, hF, _⟩ := Add_spec v False mMaxDeep fuel p0 elem atDeep s b s' n hI hp ha
    (fun f => absurd f id) hadd
  refine ⟨?_, Add_track v mMaxDeep fuel p0 elem atDeep s b s' n hI hp ha hadd, hI', hE.ext⟩
  intro o' ho'
  cases b with
  | false =>
    have hs : s' = s := hF rfl
    subst hs
    rw [hfalse rfl] at ho'
    cases ho'
    exact hup
  | true =>
    obtain ⟨r, hr1, hcon⟩ := Add_place v mMaxDeep fuel p0 elem atDeep s s' n hI hp ha hadd
    rw [hr1] at ho'
    cases ho'
    intro q hq hne
    rcases List.prefix_or_prefix_of_prefix hq (List.prefix_append p0 r) with hqp | hpq
    · exact (hup.ext hE.ext) q hqp hne
    · exact hcon q hpq hq hne

/-- The elements of `K` and the element of the call are well placed after the call, as far as
their bounds are those of `vals`. -/
theorem placed_after {vals v : Values} {K : Nat → Prop} {elem : Nat} {s s' : Store}
    (hX : Ext s s')
    (hK : ∀ e p, K e → s.GetNode e = some p → ContainAt vals s p e)
    (hself : ∀ o', s'.GetNode elem = some o' → ContainAt v s' o' elem)
    (hothers : ∀ e', e' ≠ elem → Keeps v s s' e') :
    ∀ e p, (K e ∨ e = elem) → s'.GetAABB v e = s'.GetAABB vals e →
      s'.GetNode e = some p → ContainAt vals s' p e := by
  intro e p hKe hag hown
  by_cases he : e = elem
  · subst he
    exact (hself p hown).congr_vals hag
  · have hKe' : K e := hKe.resolve_right he
    obtain ⟨o, ho, hc⟩ := hothers e he p hown
    have h2 : s'.GetAABB vals e = s.GetAABB vals e := Store.GetAABB_congr vals e (hX.value e)
    have h3 : s'.GetAABB v e = s.GetAABB v e := Store.GetAABB_congr v e (hX.value e)
    have h1 : s.GetAABB vals e = s.GetAABB v e := by
      rw [← h2, ← h3]
      exact hag.symm
    exact (hc ((hK e o hKe' ho).congr_vals h1)).congr_vals hag

/-- No pruning hides a stored element that is well placed, when the region test `keep` holds
for the root and for every region that contains the bounds of the element. -/
theorem open_of_contain {vals : Values} {s : Store} (hc : CountInv s.root) {e : Nat}
    {p : Path} {m : QuadNode} (hp : s.root.find p = some m) (he : e ∈ m.data.mElems)
    (hcon : ContainAt vals s p e) (keep : AABB → Bool)
    (hroot : keep s.root.data.mAABB = true)
    (hk : ∀ a b, s.GetAABB vals e = some b → a.IsContain b = true → keep a = true) :
    Open keep s.root p := by
  intro q' m' hq hm'
  obtain ⟨r, rfl⟩ := hq
  have hr : m'.find r = some m := by
    rw [QuadNode.find_append, hm'] at hp
    simpa using hp
  refine ⟨count_ne_zero_of_mem hc hm' hr he, ?_⟩
  by_cases hnil : q' = []
  · subst hnil
    simp at hm'
    subst hm'
    exact hroot
  · obtain ⟨b, d, hb, hd, hcb⟩ := hcon q' (List.prefix_append q' r) hnil
    have : d = m'.data := by
      simp [dataAt, hm'] at hd
      exact hd.symm
    subst this
    exact hk _ b hb hcb

theorem Tracked.afterAddValues_tracked {vals : Values} (v : Values) (fuel : Nat) :
    ∀ (vs : List Nat) {K : Nat → Prop} {t : QuadTree}, Tracked vals K t →
      ∃ K', Tracked vals K' (t.afterAddValues v fuel vs)
  | [], K, _, h => ⟨K, h⟩
  | w :: vs, K, t, h => by
    unfold QuadTree.afterAddValues
    cases hr : t.AddValue v fuel (some w) 0 with
    | error err =>
      have h1 : Tracked vals K (t.afterAddValue v fuel (some w) 0) := by
        unfold QuadTree.afterAddValue
        simpa [okOr, hr] using h
      exact Tracked.afterAddValues_tracked v fuel vs h1
    | ok r =>
      have h1 : Tracked vals (fun e => (K e ∨ r.1 = some e) ∧ Agree v vals r.2 e)
          (t.afterAddValue v fuel (some w) 0) := by
        unfold QuadTree.afterAddValue
        simp only [okOr, hr]
        exact Tracked.addValue (r := r.1) h hr
      exact Tracked.afterAddValues_tracked v fuel vs h1

theorem shiftedTree_eq : stackTree.Refresh shiftedValues 6 0 = .ok shiftedTree :=
  QuadTree.Refresh_eq_of_eval shiftedValues 6 stackTree 0 (by decide!)

theorem shiftedTree_values (e : Nat) (h : shiftedTree.Stored e) :
    shiftedTree.valueOf e ≠ none := by
  have H : (stackTree.cell 0).isSome = true ∧ shiftedTree.next = 10 ∧
      ∀ e, e < 10 → shiftedTree.valueOf e ≠ none := by decide!
  have hT : TreeInv shiftedValues False shiftedTree :=
    (Reachable.refresh stackTree_reachable trivial H.1 shiftedTree_eq).inv
      (fun hf => absurd hf id)
  have hlt : e < 10 := by
    have := hT.stored_lt h
    have hn := H.2.1
    omega
  exact H.2.2 e hlt

theorem fmul_neg_neg (a : ℚ) : fmul (-a) (-a) = fmul a a := by
  unfold fmul
  rw [neg_mul_neg]

theorem Circle.DistanceSqr_symm (c c2 : Circle) :
    c.DistanceSqr c2.mX c2.mY = c2.DistanceSqr c.mX c.mY := by
  unfold Circle.DistanceSqr
  simp only
  rw [fsub_comm_neg c.mX c2.mX, fsub_comm_neg c.mY c2.mY, fmul_neg_neg, fmul_neg_neg]

/-- C20 (amended). The predicates of `Circle` are inclusive in the values the code computes: a
point is contained exactly when the rounded squared distance from the centre is at most the
rounded squared radius; two circles intersect exactly when the rounded squared distance of the
centres is at most the rounded square of the rounded sum of the radii, in particular when the
two are equal; `Intersect` is symmetric; and when these roundings change nothing, the test is
the exact one, so that circles that touch intersect. -/
theorem circle_predicates_inclusive (c c2 : Circle) (x y : ℚ) :
    (c.IsContain x y = true ↔ c.DistanceSqr x y ≤ fmul c.GetRadius c.GetRadius) ∧
    (c.Intersect c2 = true ↔
      c.DistanceSqr c2.GetX c2.GetY ≤
        fmul (fadd c.GetRadius c2.GetRadius) (fadd c.GetRadius c2.GetRadius)) ∧
    (c.DistanceSqr c2.GetX c2.GetY =
        fmul (fadd c.GetRadius c2.GetRadius) (fadd c.GetRadius c2.GetRadius) →
      c.Intersect c2 = true) ∧
    c.Intersect c2 = c2.Intersect c ∧
    (c.DistanceSqr c2.GetX c2.GetY = (c.GetX - c2.GetX) ^ 2 + (c.GetY - c2.GetY) ^ 2 →
      fmul (fadd c.GetRadius c2.GetRadius) (fadd c.GetRadius c2.GetRadius) =
        (c.GetRadius + c2.GetRadius) ^ 2 →
      (c.Intersect c2 = true ↔
        (c.GetX - c2.GetX) ^ 2 + (c.GetY - c2.GetY) ^ 2 ≤ (c.GetRadius + c2.GetRadius) ^ 2)) := by
  have key : ∀ c c2 : Circle, c.Intersect c2 = true ↔
      c.DistanceSqr c2.GetX c2.GetY ≤
        fmul (fadd c.GetRadius c2.GetRadius) (fadd c.GetRadius c2.GetRadius) := by
    intro c c2
    simp only [Circle.Intersect, Circle.GetX, Circle.GetY, Circle.GetRadius, decide_eq_true_eq]
  refine ⟨?_, key c c2, ?_, ?_, ?_⟩
  · simp only [Circle.IsContain, Circle.GetRadius, decide_eq_true_eq]
  · intro h
    rw [key c c2, h]
  · rw [Bool.eq_iff_iff, key c c2, key c2 c]
    have h1 : c.DistanceSqr c2.GetX c2.GetY = c2.DistanceSqr c.GetX c.GetY :=
      Circle.DistanceSqr_symm c c2
    have h3 : fadd c.GetRadius c2.GetRadius = fadd c2.GetRadius c.GetRadius := by
      unfold fadd
      rw [add_comm]
    rw [h1, h3]
  · intro h1 h2
    rw [key c c2, h1, h2]

/-- Witness for C20 (amended): for the circles of radius 1 at (0, 0) and radius 4 at (3, 4),
which touch, all operations are exact and `Intersect` is true. -/
theorem circle_predicates_inclusive_witness :
    Circle.Intersect ⟨0, 0, 1⟩ ⟨3, 4, 4⟩ = true ↔
      ((0 : ℚ) - 3) ^ 2 + ((0 : ℚ) - 4) ^ 2 ≤ ((1 : ℚ) + 4) ^ 2 :=
  (circle_predicates_inclusive ⟨0, 0, 1⟩ ⟨3, 4, 4⟩ 0 0).2.2.2.2 (by decide!) (by decide!)

/-- C20 as stated fails: the circles `touchingA` and `touchingB` touch, the squared distance of
the centres being the square of the sum of the radii, but the code computes 293745344 for the
former and 293745312 for the latter, and `Intersect` is false. -/
theorem circle_predicates_inclusive_counterexample :
    (touchingA.GetX - touchingB.GetX) ^ 2 + (touchingA.GetY - touchingB.GetY) ^ 2 =
      (touchingA.GetRadius + touchingB.GetRadius) ^ 2 ∧
    touchingA.DistanceSqr touchingB.GetX touchingB.GetY = 293745344 ∧
    fmul (fadd touchingA.GetRadius touchingB.GetRadius)
      (fadd touchingA.GetRadius touchingB.GetRadius) = 293745312 ∧
    touchingA.Intersect touchingB = false := by
  refine ⟨by decide!, by decide!, by decide!, by decide!⟩

/-- C21. A non-forced `Add` at a childless node that does not reject the element gives the
node children only if its depth is below `mMaxDeep`, it holds at least 8 elements and the
bounds are at most half the node wide and high (then the call, when it returns, returns true,
the node has children and the element is in the list of the node or of a node below it);
otherwise it stores the element at the node, which stays childless: the call returns true, the
node becomes the owner of the element and its list is the list it had with the element
appended (unchanged when the node already owned the element). And in every state built without
forced depth the depth of every node is at most `max(1, mMaxDeep)`. -/
theorem subdivision_deferred :
    (∀ (vals : Values) (mMaxDeep : Int) (fuel : Nat) (p : Path) (e : Nat) (s : Store)
      (n : QuadNode) (b : AABB), Inv vals False s → s.root.find p = some n →
      n.HasChild = false → s.GetAABB vals e = some b →
      (n.GetDeep ≤ 1 ∨ n.IsContain b = true) →
      ((n.GetDeep < mMaxDeep ∧ QT_ELEM_MIN_SIZE ≤ n.GetElemCount ∧
          b.GetWidth ≤ fmul n.GetWidth (1 / 2) ∧ b.GetHeight ≤ fmul n.GetHeight (1 / 2)) →
        ∀ r s', Add vals mMaxDeep (fuel + 1) p e 0 s = .ok (r, s') →
          r = true ∧ kidsAt s'.root p = some true ∧
          ∃ q, s'.GetNode e = some (p ++ q) ∧ e ∈ s'.elemsAt (p ++ q)) ∧
      (¬ (n.GetDeep < mMaxDeep ∧ QT_ELEM_MIN_SIZE ≤ n.GetElemCount ∧
          b.GetWidth ≤ fmul n.GetWidth (1 / 2) ∧ b.GetHeight ≤ fmul n.GetHeight (1 / 2)) →
        Add vals mMaxDeep (fuel + 1) p e 0 s = .ok (true, s.AddElem p e) ∧
          kidsAt (s.AddElem p e).root p = some false ∧
          (s.AddElem p e).GetNode e = some p ∧
          e ∈ (s.AddElem p e).elemsAt p ∧
          (s.GetNode e ≠ some p → (s.AddElem p e).elemsAt p = s.elemsAt p ++ [e]) ∧
          (s.GetNode e = some p → (s.AddElem p e).elemsAt p = s.elemsAt p))) ∧
    (∀ (t : QuadTree) (root : QuadNode), Unforced t → t.mRoot = some root →
      ∀ q n, root.find q = some n → n.GetDeep ≤ max 1 t.mMaxDeep) := by
  refine ⟨?_, ?_⟩
  · intro vals mMaxDeep fuel p e s n b hI hp hk hb hin
    have ha : (s.cell e).isSome = true := Store.alive_of_GetAABB hb
    refine ⟨?_, ?_⟩
    · rintro ⟨hdeep, hfull, hw, hh⟩ r s' hadd
      have h1 : r = true ∧ kidsAt s'.root p = some true := by
        refine AddBody_splits (Add_spec vals False mMaxDeep fuel) hI hp ha hk hb hin ?_
          hdeep hfull hadd
        rintro (h | h)
        · exact absurd hw (not_le.2 h)
        · exact absurd hh (not_le.2 h)
      obtain ⟨hI', -, -, hown⟩ :=
        Add_spec vals False mMaxDeep (fuel + 1) p e 0 s r s' n hI hp ha (fun h => absurd h id)
          hadd
      obtain ⟨q, hq⟩ := hown h1.1
      exact ⟨h1.1, h1.2, q, hq, (hI'.own.1 e (p ++ q)).1 hq⟩
    · intro hC
      have hsmall : n.GetDeep ≥ mMaxDeep ∨ n.GetElemCount < QT_ELEM_MIN_SIZE ∨
          fmul n.GetWidth (1 / 2) < b.GetWidth ∨ fmul n.GetHeight (1 / 2) < b.GetHeight := by
        by_contra hcon
        push_neg at hcon
        exact hC ⟨hcon.1, hcon.2.1, hcon.2.2.1, hcon.2.2.2⟩
      have hI' : Inv vals False (s.AddElem p e) := hI.AddElem_inv ha hp (fun h => absurd h id)
      have hg : (s.AddElem p e).GetNode e = some p := by
        rw [Store.GetNode_AddElem s p e ha]
        simp
      refine ⟨AddBody_leaf_accept hp hk hb hin hsmall, ?_, hg, (hI'.own.1 e p).1 hg, ?_, ?_⟩
      · rw [kidsAt_AddElem hI p e p]
        simp [kidsAt, hp, hk]
      · intro hne
        exact (AddElem_appends hI hp hne).1
      · intro heq
        rw [Store.AddElem_of_owner heq]
  · intro t root hu hr q n hq
    have hT : TreeInv (fun _ => ⟨none, fun _ _ => false, fun _ => false⟩) False t :=
      hu.reachable_unforced.inv (fun hf => absurd hf id)
    have hB := hu.bounded_tree root hr q n hq
    have hd : n.GetDeep = q.length + 1 := (hT.store root hr).depth q n.data (by simp [dataAt, hq])
    have h1 : (0 : Int) ≤ max 1 t.mMaxDeep := le_trans (by decide) (le_max_left 1 t.mMaxDeep)
    have h2 : (((max 1 t.mMaxDeep).toNat : Nat) : Int) = max 1 t.mMaxDeep :=
      Int.toNat_of_nonneg h1
    rw [hd, ← h2]
    exact_mod_cast hB

/-- Witness for C21: in `stackTree` value 0 is stored in the RIGHT_TOP child; it moves to the
unit square at (10, 10), and `Add` at the empty, childless LEFT_BOTTOM child stores its
element there: that child becomes the owner and its list, empty before, is `[0]`, while the
RIGHT_TOP child keeps the other eight elements; and the RIGHT_TOP child is not deeper than
`max(1, 6)`. -/
theorem subdivision_deferred_witness :
    (Add shiftedValues 6 1 [2] 0 0 ⟨stackRoot, stackTree.cell⟩ =
        .ok (true, Store.AddElem ⟨stackRoot, stackTree.cell⟩ [2] 0) ∧
      kidsAt (Store.AddElem ⟨stackRoot, stackTree.cell⟩ [2] 0).root [2] = some false ∧
      (Store.AddElem ⟨stackRoot, stackTree.cell⟩ [2] 0).GetNode 0 = some [2] ∧
      (Store.AddElem ⟨stackRoot, stackTree.cell⟩ [2] 0).elemsAt [2] =
        Store.elemsAt ⟨stackRoot, stackTree.cell⟩ [2] ++ [0]) ∧
    Store.elemsAt ⟨stackRoot, stackTree.cell⟩ [2] = [] ∧
    (Store.AddElem ⟨stackRoot, stackTree.cell⟩ [2] 0).elemsAt [0] = [7, 6, 5, 4, 3, 2, 1, 8] ∧
    (QuadNode.leaf ⟨2, 9, ⟨50, 50, 50, 50⟩, [7, 6, 5, 4, 3, 2, 1, 0, 8]⟩).GetDeep ≤
      max 1 stackTree.mMaxDeep :=
  have h := (subdivision_deferred.1 shiftedValues 6 0 [2] 0 ⟨stackRoot, stackTree.cell⟩
      (.leaf ⟨2, 0, ⟨0, 0, 50, 50⟩, []⟩) ⟨10, 10, 1, 1⟩
      ((stackTree_reachable.inv (fun hf => absurd hf id)).store stackRoot (by decide!))
      (by decide!) rfl (by decide!) (Or.inr (by decide!))).2 (by decide!)
  ⟨⟨h.1, h.2.1, h.2.2.1, h.2.2.2.2.1 (by decide!)⟩, by decide!, by decide!,
    subdivision_deferred.2 stackTree stackRoot stackTree_unforced (by decide!) [0] _
      (by decide!)⟩

theorem AABB.IsContain_trans {a b c : AABB} (h1 : a.IsContain b = true)
    (h2 : b.IsContain c = true) : a.IsContain c = true := by
  rw [AABB.IsContain_iff] at h1 h2 ⊢
  exact ⟨le_trans h1.1 h2.1, le_trans h2.2.1 h1.2.1, le_trans h1.2.2.1 h2.2.2.1,
    le_trans h2.2.2.2 h1.2.2.2⟩

/-- C10 (amended). On a fresh tree over the region (x, y, w, h) with `mMaxDeep` 6, for nine
values whose bounds fit inside quadrant `q` of the root, as `InitChildren` computes it, and
inside no quadrant before it, the ninth being at most half the root wide and high as `Add`
computes the halves, and fuel 6 or more: each of the first eight calls `Add(value)` returns and leaves the root
childless with the elements so far in its list; the ninth call returns the new element, gives
the root children, moves the eight elements out of the list of the root, and all nine elements
end in the subtree of child `q`. If the ninth rectangle is wider than half of child `q` or
higher than half of it, the root is the only node with children and all nine elements are in
the list of child `q`; if not, child `q` has got children as well. -/
theorem nine_shapes (x y w h : ℚ) (vals : Values) (val : Nat → Nat) (b : Nat → AABB)
    (q fuel : Nat) (hq : q < 4) (hfuel : 6 ≤ fuel)
    (hb : ∀ k, k < 9 → (vals (val k)).GetAABB = some (b k))
    (hin : ∀ k, k < 9 → (childAABB ⟨x, y, w, h⟩ q).IsContain (b k) = true)
    (hout : ∀ k, k < 9 → ∀ i, i < q → (childAABB ⟨x, y, w, h⟩ i).IsContain (b k) = false)
    (hfit : ¬ (fmul w (1 / 2) < (b 8).GetWidth ∨ fmul h (1 / 2) < (b 8).GetHeight)) :
    (∀ k, k ≤ 8 → ∃ tk rootk,
      ((QuadTree.new 6).Init x y w h).AddValues vals fuel ((List.range k).map val) = .ok tk ∧
      tk.mRoot = some rootk ∧ rootk.HasChild = false ∧ rootk.data.mElems = List.range k) ∧
    ∃ t8 t9 root9,
      ((QuadTree.new 6).Init x y w h).AddValues vals fuel ((List.range 8).map val) = .ok t8 ∧
      t8.AddValue vals fuel (some (val 8)) 0 = .ok (some 8, t9) ∧
      t9.mRoot = some root9 ∧ root9.HasChild = true ∧ root9.data.mElems = [] ∧
      (∀ e, e < 9 → t9.valueOf e = some (val e) ∧
        ∃ r, (t9.cell e).bind Element.mNode = some (q :: r)) ∧
      ((fmul (childAABB ⟨x, y, w, h⟩ q).GetWidth (1 / 2) < (b 8).GetWidth ∨
          fmul (childAABB ⟨x, y, w, h⟩ q).GetHeight (1 / 2) < (b 8).GetHeight) →
        (∀ p n, root9.find p = some n → n.HasChild = true → p = []) ∧
        ∀ e, e < 9 → (t9.cell e).bind Element.mNode = some [q]) ∧
      (¬ (fmul (childAABB ⟨x, y, w, h⟩ q).GetWidth (1 / 2) < (b 8).GetWidth ∨
          fmul (childAABB ⟨x, y, w, h⟩ q).GetHeight (1 / 2) < (b 8).GetHeight) →
        ∃ c, root9.find [q] = some c ∧ c.HasChild = true) := by
  obtain ⟨k, rfl⟩ : ∃ k, fuel = k + 2 := ⟨fuel - 2, by omega⟩
  have hk : 4 ≤ k := by omega
  have hF0 := Filled.init_filled vals x y w h val
  have hsteps : ∀ n, n ≤ 8 → ∃ t', ((QuadTree.new 6).Init x y w h).AddValues vals (k + 2)
      ((List.range n).map val) = .ok t' ∧ Filled vals ⟨x, y, w, h⟩ val n t' := by
    intro n hn
    obtain ⟨t', h1, h2⟩ := Filled.steps hb (k + 1) n 0 _ hF0 (by omega)
    rw [Nat.zero_add] at h2
    rw [← List.range_eq_range'] at h1
    exact ⟨t', h1, h2⟩
  refine ⟨?_, ?_⟩
  · intro n hn
    obtain ⟨t', h1, hF⟩ := hsteps n hn
    obtain ⟨root, hr, hkid, _, hel⟩ := hF.root
    exact ⟨t', root, h1, hr, hkid, hel⟩
  · obtain ⟨t8, h8, hF⟩ := hsteps 8 (le_refl _)
    obtain ⟨root, hr, hkid, hreg, hel⟩ := hF.root
    obtain ⟨hI, hnone, hsame, hbox, hbox8⟩ := hF.newElement_store hr (val 8)
    have hM := hF.split hb hr hkid hreg hel q
    obtain ⟨s2, hs2, hM2⟩ := hM.redistribute_mid hq hin hout 6 k
    obtain ⟨s3, hs3, hX3, hkids, hempty, hsub, hbig, hsmall⟩ := hM2.place hq hin k hk
    have hdeep : root.GetDeep = 1 := by
      have := hI.depth [] root.data rfl
      simpa [QuadNode.GetDeep] using this
    have hroot : Recast.Add vals t8.mMaxDeep (k + 2) [] t8.next 0
        ⟨root, (t8.newElement (some (val 8))).2.cell⟩ = .ok (true, s3) := by
      rw [hF.maxDeep, hF.next]
      show AddBody vals 6 (Add vals 6 (k + 1)) [] 8 0
        ⟨root, (t8.newElement (some (val 8))).2.cell⟩ = _
      rw [AddBody_split_unfold (s := ⟨root, (t8.newElement (some (val 8))).2.cell⟩) (p := [])
        (n := root) rfl hkid
        (by rw [hbox8]; exact hb 8 (by omega)) (Or.inl (le_of_eq hdeep))
        (by
          unfold QuadNode.GetWidth QuadNode.GetHeight QuadNode.GetAABB
          rw [hreg]
          exact hfit)
        (by rw [hdeep]; norm_num)
        (by simp [QuadNode.GetElemCount, hel, QT_ELEM_MIN_SIZE])]
      simp only [hs2]
      rw [quadrants_split hq, tryChildren_append _ _ _ _ _ _ _
        (fun i hi => hM2.reject hq (List.mem_range.1 hi) (by omega)
          (hout 8 (by omega) i (List.mem_range.1 hi)) 6 k 0)]
      simp only [tryChildren, hs3]
    have hres := QuadTree.AddValue_of_store hr hroot
    obtain ⟨_, _, _, hval, _, hothers⟩ := QuadTree.AddValue_ok hF.inv hres
    rw [hF.next] at hres hval hothers
    refine ⟨t8, _, s3.root, h8, hres, rfl, ?_, ?_, ?_, ?_, ?_⟩
    · simpa [kidsAt] using hkids
    · rw [← Store.elemsAt_of_find (show s3.root.find [] = some s3.root from rfl)]
      exact hempty
    · intro e he
      refine ⟨?_, hsub e he⟩
      by_cases he8 : e = 8
      · subst he8; exact hval
      · rw [(hothers e he8).2]
        exact hF.value e (by omega)
    · intro hover
      obtain ⟨hleaves, hown⟩ := hbig hover
      exact ⟨fun p n hp hn => only_root_has_children hleaves hp hn, hown⟩
    · intro hfit
      have := hsmall hfit
      unfold kidsAt at this
      cases hc : s3.root.find [q] with
      | none => simp [hc] at this
      | some c =>
        simp only [hc, Option.map_some', Option.some.injEq] at this
        exact ⟨c, rfl, this⟩


/-- Witness for C10 (amended): the unit squares at (60 + k, 60 + k), k = 0, ..., 8, in the
RIGHT_TOP quadrant of the region (0, 0, 100, 100). -/
theorem nine_shapes_witness :
    ∃ t8 t9 root9,
      ((QuadTree.new 6).Init 0 0 100 100).AddValues clusterValues 6 ((List.range 8).map id) =
        .ok t8 ∧
      t8.AddValue clusterValues 6 (some (id 8)) 0 = .ok (some 8, t9) ∧
      t9.mRoot = some root9 ∧ root9.HasChild = true ∧ root9.data.mElems = [] ∧
      (∀ e, e < 9 → t9.valueOf e = some (id e) ∧
        ∃ r, (t9.cell e).bind Element.mNode = some (0 :: r)) ∧
      ((fmul (childAABB ⟨0, 0, 100, 100⟩ 0).GetWidth (1 / 2) < (AABB.mk (60 + 8) (60 + 8) 1 1).GetWidth ∨
          fmul (childAABB ⟨0, 0, 100, 100⟩ 0).GetHeight (1 / 2) <
            (AABB.mk (60 + 8) (60 + 8) 1 1).GetHeight) →
        (∀ p n, root9.find p = some n → n.HasChild = true → p = []) ∧
        ∀ e, e < 9 → (t9.cell e).bind Element.mNode = some [0]) ∧
      (¬ (fmul (childAABB ⟨0, 0, 100, 100⟩ 0).GetWidth (1 / 2) <
            (AABB.mk (60 + 8) (60 + 8) 1 1).GetWidth ∨
          fmul (childAABB ⟨0, 0, 100, 100⟩ 0).GetHeight (1 / 2) <
            (AABB.mk (60 + 8) (60 + 8) 1 1).GetHeight) →
        ∃ c, root9.find [0] = some c ∧ c.HasChild = true) :=
  (nine_shapes 0 0 100 100 clusterValues id (fun k => ⟨60 + k, 60 + k, 1, 1⟩) 0 6 (by decide)
    (le_refl 6) (fun k _ => rfl)
    (fun k hk => by interval_cases k <;> decide!)
    (fun k _ i hi => absurd hi (Nat.not_lt_zero i)) (by decide!)).2


/-- C10 as stated fails in two ways. With the unit squares at (60 + k, 60 + k), all in the
RIGHT_TOP quadrant of (0, 0, 100, 100), the RIGHT_TOP child holds eight elements when the ninth
arrives and is split as well, so the root is not the only node with children. With eight
horizontal segments on the common edge of LEFT_TOP and LEFT_BOTTOM and a ninth square inside
LEFT_BOTTOM, all nine fit inside LEFT_BOTTOM, but the segments are moved into LEFT_TOP, the
first child whose region contains them. And over the region (64, 64, 2, 2) the rectangle at
(64, 64) of height 1/2 and width 1 + 1/8388608 fits inside the LEFT_BOTTOM quadrant, its right
edge being rounded to 65, but it is wider than half the root: nine such shapes are all stored
at the root, which stays childless. -/
theorem nine_shapes_counterexample :
    (¬ ∀ (x y w h : ℚ) (vals : Values) (val : Nat → Nat) (q fuel : Nat) (t8 t9 : QuadTree)
      (root9 : QuadNode), q < 4 →
      (∀ k, k < 9 → ∃ bk, (vals (val k)).GetAABB = some bk ∧
        (childAABB ⟨x, y, w, h⟩ q).IsContain bk = true) →
      ((QuadTree.new 6).Init x y w h).AddValues vals fuel ((List.range 8).map val) = .ok t8 →
      t8.AddValue vals fuel (some (val 8)) 0 = .ok (some 8, t9) → t9.mRoot = some root9 →
      ∀ p n, root9.find p = some n → n.HasChild = true → p = []) ∧
    (¬ ∀ (x y w h : ℚ) (vals : Values) (val : Nat → Nat) (q fuel : Nat) (t8 t9 : QuadTree),
      q < 4 →
      (∀ k, k < 9 → ∃ bk, (vals (val k)).GetAABB = some bk ∧
        (childAABB ⟨x, y, w, h⟩ q).IsContain bk = true) →
      ((QuadTree.new 6).Init x y w h).AddValues vals fuel ((List.range 8).map val) = .ok t8 →
      t8.AddValue vals fuel (some (val 8)) 0 = .ok (some 8, t9) →
      ∀ e, e < 8 → ∃ r, (t9.cell e).bind Element.mNode = some (q :: r)) ∧
    ((childAABB ⟨64, 64, 2, 2⟩ 2).IsContain ⟨64, 64, 1 + 1 / 8388608, 1 / 2⟩ = true ∧
      (((QuadTree.new 6).Init 64 64 2 2).afterAddValues thinValues 6
        [0, 1, 2, 3, 4, 5, 6, 7, 8]).mRoot =
        some (.leaf ⟨1, 9, ⟨64, 64, 2, 2⟩, [0, 1, 2, 3, 4, 5, 6, 7, 8]⟩)) := by
  refine ⟨?_, ?_, by decide!⟩
  · intro H
    have E : isOk (((QuadTree.new 6).Init 0 0 100 100).AddValues clusterValues 10
          ((List.range 8).map id)) = true ∧
        isOk ((okOr ((QuadTree.new 6).Init 0 0 100 100)
          (((QuadTree.new 6).Init 0 0 100 100).AddValues clusterValues 10
            ((List.range 8).map id))).AddValue clusterValues 10 (some (id 8)) 0) = true ∧
        (okOr (none, okOr ((QuadTree.new 6).Init 0 0 100 100)
          (((QuadTree.new 6).Init 0 0 100 100).AddValues clusterValues 10
            ((List.range 8).map id)))
          ((okOr ((QuadTree.new 6).Init 0 0 100 100)
          (((QuadTree.new 6).Init 0 0 100 100).AddValues clusterValues 10
            ((List.range 8).map id))).AddValue clusterValues 10 (some (id 8)) 0)).1 = some 8 ∧
        ((QuadTree.afterAddValue clusterValues 10
          (okOr ((QuadTree.new 6).Init 0 0 100 100)
            (((QuadTree.new 6).Init 0 0 100 100).AddValues clusterValues 10
              ((List.range 8).map id))) (some (id 8)) 0).rootOr.find [0]).map
            QuadNode.HasChild = some true ∧
        (QuadTree.afterAddValue clusterValues 10
          (okOr ((QuadTree.new 6).Init 0 0 100 100)
            (((QuadTree.new 6).Init 0 0 100 100).AddValues clusterValues 10
              ((List.range 8).map id))) (some (id 8)) 0).mRoot =
          some (QuadTree.afterAddValue clusterValues 10
            (okOr ((QuadTree.new 6).Init 0 0 100 100)
              (((QuadTree.new 6).Init 0 0 100 100).AddValues clusterValues 10
                ((List.range 8).map id))) (some (id 8)) 0).rootOr ∧
        (∀ k : Nat, k < 9 → (childAABB ⟨0, 0, 100, 100⟩ 0).IsContain
          ⟨60 + (k : ℚ), 60 + (k : ℚ), 1, 1⟩ = true) := by
      decide!
    obtain ⟨a1, a2, a3, a4, a5, a6⟩ := E
    have h8 := QuadTree.AddValues_eq_of_eval clusterValues 10
      ((QuadTree.new 6).Init 0 0 100 100) ((List.range 8).map id) a1
    have h9 := QuadTree.AddValue_eq_of_eval clusterValues 10
      (okOr ((QuadTree.new 6).Init 0 0 100 100) (((QuadTree.new 6).Init 0 0 100 100).AddValues
        clusterValues 10 ((List.range 8).map id))) (some (id 8)) 0 8 a2 a3
    obtain ⟨c, hc, hkid⟩ := exists_child_of_eval _ [0] a4
    have := H 0 0 100 100 clusterValues id 0 10 _ _ _ (by decide)
      (fun k hk => ⟨_, rfl, a6 k hk⟩) h8 h9 a5 [0] c hc hkid
    cases this
  · intro H
    have E : isOk (((QuadTree.new 6).Init 0 0 100 100).AddValues boundaryValues 10
          ((List.range 8).map id)) = true ∧
        isOk ((okOr ((QuadTree.new 6).Init 0 0 100 100)
          (((QuadTree.new 6).Init 0 0 100 100).AddValues boundaryValues 10
            ((List.range 8).map id))).AddValue boundaryValues 10 (some (id 8)) 0) = true ∧
        (okOr (none, okOr ((QuadTree.new 6).Init 0 0 100 100)
          (((QuadTree.new 6).Init 0 0 100 100).AddValues boundaryValues 10
            ((List.range 8).map id)))
          ((okOr ((QuadTree.new 6).Init 0 0 100 100)
          (((QuadTree.new 6).Init 0 0 100 100).AddValues boundaryValues 10
            ((List.range 8).map id))).AddValue boundaryValues 10 (some (id 8)) 0)).1 =
          some 8 ∧
        ((QuadTree.afterAddValue boundaryValues 10
          (okOr ((QuadTree.new 6).Init 0 0 100 100)
            (((QuadTree.new 6).Init 0 0 100 100).AddValues boundaryValues 10
              ((List.range 8).map id))) (some (id 8)) 0).cell 0).bind Element.mNode =
          some [1] ∧
        (∀ k : Nat, k < 9 → (childAABB ⟨0, 0, 100, 100⟩ 2).IsContain
          (if k = 8 then ⟨10, 10, 1, 1⟩ else ⟨10 + (k : ℚ), 50, 1, 0⟩) = true) := by
      decide!
    obtain ⟨a1, a2, a3, a4, a5⟩ := E
    have h8 := QuadTree.AddValues_eq_of_eval boundaryValues 10
      ((QuadTree.new 6).Init 0 0 100 100) ((List.range 8).map id) a1
    have h9 := QuadTree.AddValue_eq_of_eval boundaryValues 10
      (okOr ((QuadTree.new 6).Init 0 0 100 100) (((QuadTree.new 6).Init 0 0 100 100).AddValues
        boundaryValues 10 ((List.range 8).map id))) (some (id 8)) 0 8 a2 a3
    obtain ⟨r, hr⟩ := H 0 0 100 100 boundaryValues id 2 10 _ _ (by decide)
      (fun k hk => ⟨if k = 8 then ⟨10, 10, 1, 1⟩ else ⟨10 + (k : ℚ), 50, 1, 0⟩, by
        show (boundaryValues k).GetAABB = _
        unfold boundaryValues boxValue
        split_ifs <;> rfl, a5 k hk⟩) h8 h9 0 (by decide)
    rw [a4] at hr
    simp at hr

/-- The ninth call of the nine-shapes scenario when the ninth shape is too large for a child
of child `q`: the list of child `q` ends up as the first eight elements in reverse order
followed by the ninth. -/
theorem ninth_call_order {vals : Values} {R : AABB} {val : Nat → Nat} {b : Nat → AABB}
    {t8 : QuadTree} (hF : Filled vals R val 8 t8)
    (hb : ∀ k, k < 9 → (vals (val k)).GetAABB = some (b k)) {q : Nat} (hq : q < 4)
    (hin : ∀ k, k < 9 → (childAABB R q).IsContain (b k) = true)
    (hout : ∀ k, k < 9 → ∀ i, i < q → (childAABB R i).IsContain (b k) = false)
    (hfit : ¬ (fmul R.mWidth (1 / 2) < (b 8).GetWidth ∨ fmul R.mHeight (1 / 2) < (b 8).GetHeight))
    (hbig : fmul (childAABB R q).GetWidth (1 / 2) < (b 8).GetWidth ∨
      fmul (childAABB R q).GetHeight (1 / 2) < (b 8).GetHeight) (k : Nat) :
    ∃ t9 root9 c, t8.AddValue vals (k + 2) (some (val 8)) 0 = .ok (some 8, t9) ∧
      t9.mRoot = some root9 ∧ root9.find [q] = some c ∧
      c.data.mElems = [7, 6, 5, 4, 3, 2, 1, 0, 8] := by
  obtain ⟨root, hr, hkid, hreg, hel⟩ := hF.root
  obtain ⟨hI, hnone, hsame, hbox, hbox8⟩ := hF.newElement_store hr (val 8)
  have hM := hF.split hb hr hkid hreg hel q
  have hl : (Store.mk root (t8.newElement (some (val 8))).2.cell).root.find [] =
      some (.leaf root.data) := Store.find_leaf_of_not_hasChild rfl hkid
  have hroot1 : (Store.InitChildren ⟨root, (t8.newElement (some (val 8))).2.cell⟩ []).elemsAt []
      = List.range 8 := by
    rw [Store.elemsAt_InitChildren hl,
      Store.elemsAt_of_find (show (Store.mk root _).root.find [] = some root from rfl), hel]
  obtain ⟨s2, hs2, hM2, hord⟩ := hM.redistribute_order hroot1 hq hin hout 6 k
  obtain ⟨c, hc, hckid, hcd, hcreg, hcel⟩ := hM2.child hq
  have hbox2 := hM2.box 8 (by omega)
  have hplace : Add vals 6 (k + 1) ([] ++ [q]) 8 0 s2 = .ok (true, s2.AddElem [q] 8) := by
    have hacc : AddBody vals 6 (Add vals 6 k) ([] ++ [q]) 8 0 s2 =
        .ok (true, s2.AddElem ([] ++ [q]) 8) :=
      AddBody_leaf_accept hc hckid hbox2
        (Or.inr (by unfold QuadNode.IsContain QuadNode.GetAABB; rw [hcreg]; exact hin 8 (by omega)))
        (Or.inr (Or.inr (by
          unfold QuadNode.GetWidth QuadNode.GetHeight QuadNode.GetAABB
          rw [hcreg]; exact hbig)))
    exact hacc
  have hdeep : root.GetDeep = 1 := by
    have := hI.depth [] root.data rfl
    simpa [QuadNode.GetDeep] using this
  have hadd : Recast.Add vals t8.mMaxDeep (k + 2) [] t8.next 0
      ⟨root, (t8.newElement (some (val 8))).2.cell⟩ = .ok (true, s2.AddElem [q] 8) := by
    rw [hF.maxDeep, hF.next]
    show AddBody vals 6 (Add vals 6 (k + 1)) [] 8 0
      ⟨root, (t8.newElement (some (val 8))).2.cell⟩ = _
    rw [AddBody_split_unfold (s := ⟨root, (t8.newElement (some (val 8))).2.cell⟩) (p := [])
      (n := root) rfl hkid
      (by rw [hbox8]; exact hb 8 (by omega)) (Or.inl (le_of_eq hdeep))
      (by
        unfold QuadNode.GetWidth QuadNode.GetHeight QuadNode.GetAABB
        rw [hreg]
        exact hfit)
      (by rw [hdeep]; norm_num)
      (by simp [QuadNode.GetElemCount, hel, QT_ELEM_MIN_SIZE])]
    simp only [hs2]
    rw [quadrants_split hq, tryChildren_append _ _ _ _ _ _ _
      (fun i hi => hM2.reject hq (List.mem_range.1 hi) (by omega)
        (hout 8 (by omega) i (List.mem_range.1 hi)) 6 k 0)]
    simp only [tryChildren, hplace]
  have hres := QuadTree.AddValue_of_store hr hadd
  rw [hF.next] at hres
  have hlist : (s2.AddElem [q] 8).elemsAt [q] = [7, 6, 5, 4, 3, 2, 1, 0, 8] := by
    rw [Store.elemsAt_AddElem_new s2 (hM2.rest 8 (le_refl _)) hc [q]]
    simp [hord]
  have hx := Ext.AddElem_ext hM2.inv [q] 8
  obtain ⟨c', hc'⟩ := hx.find_ext hc
  refine ⟨_, (s2.AddElem [q] 8).root, c', hres, rfl, hc', ?_⟩
  rw [← Store.elemsAt_of_find hc', hlist]


/-- C14 (amended). For every tree with a root, two matching values stored at the same visited
node appear in the multi-hit output (point or circle query) in the order of the element list
of the node. `AddElem` puts an element at the end of the list of its node, so values that a
node receives one by one come in the order of the calls; but the redistribution hands a list
over from its last element to its first: in the nine-shapes scenario (nine shapes inside
quadrant `q` of the root, as `InitChildren` computes it, and inside no quadrant before it)
with a ninth shape at most half the root wide and high but too large for a child of child
`q`, the list of child `q` is 7, 6, 5, 4, 3, 2, 1, 0, 8. -/
theorem node_results_in_list_order (vals : Values) (t : QuadTree) (root : QuadNode)
    (hroot : t.mRoot = some root) :
    (∀ x y out b out', t.Intersect vals x y out false = .ok (b, out') →
      out' = out ++ nodeHits t.valueOf (fun a => a.IsContainPoint x y)
        (fun v => (vals v).IsContain x y) root) ∧
    (∀ circle out b out', t.IntersectCircle vals circle out false = .ok (b, out') →
      out' = out ++ nodeHits t.valueOf (fun a => a.Intersect (circleBox circle))
        (fun v => (vals v).Intersect circle) root) ∧
    (∀ keep test q m l1 l2 l3 e1 e2 v1 v2, root.find q = some m → Open keep root q →
      m.data.mElems = l1 ++ e1 :: (l2 ++ e2 :: l3) →
      t.valueOf e1 = some v1 → test v1 = true → t.valueOf e2 = some v2 → test v2 = true →
      ∃ a b c, nodeHits t.valueOf keep test root = a ++ v1 :: (b ++ v2 :: c)) ∧
    (∀ (κ : Prop) (s : Store) p e n, Inv vals κ s → s.root.find p = some n →
      s.GetNode e ≠ some p →
      (s.AddElem p e).elemsAt p = s.elemsAt p ++ [e] ∧
      ∀ q, q ≠ p → (s.AddElem p e).elemsAt q = (s.elemsAt q).erase e) ∧
    (∀ (x y w h : ℚ) (val : Nat → Nat) (b : Nat → AABB) (q k : Nat), q < 4 →
      (∀ k, k < 9 → (vals (val k)).GetAABB = some (b k)) →
      (∀ k, k < 9 → (childAABB ⟨x, y, w, h⟩ q).IsContain (b k) = true) →
      (∀ k, k < 9 → ∀ i, i < q → (childAABB ⟨x, y, w, h⟩ i).IsContain (b k) = false) →
      ¬ (fmul w (1 / 2) < (b 8).GetWidth ∨ fmul h (1 / 2) < (b 8).GetHeight) →
      (fmul (childAABB ⟨x, y, w, h⟩ q).GetWidth (1 / 2) < (b 8).GetWidth ∨
        fmul (childAABB ⟨x, y, w, h⟩ q).GetHeight (1 / 2) < (b 8).GetHeight) →
      ∃ t8 t9 root9 c,
        ((QuadTree.new 6).Init x y w h).AddValues vals (k + 2) ((List.range 8).map val) =
          .ok t8 ∧
        t8.AddValue vals (k + 2) (some (val 8)) 0 = .ok (some 8, t9) ∧
        t9.mRoot = some root9 ∧ root9.find [q] = some c ∧
        c.data.mElems = [7, 6, 5, 4, 3, 2, 1, 0, 8]) := by
  refine ⟨?_, ?_, ?_, ?_, ?_⟩
  · intro x y out b out' h
    unfold QuadTree.Intersect at h
    simp only [hroot] at h
    rw [IntersectPointNode_eq] at h
    exact (queryNode_multi_ok _ _ _ root out b out' h).2
  · intro circle out b out' h
    unfold QuadTree.IntersectCircle at h
    simp only [hroot] at h
    rw [IntersectCircleNode_eq] at h
    exact (queryNode_multi_ok _ _ _ root out b out' h).2
  · intro keep test q m l1 l2 l3 e1 e2 v1 v2 hq ho hl hv1 ht1 hv2 ht2
    exact nodeHits_list_order t.valueOf keep test hq ho hl hv1 ht1 hv2 ht2
  · intro κ s p e n hI hp hne
    exact AddElem_appends hI hp hne
  · intro x y w h val b q k hq hb hin hout hfit hbig
    obtain ⟨t8, h8, hF⟩ := Filled.steps (R := ⟨x, y, w, h⟩) hb (k + 1) 8 0 _
      (Filled.init_filled vals x y w h val) (by omega)
    rw [← List.range_eq_range'] at h8
    obtain ⟨t9, root9, c, h9, hr9, hc, hl⟩ := ninth_call_order hF hb hq hin hout hfit hbig k
    exact ⟨t8, t9, root9, c, h8, h9, hr9, hc, hl⟩


/-- Witness for C14 (amended): in `stackTree` the values 7 and 0 are both in the list of the
RIGHT_TOP child, 7 before 0, and the point query lists them in this order. -/
theorem node_results_in_list_order_witness :
    ∃ a b c, nodeHits stackTree.valueOf (fun a => a.IsContainPoint (121 / 2) (121 / 2))
      (fun v => (stackValues v).IsContain (121 / 2) (121 / 2)) stackRoot =
        a ++ 7 :: (b ++ 0 :: c) :=
  (node_results_in_list_order stackValues stackTree stackRoot (by decide!)).2.2.1
    (fun a => a.IsContainPoint (121 / 2) (121 / 2))
    (fun v => (stackValues v).IsContain (121 / 2) (121 / 2))
    [0] (.leaf ⟨2, 9, ⟨50, 50, 50, 50⟩, [7, 6, 5, 4, 3, 2, 1, 0, 8]⟩)
    [] [6, 5, 4, 3, 2, 1] [8] 7 0 7 0 rfl
    (by
      have hc : stackRoot.GetChild 0 =
          some (.leaf ⟨2, 9, ⟨50, 50, 50, 50⟩, [7, 6, 5, 4, 3, 2, 1, 0, 8]⟩) := rfl
      rw [Open.cons_iff _ hc, Open.nil_iff]
      exact ⟨⟨by decide!, by decide!⟩, by decide!, by decide!⟩)
    rfl (by decide!) (by decide!) (by decide!) (by decide!)


/-- C14 as stated fails: the values 0 to 9 of `stackValues` are added in this order to a tree
over (0, 0, 100, 100); the values 0 and 1 end in the list of the same node and both contain
the point (121/2, 121/2), but the multi-hit query lists 1 before 0, because the redistribution
that moved them into that node took the list of the root from its end. -/
theorem node_results_in_list_order_counterexample :
    ¬ ∀ (vals : Values) (vs : List Nat) (fuel : Nat) (t : QuadTree) (root m : QuadNode)
      (q : Path) (x y : ℚ) (b : Bool) (out : List Nat) (e1 e2 v1 v2 : Nat),
      ((QuadTree.new 6).Init 0 0 100 100).AddValues vals fuel vs = .ok t →
      t.mRoot = some root → root.find q = some m →
      e1 ∈ m.data.mElems → e2 ∈ m.data.mElems →
      t.valueOf e1 = some v1 → t.valueOf e2 = some v2 →
      vs.indexOf v1 < vs.indexOf v2 →
      (vals v1).IsContain x y = true → (vals v2).IsContain x y = true →
      t.Intersect vals x y [] false = .ok (b, out) →
      out.indexOf v1 < out.indexOf v2 := by
  intro H
  have E : isOk (((QuadTree.new 6).Init 0 0 100 100).AddValues stackValues 6
        [0, 1, 2, 3, 4, 5, 6, 7, 8, 9]) = true ∧
      isOk ((okOr ((QuadTree.new 6).Init 0 0 100 100)
        (((QuadTree.new 6).Init 0 0 100 100).AddValues stackValues 6
          [0, 1, 2, 3, 4, 5, 6, 7, 8, 9])).Intersect stackValues (121 / 2) (121 / 2)
        [] false) = true ∧
      (okOr ((QuadTree.new 6).Init 0 0 100 100)
        (((QuadTree.new 6).Init 0 0 100 100).AddValues stackValues 6
          [0, 1, 2, 3, 4, 5, 6, 7, 8, 9])).mRoot = some stackRoot ∧
      (okOr ((QuadTree.new 6).Init 0 0 100 100)
        (((QuadTree.new 6).Init 0 0 100 100).AddValues stackValues 6
          [0, 1, 2, 3, 4, 5, 6, 7, 8, 9])).valueOf 0 = some 0 ∧
      (okOr ((QuadTree.new 6).Init 0 0 100 100)
        (((QuadTree.new 6).Init 0 0 100 100).AddValues stackValues 6
          [0, 1, 2, 3, 4, 5, 6, 7, 8, 9])).valueOf 1 = some 1 ∧
      ¬ (okOr (false, []) ((okOr ((QuadTree.new 6).Init 0 0 100 100)
        (((QuadTree.new 6).Init 0 0 100 100).AddValues stackValues 6
          [0, 1, 2, 3, 4, 5, 6, 7, 8, 9])).Intersect stackValues (121 / 2) (121 / 2)
        [] false)).2.indexOf 0 < (okOr (false, []) ((okOr ((QuadTree.new 6).Init 0 0 100 100)
        (((QuadTree.new 6).Init 0 0 100 100).AddValues stackValues 6
          [0, 1, 2, 3, 4, 5, 6, 7, 8, 9])).Intersect stackValues (121 / 2) (121 / 2)
        [] false)).2.indexOf 1 := by
    decide!
  obtain ⟨a1, a2, a3, a4, a5, a6⟩ := E
  have h10 := QuadTree.AddValues_eq_of_eval stackValues 6 ((QuadTree.new 6).Init 0 0 100 100)
    [0, 1, 2, 3, 4, 5, 6, 7, 8, 9] a1
  have hq := eq_ok_of_isOk (false, []) a2
  exact a6 (H stackValues [0, 1, 2, 3, 4, 5, 6, 7, 8, 9] 6 _ stackRoot
    (.leaf ⟨2, 9, ⟨50, 50, 50, 50⟩, [7, 6, 5, 4, 3, 2, 1, 0, 8]⟩) [0] (121 / 2) (121 / 2) _ _
    0 1 0 1 h10 a3 rfl (by decide) (by decide) a4 a5
    (by decide) (by decide!) (by decide!) hq)

theorem Nested.check_sound : ∀ (q : Path) (root : QuadNode), root.nested = true →
    ∀ i d c, dataAt root q = some d → dataAt root (q ++ [i]) = some c →
      d.mAABB.IsContain c.mAABB = true
  | [], root, hn, i, d, c, hd, hc => by
    simp only [dataAt, QuadNode.find, Option.map_some', Option.some.injEq] at hd
    subst hd
    cases root with
    | leaf d0 => simp [dataAt, QuadNode.find, QuadNode.GetChild] at hc
    | split d0 c0 c1 c2 c3 =>
      simp only [QuadNode.nested, Bool.and_eq_true] at hn
      obtain ⟨⟨⟨⟨⟨⟨⟨h0, h1⟩, h2⟩, h3⟩, _⟩, _⟩, _⟩, _⟩ := hn
      have hi : i < 4 := by
        by_contra hcon
        have : (QuadNode.split d0 c0 c1 c2 c3).GetChild i = none := by
          match i, hcon with
          | i + 4, _ => rfl
        simp [dataAt, QuadNode.find, this] at hc
      interval_cases i <;>
        simp only [dataAt, List.nil_append, QuadNode.find, QuadNode.GetChild, Option.map_some',
          Option.some.injEq] at hc <;> subst hc
      · exact h0
      · exact h1
      · exact h2
      · exact h3
  | j :: q, root, hn, i, d, c, hd, hc => by
    cases root with
    | leaf d0 => simp [dataAt, QuadNode.find, QuadNode.GetChild] at hd
    | split d0 c0 c1 c2 c3 =>
      simp only [QuadNode.nested, Bool.and_eq_true] at hn
      obtain ⟨⟨⟨⟨⟨⟨⟨_, _⟩, _⟩, _⟩, n0⟩, n1⟩, n2⟩, n3⟩ := hn
      have hj : j < 4 := by
        by_contra hcon
        have : (QuadNode.split d0 c0 c1 c2 c3).GetChild j = none := by
          match j, hcon with
          | j + 4, _ => rfl
        simp [dataAt, QuadNode.find, this] at hd
      interval_cases j
      · exact Nested.check_sound q c0 n0 i d c
          (by simpa [dataAt, QuadNode.find, QuadNode.GetChild] using hd)
          (by simpa [dataAt, QuadNode.find, QuadNode.GetChild] using hc)
      · exact Nested.check_sound q c1 n1 i d c
          (by simpa [dataAt, QuadNode.find, QuadNode.GetChild] using hd)
          (by simpa [dataAt, QuadNode.find, QuadNode.GetChild] using hc)
      · exact Nested.check_sound q c2 n2 i d c
          (by simpa [dataAt, QuadNode.find, QuadNode.GetChild] using hd)
          (by simpa [dataAt, QuadNode.find, QuadNode.GetChild] using hc)
      · exact Nested.check_sound q c3 n3 i d c
          (by simpa [dataAt, QuadNode.find, QuadNode.GetChild] using hd)
          (by simpa [dataAt, QuadNode.find, QuadNode.GetChild] using hc)

theorem Nested.of_tree {root : QuadNode} (h : root.nested = true) : Nested root :=
  fun q i d c hd hc => Nested.check_sound q root h i d c hd hc

/-- The nodes of an earlier state are nodes of a later state, with the same regions. -/
theorem Nested.of_ext {s s' : Store} (hX : Ext s s') (h : Nested s'.root) : Nested s.root := by
  intro q i d c hd hc
  obtain ⟨d', hd', _, ha⟩ := hX.node q d hd
  obtain ⟨c', hc', _, hb⟩ := hX.node (q ++ [i]) c hc
  rw [← ha, ← hb]
  exact h q i d' c' hd' hc'

/-- In a nested tree a region lies inside the regions of the nodes above it. -/
theorem contain_up {root : QuadNode} (hN : Nested root) (b : AABB) (q : Path) :
    ∀ r d d', dataAt root q = some d → dataAt root (q ++ r) = some d' →
      d'.mAABB.IsContain b = true → d.mAABB.IsContain b = true := by
  intro r
  induction r using List.reverseRecOn with
  | nil =>
    intro d d' hd hd' hc
    rw [List.append_nil, hd] at hd'
    cases hd'
    exact hc
  | append_singleton r i ih =>
    intro d d' hd hd' hc
    rw [← List.append_assoc] at hd'
    cases hf : root.find (q ++ r ++ [i]) with
    | none =>
      rw [dataAt, hf] at hd'
      exact absurd hd' (by simp)
    | some c =>
      obtain ⟨m, hm⟩ := QuadNode.find_prefix hf (List.prefix_append (q ++ r) [i])
      have hmd : dataAt root (q ++ r) = some m.data := by simp [dataAt, hm]
      exact ih d m.data hd hmd (AABB.IsContain_trans (hN (q ++ r) i m.data d' hmd hd') hc)

/-- An element whose bounds lie inside the region of a node of a nested tree is well placed
at that node. -/
theorem ContainAt.of_nested {vals : Values} {s : Store} (hN : Nested s.root) {p : Path}
    {n : QuadNode} {e : Nat} {b : AABB} (hp : s.root.find p = some n)
    (hb : s.GetAABB vals e = some b) (hc : n.IsContain b = true) : ContainAt vals s p e := by
  intro q hq _
  obtain ⟨r, rfl⟩ := hq
  obtain ⟨m, hm⟩ := QuadNode.find_prefix hp (List.prefix_append q r)
  exact ⟨b, m.data, hb, by simp [dataAt, hm],
    contain_up hN b q r m.data n.data (by simp [dataAt, hm]) (by simp [dataAt, hp]) hc⟩

/-- A step `Add(elem, atDeep)` from the root keeps the tracked elements well placed. -/
theorem placed_from_root {vals v : Values} {K : Nat → Prop} {t t' : QuadTree} {fuel elem : Nat}
    {atDeep : Int} {b : Bool} (hT : TreeInv v False t) (ha : (t.cell elem).isSome = true)
    (ih : ∀ root, t.mRoot = some root → Nested root →
      ∀ e p, K e → (Store.mk root t.cell).GetNode e = some p →
        ContainAt vals ⟨root, t.cell⟩ p e)
    (hadd : t.Add v fuel elem atDeep = .ok (b, t')) :
    ∀ root', t'.mRoot = some root' → Nested root' →
      ∀ e p, (K e ∨ e = elem) ∧ Agree v vals t' e →
        (Store.mk root' t'.cell).GetNode e = some p → ContainAt vals ⟨root', t'.cell⟩ p e := by
  intro root' hr' hN'
  cases hr : t.mRoot with
  | none => exact absurd hr hT.inited
  | some root =>
    obtain ⟨s', hs', rfl⟩ := QuadTree.Add_ok hr hadd
    simp only [QuadTree.setStore, Option.some.injEq] at hr'
    subst hr'
    have hI := hT.store root hr
    obtain ⟨hself, hothers, _, hX⟩ := Add_step_placed hI (QuadNode.find_nil root) ha hs'
      (ContainAt.nil v _ elem)
      (fun hb => by rw [Add_root_true hI hs'] at hb; cases hb)
    have hK := ih root hr (Nested.of_ext hX hN')
    rintro e p ⟨hKe, hag⟩ hown
    exact placed_after hX hK hself hothers e p hKe (hag.getAABB s'.root) hown

/-- In a tracked state whose tree is nested every element of `K` that is stored lies inside
the regions on the way to its owner, with the bounds of `vals`. -/
theorem Tracked.placed {vals : Values} {K : Nat → Prop} {t : QuadTree}
    (h : Tracked vals K t) : ∀ root, t.mRoot = some root → Nested root →
      ∀ e p, K e → (Store.mk root t.cell).GetNode e = some p →
        ContainAt vals ⟨root, t.cell⟩ p e := by
  induction h with
  | init maxDeep x y w hh hw0 hh0 =>
    intro root hr _
    exact fun e p hf _ => absurd hf id
  | @newElement K t value ht ih =>
    intro root hr hN
    have hT : TreeInv vals False t := ht.reachable_tracked.inv (fun hf => absurd hf id)
    have hn : t.cell t.next = none := hT.fresh t.next (le_refl _)
    have hK := ih root hr hN
    intro e p hKe hown
    by_cases he : e = t.next
    · subst he
      simp [Store.GetNode, QuadTree.newElement] at hown
    · have hc : (t.newElement value).2.cell e = t.cell e := by
        simp [QuadTree.newElement, he]
      have hown' : (Store.mk root t.cell).GetNode e = some p := by
        simpa [Store.GetNode, hc] using hown
      exact ContainAt.congr_cell ⟨root, t.cell⟩ ⟨root, (t.newElement value).2.cell⟩ rfl hc
        (hK e p hKe hown')
  | @add K t t' v fuel elem atDeep b ht ha hadd ih =>
    exact placed_from_root (ht.reachable_tracked.inv (fun hf => absurd hf id)) ha ih hadd
  | @addValue K t t' v fuel value atDeep r ht hadd ih =>
    intro root' hr' hN'
    have hT : TreeInv v False t := ht.reachable_tracked.inv (fun hf => absurd hf id)
    have hn : t.cell t.next = none := hT.fresh t.next (le_refl _)
    cases hr : t.mRoot with
    | none => exact absurd hr hT.inited
    | some root =>
      have h1 := hT.newElement value
      unfold QuadTree.AddValue at hadd
      simp only [hr] at hadd
      cases hadd' : Recast.Add v t.mMaxDeep fuel [] (t.newElement value).1 atDeep
          ⟨root, (t.newElement value).2.cell⟩ with
      | error err => simp [hadd'] at hadd
      | ok r1 =>
        obtain ⟨b1, s1⟩ := r1
        simp only [hadd', Except.ok.injEq, Prod.mk.injEq] at hadd
        obtain ⟨hr1, rfl⟩ := hadd
        simp only [QuadTree.setStore, Option.some.injEq] at hr'
        subst hr'
        have hroot1 : (t.newElement value).2.mRoot = some root := hr
        have hI := h1.store root hroot1
        obtain ⟨hself, hothers, _, hX⟩ := Add_step_placed hI (QuadNode.find_nil root)
          (by simp [QuadTree.newElement]) hadd' (ContainAt.nil v _ _)
          (fun hb => by rw [Add_root_true hI hadd'] at hb; cases hb)
        have hK := ih root hr (Nested.of_ext hX hN')
        have hK1 : ∀ e p, K e →
            (Store.mk root (t.newElement value).2.cell).GetNode e = some p →
            ContainAt vals ⟨root, (t.newElement value).2.cell⟩ p e := by
          intro e p hKe hown
          by_cases he : e = t.next
          · subst he
            simp [Store.GetNode, QuadTree.newElement] at hown
          · have hc : (t.newElement value).2.cell e = t.cell e := by
              simp [QuadTree.newElement, he]
            have hown' : (Store.mk root t.cell).GetNode e = some p := by
              simpa [Store.GetNode, hc] using hown
            exact ContainAt.congr_cell ⟨root, t.cell⟩ ⟨root, (t.newElement value).2.cell⟩ rfl hc
              (hK e p hKe hown')
        rintro e p ⟨hKe, hag⟩ hown
        have hKe' : K e ∨ e = (t.newElement value).1 := by
          rcases hKe with h | h
          · exact Or.inl h
          · right
            rw [← hr1] at h
            exact (Option.some.inj h).symm
        exact placed_after hX hK1 hself hothers e p hKe' (hag.getAABB s1.root) hown
  | @remove K t t' elem del ht _ hrem ih =>
    intro root' hr' hN'
    have hT : TreeInv vals False t := ht.reachable_tracked.inv (fun hf => absurd hf id)
    unfold QuadTree.Remove at hrem
    cases elem with
    | none =>
      simp at hrem
      subst hrem
      exact ih root' hr' hN'
    | some e0 =>
      simp only at hrem
      cases hn : (t.cell e0).bind Element.mNode with
      | none =>
        simp only [hn, Except.ok.injEq] at hrem
        subst hrem
        cases del with
        | false => exact ih root' hr' hN'
        | true =>
          have hr0 : t.mRoot = some root' := hr'
          have hK := ih root' hr0 hN'
          intro e p hKe hown
          by_cases he : e = e0
          · subst he
            simp [Store.GetNode, QuadTree.deleteElem] at hown
          · have hc : (t.deleteElem e0).cell e = t.cell e := by
              simp [QuadTree.deleteElem, he]
            have hown' : (Store.mk root' t.cell).GetNode e = some p := by
              simpa [Store.GetNode, hc] using hown
            exact ContainAt.congr_cell ⟨root', t.cell⟩ ⟨root', (t.deleteElem e0).cell⟩ rfl hc
              (hK e p hKe hown')
      | some node =>
        simp only [hn] at hrem
        cases hr : t.mRoot with
        | none => exact absurd hr hT.inited
        | some root =>
          simp only [hr, Except.ok.injEq] at hrem
          subst hrem
          have hI := hT.store root hr
          have ho : (Store.mk root t.cell).GetNode e0 = some node := hn
          have hX := Ext.detach_ext hI ho
          have hroot' : root' = (Store.RemoveElem ⟨root, t.cell⟩ node e0).root := by
            cases del <;> simpa [QuadTree.setStore, QuadTree.deleteElem] using hr'.symm
          have hK := ih root hr (Nested.of_ext hX (hroot' ▸ hN'))
          have hK1 : ∀ e p, K e →
              (Store.RemoveElem ⟨root, t.cell⟩ node e0).GetNode e = some p →
              ContainAt vals (Store.RemoveElem ⟨root, t.cell⟩ node e0) p e := by
            intro e p hKe hown
            rw [Store.GetNode_RemoveElem _ node e0 ho] at hown
            by_cases he : e = e0
            · simp [he] at hown
            · simp only [he, if_false] at hown
              exact (hK e p hKe hown).ext hX
          cases del with
          | false =>
            simp only [QuadTree.setStore, Bool.false_eq_true, if_false,
              Option.some.injEq] at hr' ⊢
            subst hr'
            exact hK1
          | true =>
            simp only [QuadTree.setStore, QuadTree.deleteElem, if_true,
              Option.some.injEq] at hr' ⊢
            subst hr'
            intro e p hKe hown
            by_cases he : e = e0
            · subst he
              simp [Store.GetNode] at hown
            · have hown' : (Store.RemoveElem ⟨root, t.cell⟩ node e0).GetNode e = some p := by
                simpa [Store.GetNode, he] using hown
              exact ContainAt.congr_cell (Store.RemoveElem ⟨root, t.cell⟩ node e0) _ rfl
                (by simp [he]) (hK1 e p hKe hown')
  | @refresh K t t' v fuel elem ht ha href ih =>
    have hT : TreeInv v False t := ht.reachable_tracked.inv (fun hf => absurd hf id)
    have hvia : ∀ r, (match t.Add v fuel elem 0 with
        | .error err => .error err
        | .ok (_, t1) => .ok t1) = Except.ok r →
        ∀ root', r.mRoot = some root' → Nested root' →
          ∀ e p, (K e ∨ e = elem) ∧ Agree v vals r e →
            (Store.mk root' r.cell).GetNode e = some p →
            ContainAt vals ⟨root', r.cell⟩ p e := by
      intro r hr
      cases hadd : t.Add v fuel elem 0 with
      | error err => simp [hadd] at hr
      | ok x =>
        obtain ⟨b1, t1⟩ := x
        simp only [hadd, Except.ok.injEq] at hr
        subst hr
        exact placed_from_root hT ha ih hadd
    unfold QuadTree.Refresh at href
    cases hn : (t.cell elem).bind Element.mNode with
    | none =>
      simp only [hn] at href
      exact hvia t' href
    | some node =>
      simp only [hn] at href
      cases hr : t.mRoot with
      | none => exact absurd hr hT.inited
      | some root =>
        simp only [hr] at href
        cases hf : root.find node with
        | none => simp [hf] at href
        | some n =>
          simp only [hf] at href
          cases hb : Store.GetAABB v ⟨root, t.cell⟩ elem with
          | none => simp [hb] at href
          | some b =>
            simp only [hb] at href
            split at href
            · exact hvia t' href
            · rename_i hin
              cases hadd : Recast.Add v t.mMaxDeep fuel node elem 0 ⟨root, t.cell⟩ with
              | error err => simp [hadd] at href
              | ok x =>
                obtain ⟨b1, s1⟩ := x
                simp only [hadd, Except.ok.injEq] at href
                subst href
                intro root' hr' hN'
                simp only [QuadTree.setStore, Option.some.injEq] at hr' ⊢
                subst hr'
                have hI := hT.store root hr
                have hXs : Ext ⟨root, t.cell⟩ s1 :=
                  (Add_spec v False t.mMaxDeep fuel node elem 0 ⟨root, t.cell⟩ b1 s1 n hI hf ha
                    (fun f => absurd f id) hadd).2.1.ext
                have hN : Nested root := Nested.of_ext hXs hN'
                have hK := ih root hr hN
                have hcon : n.IsContain b = true := by simpa using hin
                have hup : ContainAt v ⟨root, t.cell⟩ node elem :=
                  ContainAt.of_nested hN hf hb hcon
                obtain ⟨hself, hothers, _, hX⟩ := Add_step_placed hI hf ha hadd hup
                  (fun _ => hn)
                rintro e p ⟨hKe, hag⟩ hown
                exact placed_after hX hK hself hothers e p hKe (hag.getAABB s1.root) hown



/-- C25 (amended). In a state reached from `Init` with a region of non-negative size by `Add`,
`Remove` and `Refresh`, in which the region of every node contains the regions of its
children as `AABB::IsContain` compares them, let a stored element have a value whose bounds
have not changed since its last `Add` or `Refresh`, lie inside the region of the root, and
contain the point whenever the value does. If the value contains the point, every multi-hit point query that returns appends
the value and returns true; and the query returns when no stored element has a null value. -/
theorem point_query_complete {vals : Values} {K : Nat → Prop} {t : QuadTree}
    {root : QuadNode} (h : Tracked vals K t) (hr : t.mRoot = some root) (hN : Nested root)
    (x y : ℚ)
    (e v : Nat) (b : AABB) (hK : K e) (hs : t.Stored e) (hv : t.valueOf e = some v)
    (hb : (vals v).GetAABB = some b) (hin : root.GetAABB.IsContain b = true)
    (hcons : (vals v).IsContain x y = true → b.IsContainPoint x y = true)
    (hhit : (vals v).IsContain x y = true) :
    (∀ out r out', t.Intersect vals x y out false = .ok (r, out') →
      r = true ∧ ∃ res, out' = out ++ res ∧ v ∈ res) ∧
    ((∀ e', t.Stored e' → t.valueOf e' ≠ none) →
      ∀ out, ∃ res, t.Intersect vals x y out false = .ok (true, out ++ res) ∧ v ∈ res) := by
  have hT : TreeInv vals False t := h.reachable_tracked.inv (fun hf => absurd hf id)
  have hI := hT.store root hr
  have hplaced := h.placed root hr hN
  obtain ⟨p, hp⟩ := Option.ne_none_iff_exists'.1 hs
  have hown : (Store.mk root t.cell).GetNode e = some p := hp
  have hmem : e ∈ (Store.mk root t.cell).elemsAt p := (hI.own.1 e p).1 hown
  have hpt : b.IsContainPoint x y = true := hcons hhit
  have hmemv : v ∈ nodeHits t.valueOf (fun a => a.IsContainPoint x y)
      (fun w => (vals w).IsContain x y) root := by
    cases hf : root.find p with
    | none => simp [Store.elemsAt, hf] at hmem
    | some m =>
      have hel : Store.elemsAt ⟨root, t.cell⟩ p = m.data.mElems := Store.elemsAt_of_find hf
      rw [hel] at hmem
      rw [mem_nodeHits]
      refine ⟨p, m, e, hf, hmem, hv, hhit, ?_⟩
      refine open_of_contain (s := ⟨root, t.cell⟩) hI.count hf hmem (hplaced e p hK hown)
        (fun a => a.IsContainPoint x y) (AABB.IsContainPoint_of_IsContain hin hpt) ?_
      intro a b' hb' ha
      rw [Store.GetAABB_eq vals t root e v hv, hb] at hb'
      cases hb'
      exact AABB.IsContainPoint_of_IsContain ha hpt
  have hne : (nodeHits t.valueOf (fun a => a.IsContainPoint x y)
      (fun w => (vals w).IsContain x y) root).isEmpty = false := by
    cases hl : nodeHits t.valueOf (fun a => a.IsContainPoint x y)
        (fun w => (vals w).IsContain x y) root with
    | nil => rw [hl] at hmemv; cases hmemv
    | cons a l => rfl
  refine ⟨?_, ?_⟩
  · intro out r out' hq
    unfold QuadTree.Intersect at hq
    simp only [hr] at hq
    rw [IntersectPointNode_eq] at hq
    obtain ⟨h1, h2⟩ := queryNode_multi_ok _ _ _ root out r out' hq
    exact ⟨by rw [h1]; change (!(nodeHits t.valueOf _ _ root).isEmpty) = true; rw [hne]; rfl,
      _, h2, hmemv⟩
  · intro hval out
    refine ⟨nodeHits t.valueOf (fun a => a.IsContainPoint x y)
      (fun w => (vals w).IsContain x y) root, ?_, hmemv⟩
    unfold QuadTree.Intersect
    simp only [hr]
    rw [IntersectPointNode_eq]
    have := queryNode_multi t.valueOf (fun a => a.IsContainPoint x y)
      (fun w => (vals w).IsContain x y) root out
      (fun e' he' => hval e' ((hT.mem_allElems_iff hr e').1 he'))
    rw [hne] at this
    exact this



/-- Witness for C25 (amended): value 0 of `stackTree` moves to the unit square at (10, 10) and
its element is refreshed; the regions of the tree over (0, 0, 100, 100) are nested, and the
multi-hit query at (21/2, 21/2) appends value 0. -/
theorem point_query_complete_witness :
    ∃ res, shiftedTree.Intersect shiftedValues (21 / 2) (21 / 2) [] false =
      .ok (true, [] ++ res) ∧ 0 ∈ res := by
  obtain ⟨K0, hK0⟩ : ∃ K0, Tracked shiftedValues K0 stackTree :=
    Tracked.afterAddValues_tracked stackValues 6 [0, 1, 2, 3, 4, 5, 6, 7, 8, 9]
      (Tracked.init 6 0 0 100 100 (by decide) (by decide))
  have E : (stackTree.cell 0).isSome = true ∧
      shiftedTree.mRoot = some shiftedTree.rootOr ∧
      shiftedTree.rootOr.nested = true ∧
      shiftedTree.Stored 0 ∧
      shiftedTree.valueOf 0 = some 0 ∧
      (shiftedValues 0).GetAABB = some ⟨10, 10, 1, 1⟩ ∧
      shiftedTree.rootOr.GetAABB.IsContain ⟨10, 10, 1, 1⟩ = true ∧
      (AABB.mk 10 10 1 1).IsContainPoint (21 / 2) (21 / 2) = true ∧
      (shiftedValues 0).IsContain (21 / 2) (21 / 2) = true := by
    decide!
  obtain ⟨a1, a2, a3, a4, a5, a6, a7, a8, a9⟩ := E
  exact (point_query_complete
    (Tracked.refresh hK0 a1 shiftedTree_eq) a2
    (Nested.of_tree a3) (21 / 2) (21 / 2) 0 0
    ⟨10, 10, 1, 1⟩ ⟨Or.inr rfl, fun _ _ => rfl⟩ a4 a5 a6 a7 (fun _ => a8) a9).2
      shiftedTree_values []

/-- C25 as stated fails: after `Init(0.1f, 0.1f, 99.9f, 99.9f)` and `Add(value, 3)` of the
unit square at (30, 30) the element is owned by the RIGHT_TOP child of the LEFT_BOTTOM child
of the root. The right edge of that node is rounded to 3280077/65536, above the right edge
13120307/262144 of its parent. The value grows to the width 20.050003, its right edge
becoming 3280077/65536, and `Refresh` leaves the element where it is, its owner still
containing the bounds. The bounds lie inside the region of the root and the value contains
the point (3280077/65536, 61/2), but the point query, which stops at the LEFT_BOTTOM child,
returns nothing. -/
theorem point_query_complete_counterexample :
    fl (1 / 10) = 13421773 / 134217728 ∧ fl (999 / 10) = 13094093 / 131072 ∧
    fl (20050003 / 1000000) = 1313997 / 65536 ∧
    rimTree.rootOr.GetAABB =
      ⟨13421773 / 134217728, 13421773 / 134217728, 13094093 / 131072, 13094093 / 131072⟩ ∧
    (rimTree.cell 0).bind Element.mNode = some [2, 0] ∧
    (rimTree.rootOr.find [2]).map (fun c => c.GetAABB.GetRight) = some (13120307 / 262144) ∧
    (rimTree.rootOr.find [2, 0]).map (fun c => c.GetAABB.GetRight) =
      some (3280077 / 65536) ∧
    isOk (rimTree.Refresh widenedValues 6 0) = true ∧
    (widenedTree.cell 0).bind Element.mNode = some [2, 0] ∧
    widenedTree.valueOf 0 = some 0 ∧
    (widenedValues 0).GetAABB = some ⟨30, 30, 1313997 / 65536, 1⟩ ∧
    widenedTree.rootOr.GetAABB.IsContain ⟨30, 30, 1313997 / 65536, 1⟩ = true ∧
    0 ≤ widenedTree.rootOr.GetWidth ∧ 0 ≤ widenedTree.rootOr.GetHeight ∧
    (widenedValues 0).IsContain (3280077 / 65536) (61 / 2) = true ∧
    (AABB.mk 30 30 (1313997 / 65536) 1).IsContainPoint (3280077 / 65536) (61 / 2) = true ∧
    isOk (widenedTree.Intersect widenedValues (3280077 / 65536) (61 / 2) [] false) = true ∧
    okOr (true, [0]) (widenedTree.Intersect widenedValues (3280077 / 65536) (61 / 2) []
      false) = (false, []) := by
  decide!

theorem Frame.refl_frame (e : Nat) (N L : Path → Prop) (s : Store) : Frame e N L s s :=
  ⟨fun _ _ => rfl, fun _ _ _ => rfl⟩

theorem Frame.mono_frame {e : Nat} {N L N' L' : Path → Prop} {s s' : Store}
    (h : Frame e N L s s') (hN : ∀ q, N' q → N q) (hL : ∀ q, L' q → L q) :
    Frame e N' L' s s' :=
  ⟨fun q hq => h.1 q (hN q hq), fun q hq => h.2 q (hL q hq)⟩

/-- A node that exists keeps its children, so if it has as many at the end as at the start,
it has as many in between. -/
theorem kidsAt_between {s s1 s2 : Store} (h1 : Ext s s1) (h2 : Ext s1 s2) {q : Path}
    (hq : (dataAt s.root q).isSome = true) (hk : kidsAt s2.root q = kidsAt s.root q) :
    kidsAt s1.root q = kidsAt s.root q ∧ kidsAt s2.root q = kidsAt s1.root q := by
  cases hd : dataAt s.root q with
  | none => simp [hd] at hq
  | some d =>
    obtain ⟨d1, hd1, _⟩ := h1.node q d hd
    have hs : ∃ k, kidsAt s.root q = some k := by
      unfold dataAt at hd
      unfold kidsAt
      cases hf : s.root.find q with
      | none => simp [hf] at hd
      | some n => exact ⟨_, rfl⟩
    have hs1 : ∃ k, kidsAt s1.root q = some k := by
      unfold dataAt at hd1
      unfold kidsAt
      cases hf : s1.root.find q with
      | none => simp [hf] at hd1
      | some n => exact ⟨_, rfl⟩
    obtain ⟨k, hk0⟩ := hs
    obtain ⟨k1, hk1⟩ := hs1
    cases k with
    | true =>
      have e1 := h1.kids q hk0
      have e2 := h2.kids q e1
      rw [e1, e2, hk0]
      exact ⟨rfl, rfl⟩
    | false =>
      cases k1 with
      | true =>
        have e2 := h2.kids q hk1
        rw [e2, hk0] at hk
        cases hk
      | false =>
        rw [hk, hk0, hk1]
        exact ⟨rfl, rfl⟩

theorem Frame.trans_frame {e : Nat} {N L : Path → Prop} {s s1 s2 : Store}
    (h1 : Frame e N L s s1) (h2 : Frame e N L s1 s2) (hX1 : Ext s s1) (hX2 : Ext s1 s2)
    (hL : ∀ q, L q → (dataAt s.root q).isSome = true) : Frame e N L s s2 := by
  refine ⟨fun q hq => (h2.1 q hq).trans (h1.1 q hq), ?_⟩
  intro q hq hk
  obtain ⟨k1, k2⟩ := kidsAt_between hX1 hX2 (hL q hq) hk
  exact (h2.2 q hq k2).trans (h1.2 q hq k1)

theorem under_of_owner {s : Store} {e : Nat} {o : Path} (h : s.GetNode e = some o) (q : Path) :
    under s e q = if q <+: o then 1 else 0 := by
  simp [under, h]

theorem under_of_none {s : Store} {e : Nat} (h : s.GetNode e = none) (q : Path) :
    under s e q = 0 := by
  simp [under, h]

theorem under_congr {s s' : Store} {e : Nat} (h : s'.GetNode e = s.GetNode e) (q : Path) :
    under s' e q = under s e q := by
  simp [under, h]

/-- What `AddElem` changes: the route counts on the way of the element, and its place in the
lists. -/
theorem Frame.AddElem_frame {vals : Values} {s : Store} (hI : Inv vals False s) {p : Path}
    {n : QuadNode} (hp : s.root.find p = some n) {e : Nat} (ha : (s.cell e).isSome = true)
    (N L : Path → Prop) : Frame e N L s (s.AddElem p e) := by
  have hg : (s.AddElem p e).GetNode e = some p := by
    rw [Store.GetNode_AddElem s p e ha]
    simp
  by_cases hown : s.GetNode e = some p
  · rw [Store.AddElem_of_owner hown]
    exact Frame.refl_frame e N L s
  refine ⟨?_, ?_⟩
  · intro q _
    rw [under_of_owner hg]
    cases ho : s.GetNode e with
    | none =>
      rw [under_of_none ho, (Store.Edit_attach s p e ho).cntAt hp q]
      simp
    | some o =>
      have hne : o ≠ p := fun h => hown (h ▸ ho)
      have hm : e ∈ s.elemsAt o := (hI.own.1 e o).1 ho
      have h1 : (s.RemoveElem o e).GetNode e = none := by
        rw [Store.GetNode_RemoveElem s o e ho]
        simp
      obtain ⟨no, hno⟩ : ∃ no, s.root.find o = some no := by
        obtain ⟨d, hd, _⟩ := dataAt_isSome_of_mem hm
        unfold dataAt at hd
        cases hf : s.root.find o with
        | none => simp [hf] at hd
        | some m => exact ⟨m, rfl⟩
      obtain ⟨n1, hn1⟩ := (Ext.detach_ext hI ho).find_ext hp
      rw [under_of_owner ho, Store.AddElem_eq_detach ho hne,
        (Store.Edit_attach (s.RemoveElem o e) p e h1).cntAt hn1 q,
        (Store.Edit_detach s o e ho hm).cntAt hno q]
      simp only [if_true, Bool.false_eq_true, if_false]
      split_ifs <;> ring
  · intro q _ _
    obtain ⟨h1, h2⟩ := AddElem_appends hI hp hown
    have hnd : (s.elemsAt q).Nodup := hI.own.2 q
    by_cases hq : q = p
    · subst hq
      have hnm : e ∉ s.elemsAt q := fun hm => hown ((hI.own.1 e q).2 hm)
      rw [h1, List.erase_append_right _ hnm, List.erase_of_not_mem hnm]
      simp
    · rw [h2 q hq]
      exact List.erase_of_not_mem (fun hm => (List.Nodup.mem_erase_iff hnd).1 hm |>.1 rfl)


theorem prefix_outside {c o o' q : Path} (hc : c <+: o) (hc' : c <+: o') (hq : ¬ c <+: q)
    (h : q <+: o) : q <+: o' := by
  rcases List.prefix_or_prefix_of_prefix h hc with h1 | h1
  · exact h1.trans hc'
  · exact absurd h1 hq

theorem under_outside {s s' : Store} {e : Nat} {c o o' : Path} (ho : s.GetNode e = some o)
    (ho' : s'.GetNode e = some o') (hc : c <+: o) (hc' : c <+: o') {q : Path}
    (hq : ¬ c <+: q) : under s' e q = under s e q := by
  rw [under_of_owner ho, under_of_owner ho']
  have : q <+: o' ↔ q <+: o := ⟨prefix_outside hc' hc hq, prefix_outside hc hc' hq⟩
  simp only [this]

theorem under_parent {s s' : Store} {e : Nat} {p r : Path} {i : Nat}
    (ho : s.GetNode e = some p) (ho' : s'.GetNode e = some (p ++ [i] ++ r)) {q : Path}
    (hq : ¬ p ++ [i] <+: q) : under s' e q = under s e q := by
  rw [under_of_owner ho, under_of_owner ho']
  have : q <+: p ++ [i] ++ r ↔ q <+: p := by
    constructor
    · intro h
      rcases List.prefix_or_prefix_of_prefix h (List.prefix_append (p ++ [i]) r) with h1 | h1
      · have hne : q ≠ p ++ [i] := fun hh => hq (hh ▸ List.prefix_refl _)
        have := prefix_dropLast_of_ne h1 hne
        simpa using this
      · exact absurd h1 hq
    · intro h
      rw [List.append_assoc]
      exact h.trans (List.prefix_append p _)
  simp only [this]

/-- A call of `Add` at a child on an element of the list of the parent, seen from the nodes
outside the subtree of the child. -/
theorem Frame.foreign {vals : Values} {rec : AddFn} (hrec : AddSpec vals False rec)
    (hframe : FrameSpec vals rec) {p : Path} {i : Nat} (e : Nat) {ej : Nat} {s s1 : Store}
    {b1 : Bool} {c : QuadNode} (hI : Inv vals False s)
    (hci : s.root.find (p ++ [i]) = some c) (hown : s.GetNode ej = some p)
    (hr : rec (p ++ [i]) ej 0 s = .ok (b1, s1)) {N L : Path → Prop}
    (hN : ∀ q, N q → (dataAt s.root q).isSome = true ∧ ¬ (p ++ [i] <+: q))
    (hL : ∀ q, L q → N q ∧ q ≠ p) : Frame e N L s s1 := by
  have ha := Store.alive_of_GetNode hown
  obtain ⟨hI1, hE1, hF1, hA1⟩ := hrec (p ++ [i]) ej 0 s b1 s1 c hI hci ha
    (fun f => absurd f id) hr
  have hfr := hframe (p ++ [i]) ej 0 s b1 s1 c hI hci ha hr
  by_cases he : e = ej
  · subst he
    exact hfr.mono_frame (fun q hq => (hN q hq).1) (fun q hq => (hN q (hL q hq).1).1)
  · have hown1 : s1.GetNode ej = some p ∨ ∃ r, s1.GetNode ej = some (p ++ [i] ++ r) := by
      cases b1 with
      | false =>
        left
        rw [hF1 rfl]
        exact hown
      | true => exact Or.inr (hA1 rfl)
    have hu1 : ∀ q, N q → under s1 ej q = under s ej q := by
      intro q hq
      rcases hown1 with h1 | ⟨r, h1⟩
      · exact under_congr (h1.trans hown.symm) q
      · exact under_parent hown h1 (hN q hq).2
    have hu2 : ∀ q, N q → under s1 e q = under s e q := by
      intro q hq
      rcases hE1.others e he with h1 | ⟨o, o', h1, hc1, h2, hc2⟩
      · exact under_congr h1 q
      · exact under_outside h1 h2 hc1 hc2 (hN q hq).2
    refine ⟨fun q hq => ?_, fun q hq hk => ?_⟩
    · have := hfr.1 q (hN q hq).1
      rw [hu1 q hq] at this
      rw [hu2 q hq]
      linarith
    · have h := hfr.2 q (hN q (hL q hq).1).1 hk
      have hn0 : ej ∉ s.elemsAt q := by
        intro hm
        have := (hI.own.1 ej q).2 hm
        rw [hown] at this
        exact (hL q hq).2 (Option.some.inj this).symm
      have hn1 : ej ∉ s1.elemsAt q := by
        intro hm
        have := (hI1.own.1 ej q).2 hm
        rcases hown1 with h1 | ⟨r, h1⟩
        · rw [h1] at this
          exact (hL q hq).2 (Option.some.inj this).symm
        · rw [h1] at this
          have hq' : q = p ++ [i] ++ r := (Option.some.inj this).symm
          exact (hN q (hL q hq).1).2 (hq' ▸ List.prefix_append (p ++ [i]) r)
      rw [List.erase_of_not_mem hn0, List.erase_of_not_mem hn1] at h
      rw [h]

section FrameLoops

variable {vals : Values} {rec : AddFn} (hrec : AddSpec vals False rec)
  (hframe : FrameSpec vals rec)
include hrec hframe

theorem tryChildren_frame (p : Path) (e : Nat) (atDeep : Int) (is : List Nat) :
    ∀ (s : Store) (b : Bool) (s' : Store), Inv vals False s →
      (∀ i ∈ is, ∃ c, s.root.find (p ++ [i]) = some c) → (s.cell e).isSome = true →
      tryChildren rec p e atDeep is s = .ok (b, s') →
      Frame e (fun q => (dataAt s.root q).isSome = true)
        (fun q => (dataAt s.root q).isSome = true) s s' := by
  induction is with
  | nil =>
    intro s b s' _ _ _ h
    simp only [tryChildren, Except.ok.injEq, Prod.mk.injEq] at h
    rw [← h.2]
    exact Frame.refl_frame e _ _ s
  | cons i is ih =>
    intro s b s' hI hv ha h
    obtain ⟨c, hci⟩ := hv i (by simp)
    simp only [tryChildren] at h
    cases hr : rec (p ++ [i]) e atDeep s with
    | error err => simp [hr] at h
    | ok r =>
      obtain ⟨b1, s1⟩ := r
      obtain ⟨_, _, hF1, _⟩ := hrec (p ++ [i]) e atDeep s b1 s1 c hI hci ha
        (fun f => absurd f id) hr
      cases b1 with
      | true =>
        simp only [hr, Except.ok.injEq, Prod.mk.injEq] at h
        rw [← h.2]
        exact hframe (p ++ [i]) e atDeep s true s1 c hI hci ha hr
      | false =>
        simp only [hr] at h
        have hs : s1 = s := hF1 rfl
        rw [hs] at h
        exact ih s b s' hI (fun j hj => hv j (by simp [hj])) ha h

/-- The tail of `Add`: try the children, and store at the node when none accepts. -/
theorem tryChildren_tail_frame {s : Store} {p : Path} {e : Nat} {atDeep : Int} {n : QuadNode}
    {b : Bool} {s' : Store} (hI : Inv vals False s) (hp : s.root.find p = some n)
    (hk : kidsAt s.root p = some true) (ha : (s.cell e).isSome = true)
    (h : (match tryChildren rec p e atDeep [0, 1, 2, 3] s with
          | .error err => .error err
          | .ok (true, s1) => .ok (true, s1)
          | .ok (false, s1) => .ok (true, s1.AddElem p e)) = Except.ok (b, s')) :
    Frame e (fun q => (dataAt s.root q).isSome = true)
      (fun q => (dataAt s.root q).isSome = true) s s' := by
  cases ht : tryChildren rec p e atDeep [0, 1, 2, 3] s with
  | error err => simp [ht] at h
  | ok r =>
    obtain ⟨b1, s1⟩ := r
    have hK := tryChildren_frame hrec hframe p e atDeep [0, 1, 2, 3] s b1 s1 hI
      (children_valid hk) ha ht
    obtain ⟨_, _, hF1, _⟩ :=
      tryChildren_spec hrec p e atDeep [0, 1, 2, 3] s b1 s1 hI (children_valid hk) ha
        (fun f => absurd f id) ht
    cases b1 with
    | true =>
      simp only [ht, Except.ok.injEq, Prod.mk.injEq] at h
      rw [← h.2]
      exact hK
    | false =>
      simp only [ht, Except.ok.injEq, Prod.mk.injEq] at h
      rw [← h.2, hF1 rfl]
      exact Frame.AddElem_frame hI hp ha _ _

theorem redistributeElems_frame (e : Nat) (p : Path) (i : Nat) {N L : Path → Prop}
    (hNp : ∀ q, N q → ¬ (p ++ [i] <+: q)) (hL : ∀ q, L q → N q ∧ q ≠ p) (j : Nat) :
    ∀ (s s' : Store) (n c : QuadNode), Inv vals False s → s.root.find p = some n →
      s.root.find (p ++ [i]) = some c → (∀ q, N q → (dataAt s.root q).isSome = true) →
      redistributeElems rec p (p ++ [i]) j s = .ok s' → Frame e N L s s' := by
  induction j with
  | zero =>
    intro s s' n c _ _ _ _ h
    simp only [redistributeElems, Except.ok.injEq] at h
    subst h
    exact Frame.refl_frame e N L s
  | succ j ih =>
    intro s s' n c hI hp hci hex h
    simp only [redistributeElems, hp] at h
    cases hg : n.GetElem j with
    | none => simp [hg] at h
    | some ej =>
      simp only [hg] at h
      have hmem : ej ∈ s.elemsAt p := by
        have : s.elemsAt p = n.data.mElems := by simp [Store.elemsAt, hp]
        rw [this]
        exact List.get?_mem hg
      have hown : s.GetNode ej = some p := (hI.own.1 ej p).2 hmem
      cases hr : rec (p ++ [i]) ej 0 s with
      | error err => simp [hr] at h
      | ok r =>
        obtain ⟨b1, s1⟩ := r
        simp only [hr] at h
        obtain ⟨hI1, hE1, _, _⟩ :=
          hrec (p ++ [i]) ej 0 s b1 s1 c hI hci (Store.alive_of_GetNode hown)
            (fun f => absurd f id) hr
        obtain ⟨n1, hn1⟩ := hE1.ext.find_ext hp
        obtain ⟨c1, hc1⟩ := hE1.ext.find_ext hci
        have hex1 : ∀ q, N q → (dataAt s1.root q).isSome = true := by
          intro q hq
          cases hd : dataAt s.root q with
          | none =>
            have := hex q hq
            simp [hd] at this
          | some d =>
            obtain ⟨d', hd', _⟩ := hE1.ext.node q d hd
            simp [hd']
        have hX2 := (redistributeElems_spec hrec p i j s1 s' n1 c1 hI1 hn1 hc1 h).2.1
        exact Frame.trans_frame
          (Frame.foreign hrec hframe e hI hci hown hr (fun q hq => ⟨hex q hq, hNp q hq⟩) hL)
          (ih s1 s' n1 c1 hI1 hn1 hc1 hex1 h) hE1.ext hX2
          (fun q hq => hex q (hL q hq).1)

theorem redistribute_frame (e : Nat) (p : Path) {N L : Path → Prop}
    (hNp : ∀ q, N q → ∀ i, ¬ (p ++ [i] <+: q)) (hL : ∀ q, L q → N q ∧ q ≠ p)
    (is : List Nat) :
    ∀ (s s' : Store) (n : QuadNode), Inv vals False s → s.root.find p = some n →
      (∀ i ∈ is, ∃ c, s.root.find (p ++ [i]) = some c) →
      (∀ q, N q → (dataAt s.root q).isSome = true) →
      redistribute rec p is s = .ok s' → Frame e N L s s' := by
  induction is with
  | nil =>
    intro s s' n _ _ _ _ h
    simp only [redistribute, Except.ok.injEq] at h
    subst h
    exact Frame.refl_frame e N L s
  | cons i is ih =>
    intro s s' n hI hp hv hex h
    obtain ⟨c, hci⟩ := hv i (by simp)
    simp only [redistribute] at h
    cases hr : redistributeElems rec p (p ++ [i]) (s.elemsAt p).length s with
    | error err => simp [hr] at h
    | ok s1 =>
      simp only [hr] at h
      obtain ⟨hI1, hX1, _⟩ := redistributeElems_spec hrec p i _ s s1 n c hI hp hci hr
      obtain ⟨n1, hn1⟩ := hX1.find_ext hp
      have hv1 : ∀ k ∈ is, ∃ c, s1.root.find (p ++ [k]) = some c := by
        intro k hk
        obtain ⟨ck, hck⟩ := hv k (by simp [hk])
        exact hX1.find_ext hck
      have hex1 : ∀ q, N q → (dataAt s1.root q).isSome = true := by
        intro q hq
        cases hd : dataAt s.root q with
        | none =>
          have := hex q hq
          simp [hd] at this
        | some d =>
          obtain ⟨d', hd', _⟩ := hX1.node q d hd
          simp [hd']
      have hX2 := (redistribute_spec hrec p is s1 s' n1 hI1 hn1 hv1 h).2.1
      exact Frame.trans_frame
        (redistributeElems_frame hrec hframe e p i (fun q hq => hNp q hq i) hL _ s s1 n c hI hp
          hci hex hr)
        (ih s1 s' n1 hI1 hn1 hv1 hex1 h) hX1 hX2 (fun q hq => hex q (hL q hq).1)

theorem AddBody_frame (mMaxDeep : Int) : FrameSpec vals (AddBody vals mMaxDeep rec) := by
  intro p e atDeep s b s' n hI hp ha h
  have hX := (AddBody_spec mMaxDeep hrec p e atDeep s b s' n hI hp ha (fun f => absurd f id)
    h).2.1.ext
  unfold AddBody at h
  simp only [hp] at h
  split at h
  · simp only [Except.ok.injEq, Prod.mk.injEq] at h
    rw [← h.2]
    exact Frame.refl_frame e _ _ s
  · split at h
    · simp only [Except.ok.injEq, Prod.mk.injEq] at h
      rw [← h.2]
      exact Frame.AddElem_frame hI hp ha _ _
    · split at h
      · cases h
      · split at h
        · simp only [Except.ok.injEq, Prod.mk.injEq] at h
          rw [← h.2]
          exact Frame.AddElem_frame hI hp ha _ _
        · split at h
          · rename_i hk
            rw [range_node_count] at h
            exact tryChildren_tail_frame hrec hframe hI hp (by simp [kidsAt, hp, hk]) ha h
          · split at h
            · simp only [Except.ok.injEq, Prod.mk.injEq] at h
              rw [← h.2]
              exact Frame.AddElem_frame hI hp ha _ _
            · rename_i hk _
              have hkf : n.HasChild = false := by simpa using hk
              have hl := Store.find_leaf_of_not_hasChild hp hkf
              have hI1 : Inv vals False (s.InitChildren p) := hI.InitChildren_inv hp
              have hX1 : Ext s (s.InitChildren p) := Ext.InitChildren_ext hp
              have hk1 : kidsAt (s.InitChildren p).root p = some true := kidsAt_InitChildren hp
              have hF1 : Frame e (fun q => (dataAt s.root q).isSome = true)
                  (fun q => (dataAt s.root q).isSome = true ∧ q ≠ p) s (s.InitChildren p) :=
                ⟨fun q _ => by
                  rw [Store.cntAt_InitChildren hl q]
                  rw [under_congr (show (s.InitChildren p).GetNode e = s.GetNode e from rfl) q],
                 fun q _ _ => by rw [Store.elemsAt_InitChildren hl q]⟩
              have hout : ∀ q, (dataAt s.root q).isSome = true → ∀ i, ¬ (p ++ [i] <+: q) := by
                rintro q hq i ⟨r, rfl⟩
                rw [List.append_assoc, List.singleton_append, dataAt_child_of_leaf hl i r] at hq
                cases hq
              have hex1 : ∀ q, (dataAt s.root q).isSome = true →
                  (dataAt (s.InitChildren p).root q).isSome = true := by
                intro q hq
                cases hd : dataAt s.root q with
                | none => simp [hd] at hq
                | some d =>
                  obtain ⟨d', hd', _⟩ := hX1.node q d hd
                  simp [hd']
              change (match (if atDeep = 0 then
                  redistribute rec p (List.range QT_NODE_COUNT) (s.InitChildren p)
                  else Except.ok (s.InitChildren p)) with
                | .error err => .error err
                | .ok s2 =>
                  match tryChildren rec p e atDeep (List.range QT_NODE_COUNT) s2 with
                  | .error err => .error err
                  | .ok (true, s3) => .ok (true, s3)
                  | .ok (false, s3) => .ok (true, s3.AddElem p e)) = Except.ok (b, s') at h
              rw [range_node_count] at h
              obtain ⟨n1, hn1⟩ := hX1.find_ext hp
              have hfin : Frame e (fun q => (dataAt s.root q).isSome = true)
                  (fun q => (dataAt s.root q).isSome = true ∧ q ≠ p) s s' := by
                by_cases h0 : atDeep = 0
                · subst h0
                  simp only [↓reduceIte] at h
                  cases hr : redistribute rec p [0, 1, 2, 3] (s.InitChildren p) with
                  | error err => simp [hr] at h
                  | ok s2 =>
                    simp only [hr] at h
                    obtain ⟨hI2, hX2, _⟩ := redistribute_spec hrec p [0, 1, 2, 3]
                      (s.InitChildren p) s2 n1 hI1 hn1 (children_valid hk1) hr
                    have hF2 := redistribute_frame hrec hframe e p hout (fun q hq => hq)
                      [0, 1, 2, 3] (s.InitChildren p) s2 n1 hI1 hn1 (children_valid hk1)
                      hex1 hr
                    obtain ⟨n2, hn2⟩ := hX2.find_ext hn1
                    have ha2 : (s2.cell e).isSome = true := by
                      rw [hX2.alive, hX1.alive]; exact ha
                    have hex2 : ∀ q, (dataAt s.root q).isSome = true →
                        (dataAt s2.root q).isSome = true := by
                      intro q hq
                      cases hd : dataAt (s.InitChildren p).root q with
                      | none =>
                        have := hex1 q hq
                        simp [hd] at this
                      | some d =>
                        obtain ⟨d', hd', _⟩ := hX2.node q d hd
                        simp [hd']
                    have hF3 : Frame e (fun q => (dataAt s.root q).isSome = true)
                        (fun q => (dataAt s.root q).isSome = true ∧ q ≠ p) s2 s' :=
                      (tryChildren_tail_frame hrec hframe hI2 hn2 (hX2.kids p hk1)
                        ha2 h).mono_frame hex2 (fun q hq => hex2 q hq.1)
                    have hX3 := (tryChildren_outcome hrec (Evolve.refl_evolve e p s2) hI2 hn2
                      (hX2.kids p hk1) ha2 (fun f => absurd f id) h).2.1.ext
                    exact (hF1.trans_frame hF2 hX1 hX2 (fun q hq => hq.1)).trans_frame hF3
                      (hX1.trans_ext hX2) hX3 (fun q hq => hq.1)
                · simp only [h0, if_false] at h
                  have ha1 : ((s.InitChildren p).cell e).isSome = true := by
                    rw [hX1.alive]; exact ha
                  have hF3 : Frame e (fun q => (dataAt s.root q).isSome = true)
                      (fun q => (dataAt s.root q).isSome = true ∧ q ≠ p)
                      (s.InitChildren p) s' :=
                    (tryChildren_tail_frame hrec hframe hI1 hn1 hk1 ha1
                      h).mono_frame hex1 (fun q hq => hex1 q hq.1)
                  have hX3 := (tryChildren_outcome hrec (Evolve.refl_evolve e p _) hI1 hn1
                    hk1 ha1 (fun f => absurd f id) h).2.1.ext
                  exact hF1.trans_frame hF3 hX1 hX3 (fun q hq => hq.1)
              refine ⟨hfin.1, ?_⟩
              intro q hq hkq
              by_cases hqp : q = p
              · subst hqp
                exfalso
                have e1 : kidsAt s.root q = some false := by simp [kidsAt, hp, hkf]
                have e2 : kidsAt s'.root q = some true := by
                  by_cases h0 : atDeep = 0
                  · subst h0
                    simp only [↓reduceIte] at h
                    cases hr : redistribute rec q [0, 1, 2, 3] (s.InitChildren q) with
                    | error err => simp [hr] at h
                    | ok s2 =>
                      simp only [hr] at h
                      obtain ⟨hI2, hX2, _⟩ := redistribute_spec hrec q [0, 1, 2, 3]
                        (s.InitChildren q) s2 n1 hI1 hn1 (children_valid hk1) hr
                      obtain ⟨n2, hn2⟩ := hX2.find_ext hn1
                      have ha2 : (s2.cell e).isSome = true := by
                        rw [hX2.alive, hX1.alive]; exact ha
                      exact (tryChildren_outcome hrec (Evolve.refl_evolve e q s2) hI2 hn2
                        (hX2.kids q hk1) ha2 (fun f => absurd f id) h).2.1.ext.kids q
                        (hX2.kids q hk1)
                  · simp only [h0, if_false] at h
                    have ha1 : ((s.InitChildren q).cell e).isSome = true := by
                      rw [hX1.alive]; exact ha
                    exact (tryChildren_outcome hrec (Evolve.refl_evolve e q _) hI1 hn1
                      hk1 ha1 (fun f => absurd f id) h).2.1.ext.kids q hk1
                rw [e1, e2] at hkq
                cases hkq
              · exact hfin.2 q ⟨hq, hqp⟩ hkq

end FrameLoops

/-- Every call of `Add` that returns changes, at the nodes that exist, no route count but by
the element itself, and no list of a node that it does not split but by the element itself. -/
theorem Add_frame (vals : Values) (mMaxDeep : Int) (fuel : Nat) :
    FrameSpec vals (Add vals mMaxDeep fuel) := by
  induction fuel with
  | zero =>
    intro p e atDeep s b s' n _ _ _ h
    simp [Add] at h
  | succ k ih =>
    exact AddBody_frame (Add_spec vals False mMaxDeep k) ih mMaxDeep

/-- C5 (amended). After `e = Add(v)` on a reachable tree that does not hold `v`, followed by
`Remove(e)`, no point or circle query in either mode appends `v`; the tree stores exactly the
elements it stored before; every node that existed before the `Add` is still there with its
depth, its region and its route element count as before, and if the `Add` has not given it
children, with its element list as before; and if the `Add` created no node, the whole tree
is as before. -/
theorem remove_undoes_add {E : Values → Prop} {vals : Values} {t t1 t2 : QuadTree}
    {root : QuadNode} {fuel : Nat} {v e : Nat} {atDeep : Int} {del : Bool}
    (h : Reachable E t) (hr : t.mRoot = some root)
    (hnew : ∀ e', t.Stored e' → t.valueOf e' ≠ some v)
    (hadd : t.AddValue vals fuel (some v) atDeep = .ok (some e, t1))
    (hrem : t1.Remove (some e) del = .ok t2) :
    (∀ vals' x y output getOne b out,
      t2.Intersect vals' x y output getOne = .ok (b, out) →
      ∃ res, out = output ++ res ∧ v ∉ res) ∧
    (∀ vals' circle output getOne b out,
      t2.IntersectCircle vals' circle output getOne = .ok (b, out) →
      ∃ res, out = output ++ res ∧ v ∉ res) ∧
    (∀ e', t2.Stored e' ↔ t.Stored e') ∧
    ∃ root1 root2, t1.mRoot = some root1 ∧ t2.mRoot = some root2 ∧
      root2.GetRouteElemCount = root.GetRouteElemCount ∧
      ((∀ q, kidsAt root1 q = kidsAt root q) → root2 = root) ∧
      ∀ q d, dataAt root q = some d → ∃ d2, dataAt root2 q = some d2 ∧
        d2.mDeep = d.mDeep ∧ d2.mAABB = d.mAABB ∧
        d2.mRouteElemCount = d.mRouteElemCount ∧
        (kidsAt root1 q = kidsAt root q → d2 = d) := by
  have hT : TreeInv vals False t := h.inv (fun hf => absurd hf id)
  obtain ⟨he, hT1, hs1, _, hns, hoth1⟩ := QuadTree.AddValue_ok hT hadd
  have he' : e = t.next := (Option.some.inj he)
  subst he'
  obtain ⟨hT2, hns2, hoth2⟩ := QuadTree.Remove_ok hT1 hs1 hrem
  have hst : ∀ e', t2.Stored e' ↔ t.Stored e' := by
    intro e'
    by_cases hee : e' = t.next
    · subst hee
      exact ⟨fun h => absurd h hns2, fun h => absurd h hns⟩
    · rw [(hoth2 e' hee).1, (hoth1 e' hee).1]
  have hval : ∀ e', t2.Stored e' → t2.valueOf e' ≠ some v := by
    intro e' hs2
    have hee : e' ≠ t.next := fun h => hns2 (h ▸ hs2)
    rw [(hoth2 e' hee).2, (hoth1 e' hee).2]
    exact hnew e' ((hst e').1 hs2)
  refine ⟨?_, ?_, hst, ?_⟩
  · intro vals' x y output getOne b out hq
    have hT2' : TreeInv vals' False t2 := hT2.of_not_tree id
    obtain ⟨res, hres, hall⟩ := QuadTree.Intersect_sound hT2' hq
    refine ⟨res, hres, ?_⟩
    intro hv
    obtain ⟨e', hs', hv', _⟩ := hall v hv
    exact hval e' hs' hv'
  · intro vals' circle output getOne b out hq
    have hT2' : TreeInv vals' False t2 := hT2.of_not_tree id
    obtain ⟨res, hres, hall⟩ := QuadTree.IntersectCircle_sound hT2' hq
    refine ⟨res, hres, ?_⟩
    intro hv
    obtain ⟨e', hs', hv', _⟩ := hall v hv
    exact hval e' hs' hv'
  · obtain ⟨b, s1, hadd1, ht1⟩ := QuadTree.AddValue_unfold hr hadd
    have hr1 : t1.mRoot = some s1.root := by rw [ht1]; rfl
    have hc1 : t1.cell = s1.cell := by rw [ht1]; rfl
    cases hn : (t1.cell t.next).bind Element.mNode with
    | none => exact absurd hn hs1
    | some node =>
      have hr2 := QuadTree.Remove_unfold hr1 hn hrem
      have hI0 := (hT.newElement (some v)).store root hr
      have hal : (((t.newElement (some v)).2).cell t.next).isSome = true := by
        simp [QuadTree.newElement]
      have hfr : (Store.mk root (t.newElement (some v)).2.cell).GetNode t.next = none := by
        simp [Store.GetNode, QuadTree.newElement]
      have hg1 : s1.GetNode t.next = some node := by
        unfold Store.GetNode
        rw [← hc1]
        exact hn
      refine ⟨s1.root, _, hr1, hr2, root_count_congr hT hT2 hr hr2 hst, ?_, ?_⟩
      swap
      · intro q d hd
        obtain ⟨hI1, hE1, _, _⟩ := Add_spec vals False t.mMaxDeep fuel [] t.next atDeep _ b s1
          root hI0 rfl hal (fun f => absurd f id) hadd1
        have hF := Add_frame vals t.mMaxDeep fuel [] t.next atDeep _ b s1 root hI0 rfl hal hadd1
        have hm : t.next ∈ s1.elemsAt node := (hI1.own.1 t.next node).1 hg1
        obtain ⟨nn, hnn⟩ : ∃ nn, s1.root.find node = some nn := by
          obtain ⟨dn, hdn, _⟩ := dataAt_isSome_of_mem hm
          unfold dataAt at hdn
          cases hf : s1.root.find node with
          | none => simp [hf] at hdn
          | some m => exact ⟨m, rfl⟩
        have hEd := Store.Edit_detach s1 node t.next hg1 hm
        obtain ⟨d1, hd1, hdeep, hreg⟩ := hE1.ext.node q d hd
        have hs1 : (Store.mk s1.root t1.cell) = s1 := by rw [hc1]
        rw [hs1]
        have hd2 := hEd.1 q
        rw [hd1] at hd2
        have hq : (dataAt (Store.mk root (t.newElement (some v)).2.cell).root q).isSome =
            true := by
          show (dataAt root q).isSome = true
          rw [hd]; rfl
        have hcnt := hF.1 q hq
        rw [under_of_none hfr, under_of_owner hg1, cntAt_eq, cntAt_eq, hd1] at hcnt
        have hcnt0 : d1.mRouteElemCount - (if q <+: node then 1 else 0) =
            d.mRouteElemCount := by
          have h0 : dataAt (Store.mk root (t.newElement (some v)).2.cell).root q = some d := hd
          rw [h0] at hcnt
          simpa using hcnt
        have hcnt2 : (editView node false (fun l => l.erase t.next) q d1).mRouteElemCount =
            d.mRouteElemCount := by
          rw [← hcnt0]
          simp only [editView, Bool.false_eq_true, if_false]
          split_ifs <;> ring
        refine ⟨_, hd2, ?_, ?_, hcnt2, ?_⟩
        · simpa [editView] using hdeep
        · simpa [editView] using hreg
        · intro hk
          have hl := hF.2 q hq hk
          have e0 : Store.elemsAt ⟨root, (t.newElement (some v)).2.cell⟩ q = d.mElems := by
            rw [Store.elemsAt_eq]
            show ((dataAt root q).map NodeData.mElems).getD [] = d.mElems
            rw [hd]; rfl
          have e1 : s1.elemsAt q = d1.mElems := by
            rw [Store.elemsAt_eq, hd1]; rfl
          have hn0 : t.next ∉ d.mElems := by
            intro hmem
            have := (hI0.own.1 t.next q).2 (by rw [e0]; exact hmem)
            rw [hfr] at this
            cases this
          rw [e0, e1, List.erase_of_not_mem hn0] at hl
          have hl2 : (editView node false (fun l => l.erase t.next) q d1).mElems = d.mElems := by
            simp only [editView]
            by_cases hqn : q = node
            · simp only [hqn, if_true]
              rw [← hl]
            · simp only [hqn, if_false]
              have hn1 : t.next ∉ d1.mElems := by
                intro hmem
                have := (hI1.own.1 t.next q).2 (by rw [e1]; exact hmem)
                rw [hg1] at this
                exact hqn (Option.some.inj this).symm
              rw [← hl, List.erase_of_not_mem hn1]
          cases hd' : editView node false (fun l => l.erase t.next) q d1 with
          | mk a1 a2 a3 a4 =>
            rw [hd'] at hcnt2 hl2
            have h1 : a1 = d.mDeep := by
              have : (editView node false (fun l => l.erase t.next) q d1).mDeep = d1.mDeep := rfl
              rw [hd'] at this
              exact this.trans hdeep
            have h3 : a3 = d.mAABB := by
              have : (editView node false (fun l => l.erase t.next) q d1).mAABB = d1.mAABB := rfl
              rw [hd'] at this
              exact this.trans hreg
            cases d
            simp only at hcnt2 hl2 h1 h3
            rw [h1, hcnt2, h3, hl2]
      intro hk
      rcases Add_nosplit vals t.mMaxDeep fuel [] t.next atDeep _ b s1 root hI0.basic rfl hal
        hadd1 hk with hsame | ⟨p', n', hp', hs'⟩
      · rw [hsame] at hg1
        rw [hfr] at hg1
        cases hg1
      · have hnode : node = p' := by
          rw [hs', Store.GetNode_AddElem _ p' _ hal] at hg1
          simp at hg1
          exact hg1.symm
        subst hnode
        rw [hc1]
        have : (Store.mk s1.root s1.cell) = s1 := rfl
        rw [this, hs']
        exact RemoveElem_AddElem_root hI0 hfr hal hp'


/-- C5 as stated fails: the ninth value splits the root, and removing it again leaves the
eight others in the new children, so the list of the root is not what it was. -/
theorem remove_undoes_add_counterexample :
    ¬ ∀ (vals : Values) (t t1 t2 : QuadTree) (root root2 : QuadNode) (fuel v e : Nat),
      Reachable (fun _ => True) t → t.mRoot = some root →
      (∀ e', t.Stored e' → t.valueOf e' ≠ some v) →
      t.AddValue vals fuel (some v) 0 = .ok (some e, t1) →
      t1.Remove (some e) true = .ok t2 → t2.mRoot = some root2 →
      ∀ q d, dataAt root q = some d → dataAt root2 q = some d := by
  intro H
  have E : isOk (clusterTree.AddValue clusterValues 10 (some 8) 0) = true ∧
      (okOr (none, clusterTree) (clusterTree.AddValue clusterValues 10 (some 8) 0)).1 =
        some 8 ∧
      isOk ((clusterTree.afterAddValue clusterValues 10 (some 8) 0).Remove (some 8) true) =
        true ∧
      ((clusterTree.afterAddValue clusterValues 10 (some 8) 0).afterRemove (some 8)
        true).mRoot = some ((clusterTree.afterAddValue clusterValues 10 (some 8) 0).afterRemove
          (some 8) true).rootOr ∧
      dataAt clusterRoot [] = some ⟨1, 8, ⟨0, 0, 100, 100⟩, [0, 1, 2, 3, 4, 5, 6, 7]⟩ ∧
      ¬ dataAt ((clusterTree.afterAddValue clusterValues 10 (some 8) 0).afterRemove (some 8)
        true).rootOr [] = some ⟨1, 8, ⟨0, 0, 100, 100⟩, [0, 1, 2, 3, 4, 5, 6, 7]⟩ := by
    decide!
  obtain ⟨e1, e2, e3, e4, e5, e6⟩ := E
  exact e6 (H clusterValues clusterTree _ _ clusterRoot _ 10 8 8
    (clusterTree_reachable _ trivial) clusterTree_root clusterTree_fresh
    (QuadTree.AddValue_eq_of_eval clusterValues 10 clusterTree (some 8) 0 8 e1 e2)
    (QuadTree.Remove_eq_of_eval (clusterTree.afterAddValue clusterValues 10 (some 8) 0)
      (some 8) true e3) e4 [] _ e5)

/-- Witness for C5 (amended): value 10 of `stackValues`, a unit square at (60, 60), is added to
`stackTree` and removed again. The `Add` splits the RIGHT_TOP child, which holds nine
elements; afterwards the root and its four children have their route counts as before, and
all but the RIGHT_TOP child have their lists as before. -/
theorem remove_undoes_add_witness :
    ∃ root1 root2, (stackTree.afterAddValue stackValues 6 (some 10) 0).mRoot = some root1 ∧
      ((stackTree.afterAddValue stackValues 6 (some 10) 0).afterRemove (some 10)
        true).mRoot = some root2 ∧
      root2.GetRouteElemCount = stackRoot.GetRouteElemCount ∧
      ((∀ q, kidsAt root1 q = kidsAt stackRoot q) → root2 = stackRoot) ∧
      ∀ q d, dataAt stackRoot q = some d → ∃ d2, dataAt root2 q = some d2 ∧
        d2.mDeep = d.mDeep ∧ d2.mAABB = d.mAABB ∧
        d2.mRouteElemCount = d.mRouteElemCount ∧
        (kidsAt root1 q = kidsAt stackRoot q → d2 = d) := by
  have H : stackTree.mRoot = some stackRoot ∧ stackTree.next = 10 ∧
      (∀ e', e' < 10 → stackTree.valueOf e' ≠ some 10) ∧
      isOk (stackTree.AddValue stackValues 6 (some 10) 0) = true ∧
      (okOr (none, stackTree) (stackTree.AddValue stackValues 6 (some 10) 0)).1 = some 10 ∧
      isOk ((stackTree.afterAddValue stackValues 6 (some 10) 0).Remove (some 10) true) =
        true := by decide!
  have hT : TreeInv stackValues False stackTree :=
    stackTree_reachable.inv (fun hf => absurd hf id)
  exact (remove_undoes_add stackTree_reachable H.1
    (fun e' h => H.2.2.1 e' (by
      have h1 := hT.stored_lt h
      have h2 := H.2.1
      omega))
    (QuadTree.AddValue_eq_of_eval stackValues 6 stackTree (some 10) 0 10 H.2.2.2.1
      H.2.2.2.2.1)
    (QuadTree.Remove_eq_of_eval _ (some 10) true H.2.2.2.2.2)).2.2.2

end Recast
